import Mathlib

/-!
# JSON_reader: a shallow embedding of `main.cpp`

The backing buffer is a `List Char`; a C++ pointer into it is its offset (a `Nat`).
Every call of the `string_view` constructor, of `operator[]` and every `assert` of the
source is kept: a failing assertion is the result `Res.fault`.  The two mutually recursive
container scanners are defined by recursion on a step budget; `Res.timeout` is the result
of an exhausted budget, which `parse_array` and `parse_object` never have
(`parse_array_ne_timeout`, `parse_object_ne_timeout`), and a larger budget gives the same
result (`parse_object_fuel_eq_parse_object`, `parse_array_fuel_eq_parse_array`).  The
body of each container loop is also given on its own (`parse_array_body`,
`parse_object_body`); the loops are these bodies iterated (`parse_array_loop_eq_body`,
`parse_object_loop_eq_body`).  The output written to `std::cout` is kept as a list of
events in `Sink`, next to the global `indentation` counter.  A second copy of the
functions (`Traced`) keeps, next to the same result, the list of the views built, the
indices and pointers read and the views written.
-/

namespace JSONReader

/-- The assertions of the source, by kind. -/
inductive Fault where
  /-- `assert(begin <= end)` in the constructor of `string_view` -/
  | ctor
  /-- `assert(i < size())` in `string_view::operator[]` -/
  | index
  /-- the `assert(string.size() != 0 && string[0] == ...)` opening a `parse_*` function -/
  | precond
  /-- an `assert(0)` -/
  | unreachable
deriving DecidableEq, Repr

/-- Outcome of running a function of the source. -/
inductive Res (α : Type) where
  /-- the function returned -/
  | ok (a : α)
  /-- an assertion failed: the program aborts -/
  | fault (f : Fault)
  /-- the step budget of the embedding ran out -/
  | timeout
deriving DecidableEq, Repr

/-- Sequencing: a fault or a timeout ends the run. -/
def Res.bind {α β : Type} (x : Res α) (f : α → Res β) : Res β :=
  match x with
  | .ok a => f a
  | .fault e => .fault e
  | .timeout => .timeout

instance : Monad Res where
  pure := Res.ok
  bind := Res.bind

/-- `class string_view`: the two pointers, as offsets into the buffer. -/
structure string_view where
  m_begin : Nat
  m_end : Nat
deriving DecidableEq, Repr

/-- `string_view(begin, end)` with its `assert(begin <= end)`. -/
def string_view.ctor (b e : Nat) : Res string_view :=
  if b ≤ e then .ok ⟨b, e⟩ else .fault .ctor

/-- `size()`: `m_end - m_begin`. -/
def string_view.size (s : string_view) : Nat := s.m_end - s.m_begin

/-- `*p` for a pointer `p` into the buffer. -/
def deref (buf : List Char) (p : Nat) : Char := buf.getD p (Char.ofNat 0)

/-- `operator[]` with its `assert(i < size())`. -/
def string_view.at (buf : List Char) (s : string_view) (i : Nat) : Res Char :=
  if i < s.size then .ok (deref buf (s.m_begin + i)) else .fault .index

/-- `enum class type` of `struct value`. -/
inductive value_type where
  | T_STRING | T_NUMBER | T_OBJECT | T_ARRAY | T_TRUE | T_FALSE | T_NULL | T_UNKNOWN
deriving DecidableEq, Repr

/-- `struct value`. -/
structure value where
  type : value_type
  start : string_view
deriving DecidableEq, Repr

/-- The characters `out.write(sv.begin(), sv.size())` writes. -/
def string_view.text (buf : List Char) (s : string_view) : List Char :=
  (List.range s.size).map (fun k => deref buf (s.m_begin + k))

/-- One line written to `std::cout`: the number of leading blanks and what follows. -/
inductive Event where
  /-- a line of `print_type_name`: kind, then the name -/
  | type_name (blanks : Nat) (t : value_type) (name : List Char)
  /-- a line of `print_type`: the kind -/
  | type (blanks : Nat) (t : value_type)
  /-- a line of `print_content` -/
  | content (blanks : Nat) (text : List Char)
deriving DecidableEq, Repr

/-- The global `indentation` and the lines written so far. -/
structure Sink where
  indentation : Int
  out : List Event
deriving DecidableEq, Repr

def indentation_step : Int := 4

/-- The process state at the start of `main`: `indentation = 0`, nothing written. -/
def Sink.init : Sink := ⟨0, []⟩

def QUOTE : Char := Char.ofNat 34
def BACKSLASH : Char := Char.ofNat 92
def LBRACE : Char := Char.ofNat 123
def RBRACE : Char := Char.ofNat 125

/-- The `for` loop of `find_string_marker`: `k` iterations are left, `i + k = size() - 1`. -/
def find_string_marker_loop (buf : List Char) (string : string_view) :
    Nat → Nat → Res string_view
  | 0, _ => string_view.ctor string.m_end string.m_end
  | k + 1, i => do
    let c1 ← string.at buf (i + 1)
    if c1 = QUOTE then do
      let c0 ← string.at buf i
      if c0 ≠ BACKSLASH then string_view.ctor (string.m_begin + i + 1) string.m_end
      else find_string_marker_loop buf string k (i + 1)
    else find_string_marker_loop buf string k (i + 1)

def find_string_marker (buf : List Char) (string : string_view) : Res string_view :=
  if string.size = 0 then .ok string
  else do
    let c ← string.at buf 0
    if c = QUOTE then pure string
    else find_string_marker_loop buf string (string.size - 1) 0

/-- The `for` loop of `find`: `i` is the pointer, `k` characters are left (`i + k = end()`). -/
def find_loop (buf : List Char) (string : string_view) (c : Char) : Nat → Nat → Res string_view
  | 0, _ => string_view.ctor string.m_end string.m_end
  | k + 1, i =>
    if deref buf i = c then string_view.ctor i string.m_end
    else find_loop buf string c k (i + 1)

def find (buf : List Char) (string : string_view) (c : Char) : Res string_view :=
  find_loop buf string c string.size string.m_begin

def find_string (buf : List Char) (string : string_view) : Res string_view := do
  let first ← find_string_marker buf string
  if first.size = 0 then pure first
  else do
    let arg ← string_view.ctor (first.m_begin + 1) first.m_end
    let second ← find_string_marker buf arg
    if second.size = 0 then pure second
    else string_view.ctor first.m_begin (second.m_begin + 1)

/-- The `for` loop of `identify_value`: pointer `i`, `k` characters left. -/
def identify_value_loop (buf : List Char) (string : string_view) : Nat → Nat → Res value
  | 0, _ => do
    let s ← string_view.ctor string.m_end string.m_end
    pure ⟨.T_UNKNOWN, s⟩
  | k + 1, i =>
    let c := deref buf i
    if c = QUOTE then do
      let s ← string_view.ctor i string.m_end
      pure ⟨.T_STRING, s⟩
    else if c = LBRACE then do
      let s ← string_view.ctor i string.m_end
      pure ⟨.T_OBJECT, s⟩
    else if c = '[' then do
      let s ← string_view.ctor i string.m_end
      pure ⟨.T_ARRAY, s⟩
    else if c = 't' then do
      let s ← string_view.ctor i string.m_end
      pure ⟨.T_TRUE, s⟩
    else if c = 'f' then do
      let s ← string_view.ctor i string.m_end
      pure ⟨.T_FALSE, s⟩
    else if c = 'n' then do
      let s ← string_view.ctor i string.m_end
      pure ⟨.T_NULL, s⟩
    else if ('0' ≤ c ∧ c ≤ '9') ∨ c = '-' then do
      let s ← string_view.ctor i string.m_end
      pure ⟨.T_NUMBER, s⟩
    else identify_value_loop buf string k (i + 1)

def identify_value (buf : List Char) (string : string_view) : Res value :=
  identify_value_loop buf string string.size string.m_begin

/-- `print_content`: `indentation + indentation_step` blanks, then the content. -/
def print_content (buf : List Char) (content : string_view) (σ : Sink) : Sink :=
  { σ with out := σ.out ++ [Event.content (σ.indentation + indentation_step).toNat
      (content.text buf)] }

def parse_string (buf : List Char) (string : string_view) (σ : Sink) :
    Res (string_view × Sink) :=
  if string.size ≠ 0 then do
    let c ← string.at buf 0
    if c = QUOTE then do
      let arg ← string_view.ctor (string.m_begin + 1) string.m_end
      let «end» ← find_string_marker buf arg
      let result ←
        if «end».size = 0 then string_view.ctor string.m_end string.m_end
        else string_view.ctor string.m_begin («end».m_begin + 1)
      pure (result, print_content buf result σ)
    else .fault .precond
  else .fault .precond

/-- The `for` loop of `equal`; `a` and `b` may view different buffers. -/
def equal_loop (bufa : List Char) (a : string_view) (bufb : List Char) (b : string_view) :
    Nat → Nat → Res Bool
  | 0, _ => pure true
  | k + 1, i => do
    let x ← a.at bufa i
    let y ← b.at bufb i
    if x ≠ y then pure false else equal_loop bufa a bufb b k (i + 1)

def equal (bufa : List Char) (a : string_view) (bufb : List Char) (b : string_view) :
    Res Bool :=
  if a.size ≠ b.size then pure false else equal_loop bufa a bufb b a.size 0

/-- The common body of `parse_null`, `parse_true` and `parse_false`, which differ in
`correct_string`, `correct_length` and the first character asserted. -/
def parse_literal (correct_string : List Char) (correct_length : Nat) (first : Char)
    (buf : List Char) (string : string_view) (σ : Sink) : Res (string_view × Sink) :=
  if string.size ≠ 0 then do
    let c ← string.at buf 0
    if c = first then do
      let correct_sv ← string_view.ctor 0 (0 + correct_length)
      let result ←
        if string.size ≥ correct_length then do
          let arg ← string_view.ctor string.m_begin (string.m_begin + correct_length)
          let eq ← equal correct_string correct_sv buf arg
          if eq then string_view.ctor string.m_begin (string.m_begin + correct_length)
          else string_view.ctor string.m_end string.m_end
        else string_view.ctor string.m_end string.m_end
      pure (result, print_content buf result σ)
    else .fault .precond
  else .fault .precond

def parse_null (buf : List Char) (string : string_view) (σ : Sink) :
    Res (string_view × Sink) :=
  parse_literal ['n', 'u', 'l', 'l', Char.ofNat 0] 4 'n' buf string σ

def parse_true (buf : List Char) (string : string_view) (σ : Sink) :
    Res (string_view × Sink) :=
  parse_literal ['t', 'r', 'u', 'e', Char.ofNat 0] 4 't' buf string σ

def parse_false (buf : List Char) (string : string_view) (σ : Sink) :
    Res (string_view × Sink) :=
  parse_literal ['f', 'a', 'l', 's', 'e', Char.ofNat 0] 5 'f' buf string σ

/-- The value `0xDEAD` of `state`. -/
def DEAD : Int := 57005

/-- The `switch (state)` of `parse_number` on the character `c = *end`. -/
def parse_number_switch (state : Int) (c : Char) : Res Int :=
  if state = -1 then
    if c = '-' then pure 0
    else if '1' ≤ c ∧ c ≤ '9' then pure 1
    else if c = '0' then pure 2
    else pure DEAD
  else if state = 1 then
    if '0' ≤ c ∧ c ≤ '9' then pure 1
    else if c = '.' then pure 3
    else if c = 'e' ∨ c = 'E' then pure 5
    else pure 8
  else if state = 2 then
    if c = '.' then pure 3
    else if c = 'e' ∨ c = 'E' then pure 5
    else pure 8
  else if state = 3 then
    if '0' ≤ c ∧ c ≤ '9' then pure 4
    else pure DEAD
  else if state = 4 then
    if '0' ≤ c ∧ c ≤ '9' then pure 4
    else if c = 'e' ∨ c = 'E' then pure 5
    else pure 8
  else if state = 5 then
    if c = '+' ∨ c = '-' then pure 6
    else pure DEAD
  else if state = 6 then
    if '0' ≤ c ∧ c ≤ '9' then pure 7
    else pure DEAD
  else if state = 7 then
    if '0' ≤ c ∧ c ≤ '9' then pure 7
    else pure 8
  else .fault .unreachable

/-- The `while (end != string.end() && state != 8)` loop of `parse_number` and the return
after it.  `k` bounds the iterations left: `end + k = string.end()` as long as
`state != 8`, and once `state == 8` the loop is left whatever `k` is. -/
def parse_number_loop (buf : List Char) (string : string_view) (σ : Sink) :
    Nat → Nat → Int → Res (string_view × Sink)
  | 0, «end», _ => do
    let result ← string_view.ctor string.m_begin «end»
    pure (result, print_content buf result σ)
  | k + 1, «end», state =>
    if state ≠ 8 then do
      let state ← parse_number_switch state (deref buf «end»)
      if state = DEAD then do
        let result ← string_view.ctor string.m_end string.m_end
        pure (result, print_content buf result σ)
      else parse_number_loop buf string σ k (if state ≠ 8 then «end» + 1 else «end») state
    else do
      let result ← string_view.ctor string.m_begin «end»
      pure (result, print_content buf result σ)

def parse_number (buf : List Char) (string : string_view) (σ : Sink) :
    Res (string_view × Sink) :=
  parse_number_loop buf string σ string.size string.m_begin (-1)

/-- The test `type.type == T_OBJECT || type.type == T_ARRAY` after which `print_type_name`
and `print_type` add `indentation_step` to `indentation`. -/
def is_container (t : value_type) : Bool := t = .T_OBJECT || t = .T_ARRAY

def print_type_name (buf : List Char) (type : value) (name : string_view) (σ : Sink) : Sink :=
  { indentation :=
      if is_container type.type then σ.indentation + indentation_step else σ.indentation
    out := σ.out ++ [Event.type_name σ.indentation.toNat type.type (name.text buf)] }

def print_type (type : value) (σ : Sink) : Sink :=
  { indentation :=
      if is_container type.type then σ.indentation + indentation_step else σ.indentation
    out := σ.out ++ [Event.type σ.indentation.toNat type.type] }

/-- The inner `for (; i != string_i.end(); ++i) if (*i == close || *i == ',') break;` of
`parse_array` (`close` is `]`) and `parse_object` (`close` is the closing brace): pointer
`i`, `k` characters left. -/
def seek_separator (buf : List Char) (close : Char) : Nat → Nat → Nat
  | 0, i => i
  | k + 1, i =>
    if deref buf i = close ∨ deref buf i = ',' then i
    else seek_separator buf close k (i + 1)

/-- `indentation -= indentation_step`. -/
def leave (σ : Sink) : Sink := { σ with indentation := σ.indentation - indentation_step }

/-- The `switch (value_start.type)` that `parse_array` and `parse_object` both contain,
giving `value_bounds`; `po` and `pa` stand for the calls of `parse_object` and
`parse_array`, and `string` is the span the container scanner was called on. -/
def parse_value (po pa : string_view → Sink → Res (string_view × Sink)) (buf : List Char)
    (string : string_view) (value_start : value) (σ : Sink) : Res (string_view × Sink) :=
  match value_start.type with
  | .T_STRING => parse_string buf value_start.start σ
  | .T_NUMBER => parse_number buf value_start.start σ
  | .T_OBJECT => po value_start.start σ
  | .T_ARRAY => pa value_start.start σ
  | .T_TRUE => parse_true buf value_start.start σ
  | .T_FALSE => parse_false buf value_start.start σ
  | .T_NULL => parse_null buf value_start.start σ
  | .T_UNKNOWN => do
    let r ← string_view.ctor value_start.start.m_begin string.m_end
    pure (r, σ)

mutual

/-- The `while (string_i.size() > 0)` loop of `parse_array`, from `string_i`; the result is
`string_i` when the loop is left. -/
def parse_array_loop (buf : List Char) (string : string_view) :
    Nat → string_view → Sink → Res (string_view × Sink)
  | 0, _, _ => .timeout
  | fuel + 1, string_i, σ =>
    if string_i.size > 0 then do
      let string_i ← string_view.ctor (string_i.m_begin + 1) string_i.m_end
      let value_start ← identify_value buf string_i
      let σ := print_type value_start σ
      let value_bounds ← parse_value (parse_object_fuel buf fuel) (parse_array_fuel buf fuel)
        buf string value_start σ
      let string_i ← string_view.ctor value_bounds.1.m_end string_i.m_end
      let string_i ← string_view.ctor
        (seek_separator buf ']' string_i.size string_i.m_begin) string_i.m_end
      if string_i.size = 0 then pure (string_i, value_bounds.2)
      else do
        let c ← string_i.at buf 0
        if c = ']' then pure (string_i, value_bounds.2)
        else do
          let c ← string_i.at buf 0
          if c = ',' then do
            let string_i ← string_view.ctor (string_i.m_begin + 1) string_i.m_end
            parse_array_loop buf string fuel string_i value_bounds.2
          else .fault .unreachable
    else pure (string_i, σ)

/-- The function `parse_array`, with a step budget. -/
def parse_array_fuel (buf : List Char) : Nat → string_view → Sink → Res (string_view × Sink)
  | 0, _, _ => .timeout
  | fuel + 1, string, σ =>
    if string.size > 0 then do
      let c ← string.at buf 0
      if c = '[' then do
        let (string_i, σ) ← parse_array_loop buf string fuel string σ
        let σ := leave σ
        if string_i.size = 0 then do
          let r ← string_view.ctor string.m_begin string.m_end
          pure (r, σ)
        else do
          let c ← string_i.at buf 0
          if c ≠ ']' then do
            let r ← string_view.ctor string.m_begin string.m_end
            pure (r, σ)
          else do
            let c ← string_i.at buf 0
            if c = ']' then do
              let r ← string_view.ctor string.m_begin (string_i.m_begin + 1)
              pure (r, σ)
            else .fault .unreachable
      else .fault .precond
    else .fault .precond

/-- The `while (string_i.size() > 0)` loop of `parse_object`, from `string_i`; the result
is `string_i` when the loop is left. -/
def parse_object_loop (buf : List Char) (string : string_view) :
    Nat → string_view → Sink → Res (string_view × Sink)
  | 0, _, _ => .timeout
  | fuel + 1, string_i, σ =>
    if string_i.size > 0 then do
      let arg ← string_view.ctor (string_i.m_begin + 1) string_i.m_end
      let element_name ← find_string buf arg
      let string_i ← string_view.ctor element_name.m_end string_i.m_end
      let separator ← find buf string_i ':'
      if separator.size = 0 then do
        let string_i ← string_view.ctor string_i.m_end string_i.m_end
        pure (string_i, σ)
      else do
        let string_i ← string_view.ctor (separator.m_begin + 1) string_i.m_end
        let value_start ← identify_value buf string_i
        let σ := print_type_name buf value_start element_name σ
        let value_bounds ← parse_value (parse_object_fuel buf fuel)
          (parse_array_fuel buf fuel) buf string value_start σ
        let string_i ← string_view.ctor value_bounds.1.m_end string_i.m_end
        let string_i ← string_view.ctor
          (seek_separator buf RBRACE string_i.size string_i.m_begin) string_i.m_end
        if string_i.size = 0 then pure (string_i, value_bounds.2)
        else do
          let c ← string_i.at buf 0
          if c = RBRACE then pure (string_i, value_bounds.2)
          else do
            let c ← string_i.at buf 0
            if c = ',' then do
              let string_i ← string_view.ctor (string_i.m_begin + 1) string_i.m_end
              parse_object_loop buf string fuel string_i value_bounds.2
            else .fault .unreachable
    else pure (string_i, σ)

/-- The function `parse_object`, with a step budget. -/
def parse_object_fuel (buf : List Char) : Nat → string_view → Sink → Res (string_view × Sink)
  | 0, _, _ => .timeout
  | fuel + 1, string, σ =>
    if string.size > 0 then do
      let c ← string.at buf 0
      if c = LBRACE then do
        let (string_i, σ) ← parse_object_loop buf string fuel string σ
        let σ := leave σ
        if string_i.size = 0 then do
          let r ← string_view.ctor string.m_begin string.m_end
          pure (r, σ)
        else do
          let c ← string_i.at buf 0
          if c ≠ RBRACE then do
            let r ← string_view.ctor string.m_begin string.m_end
            pure (r, σ)
          else do
            let c ← string_i.at buf 0
            if c = RBRACE then do
              let r ← string_view.ctor string.m_begin (string_i.m_begin + 1)
              pure (r, σ)
            else .fault .unreachable
      else .fault .precond
    else .fault .precond

end

/-- The step budget given to a container scan of `string`: each loop iteration and each
nested call takes one step and moves at least one character on, so that twice the size
is enough (`container_budget`). -/
def budget (string : string_view) : Nat := 2 * string.size + 2

def parse_array (buf : List Char) (string : string_view) (σ : Sink) :
    Res (string_view × Sink) :=
  parse_array_fuel buf (budget string) string σ

def parse_object (buf : List Char) (string : string_view) (σ : Sink) :
    Res (string_view × Sink) :=
  parse_object_fuel buf (budget string) string σ

def init_recursive_test (buf : List Char) (string : string_view) (σ : Sink) :
    Res (Bool × Sink) := do
  let type ← identify_value buf string
  if type.type ≠ .T_OBJECT then pure (false, σ)
  else do
    let (r, σ) ← parse_object buf type.start σ
    if r.size = 0 then pure (false, σ)
    else pure (decide (r.m_begin = type.start.m_begin ∧ deref buf (r.m_end - 1) = RBRACE), σ)

/-- The body of `main` once the file is loaded: `init_recursive_test` on the view of the
whole buffer, from the initial process state. -/
def run (buf : List Char) : Res (Bool × Sink) := do
  let sv ← string_view.ctor 0 (0 + buf.length)
  init_recursive_test buf sv Sink.init

/-- What `main` prints last: the value of `init_recursive_test`. -/
def validate (buf : List Char) : Res Bool := do
  let r ← run buf
  pure r.1

/-! ## One iteration of the container loops -/

/-- How an iteration of a container loop ends, with the `string_i` and the process state
it leaves: by a `break` or at the end of the loop body after a `continue`. -/
inductive Flow where
  /-- a `break` -/
  | brk (string_i : string_view) (σ : Sink)
  /-- a `continue` -/
  | cont (string_i : string_view) (σ : Sink)
deriving DecidableEq, Repr

/-- The `string_i` an iteration leaves. -/
def Flow.string_i : Flow → string_view
  | .brk string_i _ => string_i
  | .cont string_i _ => string_i

/-- The body of the `while` loop of `parse_array`, entered with `string_i`; `po` and `pa`
stand for the calls of `parse_object` and `parse_array`. -/
def parse_array_body (po pa : string_view → Sink → Res (string_view × Sink))
    (buf : List Char) (string string_i : string_view) (σ : Sink) : Res Flow := do
  let string_i ← string_view.ctor (string_i.m_begin + 1) string_i.m_end
  let value_start ← identify_value buf string_i
  let σ := print_type value_start σ
  let value_bounds ← parse_value po pa buf string value_start σ
  let string_i ← string_view.ctor value_bounds.1.m_end string_i.m_end
  let string_i ← string_view.ctor
    (seek_separator buf ']' string_i.size string_i.m_begin) string_i.m_end
  if string_i.size = 0 then pure (.brk string_i value_bounds.2)
  else do
    let c ← string_i.at buf 0
    if c = ']' then pure (.brk string_i value_bounds.2)
    else do
      let c ← string_i.at buf 0
      if c = ',' then do
        let string_i ← string_view.ctor (string_i.m_begin + 1) string_i.m_end
        pure (.cont string_i value_bounds.2)
      else .fault .unreachable

/-- The body of the `while` loop of `parse_object`, entered with `string_i`; `po` and `pa`
stand for the calls of `parse_object` and `parse_array`. -/
def parse_object_body (po pa : string_view → Sink → Res (string_view × Sink))
    (buf : List Char) (string string_i : string_view) (σ : Sink) : Res Flow := do
  let arg ← string_view.ctor (string_i.m_begin + 1) string_i.m_end
  let element_name ← find_string buf arg
  let string_i ← string_view.ctor element_name.m_end string_i.m_end
  let separator ← find buf string_i ':'
  if separator.size = 0 then do
    let string_i ← string_view.ctor string_i.m_end string_i.m_end
    pure (.brk string_i σ)
  else do
    let string_i ← string_view.ctor (separator.m_begin + 1) string_i.m_end
    let value_start ← identify_value buf string_i
    let σ := print_type_name buf value_start element_name σ
    let value_bounds ← parse_value po pa buf string value_start σ
    let string_i ← string_view.ctor value_bounds.1.m_end string_i.m_end
    let string_i ← string_view.ctor
      (seek_separator buf RBRACE string_i.size string_i.m_begin) string_i.m_end
    if string_i.size = 0 then pure (.brk string_i value_bounds.2)
    else do
      let c ← string_i.at buf 0
      if c = RBRACE then pure (.brk string_i value_bounds.2)
      else do
        let c ← string_i.at buf 0
        if c = ',' then do
          let string_i ← string_view.ctor (string_i.m_begin + 1) string_i.m_end
          pure (.cont string_i value_bounds.2)
        else .fault .unreachable

/-- What follows an iteration of a container loop: after a `break` the loop is left with
`string_i`, after a `continue` the loop `next` goes on. -/
def Flow.resume (next : string_view → Sink → Res (string_view × Sink)) :
    Flow → Res (string_view × Sink)
  | .brk string_i σ => .ok (string_i, σ)
  | .cont string_i σ => next string_i σ

/-! ## The run with its accesses

The same functions once more, each with the list of what it does with views and
pointers: the views it builds with `string_view(begin, end)`, the indices it reads with
`operator[]`, the characters it reads through a pointer (`*i`, `*end`) and the views
whose characters it writes to `std::cout`.  The result of such a run is the result of the
function above (`res_parse_array`, `res_parse_object`). -/

/-- The array a view points into: the buffer, or the array `correct_string` of a literal
scanner, of the given length. -/
inductive Target where
  | buffer
  | literal (length : Nat)
deriving DecidableEq, Repr

/-- What a run does with a view or a pointer. -/
inductive Access where
  /-- `string_view(begin, end)`, a view of `t` -/
  | built (t : Target) (b e : Nat)
  /-- `string_view x;`, the view of two null pointers that the default constructor gives -/
  | declared
  /-- `s[i]`, for a view `s` of `t` -/
  | index (t : Target) (s : string_view) (i : Nat)
  /-- `*p`, for a pointer `p` that runs over the view `s` of the buffer -/
  | read (s : string_view) (p : Nat)
  /-- `out.write(s.begin(), s.size())`, for a view `s` of the buffer -/
  | written (s : string_view)
deriving DecidableEq, Repr

/-- A run with its accesses, in order; the accesses made before a failed assertion are
kept. -/
structure Traced (α : Type) where
  log : List Access
  res : Res α

/-- Sequencing: the accesses of both parts; a fault or a timeout ends the run. -/
def Traced.bind {α β : Type} (x : Traced α) (f : α → Traced β) : Traced β :=
  match x.res with
  | .ok a => ⟨x.log ++ (f a).log, (f a).res⟩
  | .fault e => ⟨x.log, .fault e⟩
  | .timeout => ⟨x.log, .timeout⟩

instance : Monad Traced where
  pure := fun a => ⟨[], .ok a⟩
  bind := Traced.bind

/-- `string_view(begin, end)` on the array `t`, with its `assert(begin <= end)`. -/
def Traced.ctor (t : Target) (b e : Nat) : Traced string_view :=
  ⟨[.built t b e], string_view.ctor b e⟩

/-- `operator[]` on a view of the array `t`, with its `assert(i < size())`. -/
def Traced.at (t : Target) (buf : List Char) (s : string_view) (i : Nat) : Traced Char :=
  ⟨[.index t s i], s.at buf i⟩

/-- `*p` for a pointer `p` that runs over the view `s`. -/
def Traced.deref (buf : List Char) (s : string_view) (p : Nat) : Traced Char :=
  ⟨[.read s p], .ok (JSONReader.deref buf p)⟩

/-- `std::cout << s`. -/
def Traced.write (s : string_view) : Traced Unit := ⟨[.written s], .ok ()⟩

/-- `string_view x;`. -/
def Traced.declare : Traced Unit := ⟨[.declared], .ok ()⟩

/-- A failed assertion. -/
def Traced.fail {α : Type} (f : Fault) : Traced α := ⟨[], .fault f⟩

/-- An exhausted step budget. -/
def Traced.out_of_budget {α : Type} : Traced α := ⟨[], .timeout⟩

def Traced.find_string_marker_loop (buf : List Char) (string : string_view) :
    Nat → Nat → Traced string_view
  | 0, _ => Traced.ctor .buffer string.m_end string.m_end
  | k + 1, i => do
    let c1 ← Traced.at .buffer buf string (i + 1)
    if c1 = QUOTE then do
      let c0 ← Traced.at .buffer buf string i
      if c0 ≠ BACKSLASH then Traced.ctor .buffer (string.m_begin + i + 1) string.m_end
      else Traced.find_string_marker_loop buf string k (i + 1)
    else Traced.find_string_marker_loop buf string k (i + 1)

def Traced.find_string_marker (buf : List Char) (string : string_view) : Traced string_view :=
  if string.size = 0 then pure string
  else do
    let c ← Traced.at .buffer buf string 0
    if c = QUOTE then pure string
    else Traced.find_string_marker_loop buf string (string.size - 1) 0

def Traced.find_loop (buf : List Char) (string : string_view) (c : Char) :
    Nat → Nat → Traced string_view
  | 0, _ => Traced.ctor .buffer string.m_end string.m_end
  | k + 1, i => do
    let x ← Traced.deref buf string i
    if x = c then Traced.ctor .buffer i string.m_end
    else Traced.find_loop buf string c k (i + 1)

def Traced.find (buf : List Char) (string : string_view) (c : Char) : Traced string_view :=
  Traced.find_loop buf string c string.size string.m_begin

def Traced.find_string (buf : List Char) (string : string_view) : Traced string_view := do
  let first ← Traced.find_string_marker buf string
  if first.size = 0 then pure first
  else do
    let arg ← Traced.ctor .buffer (first.m_begin + 1) first.m_end
    let second ← Traced.find_string_marker buf arg
    if second.size = 0 then pure second
    else Traced.ctor .buffer first.m_begin (second.m_begin + 1)

def Traced.identify_value_loop (buf : List Char) (string : string_view) :
    Nat → Nat → Traced value
  | 0, _ => do
    let s ← Traced.ctor .buffer string.m_end string.m_end
    pure ⟨.T_UNKNOWN, s⟩
  | k + 1, i => do
    let c ← Traced.deref buf string i
    if c = QUOTE then do
      let s ← Traced.ctor .buffer i string.m_end
      pure ⟨.T_STRING, s⟩
    else if c = LBRACE then do
      let s ← Traced.ctor .buffer i string.m_end
      pure ⟨.T_OBJECT, s⟩
    else if c = '[' then do
      let s ← Traced.ctor .buffer i string.m_end
      pure ⟨.T_ARRAY, s⟩
    else if c = 't' then do
      let s ← Traced.ctor .buffer i string.m_end
      pure ⟨.T_TRUE, s⟩
    else if c = 'f' then do
      let s ← Traced.ctor .buffer i string.m_end
      pure ⟨.T_FALSE, s⟩
    else if c = 'n' then do
      let s ← Traced.ctor .buffer i string.m_end
      pure ⟨.T_NULL, s⟩
    else if ('0' ≤ c ∧ c ≤ '9') ∨ c = '-' then do
      let s ← Traced.ctor .buffer i string.m_end
      pure ⟨.T_NUMBER, s⟩
    else Traced.identify_value_loop buf string k (i + 1)

def Traced.identify_value (buf : List Char) (string : string_view) : Traced value :=
  Traced.identify_value_loop buf string string.size string.m_begin

def Traced.parse_string (buf : List Char) (string : string_view) (σ : Sink) :
    Traced (string_view × Sink) :=
  if string.size ≠ 0 then do
    let c ← Traced.at .buffer buf string 0
    if c = QUOTE then do
      let arg ← Traced.ctor .buffer (string.m_begin + 1) string.m_end
      let «end» ← Traced.find_string_marker buf arg
      Traced.declare
      let result ←
        if «end».size = 0 then Traced.ctor .buffer string.m_end string.m_end
        else Traced.ctor .buffer string.m_begin («end».m_begin + 1)
      Traced.write result
      pure (result, print_content buf result σ)
    else Traced.fail .precond
  else Traced.fail .precond

def Traced.equal_loop (ta : Target) (bufa : List Char) (a : string_view) (bufb : List Char)
    (b : string_view) : Nat → Nat → Traced Bool
  | 0, _ => pure true
  | k + 1, i => do
    let x ← Traced.at ta bufa a i
    let y ← Traced.at .buffer bufb b i
    if x ≠ y then pure false else Traced.equal_loop ta bufa a bufb b k (i + 1)

def Traced.equal (ta : Target) (bufa : List Char) (a : string_view) (bufb : List Char)
    (b : string_view) : Traced Bool :=
  if a.size ≠ b.size then pure false else Traced.equal_loop ta bufa a bufb b a.size 0

def Traced.parse_literal (correct_string : List Char) (correct_length : Nat) (first : Char)
    (buf : List Char) (string : string_view) (σ : Sink) : Traced (string_view × Sink) :=
  if string.size ≠ 0 then do
    let c ← Traced.at .buffer buf string 0
    if c = first then do
      let correct_sv ← Traced.ctor (.literal correct_string.length) 0 (0 + correct_length)
      Traced.declare
      let result ←
        if string.size ≥ correct_length then do
          let arg ← Traced.ctor .buffer string.m_begin (string.m_begin + correct_length)
          let eq ← Traced.equal (.literal correct_string.length) correct_string correct_sv
            buf arg
          if eq then Traced.ctor .buffer string.m_begin (string.m_begin + correct_length)
          else Traced.ctor .buffer string.m_end string.m_end
        else Traced.ctor .buffer string.m_end string.m_end
      Traced.write result
      pure (result, print_content buf result σ)
    else Traced.fail .precond
  else Traced.fail .precond

def Traced.parse_null (buf : List Char) (string : string_view) (σ : Sink) :
    Traced (string_view × Sink) :=
  Traced.parse_literal ['n', 'u', 'l', 'l', Char.ofNat 0] 4 'n' buf string σ

def Traced.parse_true (buf : List Char) (string : string_view) (σ : Sink) :
    Traced (string_view × Sink) :=
  Traced.parse_literal ['t', 'r', 'u', 'e', Char.ofNat 0] 4 't' buf string σ

def Traced.parse_false (buf : List Char) (string : string_view) (σ : Sink) :
    Traced (string_view × Sink) :=
  Traced.parse_literal ['f', 'a', 'l', 's', 'e', Char.ofNat 0] 5 'f' buf string σ

/-- The two statements that end `parse_number`: `print_content({ b, e })` and
`return { b, e }`, each with its own view. -/
def Traced.print_and_return (buf : List Char) (b e : Nat) (σ : Sink) :
    Traced (string_view × Sink) := do
  let content ← Traced.ctor .buffer b e
  Traced.write content
  let result ← Traced.ctor .buffer b e
  pure (result, print_content buf content σ)

/-- The loop of `parse_number`; `*end` is read once in an iteration. -/
def Traced.parse_number_loop (buf : List Char) (string : string_view) (σ : Sink) :
    Nat → Nat → Int → Traced (string_view × Sink)
  | 0, «end», _ => Traced.print_and_return buf string.m_begin «end» σ
  | k + 1, «end», state =>
    if state ≠ 8 then do
      let c ← Traced.deref buf string «end»
      let state ← (⟨[], parse_number_switch state c⟩ : Traced Int)
      if state = DEAD then Traced.print_and_return buf string.m_end string.m_end σ
      else
        Traced.parse_number_loop buf string σ k (if state ≠ 8 then «end» + 1 else «end») state
    else Traced.print_and_return buf string.m_begin «end» σ

def Traced.parse_number (buf : List Char) (string : string_view) (σ : Sink) :
    Traced (string_view × Sink) :=
  Traced.parse_number_loop buf string σ string.size string.m_begin (-1)

/-- The inner `for` loop of the container scanners, over `string_i`: pointer `i`, `k`
characters left. -/
def Traced.seek_separator (buf : List Char) (close : Char) (string_i : string_view) :
    Nat → Nat → Traced Nat
  | 0, i => pure i
  | k + 1, i => do
    let c ← Traced.deref buf string_i i
    if c = close ∨ c = ',' then pure i
    else Traced.seek_separator buf close string_i k (i + 1)

def Traced.parse_value (po pa : string_view → Sink → Traced (string_view × Sink))
    (buf : List Char) (string : string_view) (value_start : value) (σ : Sink) :
    Traced (string_view × Sink) :=
  match value_start.type with
  | .T_STRING => Traced.parse_string buf value_start.start σ
  | .T_NUMBER => Traced.parse_number buf value_start.start σ
  | .T_OBJECT => po value_start.start σ
  | .T_ARRAY => pa value_start.start σ
  | .T_TRUE => Traced.parse_true buf value_start.start σ
  | .T_FALSE => Traced.parse_false buf value_start.start σ
  | .T_NULL => Traced.parse_null buf value_start.start σ
  | .T_UNKNOWN => do
    let r ← Traced.ctor .buffer value_start.start.m_begin string.m_end
    pure (r, σ)

mutual

def Traced.parse_array_loop (buf : List Char) (string : string_view) :
    Nat → string_view → Sink → Traced (string_view × Sink)
  | 0, _, _ => Traced.out_of_budget
  | fuel + 1, string_i, σ =>
    if string_i.size > 0 then do
      let string_i ← Traced.ctor .buffer (string_i.m_begin + 1) string_i.m_end
      let value_start ← Traced.identify_value buf string_i
      Traced.declare
      let σ := print_type value_start σ
      let value_bounds ← Traced.parse_value (Traced.parse_object_fuel buf fuel)
        (Traced.parse_array_fuel buf fuel) buf string value_start σ
      let string_i ← Traced.ctor .buffer value_bounds.1.m_end string_i.m_end
      let i ← Traced.seek_separator buf ']' string_i string_i.size string_i.m_begin
      let string_i ← Traced.ctor .buffer i string_i.m_end
      if string_i.size = 0 then pure (string_i, value_bounds.2)
      else do
        let c ← Traced.at .buffer buf string_i 0
        if c = ']' then pure (string_i, value_bounds.2)
        else do
          let c ← Traced.at .buffer buf string_i 0
          if c = ',' then do
            let string_i ← Traced.ctor .buffer (string_i.m_begin + 1) string_i.m_end
            Traced.parse_array_loop buf string fuel string_i value_bounds.2
          else Traced.fail .unreachable
    else pure (string_i, σ)

def Traced.parse_array_fuel (buf : List Char) :
    Nat → string_view → Sink → Traced (string_view × Sink)
  | 0, _, _ => Traced.out_of_budget
  | fuel + 1, string, σ =>
    if string.size > 0 then do
      let c ← Traced.at .buffer buf string 0
      if c = '[' then do
        let (string_i, σ) ← Traced.parse_array_loop buf string fuel string σ
        let σ := leave σ
        if string_i.size = 0 then do
          let r ← Traced.ctor .buffer string.m_begin string.m_end
          pure (r, σ)
        else do
          let c ← Traced.at .buffer buf string_i 0
          if c ≠ ']' then do
            let r ← Traced.ctor .buffer string.m_begin string.m_end
            pure (r, σ)
          else do
            let c ← Traced.at .buffer buf string_i 0
            if c = ']' then do
              let r ← Traced.ctor .buffer string.m_begin (string_i.m_begin + 1)
              pure (r, σ)
            else Traced.fail .unreachable
      else Traced.fail .precond
    else Traced.fail .precond

def Traced.parse_object_loop (buf : List Char) (string : string_view) :
    Nat → string_view → Sink → Traced (string_view × Sink)
  | 0, _, _ => Traced.out_of_budget
  | fuel + 1, string_i, σ =>
    if string_i.size > 0 then do
      let arg ← Traced.ctor .buffer (string_i.m_begin + 1) string_i.m_end
      let element_name ← Traced.find_string buf arg
      let string_i ← Traced.ctor .buffer element_name.m_end string_i.m_end
      let separator ← Traced.find buf string_i ':'
      if separator.size = 0 then do
        let string_i ← Traced.ctor .buffer string_i.m_end string_i.m_end
        pure (string_i, σ)
      else do
        let string_i ← Traced.ctor .buffer (separator.m_begin + 1) string_i.m_end
        let value_start ← Traced.identify_value buf string_i
        Traced.declare
        Traced.write element_name
        let σ := print_type_name buf value_start element_name σ
        let value_bounds ← Traced.parse_value (Traced.parse_object_fuel buf fuel)
          (Traced.parse_array_fuel buf fuel) buf string value_start σ
        let string_i ← Traced.ctor .buffer value_bounds.1.m_end string_i.m_end
        let i ← Traced.seek_separator buf RBRACE string_i string_i.size string_i.m_begin
        let string_i ← Traced.ctor .buffer i string_i.m_end
        if string_i.size = 0 then pure (string_i, value_bounds.2)
        else do
          let c ← Traced.at .buffer buf string_i 0
          if c = RBRACE then pure (string_i, value_bounds.2)
          else do
            let c ← Traced.at .buffer buf string_i 0
            if c = ',' then do
              let string_i ← Traced.ctor .buffer (string_i.m_begin + 1) string_i.m_end
              Traced.parse_object_loop buf string fuel string_i value_bounds.2
            else Traced.fail .unreachable
    else pure (string_i, σ)

def Traced.parse_object_fuel (buf : List Char) :
    Nat → string_view → Sink → Traced (string_view × Sink)
  | 0, _, _ => Traced.out_of_budget
  | fuel + 1, string, σ =>
    if string.size > 0 then do
      let c ← Traced.at .buffer buf string 0
      if c = LBRACE then do
        let (string_i, σ) ← Traced.parse_object_loop buf string fuel string σ
        let σ := leave σ
        if string_i.size = 0 then do
          let r ← Traced.ctor .buffer string.m_begin string.m_end
          pure (r, σ)
        else do
          let c ← Traced.at .buffer buf string_i 0
          if c ≠ RBRACE then do
            let r ← Traced.ctor .buffer string.m_begin string.m_end
            pure (r, σ)
          else do
            let c ← Traced.at .buffer buf string_i 0
            if c = RBRACE then do
              let r ← Traced.ctor .buffer string.m_begin (string_i.m_begin + 1)
              pure (r, σ)
            else Traced.fail .unreachable
      else Traced.fail .precond
    else Traced.fail .precond

end

def Traced.parse_array (buf : List Char) (string : string_view) (σ : Sink) :
    Traced (string_view × Sink) :=
  Traced.parse_array_fuel buf (budget string) string σ

def Traced.parse_object (buf : List Char) (string : string_view) (σ : Sink) :
    Traced (string_view × Sink) :=
  Traced.parse_object_fuel buf (budget string) string σ

/-! ## Notions of the specification, used to state the properties -/

/-! ### The classifier -/


/-- The marker characters, in the spec's words: `"`, the opening brace, `[`, `t`, `f`, `n`,
a decimal digit or `-`. -/
def is_marker (c : Char) : Bool :=
  c = QUOTE ∨ c = LBRACE ∨ c = '[' ∨ c = 't' ∨ c = 'f' ∨ c = 'n' ∨ ('0' ≤ c ∧ c ≤ '9') ∨ c = '-'

/-- The kind a marker character stands for, in the spec's words. -/
def marker_type (c : Char) : value_type :=
  if c = QUOTE then .T_STRING
  else if c = LBRACE then .T_OBJECT
  else if c = '[' then .T_ARRAY
  else if c = 't' then .T_TRUE
  else if c = 'f' then .T_FALSE
  else if c = 'n' then .T_NULL
  else .T_NUMBER

/-! ### The string and literal scanners -/

/-- In the spec's words for the string scanner: index `j >= 1` of the span `s` holds a
quote, and `j = 1` or the character before it is not a backslash. -/
def closes_at (buf : List Char) (s : string_view) (j : Nat) : Prop :=
  1 ≤ j ∧ j < s.size ∧ deref buf (s.m_begin + j) = QUOTE ∧
    (j = 1 ∨ deref buf (s.m_begin + j - 1) ≠ BACKSLASH)

/-- In the spec's words for a literal scanner: the result `r` is the span of the first
`|L|` characters of `s` exactly when `s` has at least `|L|` characters and they are `L`;
in every other case it is the empty span at the end of `s`. -/
def literal_result (buf : List Char) (s : string_view) (L : List Char) (r : string_view) :
    Prop :=
  (r = ⟨s.m_begin, s.m_begin + L.length⟩
      ↔ (L.length ≤ s.size ∧ (s.text buf).take L.length = L)) ∧
    (¬ (L.length ≤ s.size ∧ (s.text buf).take L.length = L) → r = ⟨s.m_end, s.m_end⟩)

/-! ### The number grammar -/

/-- A decimal digit. -/
def is_digit (c : Char) : Prop := '0' ≤ c ∧ c ≤ '9'

instance : DecidablePred is_digit := fun c => by unfold is_digit; infer_instance

/-- Integer part: `0` or `[1-9][0-9]*`. -/
def int_part (w : List Char) : Prop :=
  w = ['0'] ∨ ∃ d ds, w = d :: ds ∧ ('1' ≤ d ∧ d ≤ '9') ∧ ∀ x ∈ ds, is_digit x

/-- Optional fraction: nothing, or `.` followed by one or more digits. -/
def frac_part (w : List Char) : Prop :=
  w = [] ∨ ∃ d ds, w = '.' :: d :: ds ∧ is_digit d ∧ ∀ x ∈ ds, is_digit x

/-- Optional exponent with an optional sign, as in the grammar the spec states: nothing,
or `e`/`E`, an optional `+`/`-`, and one or more digits. -/
def exp_part (w : List Char) : Prop :=
  w = [] ∨ ∃ e sign d ds, w = e :: (sign ++ d :: ds) ∧ (e = 'e' ∨ e = 'E') ∧
    (sign = [] ∨ sign = ['+'] ∨ sign = ['-']) ∧ is_digit d ∧ ∀ x ∈ ds, is_digit x

/-- Optional exponent with a mandatory sign, as in the state table: nothing, or `e`/`E`,
then `+` or `-`, and one or more digits. -/
def signed_exp_part (w : List Char) : Prop :=
  w = [] ∨ ∃ e sign d ds, w = e :: sign :: d :: ds ∧ (e = 'e' ∨ e = 'E') ∧
    (sign = '+' ∨ sign = '-') ∧ is_digit d ∧ ∀ x ∈ ds, is_digit x

/-- The number grammar the spec states:
`-?(0|[1-9][0-9]*)(\.[0-9]+)?([eE][+-]?[0-9]+)?`. -/
def number_grammar (w : List Char) : Prop :=
  ∃ minus int frac exp, w = minus ++ int ++ frac ++ exp ∧ (minus = [] ∨ minus = ['-']) ∧
    int_part int ∧ frac_part frac ∧ exp_part exp

/-- The numbers without a leading `-` and with a signed exponent:
`(0|[1-9][0-9]*)(\.[0-9]+)?([eE][+-][0-9]+)?`. -/
def unsigned_number (w : List Char) : Prop :=
  ∃ int frac exp, w = int ++ frac ++ exp ∧ int_part int ∧ frac_part frac ∧ signed_exp_part exp

/-- A continuation after a number: empty, or starting with a character that cannot extend
a number (not a digit, `.`, `e`, `E`, `+`, `-`). -/
def number_continuation (c : List Char) : Prop :=
  c = [] ∨ ∃ x rest, c = x :: rest ∧ ¬ is_digit x ∧ x ≠ '.' ∧ x ≠ 'e' ∧ x ≠ 'E' ∧ x ≠ '+' ∧
    x ≠ '-'

/-- A number cut short, in the spec's words: a lone `-`, an integer part followed by `.`,
a mantissa (an integer part and an optional fraction) followed by `e` or `E`, or a
mantissa followed by `e` or `E` and a sign. -/
def truncated_number (w : List Char) : Prop :=
  w = ['-'] ∨ (∃ int, int_part int ∧ w = int ++ ['.']) ∨
    (∃ int frac e, int_part int ∧ frac_part frac ∧ (e = 'e' ∨ e = 'E') ∧
      w = int ++ frac ++ [e]) ∨
    (∃ int frac e sign, int_part int ∧ frac_part frac ∧ (e = 'e' ∨ e = 'E') ∧
      (sign = '+' ∨ sign = '-') ∧ w = int ++ frac ++ [e, sign])

/-! ### The state table of the number scanner -/

/-- The states of the table of the spec, `done` and `dead` apart (they are the two ways a
run of the table ends). -/
inductive table_state where
  | start | neg | int | zero | frac_dot | frac | exp_e | exp_sign | exp_digit
deriving DecidableEq, Repr

/-- The column "Accepts end-of-input" of the table.  The table has no row for `neg`; the
spec counts a lone `-` among the inputs that do not satisfy the grammar. -/
def table_state.accepts : table_state → Bool
  | .int | .zero | .frac | .exp_digit => true
  | .start | .neg | .frac_dot | .exp_e | .exp_sign => false

/-- The column "Transitions" of the table: the target the table lists for a state and a
character (`done` left out), `none` when it lists no target.  The table has no row for
`neg`, hence no target. -/
def table_transition : table_state → Char → Option table_state
  | .start, c =>
    if c = '-' then some .neg
    else if '1' ≤ c ∧ c ≤ '9' then some .int
    else if c = '0' then some .zero
    else none
  | .neg, _ => none
  | .int, c =>
    if '0' ≤ c ∧ c ≤ '9' then some .int
    else if c = '.' then some .frac_dot
    else if c = 'e' ∨ c = 'E' then some .exp_e
    else none
  | .zero, c =>
    if c = '.' then some .frac_dot
    else if c = 'e' ∨ c = 'E' then some .exp_e
    else none
  | .frac_dot, c => if '0' ≤ c ∧ c ≤ '9' then some .frac else none
  | .frac, c =>
    if '0' ≤ c ∧ c ≤ '9' then some .frac
    else if c = 'e' ∨ c = 'E' then some .exp_e
    else none
  | .exp_e, c => if c = '+' ∨ c = '-' then some .exp_sign else none
  | .exp_sign, c => if '0' ≤ c ∧ c ≤ '9' then some .exp_digit else none
  | .exp_digit, c => if '0' ≤ c ∧ c ≤ '9' then some .exp_digit else none

/-- How a run of the table ends: in `dead`, or with a number of characters consumed. -/
inductive table_outcome where
  | dead
  | consumed (n : Nat)
deriving DecidableEq, Repr

/-- The table run character by character, in the spec's words: a character with a listed
target is consumed; on a character without one the run ends successfully there, the
character not consumed, when the state accepts end-of-input, and enters `dead` otherwise;
when the input ends the consumed range is returned as if accepted. -/
def table_run : table_state → List Char → table_outcome
  | _, [] => .consumed 0
  | st, c :: cs =>
    match table_transition st c with
    | some st2 =>
      match table_run st2 cs with
      | .dead => .dead
      | .consumed n => .consumed (n + 1)
    | none => if st.accepts then .consumed 0 else .dead

/-- The span the spec gives for an outcome of the table on the span `s`: the empty span at
the end of `s` for `dead`, the prefix of the characters consumed otherwise. -/
def table_result (s : string_view) : table_outcome → string_view
  | .dead => ⟨s.m_end, s.m_end⟩
  | .consumed n => ⟨s.m_begin, s.m_begin + n⟩

/-! ### The sink -/

/-- The kind notifications among the lines written: a line of `print_type_name` gives the
kind and the key as printed (the name with its quotes), a line of `print_type` the kind. -/
def kind_notifications : List Event → List (value_type × Option (List Char))
  | [] => []
  | Event.type_name _ t name :: es => (t, some name) :: kind_notifications es
  | Event.type _ t :: es => (t, none) :: kind_notifications es
  | Event.content _ _ :: es => kind_notifications es

/-! ### The container scanners -/

/-- A strict suffix of the span `s`: a span that starts after the start of `s` and ends
where `s` ends. -/
def strict_suffix (s t : string_view) : Prop :=
  s.m_begin < t.m_begin ∧ t.m_begin ≤ t.m_end ∧ t.m_end = s.m_end

/-- An access that stays in range, in a run on the span `F` of the buffer: a view built
on the buffer has `begin <= end` and lies within `F`; a view built on the array of a
literal scanner has `begin <= end` and lies within that array; a view of two null
pointers is admitted (it is assigned before it is read); an index read is below
the size of its view, and the view lies within `F` (within its array for a view of a
literal scanner); a pointer read is at a position of the view it runs over, and the view
lies within `F`; a view written to `std::cout` has `begin <= end` and lies within `F`. -/
def Access.in_range (F : string_view) : Access → Prop
  | .built .buffer b e => F.m_begin ≤ b ∧ b ≤ e ∧ e ≤ F.m_end
  | .built (.literal n) b e => b ≤ e ∧ e ≤ n
  | .declared => True
  | .index .buffer s i => i < s.size ∧ F.m_begin ≤ s.m_begin ∧ s.m_end ≤ F.m_end
  | .index (.literal n) s i => i < s.size ∧ s.m_end ≤ n
  | .read s p => s.m_begin ≤ p ∧ p < s.m_end ∧ F.m_begin ≤ s.m_begin ∧ s.m_end ≤ F.m_end
  | .written s => F.m_begin ≤ s.m_begin ∧ s.m_begin ≤ s.m_end ∧ s.m_end ≤ F.m_end

/-- The same with every view built required to lie within the input span `F`: a view of
another array than the buffer does not, nor does a view of two null pointers. -/
def Access.in_input_span (F : string_view) : Access → Prop
  | .built (.literal _) _ _ => False
  | .declared => False
  | a => Access.in_range F a

/-- Every access of the run `x` satisfies `P`. -/
def Traced.all {α : Type} (P : Access → Prop) (x : Traced α) : Prop :=
  ∀ a ∈ x.log, P a

/-! ### The validator -/

/-- The loop of `parse_object` as `init_recursive_test` runs it on the classified span
`start`: the result is the `string_i` the loop is left with. -/
def object_scan (buf : List Char) (start : string_view) : Res (string_view × Sink) :=
  parse_object_loop buf start (budget start - 1) start Sink.init

/-- The success path of `parse_object`: its loop is left with `string_i` on a closing
brace. -/
def on_success_path (buf : List Char) (string_i : string_view) : Prop :=
  string_i.size ≠ 0 ∧ deref buf string_i.m_begin = RBRACE

instance (buf : List Char) (string_i : string_view) :
    Decidable (on_success_path buf string_i) := by
  unfold on_success_path; infer_instance

/-! ### The objects the scan accepts -/

/-- JSON whitespace: space, line feed, carriage return, tab. -/
def is_ws (c : Char) : Prop :=
  c = ' ' ∨ c = Char.ofNat 10 ∨ c = Char.ofNat 13 ∨ c = Char.ofNat 9

instance : DecidablePred is_ws := fun c => by unfold is_ws; infer_instance

/-- The characters that may follow a backslash in a JSON string (`\u` left out). -/
def is_escape (c : Char) : Prop :=
  c = QUOTE ∨ c = BACKSLASH ∨ c = '/' ∨ c = 'b' ∨ c = 'f' ∨ c = 'n' ∨ c = 'r' ∨ c = 't'

/-- The characters between the quotes of a JSON string: plain characters (no quote, no
backslash) and two-character escapes. -/
inductive string_chars : List Char → Prop where
  | nil : string_chars []
  | plain (c : Char) (rest : List Char) : c ≠ QUOTE → c ≠ BACKSLASH → string_chars rest →
      string_chars (c :: rest)
  | escape (c : Char) (rest : List Char) : is_escape c → string_chars rest →
      string_chars (BACKSLASH :: c :: rest)

/-- A JSON string whose last character before the closing quote is not a backslash (an
escaped backslash at the very end of a string is left out). -/
def string_token (t : List Char) : Prop :=
  ∃ body, t = QUOTE :: (body ++ [QUOTE]) ∧ string_chars body ∧
    body.getLast? ≠ some BACKSLASH

/-- What a text stands for: a value, the members of an object (the text between its
braces), the elements of an array (the text between its brackets). -/
inductive scan_sort where
  | value | members | elements

/-- The JSON texts on which the scan follows the grammar: JSON values in which a number
has no leading `-` and a signed exponent, a string does not end with a backslash before
its closing quote, an object or array has at least one member, and a `,` is followed by
at least one whitespace character. -/
inductive scannable : scan_sort → List Char → Prop where
  | string (t : List Char) : string_token t → scannable .value t
  | number (w : List Char) : unsigned_number w → scannable .value w
  | lit_true : scannable .value ['t', 'r', 'u', 'e']
  | lit_false : scannable .value ['f', 'a', 'l', 's', 'e']
  | lit_null : scannable .value ['n', 'u', 'l', 'l']
  | object (m : List Char) : scannable .members m →
      scannable .value (LBRACE :: (m ++ [RBRACE]))
  | array (m : List Char) : scannable .elements m → scannable .value ('[' :: (m ++ [']']))
  | member_last (w1 key w2 w3 v w4 : List Char) :
      (∀ x ∈ w1, is_ws x) → string_token key → (∀ x ∈ w2, is_ws x) → (∀ x ∈ w3, is_ws x) →
      scannable .value v → (∀ x ∈ w4, is_ws x) →
      scannable .members (w1 ++ (key ++ (w2 ++ ':' :: (w3 ++ (v ++ w4)))))
  | member_more (w1 key w2 w3 v w4 : List Char) (c : Char) (rest : List Char) :
      (∀ x ∈ w1, is_ws x) → string_token key → (∀ x ∈ w2, is_ws x) → (∀ x ∈ w3, is_ws x) →
      scannable .value v → (∀ x ∈ w4, is_ws x) → is_ws c → scannable .members rest →
      scannable .members (w1 ++ (key ++ (w2 ++ ':' :: (w3 ++ (v ++ (w4 ++ ',' :: c :: rest))))))
  | element_last (w1 v w2 : List Char) :
      (∀ x ∈ w1, is_ws x) → scannable .value v → (∀ x ∈ w2, is_ws x) →
      scannable .elements (w1 ++ (v ++ w2))
  | element_more (w1 v w2 : List Char) (c : Char) (rest : List Char) :
      (∀ x ∈ w1, is_ws x) → scannable .value v → (∀ x ∈ w2, is_ws x) → is_ws c →
      scannable .elements rest →
      scannable .elements (w1 ++ (v ++ (w2 ++ ',' :: c :: rest)))

/-- A JSON object of `scannable` with optional whitespace around it. -/
def scannable_object (O : List Char) : Prop :=
  ∃ w1 m w2, (∀ x ∈ w1, is_ws x) ∧ scannable .members m ∧ (∀ x ∈ w2, is_ws x) ∧
    O = w1 ++ LBRACE :: (m ++ RBRACE :: w2)

/-! ## Concrete inputs -/

/-- The input of the string scanner with an escaped quote: quote, a, backslash, quote, b,
quote. -/
def escaped_quote_input : List Char := [QUOTE, 'a', BACKSLASH, QUOTE, 'b', QUOTE]

/-- The input of the string scanner with an escaped backslash: quote, a, backslash,
backslash, quote. -/
def escaped_backslash_input : List Char := [QUOTE, 'a', BACKSLASH, BACKSLASH, QUOTE]

/-- The input of the concrete scenario of the spec. -/
def scenario_input : List Char :=
  "\x7b\"x\": [1, 2.5e3, true, null], \"y\": \"hi\"\x7d".toList

/-- The input of the scenario with a sign in the exponent of its second number. -/
def scenario_input_signed : List Char :=
  "\x7b\"x\": [1, 2.5e+3, true, null], \"y\": \"hi\"\x7d".toList

/-- An object whose scan is left as malformed (no `:` is found), and that ends with a
closing brace. -/
def malformed_object_input : List Char := [LBRACE, 'x', RBRACE]

/-- The valid object with one member `"a":1`, without its closing brace. -/
def missing_brace_input : List Char := "\x7b\"a\":1".toList

/-- The valid object with the member `"a"` holding the object with the member `"b":1`,
without its final closing brace. -/
def missing_outer_brace_input : List Char := "\x7b\"a\":\x7b\"b\":1\x7d".toList

/-- The valid object with one member `"a":1`. -/
def one_member_input : List Char := "\x7b\"a\":1\x7d".toList

/-- A valid JSON object with a number whose exponent has no sign, followed by a blank:
the object with the member `"a":1e5`. -/
def unsigned_exponent_input : List Char := "\x7b\"a\":1e5\x7d ".toList

/-- A valid JSON object with a string that ends with an escaped backslash, followed by a
blank: the object whose member `"a"` is the string of `x` and an escaped backslash. -/
def final_backslash_input : List Char := "\x7b\"a\":\"x\\\\\"\x7d ".toList

/-- The empty object followed by a blank. -/
def empty_object_input : List Char := "\x7b\x7d ".toList

/-- A valid JSON object with an empty array, followed by a blank: the object with the
member `"a":[]`. -/
def empty_array_input : List Char := "\x7b\"a\":[]\x7d ".toList

/-- A valid JSON object with no whitespace after its comma, followed by a blank: the
object with the members `"a":1,"b":2`. -/
def tight_comma_input : List Char := "\x7b\"a\":1,\"b\":2\x7d ".toList

/-- A valid JSON object with a negative number: the object with the member `"a":-1`. -/
def negative_number_input : List Char := "\x7b\"a\":-1\x7d".toList

/-- An object of the grammar, followed by a line feed: the object with the members
`"a": [1, true], "b": "x"`. -/
def two_member_input : List Char :=
  "\x7b\"a\": [1, true], \"b\": \"x\"\x7d\n".toList

/-- A number followed by more text: `12.5e+3, 7`. -/
def number_input : List Char := "12.5e+3, 7".toList

/-- Blank, `x`, `7`, `[`, `n`: the first marker character is the digit at offset 2. -/
def classifier_input : List Char := [' ', 'x', '7', '[', 'n']

/-- A number cut short after the `e` of its exponent: `12.5e`. -/
def truncated_input : List Char := "12.5e".toList

/-- A negative number: `-1`. -/
def minus_digit_input : List Char := ['-', '1']

/-- An array without whitespace after its comma, followed by a blank: `[1,2] `. -/
def comma_array_input : List Char := ['[', '1', ',', '2', ']', ' ']

/-- An array with a blank after its comma, followed by a blank: `[1, 2] `. -/
def spaced_array_input : List Char := ['[', '1', ',', ' ', '2', ']', ' ']

/-- The array `[null]`. -/
def null_array_input : List Char := ['[', 'n', 'u', 'l', 'l', ']']

/-! ## Notions used in the proofs -/

/-- The test of the loop of `find_string_marker` at index `i` of the view `t`. -/
def fsm_hit (buf : List Char) (t : string_view) (i : Nat) : Prop :=
  deref buf (t.m_begin + (i + 1)) = QUOTE ∧ deref buf (t.m_begin + i) ≠ BACKSLASH

/-- Index `j` of the view `t` holds a quote that is at index 0 or not preceded by a
backslash. -/
def fsm_close (buf : List Char) (t : string_view) (j : Nat) : Prop :=
  j < t.size ∧ deref buf (t.m_begin + j) = QUOTE ∧
    (j = 0 ∨ deref buf (t.m_begin + j - 1) ≠ BACKSLASH)

/-- The states the scanner of numbers is in after the characters `cs`, read one by one
from `state`, when none of them leads to `DEAD`, to state 8 or to the `default` branch. -/
def number_states : Int → List Char → Option Int
  | state, [] => some state
  | state, c :: cs =>
    match parse_number_switch state c with
    | .ok state2 => if state2 = DEAD ∨ state2 = 8 then none else number_states state2 cs
    | _ => none

/-- The buffer holds the characters `cs` from offset `p` on. -/
def holds_at (buf : List Char) : Nat → List Char → Prop
  | _, [] => True
  | p, c :: cs => deref buf p = c ∧ holds_at buf (p + 1) cs

/-- No assertion fails in the run `x`, except those of the kinds `allow`. -/
def Res.faultless {α : Type} (allow : Fault → Prop) (x : Res α) : Prop :=
  ∀ f, x = Res.fault f → allow f

/-- The result `y` is `x`, unless `x` ran out of budget. -/
def Res.le {α : Type} (x y : Res α) : Prop := x = Res.timeout ∨ x = y

/-- Two buffers hold the same characters below offset `e`. -/
def agree (buf buf2 : List Char) (e : Nat) : Prop :=
  ∀ i, i < e → deref buf i = deref buf2 i

/-- A callback for a nested container scan finds again, in the extended buffer, a result
that lies strictly before `e`. -/
def extends_to (f f2 : string_view → Sink → Res (string_view × Sink)) (e e2 : Nat) : Prop :=
  ∀ (b : Nat) (σ : Sink) (x : string_view × Sink),
    f ⟨b, e⟩ σ = Res.ok x → x.1.m_end < e → f2 ⟨b, e2⟩ σ = Res.ok x

/-- A container loop is left again, in the extended buffer, on a `string_i` that starts
strictly before `e`. -/
def loop_extends_to (f f2 : string_view → Sink → Res (string_view × Sink)) (e e2 : Nat) :
    Prop :=
  ∀ (p : Nat) (σ : Sink) (x : string_view × Sink),
    f ⟨p, e⟩ σ = Res.ok x → x.1.m_begin < e → f2 ⟨p, e2⟩ σ = Res.ok (⟨x.1.m_begin, e2⟩, x.2)

/-- A character that ends a value inside a container: whitespace, `,`, a closing brace or
a closing bracket. -/
def is_delimiter (x : Char) : Prop := is_ws x ∨ x = ',' ∨ x = RBRACE ∨ x = ']'

/-- The scan of a value text `t`: `t` starts with a marker and, wherever the buffer holds
`t` followed by a delimiter inside the span, the `switch` on its kind returns the span of
`t`, whenever the step budget `fuel` of the nested scans is at least the length of `t`. -/
def value_ok (t : List Char) : Prop :=
  ∃ c0 t2, t = c0 :: t2 ∧ is_marker c0 = true ∧
    ∀ (buf : List Char) (p e fuel : Nat) (string : string_view) (σ : Sink) (x : Char)
      (rest : List Char),
      holds_at buf p (t ++ x :: rest) → is_delimiter x → p + t.length < e →
      t.length ≤ fuel →
      ∃ σ2, parse_value (parse_object_fuel buf fuel) (parse_array_fuel buf fuel) buf string
          ⟨marker_type c0, ⟨p, e⟩⟩ σ = Res.ok (⟨p, p + t.length⟩, σ2)

/-- The scan of the members `t` of an object: wherever the buffer holds `t` and a closing
brace from offset `p + 1` on, the loop of `parse_object` started with `string_i` at `p` is
left with `string_i` on that closing brace. -/
def members_ok (t : List Char) : Prop :=
  ∀ (buf : List Char) (p e fuel : Nat) (string : string_view) (σ : Sink) (rest : List Char),
    holds_at buf (p + 1) (t ++ RBRACE :: rest) → p + 1 + t.length < e → t.length ≤ fuel →
    ∃ σ2, parse_object_loop buf string fuel ⟨p, e⟩ σ = Res.ok (⟨p + 1 + t.length, e⟩, σ2)

/-- The scan of the elements `t` of an array: wherever the buffer holds `t` and a closing
bracket from offset `p + 1` on, the loop of `parse_array` started with `string_i` at `p`
is left with `string_i` on that closing bracket. -/
def elements_ok (t : List Char) : Prop :=
  ∀ (buf : List Char) (p e fuel : Nat) (string : string_view) (σ : Sink) (rest : List Char),
    holds_at buf (p + 1) (t ++ ']' :: rest) → p + 1 + t.length < e → t.length < fuel →
    ∃ σ2, parse_array_loop buf string fuel ⟨p, e⟩ σ = Res.ok (⟨p + 1 + t.length, e⟩, σ2)

/-- The scan of a text of the grammar, by what the text stands for. -/
def scan_ok : scan_sort → List Char → Prop
  | .value, t => value_ok t
  | .members, t => members_ok t
  | .elements, t => elements_ok t

/-- The value of `state` in `parse_number` that stands for a state of the table. -/
def table_code : table_state → Int
  | .start => -1
  | .neg => 0
  | .int => 1
  | .zero => 2
  | .frac_dot => 3
  | .frac => 4
  | .exp_e => 5
  | .exp_sign => 6
  | .exp_digit => 7

end JSONReader

namespace JSONReader

/-! ## Sequencing of results -/

theorem Res.pure_eq {α : Type} (a : α) : (pure a : Res α) = Res.ok a := rfl

theorem Res.bind_eq {α β : Type} (x : Res α) (f : α → Res β) : (x >>= f) = Res.bind x f := rfl

@[simp] theorem Res.ok_bind {α β : Type} (a : α) (f : α → Res β) :
    Res.bind (Res.ok a) f = f a := rfl

@[simp] theorem Res.fault_bind {α β : Type} (e : Fault) (f : α → Res β) :
    Res.bind (Res.fault e) f = Res.fault e := rfl

@[simp] theorem Res.timeout_bind {α β : Type} (f : α → Res β) :
    Res.bind (Res.timeout : Res α) f = Res.timeout := rfl

theorem Res.bind_eq_ok {α β : Type} {x : Res α} {f : α → Res β} {b : β} :
    Res.bind x f = Res.ok b ↔ ∃ a, x = Res.ok a ∧ f a = Res.ok b := by
  cases x <;> simp [Res.bind]

theorem string_view.ctor_ok {b e : Nat} (h : b ≤ e) : string_view.ctor b e = Res.ok ⟨b, e⟩ := by
  simp [string_view.ctor, h]

theorem string_view.ctor_eq_ok {b e : Nat} {s : string_view} :
    string_view.ctor b e = Res.ok s ↔ b ≤ e ∧ s = ⟨b, e⟩ := by
  unfold string_view.ctor
  split <;> simp_all [eq_comm]

@[simp] theorem string_view.ctor_self (e : Nat) : string_view.ctor e e = Res.ok ⟨e, e⟩ :=
  string_view.ctor_ok (Nat.le_refl e)

theorem string_view.at_ok {buf : List Char} {s : string_view} {i : Nat} (h : i < s.size) :
    s.at buf i = Res.ok (deref buf (s.m_begin + i)) := by
  simp [string_view.at, h]

theorem deref_append_left (l r : List Char) {p : Nat} (h : p < l.length) :
    deref (l ++ r) p = deref l p := by
  unfold deref
  exact List.getD_append l r _ p h

theorem deref_append_right (l r : List Char) (p : Nat) :
    deref (l ++ r) (l.length + p) = deref r p := by
  unfold deref
  rw [List.getD_append_right l r _ _ (Nat.le_add_right _ _)]
  simp

theorem deref_mem (l : List Char) {p : Nat} (h : p < l.length) : deref l p ∈ l := by
  unfold deref
  rw [List.getD_eq_getElem l _ h]
  exact List.getElem_mem h

/-! ## The classifier -/

theorem identify_value_loop_skip (buf : List Char) (s : string_view) (k : Nat) :
    ∀ (n i : Nat), (∀ j, j < n → is_marker (deref buf (i + j)) = false) →
      identify_value_loop buf s (n + k) i = identify_value_loop buf s k (i + n) := by
  intro n
  induction n with
  | zero => intro i _; simp
  | succ n ih =>
    intro i h
    have h0 : is_marker (deref buf i) = false := by simpa using h 0 (Nat.succ_pos n)
    have hstep : identify_value_loop buf s (n + k + 1) i
        = identify_value_loop buf s (n + k) (i + 1) := by
      simp only [is_marker, decide_eq_false_iff_not, not_or] at h0
      rw [identify_value_loop]
      simp [h0]
    have e1 : n + 1 + k = n + k + 1 := by omega
    rw [e1, hstep, ih (i + 1) (fun j hj => by
      have := h (j + 1) (by omega)
      rwa [show i + (j + 1) = i + 1 + j by omega] at this)]
    congr 1
    omega

theorem identify_value_loop_hit (buf : List Char) (s : string_view) (k i : Nat)
    (h : is_marker (deref buf i) = true) :
    identify_value_loop buf s (k + 1) i
      = Res.bind (string_view.ctor i s.m_end) (fun st => Res.ok ⟨marker_type (deref buf i), st⟩) := by
  simp only [is_marker, decide_eq_true_eq] at h
  rw [identify_value_loop]
  simp only [marker_type, Res.bind_eq, Res.pure_eq]
  split_ifs <;> first | rfl | simp_all

end JSONReader

namespace JSONReader

theorem identify_value_no_marker (buf : List Char) (h : ∀ x ∈ buf, is_marker x = false) :
    identify_value buf ⟨0, buf.length⟩
      = Res.ok ⟨.T_UNKNOWN, ⟨buf.length, buf.length⟩⟩ := by
  unfold identify_value
  have := identify_value_loop_skip buf ⟨0, buf.length⟩ 0 buf.length 0
    (fun j hj => h _ (deref_mem buf (by simpa using hj)))
  simp only [string_view.size, Nat.sub_zero, Nat.add_zero, Nat.zero_add] at this ⊢
  rw [this, identify_value_loop]
  simp [Res.bind_eq, Res.pure_eq]

theorem identify_value_first_marker (pre rest : List Char) (c : Char)
    (hpre : ∀ x ∈ pre, is_marker x = false) (hc : is_marker c = true) :
    identify_value (pre ++ c :: rest) ⟨0, (pre ++ c :: rest).length⟩
      = Res.ok ⟨marker_type c, ⟨pre.length, (pre ++ c :: rest).length⟩⟩ := by
  have hd : deref (pre ++ c :: rest) pre.length = c := by
    have := deref_append_right pre (c :: rest) 0
    simpa [deref] using this
  have hskip := identify_value_loop_skip (pre ++ c :: rest) ⟨0, (pre ++ c :: rest).length⟩
    (rest.length + 1) pre.length 0 (fun j hj => by
      rw [Nat.zero_add, deref_append_left pre _ hj]
      exact hpre _ (deref_mem pre hj))
  have hlen : (pre ++ c :: rest).length = pre.length + (rest.length + 1) := by simp
  generalize pre ++ c :: rest = buf at hd hskip hlen ⊢
  have hk : identify_value buf ⟨0, buf.length⟩
      = identify_value_loop buf ⟨0, buf.length⟩ (pre.length + (rest.length + 1)) 0 := by
    rw [← hlen]; rfl
  rw [hk, hskip, Nat.zero_add, identify_value_loop_hit _ _ _ _ (by rw [hd]; exact hc), hd,
    string_view.ctor_ok (by show pre.length ≤ buf.length; omega)]
  rfl

/-- C3. A buffer whose first marker character is not the opening brace, and a buffer with
no marker character at all (the empty buffer included), is not valid: `validate` returns
`false`. -/
theorem validate_false_of_first_marker_not_object (buf : List Char)
    (h : (∃ pre c rest, buf = pre ++ c :: rest ∧ (∀ x ∈ pre, is_marker x = false)
            ∧ is_marker c = true ∧ c ≠ LBRACE)
          ∨ (∀ x ∈ buf, is_marker x = false)) :
    validate buf = Res.ok false := by
  have hT : ∀ v : value, identify_value buf ⟨0, buf.length⟩ = Res.ok v →
      v.type ≠ .T_OBJECT → validate buf = Res.ok false := by
    intro v hv hne
    simp [validate, run, init_recursive_test, Res.bind_eq, Res.pure_eq,
      string_view.ctor_ok, hv, hne]
  rcases h with ⟨pre, c, rest, rfl, hpre, hc, hne⟩ | h
  · refine hT _ (identify_value_first_marker pre rest c hpre hc) ?_
    simp only [marker_type]
    split_ifs <;> simp_all
  · exact hT _ (identify_value_no_marker buf h) (by simp)

/-- C3, at the array `[1]` (first marker `[`) and at the empty buffer. -/
theorem validate_false_of_first_marker_not_object_witness :
    validate ['[', '1', ']'] = Res.ok false ∧ validate [] = Res.ok false :=
  ⟨validate_false_of_first_marker_not_object ['[', '1', ']']
      (Or.inl ⟨[], '[', ['1', ']'], rfl, by simp, by decide, by decide⟩),
   validate_false_of_first_marker_not_object [] (Or.inr (by simp))⟩

end JSONReader

namespace JSONReader

/-! ## The string scanner -/

theorem find_string_marker_loop_step (buf : List Char) (t : string_view) (k i : Nat)
    (hsz : i + 1 < t.size) (h : ¬ fsm_hit buf t i) :
    find_string_marker_loop buf t (k + 1) i = find_string_marker_loop buf t k (i + 1) := by
  rw [find_string_marker_loop]
  simp only [Res.bind_eq, string_view.at_ok hsz, string_view.at_ok (Nat.lt_of_succ_lt hsz),
    Res.ok_bind]
  unfold fsm_hit at h
  split_ifs <;> simp_all

theorem find_string_marker_loop_skip (buf : List Char) (t : string_view) (k : Nat) :
    ∀ (n i : Nat), i + n < t.size → (∀ j, j < n → ¬ fsm_hit buf t (i + j)) →
      find_string_marker_loop buf t (n + k) i = find_string_marker_loop buf t k (i + n) := by
  intro n
  induction n with
  | zero => intro i _ _; simp
  | succ n ih =>
    intro i hsz h
    rw [show n + 1 + k = n + k + 1 by omega,
      find_string_marker_loop_step buf t (n + k) i (by omega) (by simpa using h 0 (by omega)),
      ih (i + 1) (by omega) (fun j hj => by
        have := h (j + 1) (by omega)
        rwa [show i + (j + 1) = i + 1 + j by omega] at this)]
    congr 1
    omega

theorem find_string_marker_loop_hit (buf : List Char) (t : string_view) (k i : Nat)
    (hsz : i + 1 < t.size) (h : fsm_hit buf t i) :
    find_string_marker_loop buf t (k + 1) i = Res.ok ⟨t.m_begin + i + 1, t.m_end⟩ := by
  rw [find_string_marker_loop]
  simp only [Res.bind_eq, string_view.at_ok hsz, string_view.at_ok (Nat.lt_of_succ_lt hsz),
    Res.ok_bind]
  unfold fsm_hit at h
  have hle : t.m_begin + i + 1 ≤ t.m_end := by unfold string_view.size at hsz; omega
  simp [h.1, h.2, string_view.ctor_ok hle]

theorem find_string_marker_found (buf : List Char) (t : string_view) (j : Nat)
    (hj : fsm_close buf t j) (hmin : ∀ j', j' < j → ¬ fsm_close buf t j') :
    find_string_marker buf t = Res.ok ⟨t.m_begin + j, t.m_end⟩ := by
  obtain ⟨hlt, hq, hb⟩ := hj
  unfold find_string_marker
  have hsz : t.size ≠ 0 := by omega
  simp only [hsz, if_false, Res.bind_eq, string_view.at_ok (Nat.pos_of_ne_zero hsz),
    Res.ok_bind, Res.pure_eq, Nat.add_zero]
  by_cases h0 : deref buf t.m_begin = QUOTE
  · have : j = 0 := by
      by_contra hne
      exact hmin 0 (Nat.pos_of_ne_zero hne) ⟨Nat.pos_of_ne_zero hsz, by simpa using h0, Or.inl rfl⟩
    subst this
    simp only [h0, if_true, Nat.add_zero]
  · simp only [h0, if_false]
    have hj0 : j ≠ 0 := by
      rintro rfl
      exact h0 (by simpa using hq)
    obtain ⟨i, rfl⟩ : ∃ i, j = i + 1 := ⟨j - 1, by omega⟩
    have hback : deref buf (t.m_begin + i) ≠ BACKSLASH := by
      rcases hb with h | h
      · omega
      · simpa using h
    have hskip := find_string_marker_loop_skip buf t (t.size - 1 - i) i 0 (by omega)
      (fun j' hj' hhit => by
        rw [Nat.zero_add] at hhit
        exact hmin (j' + 1) (by omega) ⟨by omega, hhit.1, Or.inr (by simpa using hhit.2)⟩)
    rw [show t.size - 1 = i + (t.size - 1 - i) by omega, hskip, Nat.zero_add,
      show t.size - 1 - i = (t.size - 2 - i) + 1 by omega,
      find_string_marker_loop_hit buf t _ i (by omega) ⟨hq, hback⟩]
    rfl

theorem find_string_marker_none (buf : List Char) (t : string_view)
    (hnone : ∀ j, ¬ fsm_close buf t j) :
    find_string_marker buf t = Res.ok ⟨t.m_end, t.m_end⟩ ∨
      (t.size = 0 ∧ find_string_marker buf t = Res.ok t) := by
  unfold find_string_marker
  by_cases hsz : t.size = 0
  · right; simp [hsz]
  · left
    simp only [hsz, if_false, Res.bind_eq, string_view.at_ok (Nat.pos_of_ne_zero hsz),
      Res.ok_bind, Res.pure_eq, Nat.add_zero]
    have h0 : deref buf t.m_begin ≠ QUOTE := fun h =>
      hnone 0 ⟨Nat.pos_of_ne_zero hsz, by simpa using h, Or.inl rfl⟩
    simp only [h0, if_false]
    have hskip := find_string_marker_loop_skip buf t 0 (t.size - 1) 0 (by omega)
      (fun j' hj' hhit => by
        rw [Nat.zero_add] at hhit
        exact hnone (j' + 1) ⟨by omega, hhit.1, Or.inr (by simpa using hhit.2)⟩)
    rw [Nat.add_zero] at hskip
    rw [hskip, find_string_marker_loop]
    simp

end JSONReader

namespace JSONReader

theorem fsm_close_iff_closes_at (buf : List Char) (s : string_view) (i : Nat)
    (hne : s.m_begin < s.m_end) :
    fsm_close buf ⟨s.m_begin + 1, s.m_end⟩ i ↔ closes_at buf s (i + 1) := by
  unfold fsm_close closes_at string_view.size
  simp only [show s.m_begin + 1 + i = s.m_begin + (i + 1) by omega]
  constructor
  · rintro ⟨h1, h2, h3⟩
    refine ⟨by omega, by omega, h2, ?_⟩
    rcases h3 with h | h
    · left; omega
    · right; exact h
  · rintro ⟨_, h1, h2, h3⟩
    refine ⟨by omega, h2, ?_⟩
    rcases h3 with h | h
    · left; omega
    · right; exact h

/-- C8. On a non-empty span `s` that starts with a quote, `parse_string` returns the span
`s[0 .. j]` inclusive for the least index `j >= 1` holding a quote with `j = 1` or no
backslash right before it, and the empty span at `s.end` when there is no such index. -/
theorem parse_string_closing_quote (buf : List Char) (s : string_view) (σ : Sink)
    (hne : s.m_begin < s.m_end) (hq : deref buf s.m_begin = QUOTE) :
    ∃ r, parse_string buf s σ = Res.ok (r, print_content buf r σ) ∧
      (∀ j, closes_at buf s j → (∀ j', j' < j → ¬ closes_at buf s j') →
          r = ⟨s.m_begin, s.m_begin + j + 1⟩) ∧
      ((∀ j, ¬ closes_at buf s j) → r = ⟨s.m_end, s.m_end⟩) := by
  have hsz : s.size ≠ 0 := by unfold string_view.size; omega
  have hunf : parse_string buf s σ
      = Res.bind (find_string_marker buf ⟨s.m_begin + 1, s.m_end⟩) (fun e =>
          Res.bind (if e.size = 0 then string_view.ctor s.m_end s.m_end
            else string_view.ctor s.m_begin (e.m_begin + 1))
            (fun result => Res.ok (result, print_content buf result σ))) := by
    unfold parse_string
    simp only [ne_eq, hsz, not_false_eq_true, if_true, Res.bind_eq,
      string_view.at_ok (Nat.pos_of_ne_zero hsz), Res.ok_bind, Nat.add_zero, hq,
      string_view.ctor_ok (show s.m_begin + 1 ≤ s.m_end by omega), Res.pure_eq]
    congr 1
    funext e
    split <;> rfl
  by_cases hex : ∃ j, closes_at buf s j
  · classical
    let j := Nat.find hex
    have hj : closes_at buf s j := Nat.find_spec hex
    have hmin : ∀ j', j' < j → ¬ closes_at buf s j' := fun j' h => Nat.find_min hex h
    have hj1 : 1 ≤ j := hj.1
    have hjs : j < s.size := hj.2.1
    have hfound := find_string_marker_found buf ⟨s.m_begin + 1, s.m_end⟩ (j - 1)
      ((fsm_close_iff_closes_at buf s (j - 1) hne).2 (by rwa [Nat.sub_add_cancel hj1]))
      (fun j' hj' hc => hmin (j' + 1) (by omega)
        ((fsm_close_iff_closes_at buf s j' hne).1 hc))
    have hb : s.m_begin + 1 + (j - 1) = s.m_begin + j := by omega
    simp only [hb] at hfound
    refine ⟨⟨s.m_begin, s.m_begin + j + 1⟩, ?_, ?_, ?_⟩
    · rw [hunf, hfound]
      unfold string_view.size at hjs ⊢
      have h1 : ¬ (s.m_end - (s.m_begin + j) = 0) := by omega
      simp [h1, string_view.ctor_ok (show s.m_begin ≤ s.m_begin + j + 1 by omega)]
    · intro j2 hj2 hmin2
      have : j2 = j := by
        rcases Nat.lt_trichotomy j2 j with h | h | h
        · exact absurd hj2 (hmin j2 h)
        · exact h
        · exact absurd hj (hmin2 j h)
      rw [this]
    · intro hnone
      exact absurd hj (hnone j)
  · have hnone : ∀ j, ¬ closes_at buf s j := fun j h => hex ⟨j, h⟩
    refine ⟨⟨s.m_end, s.m_end⟩, ?_, ?_, ?_⟩
    · rw [hunf]
      rcases find_string_marker_none buf ⟨s.m_begin + 1, s.m_end⟩
        (fun j hc => hnone (j + 1) ((fsm_close_iff_closes_at buf s j hne).1 hc)) with h | ⟨h0, h⟩
      · rw [h]; simp [string_view.size]
      · rw [h]; simp [h0]
    · intro j hj
      exact absurd hj (hnone j)
    · intro _; rfl

/-- C8, at the six characters quote, a, backslash, quote, b, quote: the least closing
index is 5 and the result is the whole span. -/
theorem parse_string_closing_quote_witness :
    ∃ r, parse_string escaped_quote_input ⟨0, 6⟩ Sink.init
        = Res.ok (r, print_content escaped_quote_input r Sink.init) ∧ r = ⟨0, 6⟩ := by
  obtain ⟨r, hr, hfound, _⟩ := parse_string_closing_quote escaped_quote_input ⟨0, 6⟩ Sink.init
    (by decide) (by decide)
  refine ⟨r, hr, hfound 5 (by unfold closes_at; decide) ?_⟩
  intro j' hj'
  have : j' = 0 ∨ j' = 1 ∨ j' = 2 ∨ j' = 3 ∨ j' = 4 := by omega
  rcases this with h | h | h | h | h <;> subst h <;> unfold closes_at <;> decide

end JSONReader

namespace JSONReader

/-- C9 as stated fails: on quote, a, backslash, backslash, quote the result of
`parse_string` is not the span from the opening quote to just after the second quote. -/
theorem parse_string_escaped_backslash_not_closed :
    ¬ ∃ σ, parse_string escaped_backslash_input ⟨0, 5⟩ Sink.init = Res.ok (⟨0, 5⟩, σ) := by
  rintro ⟨σ, h⟩
  have h2 : parse_string escaped_backslash_input ⟨0, 5⟩ Sink.init
      = Res.ok (⟨5, 5⟩, print_content escaped_backslash_input ⟨5, 5⟩ Sink.init) := rfl
  rw [h2] at h
  simp at h

/-- C9, amended. On quote, a, backslash, backslash, quote `parse_string` takes the second
quote, which follows a backslash, for an escaped quote: it finds no closing quote and
returns the empty span at the end of the input. -/
theorem parse_string_escaped_backslash (σ : Sink) :
    parse_string escaped_backslash_input ⟨0, 5⟩ σ
      = Res.ok (⟨5, 5⟩, print_content escaped_backslash_input ⟨5, 5⟩ σ) := rfl

/-! ## The literal scanners -/

theorem equal_loop_true (bufa : List Char) (a : string_view) (bufb : List Char)
    (b : string_view) :
    ∀ (k i : Nat), i + k ≤ a.size → i + k ≤ b.size →
      (∀ j, j < k → deref bufa (a.m_begin + (i + j)) = deref bufb (b.m_begin + (i + j))) →
      equal_loop bufa a bufb b k i = Res.ok true := by
  intro k
  induction k with
  | zero => intro i _ _ _; rfl
  | succ k ih =>
    intro i ha hb h
    rw [equal_loop]
    simp only [Res.bind_eq, string_view.at_ok (show i < a.size by omega),
      string_view.at_ok (show i < b.size by omega), Res.ok_bind]
    have h0 := h 0 (by omega)
    rw [Nat.add_zero] at h0
    simp only [ne_eq, h0, not_true_eq_false, if_false]
    exact ih (i + 1) (by omega) (by omega) (fun j hj => by
      have := h (j + 1) (by omega)
      rwa [show i + (j + 1) = i + 1 + j by omega] at this)

theorem equal_loop_false (bufa : List Char) (a : string_view) (bufb : List Char)
    (b : string_view) :
    ∀ (k i : Nat), i + k ≤ a.size → i + k ≤ b.size →
      (∃ j, j < k ∧ deref bufa (a.m_begin + (i + j)) ≠ deref bufb (b.m_begin + (i + j))) →
      equal_loop bufa a bufb b k i = Res.ok false := by
  intro k
  induction k with
  | zero => intro i _ _ h; obtain ⟨j, hj, _⟩ := h; omega
  | succ k ih =>
    intro i ha hb h
    rw [equal_loop]
    simp only [Res.bind_eq, string_view.at_ok (show i < a.size by omega),
      string_view.at_ok (show i < b.size by omega), Res.ok_bind]
    by_cases h0 : deref bufa (a.m_begin + i) = deref bufb (b.m_begin + i)
    · simp only [ne_eq, h0, not_true_eq_false, if_false]
      obtain ⟨j, hj, hne⟩ := h
      have hj0 : j ≠ 0 := by
        rintro rfl
        exact hne (by simpa using h0)
      exact ih (i + 1) (by omega) (by omega) ⟨j - 1, by omega, by
        rwa [show i + 1 + (j - 1) = i + j by omega]⟩
    · simp [h0, Res.pure_eq]

theorem take_text (buf : List Char) (s : string_view) (n : Nat) (h : n ≤ s.size) :
    (s.text buf).take n = (List.range n).map (fun k => deref buf (s.m_begin + k)) := by
  unfold string_view.text
  rw [← List.map_take, List.take_range, Nat.min_eq_left h]

/-- The body shared by the three literal scanners, run on a non-empty span whose first
character is the asserted one: `cs` is `correct_string`, `n` is `correct_length`. -/
theorem parse_literal_spec (cs : List Char) (n : Nat) (first : Char) (buf : List Char)
    (s : string_view) (σ : Sink) (hne : s.m_begin < s.m_end)
    (hfirst : deref buf s.m_begin = first) :
    ∃ r, parse_literal cs n first buf s σ = Res.ok (r, print_content buf r σ) ∧
      ((n ≤ s.size ∧ (s.text buf).take n = (List.range n).map (fun k => deref cs k))
          → r = ⟨s.m_begin, s.m_begin + n⟩) ∧
      (¬ (n ≤ s.size ∧ (s.text buf).take n = (List.range n).map (fun k => deref cs k))
          → r = ⟨s.m_end, s.m_end⟩) := by
  have hsz : s.size ≠ 0 := by unfold string_view.size; omega
  unfold parse_literal
  simp only [ne_eq, hsz, not_false_eq_true, if_true, Res.bind_eq,
    string_view.at_ok (Nat.pos_of_ne_zero hsz), Res.ok_bind, Nat.add_zero, hfirst,
    string_view.ctor_ok (show 0 ≤ 0 + n by omega), Res.pure_eq, ge_iff_le]
  by_cases hn : n ≤ s.size
  · simp only [hn, if_true, true_and,
      string_view.ctor_ok (show s.m_begin ≤ s.m_begin + n by omega)]
    rw [take_text buf s n hn]
    by_cases hall : ∀ j, j < n → deref cs j = deref buf (s.m_begin + j)
    · have heq : equal cs ⟨0, 0 + n⟩ buf ⟨s.m_begin, s.m_begin + n⟩ = Res.ok true := by
        unfold equal
        simp only [string_view.size, Nat.add_sub_cancel_left, Nat.sub_zero, ne_eq,
          not_true_eq_false, if_false, Nat.zero_add]
        exact equal_loop_true cs _ buf _ n 0 (by simp [string_view.size])
          (by simp [string_view.size]) (fun j hj => by simpa using hall j hj)
      have hmap : (List.range n).map (fun k => deref buf (s.m_begin + k))
          = (List.range n).map (fun k => deref cs k) :=
        List.map_congr_left (fun j hj => (hall j (List.mem_range.1 hj)).symm)
      refine ⟨⟨s.m_begin, s.m_begin + n⟩, ?_, fun _ => rfl, fun h => absurd hmap h⟩
      rw [Nat.zero_add] at heq
      simp [heq]
    · have hex : ∃ j, j < n ∧ deref cs j ≠ deref buf (s.m_begin + j) := by
        by_contra hcon
        exact hall (fun j hj => by
          by_contra hne'
          exact hcon ⟨j, hj, hne'⟩)
      have heq : equal cs ⟨0, 0 + n⟩ buf ⟨s.m_begin, s.m_begin + n⟩ = Res.ok false := by
        unfold equal
        simp only [string_view.size, Nat.add_sub_cancel_left, Nat.sub_zero, ne_eq,
          not_true_eq_false, if_false, Nat.zero_add]
        obtain ⟨j, hj, hne'⟩ := hex
        exact equal_loop_false cs _ buf _ n 0 (by simp [string_view.size])
          (by simp [string_view.size]) ⟨j, hj, by simpa using hne'⟩
      have hmap : ¬ ((List.range n).map (fun k => deref buf (s.m_begin + k))
          = (List.range n).map (fun k => deref cs k)) := by
        intro hm
        apply hall
        intro j hj
        exact ((List.map_inj_left.1 hm) j (List.mem_range.2 hj)).symm
      refine ⟨⟨s.m_end, s.m_end⟩, ?_, fun h => absurd h hmap, fun _ => rfl⟩
      rw [Nat.zero_add] at heq
      simp [heq]
  · refine ⟨⟨s.m_end, s.m_end⟩, ?_, fun h => absurd h.1 hn, fun _ => rfl⟩
    simp [hn]

theorem literal_result_of_spec (buf : List Char) (s : string_view) (L : List Char)
    (r : string_view) (hne : s.m_begin < s.m_end)
    (h1 : (L.length ≤ s.size ∧ (s.text buf).take L.length = L)
        → r = ⟨s.m_begin, s.m_begin + L.length⟩)
    (h2 : ¬ (L.length ≤ s.size ∧ (s.text buf).take L.length = L) → r = ⟨s.m_end, s.m_end⟩) :
    literal_result buf s L r := by
  refine ⟨⟨fun hr => ?_, h1⟩, h2⟩
  by_contra hcon
  have := h2 hcon
  rw [this] at hr
  injection hr with ha hb
  omega

/-- C10. On a non-empty span `s` whose first character is that of the literal, each of
`parse_true`, `parse_false` and `parse_null` returns the span of the first `|L|`
characters of `s` if and only if `s` has at least `|L|` characters and they are the
literal `L`; in every other case it returns the empty span at `s.end`. -/
theorem literal_scanners_exact (buf : List Char) (s : string_view) (σ : Sink)
    (hne : s.m_begin < s.m_end) :
    (deref buf s.m_begin = 't' → ∃ r, parse_true buf s σ = Res.ok (r, print_content buf r σ)
        ∧ literal_result buf s ['t', 'r', 'u', 'e'] r) ∧
    (deref buf s.m_begin = 'f' → ∃ r, parse_false buf s σ = Res.ok (r, print_content buf r σ)
        ∧ literal_result buf s ['f', 'a', 'l', 's', 'e'] r) ∧
    (deref buf s.m_begin = 'n' → ∃ r, parse_null buf s σ = Res.ok (r, print_content buf r σ)
        ∧ literal_result buf s ['n', 'u', 'l', 'l'] r) := by
  refine ⟨fun h => ?_, fun h => ?_, fun h => ?_⟩
  · obtain ⟨r, hr, h1, h2⟩ :=
      parse_literal_spec ['t', 'r', 'u', 'e', Char.ofNat 0] 4 't' buf s σ hne h
    exact ⟨r, hr, literal_result_of_spec buf s _ r hne h1 h2⟩
  · obtain ⟨r, hr, h1, h2⟩ :=
      parse_literal_spec ['f', 'a', 'l', 's', 'e', Char.ofNat 0] 5 'f' buf s σ hne h
    exact ⟨r, hr, literal_result_of_spec buf s _ r hne h1 h2⟩
  · obtain ⟨r, hr, h1, h2⟩ :=
      parse_literal_spec ['n', 'u', 'l', 'l', Char.ofNat 0] 4 'n' buf s σ hne h
    exact ⟨r, hr, literal_result_of_spec buf s _ r hne h1 h2⟩

/-- C10, at the span of `true,`: the scanner for `true` is run on a non-empty span that
starts with `t`. -/
theorem literal_scanners_exact_witness :
    ∃ r, parse_true ['t', 'r', 'u', 'e', ','] ⟨0, 5⟩ Sink.init
        = Res.ok (r, print_content ['t', 'r', 'u', 'e', ','] r Sink.init)
      ∧ literal_result ['t', 'r', 'u', 'e', ','] ⟨0, 5⟩ ['t', 'r', 'u', 'e'] r :=
  (literal_scanners_exact ['t', 'r', 'u', 'e', ','] ⟨0, 5⟩ Sink.init (by decide)).1 (by decide)

end JSONReader

namespace JSONReader

/-! ## The number scanner -/

theorem holds_at_append (buf : List Char) :
    ∀ (a b : List Char) (p : Nat),
      holds_at buf p (a ++ b) ↔ holds_at buf p a ∧ holds_at buf (p + a.length) b := by
  intro a
  induction a with
  | nil => intro b p; simp [holds_at]
  | cons x a ih =>
    intro b p
    show holds_at buf p (x :: (a ++ b)) ↔ _
    rw [holds_at, holds_at, ih b (p + 1), and_assoc, List.length_cons,
      show p + 1 + a.length = p + (a.length + 1) by omega]

theorem holds_at_of_map_range (buf : List Char) :
    ∀ (l : List Char) (p n : Nat),
      (List.range n).map (fun k => deref buf (p + k)) = l → holds_at buf p l := by
  intro l
  induction l with
  | nil => intro p n _; trivial
  | cons c cs ih =>
    intro p n h
    cases n with
    | zero => simp at h
    | succ n =>
      rw [List.range_succ_eq_map, List.map_cons, List.map_map] at h
      injection h with h1 h2
      refine ⟨by simpa using h1, ih (p + 1) n ?_⟩
      rw [← h2]
      apply List.map_congr_left
      intro k _
      simp only [Function.comp, Nat.succ_eq_add_one]
      rw [show p + 1 + k = p + (k + 1) by omega]

theorem holds_at_of_text (buf : List Char) (s : string_view) (l : List Char)
    (h : s.text buf = l) : holds_at buf s.m_begin l :=
  holds_at_of_map_range buf l s.m_begin s.size h

theorem size_of_text (buf : List Char) (s : string_view) (l : List Char)
    (h : s.text buf = l) : s.size = l.length := by
  rw [← h]; simp [string_view.text]

/-- What `parse_number` returns when its loop is left with the pointer at `p`. -/
theorem parse_number_loop_leave (buf : List Char) (s : string_view) (σ : Sink) (k p : Nat)
    (hp : s.m_begin ≤ p) :
    parse_number_loop buf s σ k p 8
      = Res.ok (⟨s.m_begin, p⟩, print_content buf ⟨s.m_begin, p⟩ σ) := by
  cases k <;> simp [parse_number_loop, Res.bind_eq, Res.pure_eq, string_view.ctor_ok hp]

theorem parse_number_loop_end (buf : List Char) (s : string_view) (σ : Sink) (p : Nat)
    (state : Int) (hp : s.m_begin ≤ p) :
    parse_number_loop buf s σ 0 p state
      = Res.ok (⟨s.m_begin, p⟩, print_content buf ⟨s.m_begin, p⟩ σ) := by
  simp [parse_number_loop, Res.bind_eq, Res.pure_eq, string_view.ctor_ok hp]

theorem parse_number_loop_consume (buf : List Char) (s : string_view) (σ : Sink) (k : Nat) :
    ∀ (cs : List Char) (p : Nat) (state state2 : Int), state ≠ 8 →
      number_states state cs = some state2 → holds_at buf p cs →
      parse_number_loop buf s σ (cs.length + k) p state
        = parse_number_loop buf s σ k (p + cs.length) state2 ∧ state2 ≠ 8 := by
  intro cs
  induction cs with
  | nil =>
    intro p state state2 h8 hst _
    simp only [number_states, Option.some.injEq] at hst
    subst hst
    exact ⟨by simp, h8⟩
  | cons c cs ih =>
    intro p state state2 h8 hst hh
    obtain ⟨hc, hrest⟩ := hh
    rw [number_states] at hst
    cases hsw : parse_number_switch state c with
    | ok q =>
      rw [hsw] at hst
      simp only at hst
      split at hst
      · exact absurd hst (by simp)
      · rename_i hq
        rw [not_or] at hq
        obtain ⟨h1, h2⟩ := ih (p + 1) q state2 hq.2 hst hrest
        refine ⟨?_, h2⟩
        rw [show (c :: cs).length + k = (cs.length + k) + 1 by simp; omega, parse_number_loop]
        simp only [ne_eq, h8, not_false_eq_true, if_true, hc, hsw, Res.bind_eq, Res.ok_bind,
          hq.1, hq.2, if_false, h1]
        rw [show p + 1 + cs.length = p + (c :: cs).length by simp; omega]
    | fault f => rw [hsw] at hst; exact absurd hst (by simp)
    | timeout => rw [hsw] at hst; exact absurd hst (by simp)

theorem number_states_append :
    ∀ (a b : List Char) (q : Int),
      number_states q (a ++ b) = (number_states q a).bind (fun q2 => number_states q2 b) := by
  intro a
  induction a with
  | nil => intro b q; simp [number_states]
  | cons x a ih =>
    intro b q
    simp only [List.cons_append, number_states]
    cases parse_number_switch q x with
    | ok q2 =>
      simp only
      split
      · rfl
      · exact ih b q2
    | fault f => rfl
    | timeout => rfl

theorem digit_facts {c : Char} (h : is_digit c) :
    c ≠ '-' ∧ c ≠ '.' ∧ c ≠ 'e' ∧ c ≠ 'E' ∧ c ≠ '+' := by
  unfold is_digit at h
  refine ⟨?_, ?_, ?_, ?_, ?_⟩ <;> rintro rfl <;> revert h <;> decide

theorem number_states_digits (q : Int) (hq : q = 1 ∨ q = 4 ∨ q = 7) :
    ∀ ds : List Char, (∀ x ∈ ds, is_digit x) → number_states q ds = some q := by
  intro ds
  induction ds with
  | nil => intro _; rfl
  | cons d ds ih =>
    intro h
    have hd : is_digit d := h d (List.mem_cons_self _ _)
    have hsw : parse_number_switch q d = Res.ok q := by
      unfold is_digit at hd
      rcases hq with rfl | rfl | rfl <;> simp [parse_number_switch, hd, Res.pure_eq]
    rw [number_states, hsw]
    have hne : ¬ (q = DEAD ∨ q = 8) := by
      rcases hq with rfl | rfl | rfl <;> decide
    simp only [hne, if_false]
    exact ih (fun x hx => h x (List.mem_cons_of_mem _ hx))

theorem number_states_int (w : List Char) (h : int_part w) :
    number_states (-1) w = some 1 ∨ number_states (-1) w = some 2 := by
  rcases h with rfl | ⟨d, ds, rfl, hd, hds⟩
  · right; decide
  · left
    have hsw : parse_number_switch (-1) d = Res.ok 1 := by
      have hm : d ≠ '-' := by rintro rfl; revert hd; decide
      simp [parse_number_switch, hd, hm, Res.pure_eq]
    rw [number_states, hsw]
    simp only [show ¬ ((1 : Int) = DEAD ∨ (1 : Int) = 8) by decide, if_false]
    exact number_states_digits 1 (Or.inl rfl) ds hds

theorem number_states_frac (w : List Char) (h : frac_part w) (q : Int) (hq : q = 1 ∨ q = 2) :
    number_states q w = some q ∨ number_states q w = some 4 := by
  rcases h with rfl | ⟨d, ds, rfl, hd, hds⟩
  · left; rfl
  · right
    have hsw : parse_number_switch q '.' = Res.ok 3 := by
      rcases hq with rfl | rfl <;> decide
    have hsw2 : parse_number_switch 3 d = Res.ok 4 := by
      unfold is_digit at hd
      simp [parse_number_switch, hd, Res.pure_eq]
    rw [number_states, hsw]
    simp only [show ¬ ((3 : Int) = DEAD ∨ (3 : Int) = 8) by decide, if_false]
    rw [number_states, hsw2]
    simp only [show ¬ ((4 : Int) = DEAD ∨ (4 : Int) = 8) by decide, if_false]
    exact number_states_digits 4 (Or.inr (Or.inl rfl)) ds hds

theorem number_states_exp (w : List Char) (h : signed_exp_part w) (q : Int)
    (hq : q = 1 ∨ q = 2 ∨ q = 4) :
    number_states q w = some q ∨ number_states q w = some 7 := by
  rcases h with rfl | ⟨e, sign, d, ds, rfl, he, hsign, hd, hds⟩
  · left; rfl
  · right
    have hsw : parse_number_switch q e = Res.ok 5 := by
      rcases hq with rfl | rfl | rfl <;> rcases he with rfl | rfl <;> decide
    have hsw2 : parse_number_switch 5 sign = Res.ok 6 := by
      rcases hsign with rfl | rfl <;> decide
    have hsw3 : parse_number_switch 6 d = Res.ok 7 := by
      unfold is_digit at hd
      simp [parse_number_switch, hd, Res.pure_eq]
    rw [number_states, hsw]
    simp only [show ¬ ((5 : Int) = DEAD ∨ (5 : Int) = 8) by decide, if_false]
    rw [number_states, hsw2]
    simp only [show ¬ ((6 : Int) = DEAD ∨ (6 : Int) = 8) by decide, if_false]
    rw [number_states, hsw3]
    simp only [show ¬ ((7 : Int) = DEAD ∨ (7 : Int) = 8) by decide, if_false]
    exact number_states_digits 7 (Or.inr (Or.inr rfl)) ds hds

/-- A number of the grammar without sign leaves the scanner in an accepting state. -/
theorem number_states_unsigned (w : List Char) (h : unsigned_number w) :
    ∃ q, number_states (-1) w = some q ∧ (q = 1 ∨ q = 2 ∨ q = 4 ∨ q = 7) := by
  obtain ⟨int, frac, exp, rfl, hint, hfrac, hexp⟩ := h
  have key : ∀ q1, number_states (-1) int = some q1 → (q1 = 1 ∨ q1 = 2) →
      ∃ q, number_states (-1) (int ++ frac ++ exp) = some q ∧
        (q = 1 ∨ q = 2 ∨ q = 4 ∨ q = 7) := by
    intro q1 h1 hq1
    have key2 : ∀ q2, number_states q1 frac = some q2 → (q2 = 1 ∨ q2 = 2 ∨ q2 = 4) →
        ∃ q, number_states (-1) (int ++ frac ++ exp) = some q ∧
          (q = 1 ∨ q = 2 ∨ q = 4 ∨ q = 7) := by
      intro q2 h2 hq2
      have h12 : number_states (-1) (int ++ frac ++ exp) = number_states q2 exp := by
        rw [number_states_append, number_states_append, h1]
        simp [h2]
      rcases number_states_exp exp hexp q2 hq2 with h3 | h3
      · exact ⟨q2, by rw [h12, h3], by omega⟩
      · exact ⟨7, by rw [h12, h3], by omega⟩
    rcases number_states_frac frac hfrac q1 hq1 with h2 | h2
    · exact key2 q1 h2 (by omega)
    · exact key2 4 h2 (by omega)
  rcases number_states_int int hint with h1 | h1
  · exact key 1 h1 (Or.inl rfl)
  · exact key 2 h1 (Or.inr rfl)

theorem parse_number_switch_stop (q : Int) (hq : q = 1 ∨ q = 2 ∨ q = 4 ∨ q = 7) (x : Char)
    (hx : ¬ is_digit x ∧ x ≠ '.' ∧ x ≠ 'e' ∧ x ≠ 'E' ∧ x ≠ '+' ∧ x ≠ '-') :
    parse_number_switch q x = Res.ok 8 := by
  unfold is_digit at hx
  rcases hq with rfl | rfl | rfl | rfl <;> simp [parse_number_switch, hx, Res.pure_eq]

/-- The number scanner on a span that holds a number `w` without sign, then `c`. -/
theorem parse_number_unsigned (buf : List Char) (s : string_view) (σ : Sink)
    (w c : List Char) (hw : unsigned_number w) (hc : number_continuation c)
    (hsize : s.size = w.length + c.length) (hh : holds_at buf s.m_begin (w ++ c)) :
    parse_number buf s σ
      = Res.ok (⟨s.m_begin, s.m_begin + w.length⟩,
          print_content buf ⟨s.m_begin, s.m_begin + w.length⟩ σ) := by
  obtain ⟨q, hq, hacc⟩ := number_states_unsigned w hw
  obtain ⟨hhw, hhc⟩ := (holds_at_append buf w c s.m_begin).1 hh
  obtain ⟨h1, h8⟩ := parse_number_loop_consume buf s σ c.length w s.m_begin (-1) q
    (by decide) hq hhw
  unfold parse_number
  rw [hsize, h1]
  rcases hc with rfl | ⟨x, rest, rfl, hx⟩
  · exact parse_number_loop_end buf s σ _ q (by omega)
  · rw [show (x :: rest).length = rest.length + 1 by simp, parse_number_loop]
    simp only [ne_eq, h8, not_false_eq_true, if_true, hhc.1,
      parse_number_switch_stop q hacc x hx, Res.bind_eq, Res.ok_bind,
      show ¬ ((8 : Int) = DEAD) by decide, if_false, not_true_eq_false]
    exact parse_number_loop_leave buf s σ _ _ (by omega)

end JSONReader

namespace JSONReader

/-- C7 as stated fails: `1e5` is a number of the stated grammar (the sign of the exponent
is optional there), followed by nothing, and `parse_number` does not return its span: the
state after `e` accepts a sign only, and the result is the empty span at the end. -/
theorem parse_number_rejects_unsigned_exponent :
    number_grammar ['1', 'e', '5'] ∧ number_continuation [] ∧
      string_view.text ['1', 'e', '5'] ⟨0, 3⟩ = ['1', 'e', '5'] ++ [] ∧
      parse_number ['1', 'e', '5'] ⟨0, 3⟩ Sink.init
        = Res.ok (⟨3, 3⟩, print_content ['1', 'e', '5'] ⟨3, 3⟩ Sink.init) := by
  refine ⟨⟨[], ['1'], [], ['e', '5'], rfl, Or.inl rfl, ?_, Or.inl rfl, ?_⟩, Or.inl rfl,
    rfl, rfl⟩
  · exact Or.inr ⟨'1', [], rfl, by decide, by simp⟩
  · exact Or.inr ⟨'e', [], '5', [], rfl, Or.inl rfl, Or.inl rfl, by decide, by simp⟩

/-- C7, amended. For every text `w` matching `(0|[1-9][0-9]*)(\.[0-9]+)?([eE][+-][0-9]+)?`
(no leading `-`, the sign of an exponent present) and every continuation `c` that is empty
or begins with a character that cannot extend a number, `parse_number` on a span holding
`w ++ c` returns exactly the span of `w`. -/
theorem parse_number_accepts_unsigned (buf : List Char) (s : string_view) (σ : Sink)
    (w c : List Char) (hw : unsigned_number w) (hc : number_continuation c)
    (hs : s.text buf = w ++ c) :
    parse_number buf s σ
      = Res.ok (⟨s.m_begin, s.m_begin + w.length⟩,
          print_content buf ⟨s.m_begin, s.m_begin + w.length⟩ σ) :=
  parse_number_unsigned buf s σ w c hw hc
    (by rw [size_of_text buf s _ hs, List.length_append]) (holds_at_of_text buf s _ hs)

/-- C7, amended, at `1.5e+5` followed by a comma. -/
theorem parse_number_accepts_unsigned_witness :
    parse_number ['1', '.', '5', 'e', '+', '5', ','] ⟨0, 7⟩ Sink.init
      = Res.ok (⟨0, 0 + 6⟩,
          print_content ['1', '.', '5', 'e', '+', '5', ','] ⟨0, 0 + 6⟩ Sink.init) :=
  parse_number_accepts_unsigned ['1', '.', '5', 'e', '+', '5', ','] ⟨0, 7⟩ Sink.init
    ['1', '.', '5', 'e', '+', '5'] [',']
    ⟨['1'], ['.', '5'], ['e', '+', '5'], rfl, Or.inr ⟨'1', [], rfl, by decide, by simp⟩,
      Or.inr ⟨'5', [], rfl, by decide, by simp⟩,
      Or.inr ⟨'e', '+', '5', [], rfl, Or.inl rfl, Or.inl rfl, by decide, by simp⟩⟩
    (Or.inr ⟨',', [], rfl, by decide, by decide, by decide, by decide, by decide, by decide⟩)
    rfl

theorem scenario_run :
    ∃ σ, run scenario_input = Res.ok (true, σ) ∧
      kind_notifications σ.out
        = [(.T_ARRAY, some [QUOTE, 'x', QUOTE]), (.T_NUMBER, none), (.T_NUMBER, none)] :=
  ⟨_, rfl, rfl⟩

/-- C6 as stated fails: on the input of the scenario the kind notifications are not the
six stated ones. -/
theorem scenario_notifications_not_six :
    ¬ ∃ b σ, run scenario_input = Res.ok (b, σ) ∧
      kind_notifications σ.out
        = [(.T_ARRAY, some [QUOTE, 'x', QUOTE]), (.T_NUMBER, none), (.T_NUMBER, none),
           (.T_TRUE, none), (.T_NULL, none), (.T_STRING, some [QUOTE, 'y', QUOTE])] := by
  rintro ⟨b, σ, h, hk⟩
  obtain ⟨σ0, h0, hk0⟩ := scenario_run
  rw [h0] at h
  injection h with h
  injection h with _ hσ
  subst hσ
  rw [hk0] at hk
  exact absurd (congrArg List.length hk) (by decide)

/-- C6, amended. On the input of the scenario the run is valid and the kind notifications
are exactly ARRAY with key `"x"`, NUMBER, NUMBER: the scan of `2.5e3`, whose exponent has
no sign, fails and ends the scan of both containers.  On the same input with `2.5e+3` the
notifications are ARRAY with key `"x"`, NUMBER, NUMBER, TRUE, NULL, STRING with key `"y"`. -/
theorem scenario_notifications :
    (∃ σ, run scenario_input = Res.ok (true, σ) ∧
      kind_notifications σ.out
        = [(.T_ARRAY, some [QUOTE, 'x', QUOTE]), (.T_NUMBER, none), (.T_NUMBER, none)]) ∧
    (∃ σ, run scenario_input_signed = Res.ok (true, σ) ∧
      kind_notifications σ.out
        = [(.T_ARRAY, some [QUOTE, 'x', QUOTE]), (.T_NUMBER, none), (.T_NUMBER, none),
           (.T_TRUE, none), (.T_NULL, none), (.T_STRING, some [QUOTE, 'y', QUOTE])]) :=
  ⟨scenario_run, ⟨_, rfl, rfl⟩⟩

end JSONReader

namespace JSONReader

/-! ## Where the results of the scanners lie -/

theorem find_string_marker_loop_bounds (buf : List Char) (t : string_view)
    (ht : t.m_begin ≤ t.m_end) :
    ∀ (k i : Nat) (r : string_view), find_string_marker_loop buf t k i = Res.ok r →
      t.m_begin ≤ r.m_begin ∧ r.m_begin ≤ r.m_end ∧ r.m_end = t.m_end := by
  intro k
  induction k with
  | zero =>
    intro i r h
    simp only [find_string_marker_loop, string_view.ctor_self, Res.ok.injEq] at h
    subst h
    exact ⟨ht, Nat.le_refl _, rfl⟩
  | succ k ih =>
    intro i r h
    rw [find_string_marker_loop] at h
    simp only [Res.bind_eq, Res.bind_eq_ok] at h
    obtain ⟨c1, hc1, h⟩ := h
    split at h
    · simp only [Res.bind_eq_ok] at h
      obtain ⟨c0, hc0, h⟩ := h
      split at h
      · rw [string_view.ctor_eq_ok] at h
        obtain ⟨h1, rfl⟩ := h
        exact ⟨by simp only; omega, h1, rfl⟩
      · exact ih _ _ h
    · exact ih _ _ h

theorem find_string_marker_bounds (buf : List Char) (t r : string_view)
    (ht : t.m_begin ≤ t.m_end) (h : find_string_marker buf t = Res.ok r) :
    t.m_begin ≤ r.m_begin ∧ r.m_begin ≤ r.m_end ∧ r.m_end = t.m_end := by
  unfold find_string_marker at h
  split at h
  · simp only [Res.ok.injEq] at h
    subst h
    exact ⟨Nat.le_refl _, ht, rfl⟩
  · simp only [Res.bind_eq, Res.bind_eq_ok, Res.pure_eq] at h
    obtain ⟨c, _, h⟩ := h
    split at h
    · simp only [Res.ok.injEq] at h
      subst h
      exact ⟨Nat.le_refl _, ht, rfl⟩
    · exact find_string_marker_loop_bounds buf t ht _ _ r h

theorem find_string_bounds (buf : List Char) (t r : string_view)
    (ht : t.m_begin ≤ t.m_end) (h : find_string buf t = Res.ok r) :
    t.m_begin ≤ r.m_begin ∧ r.m_begin ≤ r.m_end ∧ r.m_end ≤ t.m_end := by
  unfold find_string at h
  simp only [Res.bind_eq, Res.bind_eq_ok, Res.pure_eq] at h
  obtain ⟨first, hfirst, h⟩ := h
  obtain ⟨f1, f2, f3⟩ := find_string_marker_bounds buf t first ht hfirst
  split at h
  · simp only [Res.ok.injEq] at h
    subst h
    exact ⟨f1, f2, by omega⟩
  · simp only [Res.bind_eq_ok, string_view.ctor_eq_ok] at h
    obtain ⟨arg, ⟨ha, rfl⟩, second, hsecond, h⟩ := h
    obtain ⟨s1, s2, s3⟩ := find_string_marker_bounds buf _ second ha hsecond
    simp only at s1 s3
    split at h
    · simp only [Res.ok.injEq] at h
      subst h
      exact ⟨by omega, s2, by omega⟩
    · rename_i hsz
      rw [string_view.ctor_eq_ok] at h
      obtain ⟨h1, rfl⟩ := h
      unfold string_view.size at hsz
      exact ⟨by simp only; omega, h1, by simp only; omega⟩

theorem find_loop_bounds (buf : List Char) (t : string_view) (c : Char) :
    ∀ (k i : Nat) (r : string_view), find_loop buf t c k i = Res.ok r → i + k = t.m_end →
      i ≤ r.m_begin ∧ r.m_begin ≤ r.m_end ∧ r.m_end = t.m_end := by
  intro k
  induction k with
  | zero =>
    intro i r h hk
    simp only [find_loop, string_view.ctor_self, Res.ok.injEq] at h
    subst h
    exact ⟨by simp only; omega, Nat.le_refl _, rfl⟩
  | succ k ih =>
    intro i r h hk
    rw [find_loop] at h
    split at h
    · rw [string_view.ctor_eq_ok] at h
      obtain ⟨h1, rfl⟩ := h
      exact ⟨Nat.le_refl _, h1, rfl⟩
    · obtain ⟨h1, h2, h3⟩ := ih (i + 1) r h (by omega)
      exact ⟨by omega, h2, h3⟩

theorem find_bounds (buf : List Char) (t r : string_view) (c : Char)
    (ht : t.m_begin ≤ t.m_end) (h : find buf t c = Res.ok r) :
    t.m_begin ≤ r.m_begin ∧ r.m_begin ≤ r.m_end ∧ r.m_end = t.m_end :=
  find_loop_bounds buf t c _ _ r h (by unfold string_view.size; omega)

theorem identify_value_loop_bounds (buf : List Char) (t : string_view) :
    ∀ (k i : Nat) (v : value), identify_value_loop buf t k i = Res.ok v → i + k = t.m_end →
      i ≤ v.start.m_begin ∧ v.start.m_begin ≤ v.start.m_end ∧ v.start.m_end = t.m_end ∧
      (v.type = .T_UNKNOWN → v.start.m_begin = t.m_end) ∧
      (v.type ≠ .T_UNKNOWN → v.start.m_begin < t.m_end ∧
        is_marker (deref buf v.start.m_begin) = true ∧
        v.type = marker_type (deref buf v.start.m_begin)) := by
  intro k
  induction k with
  | zero =>
    intro i v h hk
    simp only [identify_value_loop, string_view.ctor_self, Res.bind_eq, Res.ok_bind,
      Res.pure_eq, Res.ok.injEq] at h
    subst h
    exact ⟨by simp only; omega, Nat.le_refl _, rfl, fun _ => rfl, fun h => absurd rfl h⟩
  | succ k ih =>
    intro i v h hk
    by_cases hm : is_marker (deref buf i) = true
    · rw [identify_value_loop_hit buf t k i hm, Res.bind_eq_ok] at h
      obtain ⟨st, hst, h⟩ := h
      rw [string_view.ctor_eq_ok] at hst
      obtain ⟨h1, rfl⟩ := hst
      simp only [Res.ok.injEq] at h
      subst h
      refine ⟨Nat.le_refl _, h1, rfl, ?_, fun _ => ⟨by simp only; omega, hm, rfl⟩⟩
      intro hu
      exfalso
      simp only [marker_type] at hu
      split_ifs at hu
    · have := identify_value_loop_skip buf t k 1 i (fun j hj => by
        have : j = 0 := by omega
        subst this
        simpa using hm)
      rw [Nat.add_comm 1 k] at this
      rw [this] at h
      obtain ⟨h1, h2⟩ := ih (i + 1) v h (by omega)
      exact ⟨by omega, h2⟩

theorem identify_value_bounds (buf : List Char) (t : string_view) (v : value)
    (ht : t.m_begin ≤ t.m_end) (h : identify_value buf t = Res.ok v) :
    t.m_begin ≤ v.start.m_begin ∧ v.start.m_begin ≤ v.start.m_end ∧
      v.start.m_end = t.m_end ∧
      (v.type = .T_UNKNOWN → v.start.m_begin = t.m_end) ∧
      (v.type ≠ .T_UNKNOWN → v.start.m_begin < t.m_end ∧
        is_marker (deref buf v.start.m_begin) = true ∧
        v.type = marker_type (deref buf v.start.m_begin)) :=
  identify_value_loop_bounds buf t _ _ v h (by unfold string_view.size; omega)

theorem seek_separator_bounds (buf : List Char) (close : Char) :
    ∀ (k i : Nat), i ≤ seek_separator buf close k i ∧ seek_separator buf close k i ≤ i + k ∧
      (seek_separator buf close k i < i + k →
        deref buf (seek_separator buf close k i) = close ∨
        deref buf (seek_separator buf close k i) = ',') := by
  intro k
  induction k with
  | zero => intro i; simp [seek_separator]
  | succ k ih =>
    intro i
    rw [seek_separator]
    split
    · rename_i h
      exact ⟨Nat.le_refl _, by omega, fun _ => h⟩
    · obtain ⟨h1, h2, h3⟩ := ih (i + 1)
      exact ⟨by omega, by omega, fun hlt => h3 (by omega)⟩

end JSONReader

namespace JSONReader

theorem parse_string_lower (buf : List Char) (s : string_view) (σ : Sink)
    (x : string_view × Sink) (h : parse_string buf s σ = Res.ok x) :
    s.m_begin ≤ x.1.m_end := by
  unfold parse_string at h
  split at h
  · rename_i hsz
    simp only [Res.bind_eq, Res.bind_eq_ok, Res.pure_eq] at h
    obtain ⟨c, _, h⟩ := h
    split at h
    · simp only [Res.bind_eq_ok] at h
      obtain ⟨arg, _, e, _, h⟩ := h
      split at h
      · simp only [string_view.ctor_self, Res.ok_bind, Res.ok.injEq] at h
        subst h
        unfold string_view.size at hsz
        simp only; omega
      · simp only [Res.bind_eq_ok, string_view.ctor_eq_ok] at h
        obtain ⟨r, ⟨h1, rfl⟩, h⟩ := h
        simp only [Res.ok.injEq] at h
        subst h
        exact h1
    · exact absurd h (by simp)
  · exact absurd h (by simp)

theorem parse_number_loop_lower (buf : List Char) (s : string_view) (σ : Sink)
    (hs : s.m_begin ≤ s.m_end) :
    ∀ (k p : Nat) (state : Int) (x : string_view × Sink),
      parse_number_loop buf s σ k p state = Res.ok x → s.m_begin ≤ x.1.m_end := by
  intro k
  induction k with
  | zero =>
    intro p state x h
    simp only [parse_number_loop, Res.bind_eq, Res.bind_eq_ok, Res.pure_eq,
      string_view.ctor_eq_ok] at h
    obtain ⟨r, ⟨h1, rfl⟩, h⟩ := h
    simp only [Res.ok.injEq] at h
    subst h
    exact h1
  | succ k ih =>
    intro p state x h
    rw [parse_number_loop] at h
    split at h
    · simp only [Res.bind_eq, Res.bind_eq_ok, Res.pure_eq] at h
      obtain ⟨st, _, h⟩ := h
      split at h
      · simp only [string_view.ctor_self, Res.bind_eq_ok, Res.ok.injEq] at h
        obtain ⟨r, rfl, h⟩ := h
        subst h
        exact hs
      · exact ih _ _ x h
    · simp only [Res.bind_eq, Res.bind_eq_ok, Res.pure_eq, string_view.ctor_eq_ok] at h
      obtain ⟨r, ⟨h1, rfl⟩, h⟩ := h
      simp only [Res.ok.injEq] at h
      subst h
      exact h1

theorem parse_number_lower (buf : List Char) (s : string_view) (σ : Sink)
    (x : string_view × Sink) (hs : s.m_begin ≤ s.m_end) (h : parse_number buf s σ = Res.ok x) :
    s.m_begin ≤ x.1.m_end :=
  parse_number_loop_lower buf s σ hs _ _ _ x h

theorem parse_literal_lower (cs : List Char) (n : Nat) (first : Char) (buf : List Char)
    (s : string_view) (σ : Sink) (x : string_view × Sink)
    (h : parse_literal cs n first buf s σ = Res.ok x) :
    s.m_begin ≤ x.1.m_end := by
  unfold parse_literal at h
  split at h
  · rename_i hsz
    simp only [Res.bind_eq, Res.bind_eq_ok, Res.pure_eq] at h
    obtain ⟨c, _, h⟩ := h
    split at h
    · simp only [Res.bind_eq_ok] at h
      obtain ⟨csv, _, h⟩ := h
      have hse : s.m_begin ≤ s.m_end := by unfold string_view.size at hsz; omega
      split at h
      · simp only [Res.bind_eq_ok] at h
        obtain ⟨arg, _, eq, _, h⟩ := h
        split at h
        · simp only [Res.bind_eq_ok, string_view.ctor_eq_ok] at h
          obtain ⟨r, ⟨h1, rfl⟩, h⟩ := h
          simp only [Res.ok.injEq] at h
          subst h
          exact h1
        · simp only [string_view.ctor_self, Res.ok_bind, Res.ok.injEq] at h
          subst h
          exact hse
      · simp only [string_view.ctor_self, Res.ok_bind, Res.ok.injEq] at h
        subst h
        exact hse
    · exact absurd h (by simp)
  · exact absurd h (by simp)

/-- The last steps of `parse_object`: what is returned for the `string_i` the loop is
left with. -/
theorem parse_object_fuel_eq (buf : List Char) (fuel : Nat) (s : string_view) (σ : Sink)
    (x : string_view × Sink) (h : parse_object_fuel buf (fuel + 1) s σ = Res.ok x) :
    s.m_begin < s.m_end ∧ deref buf s.m_begin = LBRACE ∧
    ∃ si σ1, parse_object_loop buf s fuel s σ = Res.ok (si, σ1) ∧ x.2 = leave σ1 ∧
      ((si.size ≠ 0 ∧ deref buf si.m_begin = RBRACE ∧ s.m_begin ≤ si.m_begin + 1 ∧
          x.1 = ⟨s.m_begin, si.m_begin + 1⟩) ∨
       (¬ (si.size ≠ 0 ∧ deref buf si.m_begin = RBRACE) ∧ x.1 = s)) := by
  rw [parse_object_fuel] at h
  split at h
  · rename_i hsz
    have hlt : s.m_begin < s.m_end := by unfold string_view.size at hsz; omega
    simp only [Res.bind_eq, Res.pure_eq, string_view.at_ok hsz, Res.ok_bind, Nat.add_zero] at h
    split at h
    · rename_i hc
      refine ⟨hlt, hc, ?_⟩
      simp only [Res.bind_eq_ok] at h
      obtain ⟨⟨si, σ1⟩, hloop, h⟩ := h
      refine ⟨si, σ1, hloop, ?_⟩
      simp only at h
      split at h
      · rename_i h0
        simp only [string_view.ctor_ok (Nat.le_of_lt hlt), Res.ok_bind, Res.ok.injEq] at h
        subst h
        exact ⟨rfl, Or.inr ⟨fun hh => hh.1 h0, rfl⟩⟩
      · rename_i h0
        simp only [string_view.at_ok (Nat.pos_of_ne_zero h0), Res.ok_bind, Nat.add_zero] at h
        split at h
        · rename_i hne
          simp only [string_view.ctor_ok (Nat.le_of_lt hlt), Res.ok_bind, Res.ok.injEq] at h
          subst h
          exact ⟨rfl, Or.inr ⟨fun hh => hne hh.2, rfl⟩⟩
        · rename_i heq
          simp only [ne_eq, not_not] at heq
          simp only [heq, if_true, Res.bind_eq_ok, string_view.ctor_eq_ok] at h
          obtain ⟨r, ⟨h1, rfl⟩, h⟩ := h
          simp only [Res.ok.injEq] at h
          subst h
          exact ⟨rfl, Or.inl ⟨h0, heq, h1, rfl⟩⟩
    · exact absurd h (by simp)
  · exact absurd h (by simp)

end JSONReader

namespace JSONReader

/-- The last steps of `parse_array`: what is returned for the `string_i` the loop is
left with. -/
theorem parse_array_fuel_eq (buf : List Char) (fuel : Nat) (s : string_view) (σ : Sink)
    (x : string_view × Sink) (h : parse_array_fuel buf (fuel + 1) s σ = Res.ok x) :
    s.m_begin < s.m_end ∧ deref buf s.m_begin = '[' ∧
    ∃ si σ1, parse_array_loop buf s fuel s σ = Res.ok (si, σ1) ∧ x.2 = leave σ1 ∧
      ((si.size ≠ 0 ∧ deref buf si.m_begin = ']' ∧ s.m_begin ≤ si.m_begin + 1 ∧
          x.1 = ⟨s.m_begin, si.m_begin + 1⟩) ∨
       (¬ (si.size ≠ 0 ∧ deref buf si.m_begin = ']') ∧ x.1 = s)) := by
  rw [parse_array_fuel] at h
  split at h
  · rename_i hsz
    have hlt : s.m_begin < s.m_end := by unfold string_view.size at hsz; omega
    simp only [Res.bind_eq, Res.pure_eq, string_view.at_ok hsz, Res.ok_bind, Nat.add_zero] at h
    split at h
    · rename_i hc
      refine ⟨hlt, hc, ?_⟩
      simp only [Res.bind_eq_ok] at h
      obtain ⟨⟨si, σ1⟩, hloop, h⟩ := h
      refine ⟨si, σ1, hloop, ?_⟩
      simp only at h
      split at h
      · rename_i h0
        simp only [string_view.ctor_ok (Nat.le_of_lt hlt), Res.ok_bind, Res.ok.injEq] at h
        subst h
        exact ⟨rfl, Or.inr ⟨fun hh => hh.1 h0, rfl⟩⟩
      · rename_i h0
        simp only [string_view.at_ok (Nat.pos_of_ne_zero h0), Res.ok_bind, Nat.add_zero] at h
        split at h
        · rename_i hne
          simp only [string_view.ctor_ok (Nat.le_of_lt hlt), Res.ok_bind, Res.ok.injEq] at h
          subst h
          exact ⟨rfl, Or.inr ⟨fun hh => hne hh.2, rfl⟩⟩
        · rename_i heq
          simp only [ne_eq, not_not] at heq
          simp only [heq, if_true, Res.bind_eq_ok, string_view.ctor_eq_ok] at h
          obtain ⟨r, ⟨h1, rfl⟩, h⟩ := h
          simp only [Res.ok.injEq] at h
          subst h
          exact ⟨rfl, Or.inl ⟨h0, heq, h1, rfl⟩⟩
    · exact absurd h (by simp)
  · exact absurd h (by simp)

theorem parse_object_fuel_lower (buf : List Char) (n : Nat) (s : string_view) (σ : Sink)
    (x : string_view × Sink) (h : parse_object_fuel buf n s σ = Res.ok x) :
    s.m_begin ≤ x.1.m_end := by
  cases n with
  | zero => simp [parse_object_fuel] at h
  | succ n =>
    obtain ⟨hlt, _, si, σ1, _, _, h | h⟩ := parse_object_fuel_eq buf n s σ x h
    · rw [h.2.2.2]; exact h.2.2.1
    · rw [h.2]; exact Nat.le_of_lt hlt

theorem parse_array_fuel_lower (buf : List Char) (n : Nat) (s : string_view) (σ : Sink)
    (x : string_view × Sink) (h : parse_array_fuel buf n s σ = Res.ok x) :
    s.m_begin ≤ x.1.m_end := by
  cases n with
  | zero => simp [parse_array_fuel] at h
  | succ n =>
    obtain ⟨hlt, _, si, σ1, _, _, h | h⟩ := parse_array_fuel_eq buf n s σ x h
    · rw [h.2.2.2]; exact h.2.2.1
    · rw [h.2]; exact Nat.le_of_lt hlt

theorem parse_value_lower (po pa : string_view → Sink → Res (string_view × Sink))
    (hpo : ∀ s σ x, po s σ = Res.ok x → s.m_begin ≤ x.1.m_end)
    (hpa : ∀ s σ x, pa s σ = Res.ok x → s.m_begin ≤ x.1.m_end)
    (buf : List Char) (string : string_view) (v : value) (σ : Sink)
    (x : string_view × Sink) (hv : v.start.m_begin ≤ v.start.m_end)
    (h : parse_value po pa buf string v σ = Res.ok x) :
    v.start.m_begin ≤ x.1.m_end := by
  unfold parse_value at h
  split at h
  · exact parse_string_lower buf _ σ x h
  · exact parse_number_lower buf _ σ x hv h
  · exact hpo _ _ x h
  · exact hpa _ _ x h
  · exact parse_literal_lower _ _ _ buf _ σ x h
  · exact parse_literal_lower _ _ _ buf _ σ x h
  · exact parse_literal_lower _ _ _ buf _ σ x h
  · simp only [Res.bind_eq, Res.bind_eq_ok, Res.pure_eq, string_view.ctor_eq_ok] at h
    obtain ⟨r, ⟨h1, rfl⟩, h⟩ := h
    simp only [Res.ok.injEq] at h
    subst h
    exact h1

/-- The loop of `parse_object` moves its cursor `string_i` forward only and keeps its
end. -/
theorem parse_object_loop_bounds (buf : List Char) (string : string_view) :
    ∀ (fuel : Nat) (si : string_view) (σ : Sink) (x : string_view × Sink),
      parse_object_loop buf string fuel si σ = Res.ok x → si.m_begin ≤ si.m_end →
      si.m_begin ≤ x.1.m_begin ∧ x.1.m_begin ≤ x.1.m_end ∧ x.1.m_end = si.m_end := by
  intro fuel
  induction fuel with
  | zero => intro si σ x h; simp [parse_object_loop] at h
  | succ fuel ih =>
    intro si σ x h hsi
    rw [parse_object_loop] at h
    split at h
    · rename_i hsz
      unfold string_view.size at hsz
      simp only [Res.bind_eq, Res.pure_eq, Res.bind_eq_ok, string_view.ctor_eq_ok] at h
      obtain ⟨arg, ⟨ha, rfl⟩, name, hname, si1, ⟨h1, rfl⟩, sep, hsep, h⟩ := h
      obtain ⟨n1, n2, n3⟩ := find_string_bounds buf _ name ha hname
      obtain ⟨p1, p2, p3⟩ := find_bounds buf _ sep ':' h1 hsep
      simp only at n1 n3 p1 p3
      split at h
      · simp only [string_view.ctor_self, Res.ok_bind, Res.ok.injEq] at h
        subst h
        exact ⟨by simp only; omega, Nat.le_refl _, rfl⟩
      · simp only [Res.bind_eq_ok, string_view.ctor_eq_ok] at h
        obtain ⟨si2, ⟨h2, rfl⟩, v, hv, vb, hvb, si3, ⟨h3, rfl⟩, si4, ⟨h4, rfl⟩, h⟩ := h
        obtain ⟨v1, v2, v3, _⟩ := identify_value_bounds buf _ v h2 hv
        simp only at v1 v3
        have hlow := parse_value_lower _ _ (parse_object_fuel_lower buf fuel)
          (parse_array_fuel_lower buf fuel) buf string v _ vb v2 hvb
        have hseek := (seek_separator_bounds buf RBRACE
          (string_view.size ⟨vb.1.m_end, si.m_end⟩) vb.1.m_end).1
        simp only at h hseek
        split at h
        · simp only [Res.ok.injEq] at h
          subst h
          exact ⟨by simp only; omega, h4, rfl⟩
        · simp only [Res.bind_eq_ok] at h
          obtain ⟨c, _, h⟩ := h
          split at h
          · simp only [Res.ok.injEq] at h
            subst h
            exact ⟨by simp only; omega, h4, rfl⟩
          · simp only [Res.bind_eq_ok] at h
            obtain ⟨c2, _, h⟩ := h
            split at h
            · simp only [Res.bind_eq_ok, string_view.ctor_eq_ok] at h
              obtain ⟨si5, ⟨h5, rfl⟩, h⟩ := h
              obtain ⟨r1, r2, r3⟩ := ih _ _ x h h5
              simp only at r1 r3
              exact ⟨by omega, r2, r3⟩
            · exact absurd h (by simp)
    · simp only [Res.pure_eq, Res.ok.injEq] at h
      subst h
      exact ⟨Nat.le_refl _, hsi, rfl⟩

end JSONReader

namespace JSONReader

/-! ## The validator -/

theorem parse_object_fuel_of_loop (buf : List Char) (fuel : Nat) (s si : string_view)
    (σ σ1 : Sink) (hlt : s.m_begin < s.m_end) (hc : deref buf s.m_begin = LBRACE)
    (hloop : parse_object_loop buf s fuel s σ = Res.ok (si, σ1))
    (hle : s.m_begin ≤ si.m_begin + 1) :
    parse_object_fuel buf (fuel + 1) s σ
      = Res.ok (if si.size ≠ 0 ∧ deref buf si.m_begin = RBRACE
          then ⟨s.m_begin, si.m_begin + 1⟩ else s, leave σ1) := by
  have hsz : s.size > 0 := by unfold string_view.size; omega
  rw [parse_object_fuel]
  simp only [hsz, if_true, Res.bind_eq, Res.pure_eq, string_view.at_ok hsz, Res.ok_bind,
    Nat.add_zero, hc, hloop]
  by_cases h0 : si.size = 0
  · simp [h0, string_view.ctor_ok (Nat.le_of_lt hlt)]
  · simp only [h0, if_false, string_view.at_ok (Nat.pos_of_ne_zero h0), Res.ok_bind,
      Nat.add_zero, ne_eq, not_false_eq_true, true_and]
    by_cases h1 : deref buf si.m_begin = RBRACE
    · simp [h1, string_view.ctor_ok hle]
    · simp [h1, string_view.ctor_ok (Nat.le_of_lt hlt)]

theorem marker_type_object {c : Char} (h : marker_type c = .T_OBJECT) : c = LBRACE := by
  unfold marker_type at h
  split_ifs at h
  assumption

/-- What `identify_value` found when it reports an object. -/
theorem identify_value_object (buf : List Char) (start : string_view)
    (h : identify_value buf ⟨0, buf.length⟩ = Res.ok ⟨.T_OBJECT, start⟩) :
    start.m_begin < start.m_end ∧ start.m_end = buf.length ∧
      deref buf start.m_begin = LBRACE := by
  obtain ⟨_, _, h3, _, h5⟩ := identify_value_bounds buf _ _ (Nat.zero_le _) h
  obtain ⟨h6, _, h8⟩ := h5 (by simp)
  simp only at h3 h6 h8
  exact ⟨by omega, h3, marker_type_object h8.symm⟩

/-- The value of `init_recursive_test` when an object is classified, from the `string_i`
its scan is left with. -/
theorem run_of_object_scan (buf : List Char) (start si : string_view) (σ1 : Sink)
    (hid : identify_value buf ⟨0, buf.length⟩ = Res.ok ⟨.T_OBJECT, start⟩)
    (hscan : object_scan buf start = Res.ok (si, σ1)) :
    run buf = Res.ok (decide (on_success_path buf si ∨ deref buf (buf.length - 1) = RBRACE),
      leave σ1) := by
  obtain ⟨hlt, hend, hc⟩ := identify_value_object buf start hid
  unfold object_scan budget at hscan
  rw [show 2 * start.size + 2 - 1 = 2 * start.size + 1 by omega] at hscan
  obtain ⟨b1, _, b3⟩ := parse_object_loop_bounds buf start _ _ _ _ hscan (Nat.le_of_lt hlt)
  simp only at b1 b3
  have hfuel := parse_object_fuel_of_loop buf _ start si _ σ1 hlt hc hscan (by omega)
  unfold run init_recursive_test parse_object budget
  simp only [Nat.zero_add, string_view.ctor_ok (Nat.zero_le _), Res.bind_eq, Res.ok_bind, hid,
    ne_eq, not_true_eq_false, if_false, hfuel, Res.pure_eq]
  unfold on_success_path
  by_cases hs : si.size ≠ 0 ∧ deref buf si.m_begin = RBRACE
  · have h1 : ¬ (string_view.size ⟨start.m_begin, si.m_begin + 1⟩ = 0) := by
      unfold string_view.size; simp only; omega
    simp [hs, h1]
  · have h1 : ¬ (start.size = 0) := by unfold string_view.size; omega
    simp only [hs, if_false, h1, hend, true_and, false_or]

/-- C2 as stated fails: on an opening brace, `x`, a closing brace the scan of the object
is left as malformed (no `:` is found, `string_i` is empty), and `validate` returns
`true`. -/
theorem validate_true_on_malformed_object :
    validate malformed_object_input = Res.ok true ∧
      identify_value malformed_object_input ⟨0, malformed_object_input.length⟩
        = Res.ok ⟨.T_OBJECT, ⟨0, 3⟩⟩ ∧
      ∃ si σ, object_scan malformed_object_input ⟨0, 3⟩ = Res.ok (si, σ) ∧
        ¬ on_success_path malformed_object_input si :=
  ⟨rfl, rfl, ⟨3, 3⟩, _, rfl, by unfold on_success_path; decide⟩

/-- When `validate` returns `true`: an object is classified, its scan returns, and it
ended on the success path or the buffer ends with a closing brace. -/
theorem validate_true_cases (buf : List Char) (h : validate buf = Res.ok true) :
    ∃ start, identify_value buf ⟨0, buf.length⟩ = Res.ok ⟨.T_OBJECT, start⟩ ∧
      ∃ si σ, object_scan buf start = Res.ok (si, σ) ∧
        (on_success_path buf si ∨ deref buf (buf.length - 1) = RBRACE) := by
  unfold validate run init_recursive_test at h
  simp only [Nat.zero_add, string_view.ctor_ok (Nat.zero_le _), Res.bind_eq, Res.ok_bind,
    Res.pure_eq, Res.bind_eq_ok] at h
  obtain ⟨⟨b, σ⟩, ⟨v, hv, h⟩, hb⟩ := h
  simp only [Res.ok.injEq] at hb
  subst hb
  split at h
  · simp at h
  · rename_i hty
    simp only [ne_eq, not_not] at hty
    have hid : identify_value buf ⟨0, buf.length⟩ = Res.ok ⟨.T_OBJECT, v.start⟩ := by
      rw [hv, ← hty]
    simp only [Res.bind_eq_ok] at h
    obtain ⟨⟨r, σ2⟩, hpo, h⟩ := h
    unfold parse_object budget at hpo
    obtain ⟨_, _, si, σ1, hloop, _, _⟩ := parse_object_fuel_eq buf _ _ _ _ hpo
    have hscan : object_scan buf v.start = Res.ok (si, σ1) := by
      unfold object_scan budget
      rw [show 2 * v.start.size + 2 - 1 = 2 * v.start.size + 1 by omega]
      exact hloop
    refine ⟨v.start, hid, si, σ1, hscan, ?_⟩
    have hrun := run_of_object_scan buf v.start si σ1 hid hscan
    have hrun2 : run buf = Res.ok (true, σ) := by
      unfold run init_recursive_test
      simp only [Nat.zero_add, string_view.ctor_ok (Nat.zero_le _), Res.bind_eq, Res.ok_bind,
        Res.pure_eq, hv, hty, ne_eq, not_true_eq_false, if_false]
      unfold parse_object budget
      rw [hpo]
      exact h
    rw [hrun] at hrun2
    simp only [Res.ok.injEq, Prod.mk.injEq, decide_eq_true_eq] at hrun2
    exact hrun2.1

/-- C2, amended. `validate` returns `true` exactly when the classified kind is Object, the
scan of `parse_object` returns, and either it ended on its success path (its loop is left
on the closing brace of the object) or the last character of the buffer is a closing
brace: the two checks of `init_recursive_test` do not tell the failure sentinel (the
original span) from a success when the buffer ends with a closing brace. -/
theorem validate_true_iff (buf : List Char) :
    validate buf = Res.ok true ↔
      ∃ start, identify_value buf ⟨0, buf.length⟩ = Res.ok ⟨.T_OBJECT, start⟩ ∧
        ∃ si σ, object_scan buf start = Res.ok (si, σ) ∧
          (on_success_path buf si ∨ deref buf (buf.length - 1) = RBRACE) := by
  constructor
  · exact validate_true_cases buf
  · rintro ⟨start, hid, si, σ, hscan, h⟩
    unfold validate
    rw [run_of_object_scan buf start si σ hid hscan]
    simp [Res.bind_eq, Res.pure_eq, h]

/-- C4 as stated fails: the text of a valid object without its final closing brace, here
the object with the member `"a"` that holds the object with the member `"b":1`, still
ends with the closing brace of the inner object, and `validate` returns `true`. -/
theorem validate_true_without_final_brace :
    validate missing_outer_brace_input = Res.ok true := rfl

/-- A buffer that holds no closing brace is never reported valid. -/
theorem validate_ne_true_of_no_brace (buf : List Char) (h : RBRACE ∉ buf) :
    validate buf ≠ Res.ok true := by
  intro hv
  obtain ⟨start, hid, si, σ, hscan, hs⟩ := validate_true_cases buf hv
  obtain ⟨hlt, hend, _⟩ := identify_value_object buf start hid
  rcases hs with ⟨hsz, hc⟩ | hc
  · unfold object_scan at hscan
    obtain ⟨_, _, b3⟩ := parse_object_loop_bounds buf start _ _ _ _ hscan (Nat.le_of_lt hlt)
    simp only at b3
    unfold string_view.size at hsz
    exact h (hc ▸ deref_mem buf (by omega))
  · exact h (hc ▸ deref_mem buf (by omega))

end JSONReader

namespace JSONReader

/-! ## Scanning a buffer that is extended at its end

The scanners are run on a span that ends at `e` in `buf`, and on the span with the same
start that ends at `e2 ≥ e` in `buf2`, which agrees with `buf` below `e`.  A result that
was found strictly before `e` is found again. -/

theorem text_agree {buf buf2 : List Char} {e : Nat} (hag : agree buf buf2 e) (r : string_view)
    (hr : r.m_end ≤ e) : r.text buf = r.text buf2 := by
  unfold string_view.text
  apply List.map_congr_left
  intro k hk
  rw [List.mem_range] at hk
  unfold string_view.size at hk
  exact hag _ (by omega)

theorem print_content_agree {buf buf2 : List Char} {e : Nat} (hag : agree buf buf2 e)
    (r : string_view) (σ : Sink) (hr : r.m_end ≤ e) :
    print_content buf r σ = print_content buf2 r σ := by
  unfold print_content
  rw [text_agree hag r hr]

theorem identify_value_loop_ext {buf buf2 : List Char} {e e2 : Nat} (hag : agree buf buf2 e)
    (hle : e ≤ e2) (b0 b2 : Nat) :
    ∀ (k k2 i : Nat) (v : value), i + k = e → i + k2 = e2 →
      identify_value_loop buf ⟨b0, e⟩ k i = Res.ok v → v.start.m_begin < e →
      identify_value_loop buf2 ⟨b2, e2⟩ k2 i = Res.ok ⟨v.type, ⟨v.start.m_begin, e2⟩⟩ := by
  intro k
  induction k with
  | zero =>
    intro k2 i v hk _ h hlt
    simp only [identify_value_loop, string_view.ctor_self, Res.bind_eq, Res.ok_bind,
      Res.pure_eq, Res.ok.injEq] at h
    subst h
    simp only at hlt
    omega
  | succ k ih =>
    intro k2 i v hk hk2 h hlt
    obtain ⟨k3, rfl⟩ : ∃ k3, k2 = k3 + 1 := ⟨k2 - 1, by omega⟩
    have hd : deref buf2 i = deref buf i := (hag i (by omega)).symm
    by_cases hm : is_marker (deref buf i) = true
    · rw [identify_value_loop_hit buf _ k i hm, Res.bind_eq_ok] at h
      obtain ⟨st, hst, h⟩ := h
      rw [string_view.ctor_eq_ok] at hst
      obtain ⟨h1, rfl⟩ := hst
      simp only [Res.ok.injEq] at h
      subst h
      rw [identify_value_loop_hit buf2 _ k3 i (by rw [hd]; exact hm), hd,
        string_view.ctor_ok (by simp only; omega)]
      rfl
    · have hs1 := identify_value_loop_skip buf ⟨b0, e⟩ k 1 i (fun j hj => by
        have : j = 0 := by omega
        subst this
        simpa using hm)
      have hs2 := identify_value_loop_skip buf2 ⟨b2, e2⟩ k3 1 i (fun j hj => by
        have : j = 0 := by omega
        subst this
        rw [Nat.add_zero, hd]
        simpa using hm)
      rw [Nat.add_comm 1 k] at hs1
      rw [Nat.add_comm 1 k3] at hs2
      rw [hs1] at h
      rw [hs2]
      exact ih k3 (i + 1) v (by omega) (by omega) h hlt

theorem identify_value_ext {buf buf2 : List Char} {e e2 : Nat} (hag : agree buf buf2 e)
    (hle : e ≤ e2) (b : Nat) (v : value) (h : identify_value buf ⟨b, e⟩ = Res.ok v)
    (hlt : v.start.m_begin < e) :
    identify_value buf2 ⟨b, e2⟩ = Res.ok ⟨v.type, ⟨v.start.m_begin, e2⟩⟩ := by
  unfold identify_value at h ⊢
  have hb : b ≤ e := by
    by_contra hcon
    simp only [string_view.size, show e - b = 0 by omega, identify_value_loop,
      string_view.ctor_self, Res.bind_eq, Res.ok_bind, Res.pure_eq, Res.ok.injEq] at h
    subst h
    simp only at hlt
    omega
  exact identify_value_loop_ext hag hle b b _ _ b v (by simp only [string_view.size]; omega)
    (by simp only [string_view.size]; omega) h hlt

theorem find_loop_ext {buf buf2 : List Char} {e e2 : Nat} (hag : agree buf buf2 e)
    (hle : e ≤ e2) (b0 b2 : Nat) (c : Char) :
    ∀ (k k2 i : Nat) (r : string_view), i + k = e → i + k2 = e2 →
      find_loop buf ⟨b0, e⟩ c k i = Res.ok r → r.m_begin < e →
      find_loop buf2 ⟨b2, e2⟩ c k2 i = Res.ok ⟨r.m_begin, e2⟩ := by
  intro k
  induction k with
  | zero =>
    intro k2 i r hk _ h hlt
    simp only [find_loop, string_view.ctor_self, Res.ok.injEq] at h
    subst h
    simp only at hlt
    omega
  | succ k ih =>
    intro k2 i r hk hk2 h hlt
    obtain ⟨k3, rfl⟩ : ∃ k3, k2 = k3 + 1 := ⟨k2 - 1, by omega⟩
    have hd : deref buf2 i = deref buf i := (hag i (by omega)).symm
    rw [find_loop] at h ⊢
    rw [hd]
    split at h
    · rename_i hc
      rw [string_view.ctor_eq_ok] at h
      obtain ⟨h1, rfl⟩ := h
      rw [if_pos hc]
      exact string_view.ctor_ok (by simp only; omega)
    · rename_i hc
      rw [if_neg hc]
      exact ih k3 (i + 1) r (by omega) (by omega) h hlt

theorem find_ext {buf buf2 : List Char} {e e2 : Nat} (hag : agree buf buf2 e)
    (hle : e ≤ e2) (b : Nat) (c : Char) (r : string_view)
    (h : find buf ⟨b, e⟩ c = Res.ok r) (hlt : r.m_begin < e) :
    find buf2 ⟨b, e2⟩ c = Res.ok ⟨r.m_begin, e2⟩ := by
  unfold find at h ⊢
  have hb : b ≤ e := by
    by_contra hcon
    simp only [string_view.size, show e - b = 0 by omega, find_loop,
      string_view.ctor_self, Res.ok.injEq] at h
    subst h
    simp only at hlt
    omega
  exact find_loop_ext hag hle b b c _ _ b r (by simp only [string_view.size]; omega)
    (by simp only [string_view.size]; omega) h hlt

theorem seek_separator_ext {buf buf2 : List Char} {e : Nat} (hag : agree buf buf2 e)
    (close : Char) :
    ∀ (k k2 i : Nat), i + k = e → k ≤ k2 → seek_separator buf close k i < e →
      seek_separator buf2 close k2 i = seek_separator buf close k i := by
  intro k
  induction k with
  | zero =>
    intro k2 i hk _ h
    simp only [seek_separator] at h
    omega
  | succ k ih =>
    intro k2 i hk hk2 h
    obtain ⟨k3, rfl⟩ : ∃ k3, k2 = k3 + 1 := ⟨k2 - 1, by omega⟩
    have hd : deref buf2 i = deref buf i := (hag i (by omega)).symm
    rw [seek_separator] at h ⊢
    rw [seek_separator, hd]
    split
    · rfl
    · rename_i hc
      simp only [hc, if_false] at h
      exact ih k3 (i + 1) (by omega) (by omega) h

end JSONReader

namespace JSONReader

theorem find_string_marker_loop_ext {buf buf2 : List Char} {e e2 : Nat}
    (hag : agree buf buf2 e) (hle : e ≤ e2) (tb : Nat) :
    ∀ (k k2 i : Nat) (r : string_view), tb + i + k + 1 = e → tb + i + k2 + 1 = e2 →
      find_string_marker_loop buf ⟨tb, e⟩ k i = Res.ok r → r.m_begin < e →
      find_string_marker_loop buf2 ⟨tb, e2⟩ k2 i = Res.ok ⟨r.m_begin, e2⟩ := by
  intro k
  induction k with
  | zero =>
    intro k2 i r hk _ h hlt
    simp only [find_string_marker_loop, string_view.ctor_self, Res.ok.injEq] at h
    subst h
    simp only at hlt
    omega
  | succ k ih =>
    intro k2 i r hk hk2 h hlt
    obtain ⟨k3, rfl⟩ : ∃ k3, k2 = k3 + 1 := ⟨k2 - 1, by omega⟩
    have hs1 : i + 1 < string_view.size ⟨tb, e⟩ := by simp only [string_view.size]; omega
    have hs2 : i + 1 < string_view.size ⟨tb, e2⟩ := by simp only [string_view.size]; omega
    have hd1 : deref buf2 (tb + (i + 1)) = deref buf (tb + (i + 1)) :=
      (hag _ (by omega)).symm
    have hd0 : deref buf2 (tb + i) = deref buf (tb + i) := (hag _ (by omega)).symm
    rw [find_string_marker_loop] at h ⊢
    simp only [Res.bind_eq, string_view.at_ok hs1, string_view.at_ok hs2,
      string_view.at_ok (Nat.lt_of_succ_lt hs1), string_view.at_ok (Nat.lt_of_succ_lt hs2),
      Res.ok_bind, hd1, hd0] at h ⊢
    split at h
    · rename_i hc1
      rw [if_pos hc1]
      split at h
      · rename_i hc0
        rw [if_pos hc0]
        rw [string_view.ctor_eq_ok] at h
        obtain ⟨h1, rfl⟩ := h
        exact string_view.ctor_ok (by omega)
      · rename_i hc0
        rw [if_neg hc0]
        exact ih k3 (i + 1) r (by omega) (by omega) h hlt
    · rename_i hc1
      rw [if_neg hc1]
      exact ih k3 (i + 1) r (by omega) (by omega) h hlt

theorem find_string_marker_ext {buf buf2 : List Char} {e e2 : Nat}
    (hag : agree buf buf2 e) (hle : e ≤ e2) (tb : Nat) (r : string_view)
    (h : find_string_marker buf ⟨tb, e⟩ = Res.ok r) (hlt : r.m_begin < e) :
    find_string_marker buf2 ⟨tb, e2⟩ = Res.ok ⟨r.m_begin, e2⟩ := by
  unfold find_string_marker at h ⊢
  split at h
  · rename_i hsz
    simp only [Res.ok.injEq] at h
    subst h
    simp only [string_view.size] at hsz hlt
    omega
  · rename_i hsz
    have hsz1 : 0 < string_view.size ⟨tb, e⟩ := Nat.pos_of_ne_zero hsz
    have hsz2 : 0 < string_view.size ⟨tb, e2⟩ := by
      simp only [string_view.size] at hsz1 ⊢; omega
    have hd : deref buf2 tb = deref buf tb :=
      (hag _ (by simp only [string_view.size] at hsz1; omega)).symm
    simp only [Res.bind_eq, string_view.at_ok hsz1, string_view.at_ok hsz2, Res.ok_bind,
      Nat.add_zero, Res.pure_eq, Nat.ne_of_gt hsz2, if_false, hd] at h ⊢
    split at h
    · rename_i hc
      rw [if_pos hc]
      simp only [Res.ok.injEq] at h
      subst h
      rfl
    · rename_i hc
      rw [if_neg hc]
      simp only [string_view.size] at hsz1 hsz2 h ⊢
      exact find_string_marker_loop_ext hag hle tb _ _ 0 r (by omega) (by omega) h hlt

theorem find_string_marker_end (buf : List Char) (t r : string_view)
    (h : find_string_marker buf t = Res.ok r) : r.m_end = t.m_end := by
  by_cases ht : t.m_begin ≤ t.m_end
  · exact (find_string_marker_bounds buf t r ht h).2.2
  · unfold find_string_marker at h
    simp only [string_view.size, show t.m_end - t.m_begin = 0 by omega, if_true,
      Res.ok.injEq] at h
    rw [← h]

theorem find_string_ext {buf buf2 : List Char} {e e2 : Nat}
    (hag : agree buf buf2 e) (hle : e ≤ e2) (b : Nat) (r : string_view)
    (h : find_string buf ⟨b, e⟩ = Res.ok r) (hlt : r.m_end < e) :
    find_string buf2 ⟨b, e2⟩ = Res.ok r := by
  unfold find_string at h ⊢
  simp only [Res.bind_eq, Res.bind_eq_ok, Res.pure_eq] at h
  obtain ⟨first, hfirst, h⟩ := h
  have hfe := find_string_marker_end buf _ first hfirst
  simp only at hfe
  split at h
  · simp only [Res.ok.injEq] at h
    subst h
    omega
  · rename_i hsz
    simp only [string_view.size] at hsz
    simp only [Res.bind_eq_ok, string_view.ctor_eq_ok] at h
    obtain ⟨arg, ⟨_, rfl⟩, second, hsecond, h⟩ := h
    have hse := find_string_marker_end buf _ second hsecond
    simp only at hse
    rw [hfe] at hsecond
    split at h
    · simp only [Res.ok.injEq] at h
      subst h
      omega
    · rename_i hsz2
      simp only [string_view.size] at hsz2
      rw [string_view.ctor_eq_ok] at h
      obtain ⟨h1, rfl⟩ := h
      have hf2 := find_string_marker_ext hag hle b first hfirst (by omega)
      have hs2 := find_string_marker_ext hag hle _ second hsecond (by omega)
      simp only [Res.bind_eq, Res.pure_eq, hf2, Res.ok_bind, string_view.size,
        show ¬ (e2 - first.m_begin = 0) by omega, if_false,
        string_view.ctor_ok (show first.m_begin + 1 ≤ e2 by omega), hs2,
        show ¬ (e2 - second.m_begin = 0) by omega, string_view.ctor_ok h1]

end JSONReader

namespace JSONReader

theorem parse_string_ext {buf buf2 : List Char} {e e2 : Nat}
    (hag : agree buf buf2 e) (hle : e ≤ e2) (b : Nat) (σ : Sink) (x : string_view × Sink)
    (h : parse_string buf ⟨b, e⟩ σ = Res.ok x) (hlt : x.1.m_end < e) :
    parse_string buf2 ⟨b, e2⟩ σ = Res.ok x := by
  unfold parse_string at h ⊢
  split at h
  · rename_i hsz
    have hsz1 : 0 < string_view.size ⟨b, e⟩ := Nat.pos_of_ne_zero hsz
    have hsz2 : 0 < string_view.size ⟨b, e2⟩ := by
      simp only [string_view.size] at hsz1 ⊢; omega
    have hd : deref buf2 b = deref buf b :=
      (hag _ (by simp only [string_view.size] at hsz1; omega)).symm
    simp only [Res.bind_eq, string_view.at_ok hsz1, string_view.at_ok hsz2, Res.ok_bind,
      Nat.add_zero, Res.pure_eq, ne_eq, Nat.ne_of_gt hsz2, not_false_eq_true, if_true, hd]
      at h ⊢
    split at h
    · rename_i hc
      rw [if_pos hc]
      simp only [Res.bind_eq_ok, string_view.ctor_eq_ok] at h
      obtain ⟨arg, ⟨ha, rfl⟩, en, hen, h⟩ := h
      have hee := find_string_marker_end buf _ en hen
      simp only at hee
      split at h
      · simp only [string_view.ctor_self, Res.ok_bind, Res.ok.injEq] at h
        subst h
        simp only at hlt
        omega
      · rename_i hsz3
        simp only [string_view.size] at hsz3
        simp only [Res.bind_eq_ok, string_view.ctor_eq_ok] at h
        obtain ⟨r, ⟨h1, rfl⟩, h⟩ := h
        simp only [Res.ok.injEq] at h
        subst h
        have hen2 := find_string_marker_ext hag hle _ en hen (by omega)
        simp only [string_view.ctor_ok (show b + 1 ≤ e2 by omega), Res.ok_bind, hen2,
          string_view.size, show ¬ (e2 - en.m_begin = 0) by omega, if_false,
          string_view.ctor_ok h1,
          print_content_agree hag ⟨b, en.m_begin + 1⟩ σ (by simp only; omega)]
    · exact absurd h (by simp)
  · exact absurd h (by simp)

theorem parse_number_loop_ext {buf buf2 : List Char} {e e2 : Nat}
    (hag : agree buf buf2 e) (hle : e ≤ e2) (b : Nat) (σ : Sink) :
    ∀ (k k2 p : Nat) (state : Int) (x : string_view × Sink),
      (state ≠ 8 → p + k = e ∧ p + k2 = e2) →
      parse_number_loop buf ⟨b, e⟩ σ k p state = Res.ok x → x.1.m_end < e →
      parse_number_loop buf2 ⟨b, e2⟩ σ k2 p state = Res.ok x := by
  have hleave : ∀ (k k2 p : Nat) (state : Int) (x : string_view × Sink),
      (state ≠ 8 → p + k = e) → (k = 0 ∨ state = 8) →
      parse_number_loop buf ⟨b, e⟩ σ k p state = Res.ok x → x.1.m_end < e →
      parse_number_loop buf2 ⟨b, e2⟩ σ k2 p state = Res.ok x := by
    intro k k2 p state x hinv hk h hlt
    have hx : b ≤ p ∧ x = (⟨b, p⟩, print_content buf ⟨b, p⟩ σ) := by
      rcases hk with rfl | rfl
      · simp only [parse_number_loop, Res.bind_eq, Res.bind_eq_ok, Res.pure_eq,
          string_view.ctor_eq_ok] at h
        obtain ⟨r, ⟨h1, rfl⟩, h⟩ := h
        simp only [Res.ok.injEq] at h
        exact ⟨h1, h.symm⟩
      · cases k <;>
        · simp only [parse_number_loop, Res.bind_eq, Res.bind_eq_ok, Res.pure_eq,
            string_view.ctor_eq_ok, ne_eq, not_true_eq_false, if_false] at h
          obtain ⟨r, ⟨h1, rfl⟩, h⟩ := h
          simp only [Res.ok.injEq] at h
          exact ⟨h1, h.symm⟩
    obtain ⟨hbp, rfl⟩ := hx
    simp only at hlt
    have h8 : state = 8 := by
      by_contra hne
      rcases hk with rfl | h8
      · have := hinv hne; omega
      · exact hne h8
    subst h8
    rw [parse_number_loop_leave buf2 ⟨b, e2⟩ σ k2 p hbp,
      print_content_agree hag ⟨b, p⟩ σ (by simp only; omega)]
  intro k
  induction k with
  | zero =>
    intro k2 p state x hinv h hlt
    exact hleave 0 k2 p state x (fun h8 => (hinv h8).1) (Or.inl rfl) h hlt
  | succ k ih =>
    intro k2 p state x hinv h hlt
    by_cases h8 : state = 8
    · exact hleave (k + 1) k2 p state x (fun h8 => (hinv h8).1) (Or.inr h8) h hlt
    · obtain ⟨hk, hk2⟩ := hinv h8
      obtain ⟨k3, rfl⟩ : ∃ k3, k2 = k3 + 1 := ⟨k2 - 1, by omega⟩
      have hd : deref buf2 p = deref buf p := (hag _ (by omega)).symm
      rw [parse_number_loop] at h ⊢
      simp only [ne_eq, h8, not_false_eq_true, if_true, Res.bind_eq, Res.pure_eq, hd] at h ⊢
      rw [Res.bind_eq_ok] at h
      obtain ⟨st, hst, h⟩ := h
      rw [hst, Res.ok_bind]
      split at h
      · simp only [string_view.ctor_self, Res.ok_bind, Res.ok.injEq] at h
        subst h
        simp only at hlt
        omega
      · rename_i hdead
        rw [if_neg hdead]
        refine ih k3 _ st x ?_ h hlt
        intro hst8
        simp only [hst8, not_false_eq_true, if_true]
        omega

theorem parse_number_ext {buf buf2 : List Char} {e e2 : Nat}
    (hag : agree buf buf2 e) (hle : e ≤ e2) (b : Nat) (σ : Sink) (x : string_view × Sink)
    (hb : b ≤ e) (h : parse_number buf ⟨b, e⟩ σ = Res.ok x) (hlt : x.1.m_end < e) :
    parse_number buf2 ⟨b, e2⟩ σ = Res.ok x := by
  unfold parse_number at h ⊢
  exact parse_number_loop_ext hag hle b σ _ _ b (-1) x
    (fun _ => by simp only [string_view.size]; omega) h hlt

theorem equal_loop_agree (bufa : List Char) (a : string_view) (bufb bufb2 : List Char)
    (b : string_view) :
    ∀ (k i : Nat),
      (∀ j, j < k → deref bufb (b.m_begin + (i + j)) = deref bufb2 (b.m_begin + (i + j))) →
      equal_loop bufa a bufb b k i = equal_loop bufa a bufb2 b k i := by
  intro k
  induction k with
  | zero => intro i _; rfl
  | succ k ih =>
    intro i h
    rw [equal_loop, equal_loop]
    have h0 := h 0 (by omega)
    rw [Nat.add_zero] at h0
    have hat : b.at bufb2 i = b.at bufb i := by
      unfold string_view.at
      rw [h0]
    rw [hat, ih (i + 1) (fun j hj => by
      have := h (j + 1) (by omega)
      rwa [show i + (j + 1) = i + 1 + j by omega] at this)]

theorem parse_literal_ext {buf buf2 : List Char} {e e2 : Nat}
    (hag : agree buf buf2 e) (hle : e ≤ e2) (cs : List Char) (n : Nat) (first : Char)
    (b : Nat) (σ : Sink) (x : string_view × Sink)
    (h : parse_literal cs n first buf ⟨b, e⟩ σ = Res.ok x) (hlt : x.1.m_end < e) :
    parse_literal cs n first buf2 ⟨b, e2⟩ σ = Res.ok x := by
  unfold parse_literal at h ⊢
  split at h
  · rename_i hsz
    have hsz1 : 0 < string_view.size ⟨b, e⟩ := Nat.pos_of_ne_zero hsz
    have hsz2 : 0 < string_view.size ⟨b, e2⟩ := by
      simp only [string_view.size] at hsz1 ⊢; omega
    have hd : deref buf2 b = deref buf b :=
      (hag _ (by simp only [string_view.size] at hsz1; omega)).symm
    simp only [Res.bind_eq, string_view.at_ok hsz1, string_view.at_ok hsz2, Res.ok_bind,
      Nat.add_zero, Res.pure_eq, ne_eq, Nat.ne_of_gt hsz2, not_false_eq_true, if_true, hd]
      at h ⊢
    split at h
    · rename_i hc
      rw [if_pos hc]
      simp only [Res.bind_eq_ok] at h
      obtain ⟨csv, hcsv, h⟩ := h
      rw [hcsv, Res.ok_bind]
      rw [string_view.ctor_eq_ok] at hcsv
      obtain ⟨_, rfl⟩ := hcsv
      split at h
      · rename_i hn
        simp only [string_view.size] at hn
        simp only [Res.bind_eq_ok, string_view.ctor_eq_ok] at h
        obtain ⟨arg, ⟨ha, rfl⟩, eq, heq, h⟩ := h
        split at h
        · rename_i heqt
          simp only [Res.bind_eq_ok, string_view.ctor_eq_ok] at h
          obtain ⟨r, ⟨_, rfl⟩, h⟩ := h
          simp only [Res.ok.injEq] at h
          subst h
          simp only [heqt] at heq
          simp only at hlt
          have heq2 : equal cs ⟨0, 0 + n⟩ buf2 ⟨b, b + n⟩ = Res.ok true := by
            rw [← heq]
            unfold equal
            rw [equal_loop_agree cs ⟨0, 0 + n⟩ buf2 buf ⟨b, b + n⟩]
            intro j hj
            simp only [string_view.size] at hj
            exact (hag _ (by simp only; omega)).symm
          simp only [string_view.size, ge_iff_le, show n ≤ e2 - b by omega, if_true,
            string_view.ctor_ok ha, Res.ok_bind, heq2,
            print_content_agree hag ⟨b, b + n⟩ σ (by simp only; omega)]
        · simp only [string_view.ctor_self, Res.ok_bind, Res.ok.injEq] at h
          subst h
          simp only at hlt
          omega
      · simp only [string_view.ctor_self, Res.ok_bind, Res.ok.injEq] at h
        subst h
        simp only at hlt
        omega
    · exact absurd h (by simp)
  · exact absurd h (by simp)

end JSONReader

namespace JSONReader

theorem parse_array_fuel_of_loop (buf : List Char) (fuel : Nat) (s si : string_view)
    (σ σ1 : Sink) (hlt : s.m_begin < s.m_end) (hc : deref buf s.m_begin = '[')
    (hloop : parse_array_loop buf s fuel s σ = Res.ok (si, σ1))
    (hle : s.m_begin ≤ si.m_begin + 1) :
    parse_array_fuel buf (fuel + 1) s σ
      = Res.ok (if si.size ≠ 0 ∧ deref buf si.m_begin = ']'
          then ⟨s.m_begin, si.m_begin + 1⟩ else s, leave σ1) := by
  have hsz : s.size > 0 := by unfold string_view.size; omega
  rw [parse_array_fuel]
  simp only [hsz, if_true, Res.bind_eq, Res.pure_eq, string_view.at_ok hsz, Res.ok_bind,
    Nat.add_zero, hc, hloop]
  by_cases h0 : si.size = 0
  · simp [h0, string_view.ctor_ok (Nat.le_of_lt hlt)]
  · simp only [h0, if_false, string_view.at_ok (Nat.pos_of_ne_zero h0), Res.ok_bind,
      Nat.add_zero, ne_eq, not_false_eq_true, true_and]
    by_cases h1 : deref buf si.m_begin = ']'
    · simp [h1, string_view.ctor_ok hle]
    · simp [h1, string_view.ctor_ok (Nat.le_of_lt hlt)]

theorem parse_value_ext {buf buf2 : List Char} {e e2 : Nat}
    (hag : agree buf buf2 e) (hle : e ≤ e2)
    (po pa po2 pa2 : string_view → Sink → Res (string_view × Sink))
    (hpo : extends_to po po2 e e2) (hpa : extends_to pa pa2 e e2)
    (sb sb2 vb : Nat) (ty : value_type) (σ : Sink) (x : string_view × Sink) (hvb : vb ≤ e)
    (h : parse_value po pa buf ⟨sb, e⟩ ⟨ty, ⟨vb, e⟩⟩ σ = Res.ok x) (hlt : x.1.m_end < e) :
    parse_value po2 pa2 buf2 ⟨sb2, e2⟩ ⟨ty, ⟨vb, e2⟩⟩ σ = Res.ok x := by
  unfold parse_value at h ⊢
  cases ty <;> simp only at h ⊢
  · exact parse_string_ext hag hle vb σ x h hlt
  · exact parse_number_ext hag hle vb σ x hvb h hlt
  · exact hpo vb σ x h hlt
  · exact hpa vb σ x h hlt
  · exact parse_literal_ext hag hle _ _ _ vb σ x h hlt
  · exact parse_literal_ext hag hle _ _ _ vb σ x h hlt
  · exact parse_literal_ext hag hle _ _ _ vb σ x h hlt
  · simp only [Res.bind_eq, Res.bind_eq_ok, Res.pure_eq, string_view.ctor_eq_ok] at h
    obtain ⟨r, ⟨_, rfl⟩, h⟩ := h
    simp only [Res.ok.injEq] at h
    subst h
    simp only at hlt
    omega

theorem parse_array_loop_ext_step {buf buf2 : List Char} {e e2 : Nat}
    (hag : agree buf buf2 e) (hle : e ≤ e2) (fuel fuel2 sb sb2 : Nat)
    (hpo : extends_to (parse_object_fuel buf fuel) (parse_object_fuel buf2 fuel2) e e2)
    (hpa : extends_to (parse_array_fuel buf fuel) (parse_array_fuel buf2 fuel2) e e2)
    (hloop : loop_extends_to (parse_array_loop buf ⟨sb, e⟩ fuel)
      (parse_array_loop buf2 ⟨sb2, e2⟩ fuel2) e e2) :
    loop_extends_to (parse_array_loop buf ⟨sb, e⟩ (fuel + 1))
      (parse_array_loop buf2 ⟨sb2, e2⟩ (fuel2 + 1)) e e2 := by
  intro p σ x h hlt
  rw [parse_array_loop] at h
  split at h
  · rename_i hsz
    simp only [string_view.size] at hsz
    simp only [Res.bind_eq, Res.pure_eq, Res.bind_eq_ok, string_view.ctor_eq_ok] at h
    obtain ⟨si1, ⟨h1, rfl⟩, v, hv, vb, hvb, si2, ⟨h2, rfl⟩, si3, ⟨h3, rfl⟩, h⟩ := h
    obtain ⟨v1, v2, v3, _⟩ := identify_value_bounds buf _ v h1 hv
    simp only at v1 v3
    obtain ⟨ty, ⟨vs, ve⟩⟩ := v
    simp only at v1 v2 v3 hvb
    have v4 := v3.symm
    subst v4
    have hlow := parse_value_lower _ _ (parse_object_fuel_lower buf fuel)
      (parse_array_fuel_lower buf fuel) buf _ _ _ vb v2 hvb
    simp only at hlow
    obtain ⟨q1, q2, -⟩ := seek_separator_bounds buf ']'
      (string_view.size ⟨vb.1.m_end, e⟩) vb.1.m_end
    simp only [string_view.size] at h h3 q1 q2
    generalize hq : seek_separator buf ']' (e - vb.1.m_end) vb.1.m_end = q at h h3 q1 q2
    have hqe : q < e := by
      by_contra hcon
      simp only [show e - q = 0 by omega, if_true, Res.ok.injEq] at h
      subst h
      simp only at hlt
      omega
    have hv2 := identify_value_ext hag hle (p + 1) _ hv (by simp only; omega)
    have hvb2 := parse_value_ext hag hle _ _ _ _ hpo hpa sb sb2 vs ty
      (print_type ⟨ty, ⟨vs, e⟩⟩ σ) vb v2 hvb (by omega)
    have hq2 : seek_separator buf2 ']' (e2 - vb.1.m_end) vb.1.m_end = q := by
      rw [seek_separator_ext hag ']' (e - vb.1.m_end) (e2 - vb.1.m_end) vb.1.m_end
        (by omega) (by omega) (by rw [hq]; exact hqe), hq]
    have hd : deref buf2 q = deref buf q := (hag q hqe).symm
    have hsq : 0 < string_view.size ⟨q, e⟩ := by simp only [string_view.size]; omega
    have hsq2 : 0 < string_view.size ⟨q, e2⟩ := by simp only [string_view.size]; omega
    have hpt : print_type ⟨ty, ⟨vs, e2⟩⟩ σ = print_type ⟨ty, ⟨vs, e⟩⟩ σ := rfl
    rw [parse_array_loop]
    simp only [string_view.size, show e2 - p > 0 by omega, if_true, Res.bind_eq, Res.pure_eq,
      string_view.ctor_ok (show p + 1 ≤ e2 by omega), Res.ok_bind, hv2, hpt, hvb2,
      string_view.ctor_ok (show vb.1.m_end ≤ e2 by omega), hq2,
      string_view.ctor_ok (show q ≤ e2 by omega), show ¬ (e2 - q = 0) by omega, if_false,
      string_view.at_ok hsq2, Nat.add_zero, hd]
    simp only [show ¬ (e - q = 0) by omega, if_false, string_view.at_ok hsq, Res.ok_bind,
      Nat.add_zero] at h
    split at h
    · rename_i hc
      rw [if_pos hc]
      simp only [Res.ok.injEq] at h
      subst h
      rfl
    · rename_i hc
      rw [if_neg hc]
      split at h
      · rename_i hc2
        rw [if_pos hc2]
        simp only [Res.bind_eq_ok, string_view.ctor_eq_ok] at h
        obtain ⟨si5, ⟨h5, rfl⟩, h⟩ := h
        rw [string_view.ctor_ok (show q + 1 ≤ e2 by omega), Res.ok_bind]
        exact hloop (q + 1) vb.2 x h hlt
      · exact absurd h (by simp)
  · rename_i hsz
    simp only [Res.pure_eq, Res.ok.injEq] at h
    subst h
    simp only [string_view.size] at hsz hlt
    omega

end JSONReader

namespace JSONReader

theorem parse_object_loop_ext_step {buf buf2 : List Char} {e e2 : Nat}
    (hag : agree buf buf2 e) (hle : e ≤ e2) (fuel fuel2 sb sb2 : Nat)
    (hpo : extends_to (parse_object_fuel buf fuel) (parse_object_fuel buf2 fuel2) e e2)
    (hpa : extends_to (parse_array_fuel buf fuel) (parse_array_fuel buf2 fuel2) e e2)
    (hloop : loop_extends_to (parse_object_loop buf ⟨sb, e⟩ fuel)
      (parse_object_loop buf2 ⟨sb2, e2⟩ fuel2) e e2) :
    loop_extends_to (parse_object_loop buf ⟨sb, e⟩ (fuel + 1))
      (parse_object_loop buf2 ⟨sb2, e2⟩ (fuel2 + 1)) e e2 := by
  intro p σ x h hlt
  rw [parse_object_loop] at h
  split at h
  · rename_i hsz
    simp only [string_view.size] at hsz
    simp only [Res.bind_eq, Res.pure_eq, Res.bind_eq_ok, string_view.ctor_eq_ok] at h
    obtain ⟨arg, ⟨ha, rfl⟩, name, hname, si1, ⟨h1, rfl⟩, sep, hsep, h⟩ := h
    obtain ⟨n1, n2, n3⟩ := find_string_bounds buf _ name ha hname
    obtain ⟨p1, p2, p3⟩ := find_bounds buf _ sep ':' h1 hsep
    simp only at n1 n3 p1 p3
    split at h
    · simp only [string_view.ctor_self, Res.ok_bind, Res.ok.injEq] at h
      subst h
      simp only at hlt
      omega
    · rename_i hsep0
      simp only [string_view.size] at hsep0
      simp only [Res.bind_eq_ok, string_view.ctor_eq_ok] at h
      obtain ⟨si2, ⟨h2, rfl⟩, v, hv, vb, hvb, si3, ⟨h3, rfl⟩, si4, ⟨h4, rfl⟩, h⟩ := h
      obtain ⟨v1, v2, v3, _⟩ := identify_value_bounds buf _ v h2 hv
      simp only at v1 v3
      obtain ⟨ty, ⟨vs, ve⟩⟩ := v
      simp only at v1 v2 v3 hvb
      have v4 := v3.symm
      subst v4
      have hlow := parse_value_lower _ _ (parse_object_fuel_lower buf fuel)
        (parse_array_fuel_lower buf fuel) buf _ _ _ vb v2 hvb
      simp only at hlow
      obtain ⟨q1, q2, -⟩ := seek_separator_bounds buf RBRACE
        (string_view.size ⟨vb.1.m_end, e⟩) vb.1.m_end
      simp only [string_view.size] at h h4 q1 q2
      generalize hq : seek_separator buf RBRACE (e - vb.1.m_end) vb.1.m_end = q at h h4 q1 q2
      have hqe : q < e := by
        by_contra hcon
        simp only [show e - q = 0 by omega, if_true, Res.ok.injEq] at h
        subst h
        simp only at hlt
        omega
      have hname2 := find_string_ext hag hle (p + 1) name hname (by omega)
      have hsep2 := find_ext hag hle name.m_end ':' sep hsep (by omega)
      have hv2 := identify_value_ext hag hle (sep.m_begin + 1) _ hv (by simp only; omega)
      have hpt : print_type_name buf2 ⟨ty, ⟨vs, e2⟩⟩ name σ
          = print_type_name buf ⟨ty, ⟨vs, e⟩⟩ name σ := by
        unfold print_type_name
        rw [text_agree hag name (by omega)]
      have hvb2 := parse_value_ext hag hle _ _ _ _ hpo hpa sb sb2 vs ty
        (print_type_name buf ⟨ty, ⟨vs, e⟩⟩ name σ) vb v2 hvb (by omega)
      have hq2 : seek_separator buf2 RBRACE (e2 - vb.1.m_end) vb.1.m_end = q := by
        rw [seek_separator_ext hag RBRACE (e - vb.1.m_end) (e2 - vb.1.m_end) vb.1.m_end
          (by omega) (by omega) (by rw [hq]; exact hqe), hq]
      have hd : deref buf2 q = deref buf q := (hag q hqe).symm
      have hsq : 0 < string_view.size ⟨q, e⟩ := by simp only [string_view.size]; omega
      have hsq2 : 0 < string_view.size ⟨q, e2⟩ := by simp only [string_view.size]; omega
      rw [parse_object_loop]
      simp only [string_view.size, show e2 - p > 0 by omega, if_true, Res.bind_eq, Res.pure_eq,
        string_view.ctor_ok (show p + 1 ≤ e2 by omega), Res.ok_bind, hname2,
        string_view.ctor_ok (show name.m_end ≤ e2 by omega), hsep2,
        show ¬ (e2 - sep.m_begin = 0) by omega, if_false,
        string_view.ctor_ok (show sep.m_begin + 1 ≤ e2 by omega), hv2, hpt, hvb2,
        string_view.ctor_ok (show vb.1.m_end ≤ e2 by omega), hq2,
        string_view.ctor_ok (show q ≤ e2 by omega), show ¬ (e2 - q = 0) by omega,
        string_view.at_ok hsq2, Nat.add_zero, hd]
      simp only [show ¬ (e - q = 0) by omega, if_false, string_view.at_ok hsq, Res.ok_bind,
        Nat.add_zero] at h
      split at h
      · rename_i hc
        rw [if_pos hc]
        simp only [Res.ok.injEq] at h
        subst h
        rfl
      · rename_i hc
        rw [if_neg hc]
        split at h
        · rename_i hc2
          rw [if_pos hc2]
          simp only [Res.bind_eq_ok, string_view.ctor_eq_ok] at h
          obtain ⟨si5, ⟨h5, rfl⟩, h⟩ := h
          rw [string_view.ctor_ok (show q + 1 ≤ e2 by omega), Res.ok_bind]
          exact hloop (q + 1) vb.2 x h hlt
        · exact absurd h (by simp)
  · rename_i hsz
    simp only [Res.pure_eq, Res.ok.injEq] at h
    subst h
    simp only [string_view.size] at hsz hlt
    omega

/-- The scan of an array that ended strictly before `e` is found again, from the loop. -/
theorem parse_array_fuel_ext_step {buf buf2 : List Char} {e e2 : Nat}
    (hag : agree buf buf2 e) (hle : e ≤ e2) (fuel fuel2 : Nat)
    (hloop : ∀ sb, loop_extends_to (parse_array_loop buf ⟨sb, e⟩ fuel)
      (parse_array_loop buf2 ⟨sb, e2⟩ fuel2) e e2) :
    extends_to (parse_array_fuel buf (fuel + 1)) (parse_array_fuel buf2 (fuel2 + 1)) e e2 := by
  intro b σ x h hlt
  obtain ⟨hbe, hc, si, σ1, hl, hσ, hcase⟩ := parse_array_fuel_eq buf fuel _ σ x h
  simp only at hbe hc
  rcases hcase with ⟨hsz, hclose, hle1, hx⟩ | ⟨_, hx⟩
  · simp only at hle1 hx
    have hsi : si.m_begin < e := by rw [hx] at hlt; simp only at hlt; omega
    have hl2 := hloop b b σ (si, σ1) hl hsi
    simp only at hl2
    have := parse_array_fuel_of_loop buf2 fuel2 ⟨b, e2⟩ ⟨si.m_begin, e2⟩ σ σ1
      (by simp only; omega) (by simp only; rw [← hag b hbe]; exact hc) hl2 hle1
    rw [this]
    have hcond : string_view.size ⟨si.m_begin, e2⟩ ≠ 0 ∧ deref buf2 si.m_begin = ']' :=
      ⟨by simp only [string_view.size]; omega, by rw [← hag _ hsi]; exact hclose⟩
    rw [if_pos hcond]
    show Res.ok ((⟨b, si.m_begin + 1⟩ : string_view), leave σ1) = Res.ok x
    rw [← hx, ← hσ]
  · rw [hx] at hlt
    simp only at hlt
    omega

/-- The scan of an object that ended strictly before `e` is found again, from the loop. -/
theorem parse_object_fuel_ext_step {buf buf2 : List Char} {e e2 : Nat}
    (hag : agree buf buf2 e) (hle : e ≤ e2) (fuel fuel2 : Nat)
    (hloop : ∀ sb, loop_extends_to (parse_object_loop buf ⟨sb, e⟩ fuel)
      (parse_object_loop buf2 ⟨sb, e2⟩ fuel2) e e2) :
    extends_to (parse_object_fuel buf (fuel + 1)) (parse_object_fuel buf2 (fuel2 + 1)) e e2 := by
  intro b σ x h hlt
  obtain ⟨hbe, hc, si, σ1, hl, hσ, hcase⟩ := parse_object_fuel_eq buf fuel _ σ x h
  simp only at hbe hc
  rcases hcase with ⟨hsz, hclose, hle1, hx⟩ | ⟨_, hx⟩
  · simp only at hle1 hx
    have hsi : si.m_begin < e := by rw [hx] at hlt; simp only at hlt; omega
    have hl2 := hloop b b σ (si, σ1) hl hsi
    simp only at hl2
    have := parse_object_fuel_of_loop buf2 fuel2 ⟨b, e2⟩ ⟨si.m_begin, e2⟩ σ σ1
      (by simp only; omega) (by simp only; rw [← hag b hbe]; exact hc) hl2 hle1
    rw [this]
    have hcond : string_view.size ⟨si.m_begin, e2⟩ ≠ 0 ∧ deref buf2 si.m_begin = RBRACE :=
      ⟨by simp only [string_view.size]; omega, by rw [← hag _ hsi]; exact hclose⟩
    rw [if_pos hcond]
    show Res.ok ((⟨b, si.m_begin + 1⟩ : string_view), leave σ1) = Res.ok x
    rw [← hx, ← hσ]
  · rw [hx] at hlt
    simp only at hlt
    omega

/-- A container scan that has a result before the end `e` of the buffer has the same
result with a larger step budget on a buffer extended at its end. -/
theorem container_ext {buf buf2 : List Char} {e e2 : Nat}
    (hag : agree buf buf2 e) (hle : e ≤ e2) :
    ∀ (fuel fuel2 : Nat), fuel ≤ fuel2 →
      (∀ sb sb2, loop_extends_to (parse_array_loop buf ⟨sb, e⟩ fuel)
        (parse_array_loop buf2 ⟨sb2, e2⟩ fuel2) e e2) ∧
      (∀ sb sb2, loop_extends_to (parse_object_loop buf ⟨sb, e⟩ fuel)
        (parse_object_loop buf2 ⟨sb2, e2⟩ fuel2) e e2) ∧
      extends_to (parse_array_fuel buf fuel) (parse_array_fuel buf2 fuel2) e e2 ∧
      extends_to (parse_object_fuel buf fuel) (parse_object_fuel buf2 fuel2) e e2 := by
  intro fuel
  induction fuel with
  | zero =>
    intro fuel2 _
    refine ⟨fun sb sb2 p σ x h _ => ?_, fun sb sb2 p σ x h _ => ?_, fun b σ x h _ => ?_,
      fun b σ x h _ => ?_⟩
    · simp [parse_array_loop] at h
    · simp [parse_object_loop] at h
    · simp [parse_array_fuel] at h
    · simp [parse_object_fuel] at h
  | succ fuel ih =>
    intro fuel2 hf
    obtain ⟨f2, rfl⟩ : ∃ f2, fuel2 = f2 + 1 := ⟨fuel2 - 1, by omega⟩
    obtain ⟨ihA, ihO, ihFA, ihFO⟩ := ih f2 (by omega)
    exact ⟨fun sb sb2 => parse_array_loop_ext_step hag hle fuel f2 sb sb2 ihFO ihFA (ihA sb sb2),
      fun sb sb2 => parse_object_loop_ext_step hag hle fuel f2 sb sb2 ihFO ihFA (ihO sb sb2),
      parse_array_fuel_ext_step hag hle fuel f2 (fun sb => ihA sb sb),
      parse_object_fuel_ext_step hag hle fuel f2 (fun sb => ihO sb sb)⟩

end JSONReader

namespace JSONReader

theorem agree_append (b g : List Char) : agree b (b ++ g) b.length := by
  intro i hi
  exact (deref_append_left b g hi).symm

/-- The scan of a classified object that ended on its success path, run again with text
appended to the buffer. -/
theorem object_scan_append (b g : List Char) (start si : string_view) (σ1 : Sink)
    (hid : identify_value b ⟨0, b.length⟩ = Res.ok ⟨.T_OBJECT, start⟩)
    (hscan : object_scan b start = Res.ok (si, σ1)) (hsucc : on_success_path b si) :
    parse_object b start Sink.init
        = Res.ok (⟨start.m_begin, si.m_begin + 1⟩, leave σ1) ∧
      identify_value (b ++ g) ⟨0, (b ++ g).length⟩
        = Res.ok ⟨.T_OBJECT, ⟨start.m_begin, (b ++ g).length⟩⟩ ∧
      parse_object (b ++ g) ⟨start.m_begin, (b ++ g).length⟩ Sink.init
        = Res.ok (⟨start.m_begin, si.m_begin + 1⟩, leave σ1) ∧
      validate (b ++ g) = Res.ok true := by
  obtain ⟨hlt, hend, hc⟩ := identify_value_object b start hid
  obtain ⟨sb, se⟩ := start
  simp only at hlt hend hc
  subst hend
  have hag := agree_append b g
  have hle : b.length ≤ (b ++ g).length := by simp
  generalize hbuf2 : b ++ g = buf2 at hag hle ⊢
  have hscan0 := hscan
  unfold object_scan budget at hscan
  rw [show 2 * string_view.size ⟨sb, b.length⟩ + 2 - 1
    = 2 * string_view.size ⟨sb, b.length⟩ + 1 by omega] at hscan
  obtain ⟨b1, _, b3⟩ := parse_object_loop_bounds b _ _ _ _ _ hscan (Nat.le_of_lt hlt)
  simp only at b1 b3
  have hsi : si.m_begin < b.length := by
    have := hsucc.1
    unfold string_view.size at this
    omega
  -- the scan in the given buffer
  have h1 := parse_object_fuel_of_loop b _ ⟨sb, b.length⟩ si _ σ1 hlt hc hscan (by
    simp only; omega)
  rw [if_pos (show si.size ≠ 0 ∧ deref b si.m_begin = RBRACE from hsucc)] at h1
  -- the classification in the extended buffer
  have h2 := identify_value_ext hag hle 0 _ hid (by simp only; omega)
  simp only at h2
  -- the scan in the extended buffer
  have hloop2 := (container_ext hag hle (2 * string_view.size ⟨sb, b.length⟩ + 1)
    (2 * string_view.size ⟨sb, buf2.length⟩ + 1)
    (by simp only [string_view.size]; omega)).2.1 sb sb sb Sink.init (si, σ1) hscan hsi
  simp only at hloop2
  have hsucc2 : on_success_path buf2 ⟨si.m_begin, buf2.length⟩ :=
    ⟨by simp only [string_view.size]; omega, by
      simp only
      rw [← hag _ hsi]
      exact hsucc.2⟩
  have h3 := parse_object_fuel_of_loop buf2 _ ⟨sb, buf2.length⟩ ⟨si.m_begin, buf2.length⟩ _ σ1
    (by simp only; omega) (by simp only; rw [← hag _ hlt]; exact hc) hloop2
    (by simp only; omega)
  rw [if_pos (show string_view.size ⟨si.m_begin, buf2.length⟩ ≠ 0 ∧
    deref buf2 (string_view.mk si.m_begin buf2.length).m_begin = RBRACE from hsucc2)] at h3
  have hscan2 : object_scan buf2 ⟨sb, buf2.length⟩
      = Res.ok (⟨si.m_begin, buf2.length⟩, σ1) := by
    unfold object_scan budget
    rw [show 2 * string_view.size ⟨sb, buf2.length⟩ + 2 - 1
      = 2 * string_view.size ⟨sb, buf2.length⟩ + 1 by omega]
    exact hloop2
  refine ⟨h1, h2, h3, ?_⟩
  unfold validate
  rw [run_of_object_scan buf2 _ _ σ1 h2 hscan2]
  simp [Res.bind_eq, Res.pure_eq, hsucc2]

/-- C5. Text appended after a successfully scanned object does not turn it into a
failure: when `parse_object`, on the classified span of the buffer `b`, stops on the
closing brace of the object and returns the span `r`, then for every text `g`,
`parse_object` on `b ++ g` returns the same span `r` and `validate (b ++ g)` is `true`.
In particular, `validate` is `true` on the object with one member `"a":1` followed by
any text. -/
theorem trailing_text_keeps_success :
    (∀ (b g : List Char) (start si : string_view) (σ1 : Sink),
      identify_value b ⟨0, b.length⟩ = Res.ok ⟨.T_OBJECT, start⟩ →
      object_scan b start = Res.ok (si, σ1) → on_success_path b si →
        parse_object b start Sink.init
            = Res.ok (⟨start.m_begin, si.m_begin + 1⟩, leave σ1) ∧
          identify_value (b ++ g) ⟨0, (b ++ g).length⟩
            = Res.ok ⟨.T_OBJECT, ⟨start.m_begin, (b ++ g).length⟩⟩ ∧
          parse_object (b ++ g) ⟨start.m_begin, (b ++ g).length⟩ Sink.init
            = Res.ok (⟨start.m_begin, si.m_begin + 1⟩, leave σ1) ∧
          validate (b ++ g) = Res.ok true) ∧
    (∀ g : List Char, validate (one_member_input ++ g) = Res.ok true) :=
  ⟨object_scan_append, fun g =>
    (object_scan_append one_member_input g ⟨0, 7⟩ ⟨6, 7⟩ _ rfl rfl
      (by unfold on_success_path; decide)).2.2.2⟩

/-- C5, at the object with one member `"a":1` followed by ` garbage`. -/
theorem trailing_text_keeps_success_witness :
    parse_object (one_member_input ++ " garbage".toList)
        ⟨0, (one_member_input ++ " garbage".toList).length⟩ Sink.init
      = parse_object one_member_input ⟨0, 7⟩ Sink.init ∧
    validate (one_member_input ++ " garbage".toList) = Res.ok true := by
  obtain ⟨h1, _, h3, h4⟩ := trailing_text_keeps_success.1 one_member_input
    " garbage".toList ⟨0, 7⟩ ⟨6, 7⟩ _ rfl rfl (by unfold on_success_path; decide)
  exact ⟨h3.trans h1.symm, h4⟩

end JSONReader

namespace JSONReader

/-! ## The scanners on a buffer that holds a given text -/

theorem holds_at_forall (buf : List Char) (P : Char → Prop) :
    ∀ (l : List Char) (p : Nat), holds_at buf p l → (∀ x ∈ l, P x) →
      ∀ j, j < l.length → P (deref buf (p + j)) := by
  intro l
  induction l with
  | nil => intro p _ _ j hj; simp at hj
  | cons c l ih =>
    intro p h hP j hj
    obtain ⟨hc, hl⟩ := h
    cases j with
    | zero => rw [Nat.add_zero, hc]; exact hP c (List.mem_cons_self _ _)
    | succ j =>
      rw [show p + (j + 1) = p + 1 + j by omega]
      exact ih (p + 1) hl (fun x hx => hP x (List.mem_cons_of_mem _ hx)) j (by
        simp only [List.length_cons] at hj; omega)

theorem holds_at_getD (buf : List Char) :
    ∀ (l : List Char) (p : Nat), holds_at buf p l →
      ∀ j, j < l.length → deref buf (p + j) = l.getD j (Char.ofNat 0) := by
  intro l
  induction l with
  | nil => intro p _ j hj; simp at hj
  | cons c l ih =>
    intro p h j hj
    obtain ⟨hc, hl⟩ := h
    cases j with
    | zero => rw [Nat.add_zero, hc]; rfl
    | succ j =>
      rw [show p + (j + 1) = p + 1 + j by omega]
      exact ih (p + 1) hl j (by simp only [List.length_cons] at hj; omega)

theorem holds_at_text (buf : List Char) :
    ∀ (n p : Nat), holds_at buf p ((List.range n).map (fun k => deref buf (p + k))) := by
  intro n
  induction n with
  | zero => intro p; trivial
  | succ n ih =>
    intro p
    rw [List.range_succ_eq_map, List.map_cons, List.map_map]
    refine ⟨rfl, ?_⟩
    have : (fun k => deref buf (p + k)) ∘ Nat.succ = fun k => deref buf (p + 1 + k) := by
      funext k
      simp only [Function.comp, Nat.succ_eq_add_one]
      rw [show p + (k + 1) = p + 1 + k by omega]
    rw [this]
    exact ih (p + 1)

theorem ws_facts {c : Char} (h : is_ws c) :
    is_marker c = false ∧ c ≠ QUOTE ∧ c ≠ BACKSLASH ∧ c ≠ ':' ∧ c ≠ ',' ∧ c ≠ RBRACE ∧
      c ≠ ']' := by
  unfold is_ws at h
  rcases h with rfl | rfl | rfl | rfl <;> decide

theorem delimiter_continuation {x : Char} (h : is_delimiter x) (rest : List Char) :
    number_continuation (x :: rest) := by
  refine Or.inr ⟨x, rest, rfl, ?_⟩
  unfold is_delimiter is_ws at h
  rcases h with (rfl | rfl | rfl | rfl) | rfl | rfl | rfl <;> decide

/-- The classifier skips whitespace and stops on the marker after it. -/
theorem identify_value_skip (buf : List Char) (q n e : Nat) (hlt : q + n < e)
    (hws : ∀ j, j < n → is_ws (deref buf (q + j)))
    (hm : is_marker (deref buf (q + n)) = true) :
    identify_value buf ⟨q, e⟩
      = Res.ok ⟨marker_type (deref buf (q + n)), ⟨q + n, e⟩⟩ := by
  unfold identify_value
  have hk : string_view.size ⟨q, e⟩ = n + ((e - q - n - 1) + 1) := by
    simp only [string_view.size]; omega
  rw [hk, identify_value_loop_skip buf _ _ n q (fun j hj => (ws_facts (hws j hj)).1),
    identify_value_loop_hit buf _ _ _ hm, string_view.ctor_ok (by simp only; omega)]
  rfl

theorem find_loop_skip (buf : List Char) (s : string_view) (c : Char) (k : Nat) :
    ∀ (n i : Nat), (∀ j, j < n → deref buf (i + j) ≠ c) →
      find_loop buf s c (n + k) i = find_loop buf s c k (i + n) := by
  intro n
  induction n with
  | zero => intro i _; simp
  | succ n ih =>
    intro i h
    have h0 : deref buf i ≠ c := by simpa using h 0 (Nat.succ_pos n)
    rw [show n + 1 + k = n + k + 1 by omega, find_loop, if_neg h0,
      ih (i + 1) (fun j hj => by
        have := h (j + 1) (by omega)
        rwa [show i + (j + 1) = i + 1 + j by omega] at this)]
    congr 1
    omega

/-- `find` skips the characters that are not `c` and stops on the first `c`. -/
theorem find_skip (buf : List Char) (c : Char) (q n e : Nat) (hlt : q + n < e)
    (hne : ∀ j, j < n → deref buf (q + j) ≠ c) (hc : deref buf (q + n) = c) :
    find buf ⟨q, e⟩ c = Res.ok ⟨q + n, e⟩ := by
  unfold find
  have hk : string_view.size ⟨q, e⟩ = n + ((e - q - n - 1) + 1) := by
    simp only [string_view.size]; omega
  rw [hk, find_loop_skip buf _ c _ n q hne, find_loop, if_pos hc]
  exact string_view.ctor_ok (Nat.le_of_lt hlt)

/-- The search for a separator skips the characters that are neither `close` nor `,` and
stops on the first one that is. -/
theorem seek_separator_skip (buf : List Char) (close : Char) :
    ∀ (n k i : Nat), n < k →
      (∀ j, j < n → deref buf (i + j) ≠ close ∧ deref buf (i + j) ≠ ',') →
      (deref buf (i + n) = close ∨ deref buf (i + n) = ',') →
      seek_separator buf close k i = i + n := by
  intro n
  induction n with
  | zero =>
    intro k i hk _ hc
    obtain ⟨k2, rfl⟩ : ∃ k2, k = k2 + 1 := ⟨k - 1, by omega⟩
    rw [seek_separator, if_pos (by simpa using hc)]
    rfl
  | succ n ih =>
    intro k i hk h hc
    obtain ⟨k2, rfl⟩ : ∃ k2, k = k2 + 1 := ⟨k - 1, by omega⟩
    have h0 := h 0 (Nat.succ_pos n)
    rw [Nat.add_zero] at h0
    rw [seek_separator, if_neg (by rw [not_or]; exact h0),
      ih k2 (i + 1) (by omega) (fun j hj => by
        have := h (j + 1) (by omega)
        rwa [show i + (j + 1) = i + 1 + j by omega] at this)
        (by rwa [show i + 1 + n = i + (n + 1) by omega])]
    omega

end JSONReader

namespace JSONReader

/-- In the characters of a JSON string every quote follows a backslash. -/
theorem string_chars_quote (body : List Char) (h : string_chars body) :
    ∀ i, i < body.length → body.getD i (Char.ofNat 0) = QUOTE →
      0 < i ∧ body.getD (i - 1) (Char.ofNat 0) = BACKSLASH := by
  induction h with
  | nil => intro i hi; simp at hi
  | plain c rest hq hb _ ih =>
    intro i hi hget
    cases i with
    | zero => exact absurd (by simpa using hget) hq
    | succ i =>
      simp only [List.length_cons] at hi
      obtain ⟨h1, h2⟩ := ih i (by omega) (by simpa using hget)
      refine ⟨Nat.succ_pos i, ?_⟩
      obtain ⟨i2, rfl⟩ : ∃ i2, i = i2 + 1 := ⟨i - 1, by omega⟩
      simpa using h2
  | escape c rest _ _ ih =>
    intro i hi hget
    cases i with
    | zero => exact absurd (by simpa using hget) (by decide)
    | succ i =>
      cases i with
      | zero => exact ⟨Nat.succ_pos 0, rfl⟩
      | succ i =>
        simp only [List.length_cons] at hi
        obtain ⟨h1, h2⟩ := ih i (by omega) (by simpa using hget)
        refine ⟨Nat.succ_pos _, ?_⟩
        obtain ⟨i2, rfl⟩ : ∃ i2, i = i2 + 1 := ⟨i - 1, by omega⟩
        simpa using h2

theorem getLast_ne_backslash (body : List Char) (h : body.getLast? ≠ some BACKSLASH)
    (hne : body ≠ []) : body.getD (body.length - 1) (Char.ofNat 0) ≠ BACKSLASH := by
  have hlen : body.length - 1 < body.length := by
    have := List.length_pos.2 hne
    omega
  rw [List.getLast?_eq_getElem?, List.getElem?_eq_getElem hlen] at h
  rw [List.getD_eq_getElem _ _ hlen]
  intro hcon
  exact h (by rw [hcon])

/-- The closing quote of a string, found from the character after its opening quote. -/
theorem find_string_marker_token (buf : List Char) (p e : Nat) (body : List Char)
    (hh : holds_at buf p (QUOTE :: (body ++ [QUOTE]))) (hbody : string_chars body)
    (hlast : body.getLast? ≠ some BACKSLASH) (he : p + body.length + 2 ≤ e) :
    find_string_marker buf ⟨p + 1, e⟩ = Res.ok ⟨p + 1 + body.length, e⟩ := by
  obtain ⟨_, hrest⟩ := hh
  obtain ⟨hb, hq⟩ := (holds_at_append buf body [QUOTE] (p + 1)).1 hrest
  have hq2 : deref buf (p + 1 + body.length) = QUOTE := hq.1
  have hget := holds_at_getD buf body (p + 1) hb
  refine find_string_marker_found buf ⟨p + 1, e⟩ body.length ⟨?_, hq2, ?_⟩ ?_
  · simp only [string_view.size]; omega
  · by_cases hnil : body = []
    · left; simp [hnil]
    · right
      have hpos := List.length_pos.2 hnil
      simp only
      rw [show p + 1 + body.length - 1 = p + 1 + (body.length - 1) by omega,
        hget _ (by omega)]
      exact getLast_ne_backslash body hlast hnil
  · rintro j hj ⟨_, hjq, hjb⟩
    simp only at hjq hjb
    rw [hget j hj] at hjq
    obtain ⟨h1, h2⟩ := string_chars_quote body hbody j hj hjq
    rcases hjb with h0 | hjb
    · omega
    · rw [show p + 1 + j - 1 = p + 1 + (j - 1) by omega, hget _ (by omega)] at hjb
      exact hjb h2

/-- The string scanner on a string of the grammar. -/
theorem parse_string_token (buf : List Char) (p e : Nat) (t : List Char) (σ : Sink)
    (ht : string_token t) (hh : holds_at buf p t) (he : p + t.length ≤ e) :
    parse_string buf ⟨p, e⟩ σ
      = Res.ok (⟨p, p + t.length⟩, print_content buf ⟨p, p + t.length⟩ σ) := by
  obtain ⟨body, rfl, hbody, hlast⟩ := ht
  have hlen : (QUOTE :: (body ++ [QUOTE])).length = body.length + 2 := by simp
  rw [hlen] at he ⊢
  have hfsm := find_string_marker_token buf p e body hh hbody hlast (by omega)
  have hsz : string_view.size ⟨p, e⟩ ≠ 0 := by simp only [string_view.size]; omega
  unfold parse_string
  simp only [ne_eq, hsz, not_false_eq_true, if_true, Res.bind_eq,
    string_view.at_ok (Nat.pos_of_ne_zero hsz), Res.ok_bind, Nat.add_zero, hh.1,
    string_view.ctor_ok (show p + 1 ≤ e by omega), hfsm, Res.pure_eq, string_view.size,
    show ¬ (e - (p + 1 + body.length) = 0) by omega, if_false,
    string_view.ctor_ok (show p ≤ p + 1 + body.length + 1 by omega)]
  rw [show p + 1 + body.length + 1 = p + (body.length + 2) by omega,
    if_pos (show ¬ (e - p = 0) by omega)]

/-- The key search on whitespace followed by a string of the grammar. -/
theorem find_string_token (buf : List Char) (q e : Nat) (w t : List Char)
    (hw : ∀ x ∈ w, is_ws x) (ht : string_token t) (hh : holds_at buf q (w ++ t))
    (he : q + w.length + t.length ≤ e) :
    find_string buf ⟨q, e⟩ = Res.ok ⟨q + w.length, q + w.length + t.length⟩ := by
  obtain ⟨hhw, hht⟩ := (holds_at_append buf w t q).1 hh
  obtain ⟨body, rfl, hbody, hlast⟩ := ht
  have hlen : (QUOTE :: (body ++ [QUOTE])).length = body.length + 2 := by simp
  rw [hlen] at he ⊢
  have hws := holds_at_forall buf is_ws w q hhw hw
  have hfirst : find_string_marker buf ⟨q, e⟩ = Res.ok ⟨q + w.length, e⟩ := by
    refine find_string_marker_found buf ⟨q, e⟩ w.length ⟨?_, hht.1, ?_⟩ ?_
    · simp only [string_view.size]; omega
    · by_cases h0 : w.length = 0
      · left; exact h0
      · right
        simp only
        rw [show q + w.length - 1 = q + (w.length - 1) by omega]
        exact (ws_facts (hws _ (by omega))).2.2.1
    · rintro j hj ⟨_, hjq, _⟩
      exact (ws_facts (hws j hj)).2.1 hjq
  have hsecond := find_string_marker_token buf (q + w.length) e body hht hbody hlast
    (by omega)
  unfold find_string
  simp only [Res.bind_eq, hfirst, Res.ok_bind, string_view.size,
    show ¬ (e - (q + w.length) = 0) by omega, if_false,
    string_view.ctor_ok (show q + w.length + 1 ≤ e by omega), hsecond,
    show ¬ (e - (q + w.length + 1 + body.length) = 0) by omega,
    string_view.ctor_ok (show q + w.length ≤ q + w.length + 1 + body.length + 1 by omega)]
  rw [show q + w.length + 1 + body.length + 1 = q + w.length + (body.length + 2) by omega]

end JSONReader

namespace JSONReader

theorem map_range_of_holds_at (buf : List Char) :
    ∀ (l : List Char) (p : Nat), holds_at buf p l →
      (List.range l.length).map (fun k => deref buf (p + k)) = l := by
  intro l
  induction l with
  | nil => intro p _; rfl
  | cons c l ih =>
    intro p h
    obtain ⟨hc, hl⟩ := h
    rw [List.length_cons, List.range_succ_eq_map, List.map_cons, List.map_map]
    have : (fun k => deref buf (p + k)) ∘ Nat.succ = fun k => deref buf (p + 1 + k) := by
      funext k
      simp only [Function.comp, Nat.succ_eq_add_one]
      rw [show p + (k + 1) = p + 1 + k by omega]
    rw [this, ih (p + 1) hl, Nat.add_zero, hc]

/-- The number scanner on a number of the grammar followed by a delimiter. -/
theorem parse_number_at (buf : List Char) (p e : Nat) (w : List Char) (x : Char)
    (rest : List Char) (σ : Sink) (hw : unsigned_number w)
    (hh : holds_at buf p (w ++ x :: rest)) (hx : is_delimiter x) (he : p + w.length < e) :
    parse_number buf ⟨p, e⟩ σ
      = Res.ok (⟨p, p + w.length⟩, print_content buf ⟨p, p + w.length⟩ σ) := by
  obtain ⟨hhw, hhx⟩ := (holds_at_append buf w (x :: rest) p).1 hh
  obtain ⟨n, hn⟩ : ∃ n, e - p - w.length = n + 1 := ⟨e - p - w.length - 1, by omega⟩
  have hc : number_continuation
      ((List.range (n + 1)).map (fun k => deref buf (p + w.length + k))) := by
    rw [List.range_succ_eq_map, List.map_cons, Nat.add_zero, hhx.1]
    exact delimiter_continuation hx _
  exact parse_number_unsigned buf ⟨p, e⟩ σ w _ hw hc
    (by simp only [string_view.size, List.length_map, List.length_range]; omega)
    ((holds_at_append buf w _ p).2 ⟨hhw, holds_at_text buf (n + 1) (p + w.length)⟩)

/-- A literal scanner on its literal. -/
theorem parse_literal_at (cs L : List Char) (first : Char) (buf : List Char) (p e : Nat)
    (σ : Sink) (hL : (List.range L.length).map (fun k => deref cs k) = L)
    (hfirst : L.head? = some first) (hh : holds_at buf p L) (he : p + L.length ≤ e) :
    parse_literal cs L.length first buf ⟨p, e⟩ σ
      = Res.ok (⟨p, p + L.length⟩, print_content buf ⟨p, p + L.length⟩ σ) := by
  have hpos : 0 < L.length := by
    cases L with
    | nil => simp at hfirst
    | cons c l => simp
  have hf : deref buf p = first := by
    cases L with
    | nil => simp at hfirst
    | cons c l =>
      simp only [List.head?_cons, Option.some.injEq] at hfirst
      rw [← hfirst]
      exact hh.1
  obtain ⟨r, hr, h1, _⟩ := parse_literal_spec cs L.length first buf ⟨p, e⟩ σ
    (by simp only; omega) hf
  have hsz : L.length ≤ string_view.size ⟨p, e⟩ := by simp only [string_view.size]; omega
  have := h1 ⟨hsz, by rw [take_text buf _ _ hsz, hL]; exact map_range_of_holds_at buf L p hh⟩
  rw [hr, this]

theorem value_ok_string (t : List Char) (ht : string_token t) : value_ok t := by
  obtain ⟨body, rfl, hbody, hlast⟩ := ht
  refine ⟨QUOTE, body ++ [QUOTE], rfl, by decide, ?_⟩
  intro buf p e fuel string σ x rest hh _ he _
  obtain ⟨hht, _⟩ := (holds_at_append buf _ _ p).1 hh
  exact ⟨_, parse_string_token buf p e _ σ ⟨body, rfl, hbody, hlast⟩ hht (by omega)⟩

theorem value_ok_number (w : List Char) (hw : unsigned_number w) : value_ok w := by
  obtain ⟨int, frac, exp, rfl, hint, hfrac, hexp⟩ := hw
  have hw : unsigned_number (int ++ frac ++ exp) := ⟨int, frac, exp, rfl, hint, hfrac, hexp⟩
  have hmark : ∃ c0 t2, int ++ frac ++ exp = c0 :: t2 ∧ ('0' ≤ c0 ∧ c0 ≤ '9') := by
    rcases hint with rfl | ⟨d, ds, rfl, hd, _⟩
    · exact ⟨'0', _, rfl, by decide⟩
    · refine ⟨d, ds ++ frac ++ exp, by simp, ?_, hd.2⟩
      exact Char.le_trans (by decide) hd.1
  obtain ⟨c0, t2, heq, hd⟩ := hmark
  have hm : is_marker c0 = true := by simp [is_marker, hd]
  have hty : marker_type c0 = .T_NUMBER := by
    unfold marker_type
    have h := digit_facts (show is_digit c0 from hd)
    have h1 : c0 ≠ QUOTE := by rintro rfl; revert hd; decide
    have h2 : c0 ≠ LBRACE := by rintro rfl; revert hd; decide
    have h3 : c0 ≠ '[' := by rintro rfl; revert hd; decide
    have h4 : c0 ≠ 't' := by rintro rfl; revert hd; decide
    have h5 : c0 ≠ 'f' := by rintro rfl; revert hd; decide
    have h6 : c0 ≠ 'n' := by rintro rfl; revert hd; decide
    simp [h1, h2, h3, h4, h5, h6]
  refine ⟨c0, t2, heq, hm, ?_⟩
  intro buf p e fuel string σ x rest hh hx he _
  refine ⟨print_content buf ⟨p, p + (int ++ frac ++ exp).length⟩ σ, ?_⟩
  unfold parse_value
  simp only [hty]
  exact parse_number_at buf p e _ x rest σ hw hh hx he

theorem value_ok_true : value_ok ['t', 'r', 'u', 'e'] := by
  refine ⟨'t', ['r', 'u', 'e'], rfl, by decide, ?_⟩
  intro buf p e fuel string σ x rest hh _ he _
  obtain ⟨hht, _⟩ := (holds_at_append buf _ _ p).1 hh
  exact ⟨_, parse_literal_at ['t', 'r', 'u', 'e', Char.ofNat 0] ['t', 'r', 'u', 'e'] 't' buf p e
    σ rfl rfl hht (by simp only [List.length_cons, List.length_nil] at he ⊢; omega)⟩

theorem value_ok_false : value_ok ['f', 'a', 'l', 's', 'e'] := by
  refine ⟨'f', ['a', 'l', 's', 'e'], rfl, by decide, ?_⟩
  intro buf p e fuel string σ x rest hh _ he _
  obtain ⟨hht, _⟩ := (holds_at_append buf _ _ p).1 hh
  exact ⟨_, parse_literal_at ['f', 'a', 'l', 's', 'e', Char.ofNat 0] ['f', 'a', 'l', 's', 'e']
    'f' buf p e σ rfl rfl hht (by simp only [List.length_cons, List.length_nil] at he ⊢; omega)⟩

theorem value_ok_null : value_ok ['n', 'u', 'l', 'l'] := by
  refine ⟨'n', ['u', 'l', 'l'], rfl, by decide, ?_⟩
  intro buf p e fuel string σ x rest hh _ he _
  obtain ⟨hht, _⟩ := (holds_at_append buf _ _ p).1 hh
  exact ⟨_, parse_literal_at ['n', 'u', 'l', 'l', Char.ofNat 0] ['n', 'u', 'l', 'l'] 'n' buf p e
    σ rfl rfl hht (by simp only [List.length_cons, List.length_nil] at he ⊢; omega)⟩

end JSONReader

namespace JSONReader

/-! ## One iteration of the container loops -/

/-- One iteration of the loop of `parse_object` in which a key, a `:`, and a separator
after the value are found. -/
theorem parse_object_loop_iter (buf : List Char) (string : string_view) (fuel p e : Nat)
    (σ : Sink) (name : string_view) (cp : Nat) (v : value) (vb : string_view × Sink)
    (q : Nat) (hp : p < e)
    (h1 : find_string buf ⟨p + 1, e⟩ = Res.ok name) (hn : name.m_end ≤ e)
    (h2 : find buf ⟨name.m_end, e⟩ ':' = Res.ok ⟨cp, e⟩) (hcp : cp < e)
    (h3 : identify_value buf ⟨cp + 1, e⟩ = Res.ok v)
    (h4 : parse_value (parse_object_fuel buf fuel) (parse_array_fuel buf fuel) buf string v
      (print_type_name buf v name σ) = Res.ok vb) (hvb : vb.1.m_end ≤ e)
    (h5 : seek_separator buf RBRACE (e - vb.1.m_end) vb.1.m_end = q) (hq : q < e) :
    parse_object_loop buf string (fuel + 1) ⟨p, e⟩ σ
      = if deref buf q = RBRACE then Res.ok (⟨q, e⟩, vb.2)
        else if deref buf q = ',' then parse_object_loop buf string fuel ⟨q + 1, e⟩ vb.2
        else Res.fault .unreachable := by
  have hsq : 0 < string_view.size ⟨q, e⟩ := by simp only [string_view.size]; omega
  rw [parse_object_loop]
  simp only [string_view.size, show e - p > 0 by omega, if_true, Res.bind_eq, Res.pure_eq,
    string_view.ctor_ok (show p + 1 ≤ e by omega), Res.ok_bind, h1, string_view.ctor_ok hn, h2,
    show ¬ (e - cp = 0) by omega, if_false, string_view.ctor_ok (show cp + 1 ≤ e by omega), h3,
    h4, string_view.ctor_ok hvb, h5, string_view.ctor_ok (Nat.le_of_lt hq),
    show ¬ (e - q = 0) by omega, string_view.at_ok hsq, Nat.add_zero,
    string_view.ctor_ok (show q + 1 ≤ e by omega)]

/-- One iteration of the loop of `parse_array` in which a separator after the value is
found. -/
theorem parse_array_loop_iter (buf : List Char) (string : string_view) (fuel p e : Nat)
    (σ : Sink) (v : value) (vb : string_view × Sink) (q : Nat) (hp : p < e)
    (h3 : identify_value buf ⟨p + 1, e⟩ = Res.ok v)
    (h4 : parse_value (parse_object_fuel buf fuel) (parse_array_fuel buf fuel) buf string v
      (print_type v σ) = Res.ok vb) (hvb : vb.1.m_end ≤ e)
    (h5 : seek_separator buf ']' (e - vb.1.m_end) vb.1.m_end = q) (hq : q < e) :
    parse_array_loop buf string (fuel + 1) ⟨p, e⟩ σ
      = if deref buf q = ']' then Res.ok (⟨q, e⟩, vb.2)
        else if deref buf q = ',' then parse_array_loop buf string fuel ⟨q + 1, e⟩ vb.2
        else Res.fault .unreachable := by
  have hsq : 0 < string_view.size ⟨q, e⟩ := by simp only [string_view.size]; omega
  rw [parse_array_loop]
  simp only [string_view.size, show e - p > 0 by omega, if_true, Res.bind_eq, Res.pure_eq,
    string_view.ctor_ok (show p + 1 ≤ e by omega), Res.ok_bind, h3,
    h4, string_view.ctor_ok hvb, h5, string_view.ctor_ok (Nat.le_of_lt hq),
    show ¬ (e - q = 0) by omega, if_false, string_view.at_ok hsq, Nat.add_zero,
    string_view.ctor_ok (show q + 1 ≤ e by omega)]

/-- The value of a member or element, and the separator after it: the buffer holds
whitespace `w3`, the value `v`, whitespace `w4` and the separator `d` from `q` on. -/
theorem value_then_separator (buf : List Char) (string : string_view) (fuel q e : Nat)
    (σ : Sink) (close : Char) (w3 v w4 : List Char) (d : Char) (tail : List Char)
    (hclose : close = RBRACE ∨ close = ']')
    (hw3 : ∀ x ∈ w3, is_ws x) (hv : value_ok v) (hw4 : ∀ x ∈ w4, is_ws x)
    (hh : holds_at buf q (w3 ++ (v ++ (w4 ++ d :: tail))))
    (hd : d = close ∨ d = ',')
    (he : q + w3.length + v.length + w4.length < e) (hfuel : v.length ≤ fuel) :
    ∃ ty σ2, identify_value buf ⟨q, e⟩ = Res.ok ⟨ty, ⟨q + w3.length, e⟩⟩ ∧
      parse_value (parse_object_fuel buf fuel) (parse_array_fuel buf fuel) buf string
        ⟨ty, ⟨q + w3.length, e⟩⟩ σ
          = Res.ok (⟨q + w3.length, q + w3.length + v.length⟩, σ2) ∧
      seek_separator buf close (e - (q + w3.length + v.length)) (q + w3.length + v.length)
        = q + w3.length + v.length + w4.length ∧
      deref buf (q + w3.length + v.length + w4.length) = d := by
  obtain ⟨h3, hrest⟩ := (holds_at_append buf _ _ q).1 hh
  obtain ⟨hvh, hrest2⟩ := (holds_at_append buf _ _ _).1 hrest
  obtain ⟨h4, hdh⟩ := (holds_at_append buf _ _ _).1 hrest2
  have hdd : deref buf (q + w3.length + v.length + w4.length) = d := hdh.1
  obtain ⟨c0, t2, rfl, hm, hscan⟩ := hv
  have hc0 : deref buf (q + w3.length) = c0 := hvh.1
  have hdelim : is_delimiter d := by
    unfold is_delimiter
    rcases hd with rfl | rfl
    · rcases hclose with rfl | rfl
      · exact Or.inr (Or.inr (Or.inl rfl))
      · exact Or.inr (Or.inr (Or.inr rfl))
    · exact Or.inr (Or.inl rfl)
  have hcont : ∃ x rest, w4 ++ d :: tail = x :: rest ∧ is_delimiter x := by
    cases w4 with
    | nil => exact ⟨d, tail, rfl, hdelim⟩
    | cons c w => exact ⟨c, w ++ d :: tail, rfl, Or.inl (hw4 c (List.mem_cons_self _ _))⟩
  obtain ⟨x, rest, hxr, hx⟩ := hcont
  rw [hxr] at hrest
  obtain ⟨σ2, hpv⟩ := hscan buf (q + w3.length) e fuel string σ x rest hrest hx (by omega) hfuel
  refine ⟨marker_type c0, σ2, ?_, hpv, ?_, hdd⟩
  · have := identify_value_skip buf q w3.length e (by
      simp only [List.length_cons] at he; omega)
      (holds_at_forall buf is_ws w3 q h3 hw3) (by rw [hc0]; exact hm)
    rw [hc0] at this
    exact this
  · have hws4 := holds_at_forall buf is_ws w4 _ h4 hw4
    refine seek_separator_skip buf close w4.length _ _ (by omega) (fun j hj => ?_) ?_
    · have := ws_facts (hws4 j hj)
      rcases hclose with rfl | rfl
      · exact ⟨this.2.2.2.2.2.1, this.2.2.2.2.1⟩
      · exact ⟨this.2.2.2.2.2.2, this.2.2.2.2.1⟩
    · rw [hdd]; exact hd

end JSONReader

namespace JSONReader

/-- The iteration of the loop of `parse_object` on one member of the grammar followed by
the separator `d`. -/
theorem object_member_step (buf : List Char) (string : string_view) (fuel p e : Nat)
    (σ : Sink) (w1 key w2 w3 v w4 : List Char) (d : Char) (tail : List Char)
    (hw1 : ∀ x ∈ w1, is_ws x) (hkey : string_token key) (hw2 : ∀ x ∈ w2, is_ws x)
    (hw3 : ∀ x ∈ w3, is_ws x) (hv : value_ok v) (hw4 : ∀ x ∈ w4, is_ws x)
    (hh : holds_at buf (p + 1)
      (w1 ++ (key ++ (w2 ++ ':' :: (w3 ++ (v ++ (w4 ++ d :: tail)))))))
    (hd : d = RBRACE ∨ d = ',')
    (he : p + 1 + w1.length + key.length + w2.length + 1 + w3.length + v.length + w4.length
      < e)
    (hfuel : v.length ≤ fuel) :
    ∃ σ2, parse_object_loop buf string (fuel + 1) ⟨p, e⟩ σ
      = if d = RBRACE then
          Res.ok (⟨p + 1 + w1.length + key.length + w2.length + 1 + w3.length + v.length
            + w4.length, e⟩, σ2)
        else parse_object_loop buf string fuel
          ⟨p + 1 + w1.length + key.length + w2.length + 1 + w3.length + v.length
            + w4.length + 1, e⟩ σ2 := by
  obtain ⟨h1, hrest⟩ := (holds_at_append buf _ _ _).1 hh
  obtain ⟨h2, hrest2⟩ := (holds_at_append buf _ _ _).1 hrest
  obtain ⟨h3, hrest3⟩ := (holds_at_append buf _ _ _).1 hrest2
  obtain ⟨hcolon, hrest4⟩ := hrest3
  have hname := find_string_token buf (p + 1) e w1 key hw1 hkey
    ((holds_at_append buf _ _ _).2 ⟨h1, h2⟩) (by omega)
  have hws2 := holds_at_forall buf is_ws w2 _ h3 hw2
  have hsep := find_skip buf ':' (p + 1 + w1.length + key.length) w2.length e (by omega)
    (fun j hj => (ws_facts (hws2 j hj)).2.2.2.1) hcolon
  obtain ⟨ty, σ2, hid, hpv, hseek, hdd⟩ := value_then_separator buf string fuel
    (p + 1 + w1.length + key.length + w2.length + 1) e
    (print_type_name buf ⟨marker_type (v.headD ' '), ⟨p + 1 + w1.length + key.length
      + w2.length + 1 + w3.length, e⟩⟩ ⟨p + 1 + w1.length, p + 1 + w1.length + key.length⟩ σ)
    RBRACE w3 v w4 d tail (Or.inl rfl) hw3 hv hw4 hrest4 hd (by omega) hfuel
  have hty : ty = marker_type (v.headD ' ') := by
    obtain ⟨c0, t2, rfl, hm, _⟩ := hv
    obtain ⟨_, _, _, _, h5⟩ := identify_value_bounds buf _ _ (by simp only; omega) hid
    have hvh := ((holds_at_append buf _ _ _).1 ((holds_at_append buf _ _ _).1 hrest4).2).1
    have hc0 : deref buf (p + 1 + w1.length + key.length + w2.length + 1 + w3.length) = c0 :=
      hvh.1
    by_cases hu : ty = .T_UNKNOWN
    · obtain ⟨_, _, _, h4, _⟩ := identify_value_bounds buf _ _ (by simp only; omega) hid
      have := h4 hu
      simp only at this
      omega
    · have := (h5 hu).2.2
      simp only at this
      rw [hc0] at this
      exact this
  subst hty
  refine ⟨σ2, ?_⟩
  rw [parse_object_loop_iter buf string fuel p e σ _ _ _ _ _ (by omega) hname (by
      simp only; omega) hsep (by omega) hid hpv (by simp only; omega) hseek (by omega), hdd]
  rcases hd with rfl | rfl
  · simp
  · simp [show (',' : Char) ≠ RBRACE by decide]

/-- The iteration of the loop of `parse_array` on one element of the grammar followed by
the separator `d`. -/
theorem array_element_step (buf : List Char) (string : string_view) (fuel p e : Nat)
    (σ : Sink) (w1 v w2 : List Char) (d : Char) (tail : List Char)
    (hw1 : ∀ x ∈ w1, is_ws x) (hv : value_ok v) (hw2 : ∀ x ∈ w2, is_ws x)
    (hh : holds_at buf (p + 1) (w1 ++ (v ++ (w2 ++ d :: tail))))
    (hd : d = ']' ∨ d = ',')
    (he : p + 1 + w1.length + v.length + w2.length < e) (hfuel : v.length ≤ fuel) :
    ∃ σ2, parse_array_loop buf string (fuel + 1) ⟨p, e⟩ σ
      = if d = ']' then Res.ok (⟨p + 1 + w1.length + v.length + w2.length, e⟩, σ2)
        else parse_array_loop buf string fuel
          ⟨p + 1 + w1.length + v.length + w2.length + 1, e⟩ σ2 := by
  obtain ⟨ty, σ2, hid, hpv, hseek, hdd⟩ := value_then_separator buf string fuel (p + 1) e
    (print_type ⟨marker_type (v.headD ' '), ⟨p + 1 + w1.length, e⟩⟩ σ)
    ']' w1 v w2 d tail (Or.inr rfl) hw1 hv hw2 hh hd (by omega) hfuel
  have hty : ty = marker_type (v.headD ' ') := by
    obtain ⟨c0, t2, rfl, hm, _⟩ := hv
    obtain ⟨_, _, _, h4, h5⟩ := identify_value_bounds buf _ _ (by simp only; omega) hid
    have hvh := ((holds_at_append buf _ _ _).1 ((holds_at_append buf _ _ _).1 hh).2).1
    have hc0 : deref buf (p + 1 + w1.length) = c0 := hvh.1
    by_cases hu : ty = .T_UNKNOWN
    · have := h4 hu
      simp only at this
      omega
    · have := (h5 hu).2.2
      simp only at this
      rw [hc0] at this
      exact this
  subst hty
  refine ⟨σ2, ?_⟩
  rw [parse_array_loop_iter buf string fuel p e σ _ _ _ (by omega) hid hpv (by
      simp only; omega) hseek (by omega), hdd]
  rcases hd with rfl | rfl
  · simp
  · simp [show (',' : Char) ≠ ']' by decide]

end JSONReader

namespace JSONReader

/-! ## The scan of a text of the grammar -/

theorem value_ok_object (m : List Char) (hm : members_ok m) :
    value_ok (LBRACE :: (m ++ [RBRACE])) := by
  refine ⟨LBRACE, m ++ [RBRACE], rfl, by decide, ?_⟩
  intro buf p e fuel string σ x rest hh _ he hfuel
  have hlen : (LBRACE :: (m ++ [RBRACE])).length = m.length + 2 := by simp
  rw [hlen] at he hfuel ⊢
  obtain ⟨f, rfl⟩ : ∃ f, fuel = f + 1 := ⟨fuel - 1, by omega⟩
  obtain ⟨hb, hrest⟩ := hh
  have hrest2 : holds_at buf (p + 1) (m ++ RBRACE :: (x :: rest)) := by
    have : (m ++ [RBRACE]) ++ x :: rest = m ++ RBRACE :: (x :: rest) := by simp
    rw [← this]
    exact hrest
  obtain ⟨σ2, hloop⟩ := hm buf p e f ⟨p, e⟩ σ (x :: rest) hrest2 (by omega) (by omega)
  have hclose : deref buf (p + 1 + m.length) = RBRACE :=
    ((holds_at_append buf _ _ _).1 hrest2).2.1
  have := parse_object_fuel_of_loop buf f ⟨p, e⟩ ⟨p + 1 + m.length, e⟩ σ σ2
    (by simp only; omega) hb hloop (by simp only; omega)
  rw [if_pos ⟨by simp only [string_view.size]; omega, hclose⟩] at this
  refine ⟨leave σ2, ?_⟩
  unfold parse_value
  simp only [show marker_type LBRACE = .T_OBJECT by decide]
  rw [this]
  simp only [Res.ok.injEq, Prod.mk.injEq, string_view.mk.injEq, and_true, true_and]
  omega

theorem value_ok_array (m : List Char) (hm : elements_ok m) :
    value_ok ('[' :: (m ++ [']'])) := by
  refine ⟨'[', m ++ [']'], rfl, by decide, ?_⟩
  intro buf p e fuel string σ x rest hh _ he hfuel
  have hlen : ('[' :: (m ++ [']'])).length = m.length + 2 := by simp
  rw [hlen] at he hfuel ⊢
  obtain ⟨f, rfl⟩ : ∃ f, fuel = f + 1 := ⟨fuel - 1, by omega⟩
  obtain ⟨hb, hrest⟩ := hh
  have hrest2 : holds_at buf (p + 1) (m ++ ']' :: (x :: rest)) := by
    have : (m ++ [']']) ++ x :: rest = m ++ ']' :: (x :: rest) := by simp
    rw [← this]
    exact hrest
  obtain ⟨σ2, hloop⟩ := hm buf p e f ⟨p, e⟩ σ (x :: rest) hrest2 (by omega) (by omega)
  have hclose : deref buf (p + 1 + m.length) = ']' :=
    ((holds_at_append buf _ _ _).1 hrest2).2.1
  have := parse_array_fuel_of_loop buf f ⟨p, e⟩ ⟨p + 1 + m.length, e⟩ σ σ2
    (by simp only; omega) hb hloop (by simp only; omega)
  rw [if_pos ⟨by simp only [string_view.size]; omega, hclose⟩] at this
  refine ⟨leave σ2, ?_⟩
  unfold parse_value
  simp only [show marker_type '[' = .T_ARRAY by decide]
  rw [this]
  simp only [Res.ok.injEq, Prod.mk.injEq, string_view.mk.injEq, and_true, true_and]
  omega

theorem members_ok_last (w1 key w2 w3 v w4 : List Char)
    (hw1 : ∀ x ∈ w1, is_ws x) (hkey : string_token key) (hw2 : ∀ x ∈ w2, is_ws x)
    (hw3 : ∀ x ∈ w3, is_ws x) (hv : value_ok v) (hw4 : ∀ x ∈ w4, is_ws x) :
    members_ok (w1 ++ (key ++ (w2 ++ ':' :: (w3 ++ (v ++ w4))))) := by
  intro buf p e fuel string σ rest hh he hfuel
  simp only [List.length_append, List.length_cons] at he hfuel ⊢
  obtain ⟨f, rfl⟩ : ∃ f, fuel = f + 1 := ⟨fuel - 1, by omega⟩
  have hh2 : holds_at buf (p + 1)
      (w1 ++ (key ++ (w2 ++ ':' :: (w3 ++ (v ++ (w4 ++ RBRACE :: rest)))))) := by
    simpa [List.append_assoc] using hh
  obtain ⟨σ2, hstep⟩ := object_member_step buf string f p e σ w1 key w2 w3 v w4 RBRACE rest
    hw1 hkey hw2 hw3 hv hw4 hh2 (Or.inl rfl) (by omega) (by omega)
  refine ⟨σ2, ?_⟩
  rw [hstep, if_pos rfl]
  simp only [Res.ok.injEq, Prod.mk.injEq, string_view.mk.injEq, and_true]
  omega

theorem members_ok_more (w1 key w2 w3 v w4 : List Char) (c : Char) (rest0 : List Char)
    (hw1 : ∀ x ∈ w1, is_ws x) (hkey : string_token key) (hw2 : ∀ x ∈ w2, is_ws x)
    (hw3 : ∀ x ∈ w3, is_ws x) (hv : value_ok v) (hw4 : ∀ x ∈ w4, is_ws x)
    (hrest0 : members_ok rest0) :
    members_ok (w1 ++ (key ++ (w2 ++ ':' :: (w3 ++ (v ++ (w4 ++ ',' :: c :: rest0)))))) := by
  intro buf p e fuel string σ rest hh he hfuel
  simp only [List.length_append, List.length_cons] at he hfuel ⊢
  obtain ⟨f, rfl⟩ : ∃ f, fuel = f + 1 := ⟨fuel - 1, by omega⟩
  have hh2 : holds_at buf (p + 1)
      (w1 ++ (key ++ (w2 ++ ':' :: (w3 ++ (v ++ (w4 ++ ',' ::
        (c :: (rest0 ++ RBRACE :: rest)))))))) := by
    simpa [List.append_assoc] using hh
  obtain ⟨σ2, hstep⟩ := object_member_step buf string f p e σ w1 key w2 w3 v w4 ','
    (c :: (rest0 ++ RBRACE :: rest)) hw1 hkey hw2 hw3 hv hw4 hh2 (Or.inr rfl) (by omega)
    (by omega)
  have htail : holds_at buf (p + 1 + w1.length + key.length + w2.length + 1 + w3.length
      + v.length + w4.length + 1 + 1) (rest0 ++ RBRACE :: rest) := by
    obtain ⟨_, h⟩ := (holds_at_append buf _ _ _).1 hh2
    obtain ⟨_, h⟩ := (holds_at_append buf _ _ _).1 h
    obtain ⟨_, h⟩ := (holds_at_append buf _ _ _).1 h
    obtain ⟨_, h⟩ := h
    obtain ⟨_, h⟩ := (holds_at_append buf _ _ _).1 h
    obtain ⟨_, h⟩ := (holds_at_append buf _ _ _).1 h
    obtain ⟨_, h⟩ := (holds_at_append buf _ _ _).1 h
    exact h.2.2
  obtain ⟨σ3, hloop⟩ := hrest0 buf _ e f string σ2 rest htail (by omega) (by omega)
  refine ⟨σ3, ?_⟩
  rw [hstep, if_neg (by decide), hloop]
  simp only [Res.ok.injEq, Prod.mk.injEq, string_view.mk.injEq, and_true]
  omega

theorem elements_ok_last (w1 v w2 : List Char)
    (hw1 : ∀ x ∈ w1, is_ws x) (hv : value_ok v) (hw2 : ∀ x ∈ w2, is_ws x) :
    elements_ok (w1 ++ (v ++ w2)) := by
  intro buf p e fuel string σ rest hh he hfuel
  simp only [List.length_append] at he hfuel ⊢
  have hvpos : 0 < v.length := by
    obtain ⟨c0, t2, rfl, _⟩ := hv
    simp
  obtain ⟨f, rfl⟩ : ∃ f, fuel = f + 1 := ⟨fuel - 1, by omega⟩
  have hh2 : holds_at buf (p + 1) (w1 ++ (v ++ (w2 ++ ']' :: rest))) := by
    simpa [List.append_assoc] using hh
  obtain ⟨σ2, hstep⟩ := array_element_step buf string f p e σ w1 v w2 ']' rest
    hw1 hv hw2 hh2 (Or.inl rfl) (by omega) (by omega)
  refine ⟨σ2, ?_⟩
  rw [hstep, if_pos rfl]
  simp only [Res.ok.injEq, Prod.mk.injEq, string_view.mk.injEq, and_true]
  omega

theorem elements_ok_more (w1 v w2 : List Char) (c : Char) (rest0 : List Char)
    (hw1 : ∀ x ∈ w1, is_ws x) (hv : value_ok v) (hw2 : ∀ x ∈ w2, is_ws x)
    (hrest0 : elements_ok rest0) :
    elements_ok (w1 ++ (v ++ (w2 ++ ',' :: c :: rest0))) := by
  intro buf p e fuel string σ rest hh he hfuel
  simp only [List.length_append, List.length_cons] at he hfuel ⊢
  obtain ⟨f, rfl⟩ : ∃ f, fuel = f + 1 := ⟨fuel - 1, by omega⟩
  have hh2 : holds_at buf (p + 1)
      (w1 ++ (v ++ (w2 ++ ',' :: (c :: (rest0 ++ ']' :: rest))))) := by
    simpa [List.append_assoc] using hh
  obtain ⟨σ2, hstep⟩ := array_element_step buf string f p e σ w1 v w2 ','
    (c :: (rest0 ++ ']' :: rest)) hw1 hv hw2 hh2 (Or.inr rfl) (by omega) (by omega)
  have htail : holds_at buf (p + 1 + w1.length + v.length + w2.length + 1 + 1)
      (rest0 ++ ']' :: rest) := by
    obtain ⟨_, h⟩ := (holds_at_append buf _ _ _).1 hh2
    obtain ⟨_, h⟩ := (holds_at_append buf _ _ _).1 h
    obtain ⟨_, h⟩ := (holds_at_append buf _ _ _).1 h
    exact h.2.2
  obtain ⟨σ3, hloop⟩ := hrest0 buf _ e f string σ2 rest htail (by omega) (by omega)
  refine ⟨σ3, ?_⟩
  rw [hstep, if_neg (by decide), hloop]
  simp only [Res.ok.injEq, Prod.mk.injEq, string_view.mk.injEq, and_true]
  omega

/-- On every text of the grammar the scan follows the grammar. -/
theorem scannable_scan_ok (s : scan_sort) (t : List Char) (h : scannable s t) :
    scan_ok s t := by
  induction h with
  | string t ht => exact value_ok_string t ht
  | number w hw => exact value_ok_number w hw
  | lit_true => exact value_ok_true
  | lit_false => exact value_ok_false
  | lit_null => exact value_ok_null
  | object m _ ih => exact value_ok_object m ih
  | array m _ ih => exact value_ok_array m ih
  | member_last w1 key w2 w3 v w4 hw1 hkey hw2 hw3 _ hw4 ih =>
    exact members_ok_last w1 key w2 w3 v w4 hw1 hkey hw2 hw3 ih hw4
  | member_more w1 key w2 w3 v w4 c rest hw1 hkey hw2 hw3 _ hw4 _ _ ihv ihr =>
    exact members_ok_more w1 key w2 w3 v w4 c rest hw1 hkey hw2 hw3 ihv hw4 ihr
  | element_last w1 v w2 hw1 _ hw2 ih => exact elements_ok_last w1 v w2 hw1 ih hw2
  | element_more w1 v w2 c rest hw1 _ hw2 _ _ ihv ihr =>
    exact elements_ok_more w1 v w2 c rest hw1 ihv hw2 ihr

end JSONReader

namespace JSONReader

theorem holds_at_suffix (buf : List Char) :
    ∀ (l : List Char) (p : Nat), (∀ j, j < l.length → deref buf (p + j) =
        l.getD j (Char.ofNat 0)) → holds_at buf p l := by
  intro l
  induction l with
  | nil => intro p _; trivial
  | cons c l ih =>
    intro p h
    refine ⟨by simpa using h 0 (by simp), ih (p + 1) (fun j hj => ?_)⟩
    have := h (j + 1) (by simp only [List.length_cons]; omega)
    rw [show p + (j + 1) = p + 1 + j by omega] at this
    simpa using this

theorem holds_at_append_right (pre l : List Char) : holds_at (pre ++ l) pre.length l := by
  apply holds_at_suffix
  intro j hj
  rw [deref_append_right]
  rfl

/-- C1 as stated fails, on valid JSON objects.  `validate` returns `false` on an object
followed by a blank when its number has an exponent without sign (the scanner of numbers
accepts a signed exponent only), and when its string ends with an escaped backslash (the
scanner of strings looks back one character); also on the empty object, on an object with
an empty array and on an object without whitespace after its comma.  On an object with a
negative number the `assert(0)` of the scanner of numbers fails. -/
theorem validate_rejects_valid_objects :
    validate unsigned_exponent_input = Res.ok false ∧
    validate final_backslash_input = Res.ok false ∧
    validate empty_object_input = Res.ok false ∧
    validate empty_array_input = Res.ok false ∧
    validate tight_comma_input = Res.ok false ∧
    validate negative_number_input = Res.fault .unreachable :=
  ⟨rfl, rfl, rfl, rfl, rfl, rfl⟩

/-- C1, amended. `validate` returns `true` on every JSON object of the grammar
`scannable`, with optional whitespace around it: the JSON objects in which every number
has no leading `-` and a sign in its exponent, no string ends with a backslash before its
closing quote, every object and array has at least one member, and every `,` is followed
by at least one whitespace character. -/
theorem validate_scannable_object (O : List Char) (h : scannable_object O) :
    validate O = Res.ok true := by
  obtain ⟨w1, m, w2, hw1, hm, hw2, rfl⟩ := h
  have hid := identify_value_first_marker w1 (m ++ RBRACE :: w2) LBRACE
    (fun x hx => (ws_facts (hw1 x hx)).1) (by decide)
  rw [show marker_type LBRACE = .T_OBJECT by decide] at hid
  have hlen : (w1 ++ LBRACE :: (m ++ RBRACE :: w2)).length
      = w1.length + 1 + m.length + 1 + w2.length := by
    simp only [List.length_append, List.length_cons]; omega
  have hhold : holds_at (w1 ++ LBRACE :: (m ++ RBRACE :: w2)) (w1.length + 1)
      (m ++ RBRACE :: w2) := by
    have := holds_at_append_right (w1 ++ [LBRACE]) (m ++ RBRACE :: w2)
    simpa using this
  generalize w1 ++ LBRACE :: (m ++ RBRACE :: w2) = buf at hid hlen hhold ⊢
  have hmem : members_ok m := scannable_scan_ok .members m hm
  obtain ⟨σ2, hloop⟩ := hmem buf w1.length buf.length
    (budget ⟨w1.length, buf.length⟩ - 1) ⟨w1.length, buf.length⟩ Sink.init w2 hhold
    (by omega) (by simp only [budget, string_view.size]; omega)
  have hclose : deref buf (w1.length + 1 + m.length) = RBRACE :=
    ((holds_at_append buf _ _ _).1 hhold).2.1
  unfold validate
  rw [run_of_object_scan buf _ _ σ2 hid hloop]
  have hs : on_success_path buf ⟨w1.length + 1 + m.length, buf.length⟩ :=
    ⟨by simp only [string_view.size]; omega, hclose⟩
  simp [Res.bind_eq, Res.pure_eq, hs]

/-- C1, amended, at the object with the members `"a": [1, true]` and `"b": "x"`, followed
by a line feed. -/
theorem validate_scannable_object_witness : validate two_member_input = Res.ok true :=
  validate_scannable_object two_member_input
    ⟨[], _, [Char.ofNat 10], by simp,
      scannable.member_more [] [QUOTE, 'a', QUOTE] [] [' ']
        ['[', '1', ',', ' ', 't', 'r', 'u', 'e', ']'] [] ' '
        [QUOTE, 'b', QUOTE, ':', ' ', QUOTE, 'x', QUOTE]
        (by simp)
        ⟨['a'], rfl, string_chars.plain 'a' [] (by decide) (by decide) string_chars.nil,
          by decide⟩
        (by simp) (by simp [is_ws])
        (scannable.array ['1', ',', ' ', 't', 'r', 'u', 'e']
          (scannable.element_more [] ['1'] [] ' ' ['t', 'r', 'u', 'e'] (by simp)
            (scannable.number ['1']
              ⟨['1'], [], [], rfl, Or.inr ⟨'1', [], rfl, by decide, by simp⟩, Or.inl rfl,
                Or.inl rfl⟩)
            (by simp) (by simp [is_ws])
            (scannable.element_last [] ['t', 'r', 'u', 'e'] [] (by simp) scannable.lit_true
              (by simp))))
        (by simp) (by simp [is_ws])
        (scannable.member_last [] [QUOTE, 'b', QUOTE] [] [' '] [QUOTE, 'x', QUOTE] []
          (by simp)
          ⟨['b'], rfl, string_chars.plain 'b' [] (by decide) (by decide) string_chars.nil,
            by decide⟩
          (by simp) (by simp [is_ws])
          (scannable.string [QUOTE, 'x', QUOTE]
            ⟨['x'], rfl, string_chars.plain 'x' [] (by decide) (by decide) string_chars.nil,
              by decide⟩)
          (by simp)),
      by simp [is_ws], rfl⟩

end JSONReader

namespace JSONReader

/-! ## The step budget is never exhausted -/

theorem nt_bind {α β : Type} {x : Res α} {f : α → Res β} (hx : x ≠ Res.timeout)
    (hf : ∀ a, x = Res.ok a → f a ≠ Res.timeout) : Res.bind x f ≠ Res.timeout := by
  cases x with
  | ok a => exact hf a rfl
  | fault e => simp [Res.bind]
  | timeout => exact absurd rfl hx

theorem nt_ctor (b e : Nat) : string_view.ctor b e ≠ Res.timeout := by
  unfold string_view.ctor; split <;> simp

theorem nt_at (buf : List Char) (s : string_view) (i : Nat) : s.at buf i ≠ Res.timeout := by
  unfold string_view.at; split <;> simp

theorem nt_find_string_marker_loop (buf : List Char) (t : string_view) :
    ∀ (k i : Nat), find_string_marker_loop buf t k i ≠ Res.timeout := by
  intro k
  induction k with
  | zero => intro i; simp [find_string_marker_loop]
  | succ k ih =>
    intro i
    rw [find_string_marker_loop]
    simp only [Res.bind_eq]
    refine nt_bind (nt_at _ _ _) (fun c1 _ => ?_)
    split
    · refine nt_bind (nt_at _ _ _) (fun c0 _ => ?_)
      split
      · exact nt_ctor _ _
      · exact ih _
    · exact ih _

theorem nt_find_string_marker (buf : List Char) (t : string_view) :
    find_string_marker buf t ≠ Res.timeout := by
  unfold find_string_marker
  split
  · simp
  · simp only [Res.bind_eq, Res.pure_eq]
    refine nt_bind (nt_at _ _ _) (fun c _ => ?_)
    split
    · simp
    · exact nt_find_string_marker_loop _ _ _ _

theorem nt_find_string (buf : List Char) (t : string_view) :
    find_string buf t ≠ Res.timeout := by
  unfold find_string
  simp only [Res.bind_eq, Res.pure_eq]
  refine nt_bind (nt_find_string_marker _ _) (fun first _ => ?_)
  split
  · simp
  · refine nt_bind (nt_ctor _ _) (fun arg _ => ?_)
    refine nt_bind (nt_find_string_marker _ _) (fun second _ => ?_)
    split
    · simp
    · exact nt_ctor _ _

theorem nt_find_loop (buf : List Char) (t : string_view) (c : Char) :
    ∀ (k i : Nat), find_loop buf t c k i ≠ Res.timeout := by
  intro k
  induction k with
  | zero => intro i; simp [find_loop]
  | succ k ih =>
    intro i
    rw [find_loop]
    split
    · exact nt_ctor _ _
    · exact ih _

theorem nt_identify_value_loop (buf : List Char) (t : string_view) :
    ∀ (k i : Nat), identify_value_loop buf t k i ≠ Res.timeout := by
  intro k
  induction k with
  | zero => intro i; simp [identify_value_loop, Res.bind_eq, Res.pure_eq]
  | succ k ih =>
    intro i
    by_cases hm : is_marker (deref buf i) = true
    · rw [identify_value_loop_hit buf t k i hm]
      exact nt_bind (nt_ctor _ _) (fun _ _ => by simp)
    · have := identify_value_loop_skip buf t k 1 i (fun j hj => by
        have : j = 0 := by omega
        subst this
        simpa using hm)
      rw [Nat.add_comm 1 k] at this
      rw [this]
      exact ih _

theorem nt_parse_string (buf : List Char) (s : string_view) (σ : Sink) :
    parse_string buf s σ ≠ Res.timeout := by
  unfold parse_string
  split
  · simp only [Res.bind_eq, Res.pure_eq]
    refine nt_bind (nt_at _ _ _) (fun c _ => ?_)
    split
    · refine nt_bind (nt_ctor _ _) (fun arg _ => ?_)
      refine nt_bind (nt_find_string_marker _ _) (fun e _ => ?_)
      split <;> exact nt_bind (nt_ctor _ _) (fun _ _ => by simp)
    · simp
  · simp

theorem nt_equal_loop (bufa : List Char) (a : string_view) (bufb : List Char)
    (b : string_view) : ∀ (k i : Nat), equal_loop bufa a bufb b k i ≠ Res.timeout := by
  intro k
  induction k with
  | zero => intro i; simp [equal_loop, Res.pure_eq]
  | succ k ih =>
    intro i
    rw [equal_loop]
    simp only [Res.bind_eq, Res.pure_eq]
    refine nt_bind (nt_at _ _ _) (fun x _ => ?_)
    refine nt_bind (nt_at _ _ _) (fun y _ => ?_)
    split
    · simp
    · exact ih _

theorem nt_parse_literal (cs : List Char) (n : Nat) (first : Char) (buf : List Char)
    (s : string_view) (σ : Sink) : parse_literal cs n first buf s σ ≠ Res.timeout := by
  unfold parse_literal
  split
  · simp only [Res.bind_eq, Res.pure_eq]
    refine nt_bind (nt_at _ _ _) (fun c _ => ?_)
    split
    · refine nt_bind (nt_ctor _ _) (fun csv _ => ?_)
      split
      · refine nt_bind (nt_ctor _ _) (fun arg _ => ?_)
        refine nt_bind ?_ (fun eq _ => ?_)
        · unfold equal
          split
          · simp [Res.pure_eq]
          · exact nt_equal_loop _ _ _ _ _ _
        · split <;> exact nt_bind (nt_ctor _ _) (fun _ _ => by simp)
      · exact nt_bind (nt_ctor _ _) (fun _ _ => by simp)
    · simp
  · simp

theorem nt_parse_number_switch (state : Int) (c : Char) :
    parse_number_switch state c ≠ Res.timeout := by
  unfold parse_number_switch
  simp only [Res.pure_eq]
  repeat' split
  all_goals simp

theorem nt_parse_number_loop (buf : List Char) (s : string_view) (σ : Sink) :
    ∀ (k p : Nat) (state : Int), parse_number_loop buf s σ k p state ≠ Res.timeout := by
  intro k
  induction k with
  | zero =>
    intro p state
    rw [parse_number_loop]
    simp only [Res.bind_eq, Res.pure_eq]
    exact nt_bind (nt_ctor _ _) (fun _ _ => by simp)
  | succ k ih =>
    intro p state
    rw [parse_number_loop]
    simp only [Res.bind_eq, Res.pure_eq]
    split
    · refine nt_bind (nt_parse_number_switch _ _) (fun st _ => ?_)
      split
      · exact nt_bind (nt_ctor _ _) (fun _ _ => by simp)
      · exact ih _ _
    · exact nt_bind (nt_ctor _ _) (fun _ _ => by simp)

/-- A `switch` on the kind of a value does not exhaust the budget when the nested scans do
not. -/
theorem nt_parse_value (po pa : string_view → Sink → Res (string_view × Sink))
    (buf : List Char) (string : string_view) (v : value) (σ : Sink)
    (hpo : po v.start σ ≠ Res.timeout) (hpa : pa v.start σ ≠ Res.timeout) :
    parse_value po pa buf string v σ ≠ Res.timeout := by
  unfold parse_value
  split
  · exact nt_parse_string _ _ _
  · exact nt_parse_number_loop _ _ _ _ _ _
  · exact hpo
  · exact hpa
  · exact nt_parse_literal _ _ _ _ _ _
  · exact nt_parse_literal _ _ _ _ _ _
  · exact nt_parse_literal _ _ _ _ _ _
  · simp only [Res.bind_eq, Res.pure_eq]
    exact nt_bind (nt_ctor _ _) (fun _ _ => by simp)

end JSONReader

namespace JSONReader

theorem nt_array_tail (buf : List Char) (string : string_view) (fuel : Nat) (e q : Nat)
    (σ : Sink)
    (hloop : parse_array_loop buf string fuel ⟨q + 1, e⟩ σ ≠ Res.timeout) :
    (if string_view.size ⟨q, e⟩ = 0 then (Res.ok (⟨q, e⟩, σ) : Res (string_view × Sink))
      else Res.bind (string_view.at buf ⟨q, e⟩ 0) (fun c =>
        if c = ']' then Res.ok (⟨q, e⟩, σ)
        else Res.bind (string_view.at buf ⟨q, e⟩ 0) (fun c =>
          if c = ',' then Res.bind (string_view.ctor (q + 1) e) (fun string_i =>
            parse_array_loop buf string fuel string_i σ)
          else Res.fault .unreachable))) ≠ Res.timeout := by
  split
  · simp
  · refine nt_bind (nt_at _ _ _) (fun c _ => ?_)
    split
    · simp
    · refine nt_bind (nt_at _ _ _) (fun c2 _ => ?_)
      split
      · refine nt_bind (nt_ctor _ _) (fun s5 h5 => ?_)
        rw [string_view.ctor_eq_ok] at h5
        rw [h5.2]
        exact hloop
      · simp

theorem nt_object_tail (buf : List Char) (string : string_view) (fuel : Nat) (e q : Nat)
    (σ : Sink)
    (hloop : parse_object_loop buf string fuel ⟨q + 1, e⟩ σ ≠ Res.timeout) :
    (if string_view.size ⟨q, e⟩ = 0 then (Res.ok (⟨q, e⟩, σ) : Res (string_view × Sink))
      else Res.bind (string_view.at buf ⟨q, e⟩ 0) (fun c =>
        if c = RBRACE then Res.ok (⟨q, e⟩, σ)
        else Res.bind (string_view.at buf ⟨q, e⟩ 0) (fun c =>
          if c = ',' then Res.bind (string_view.ctor (q + 1) e) (fun string_i =>
            parse_object_loop buf string fuel string_i σ)
          else Res.fault .unreachable))) ≠ Res.timeout := by
  split
  · simp
  · refine nt_bind (nt_at _ _ _) (fun c _ => ?_)
    split
    · simp
    · refine nt_bind (nt_at _ _ _) (fun c2 _ => ?_)
      split
      · refine nt_bind (nt_ctor _ _) (fun s5 h5 => ?_)
        rw [string_view.ctor_eq_ok] at h5
        rw [h5.2]
        exact hloop
      · simp

/-- One step of the induction on the budget, for the loop of `parse_array`. -/
theorem nt_parse_array_loop_step (buf : List Char) (fuel : Nat)
    (hpo : ∀ s σ, 2 * s.size + 2 ≤ fuel → parse_object_fuel buf fuel s σ ≠ Res.timeout)
    (hpa : ∀ s σ, 2 * s.size + 2 ≤ fuel → parse_array_fuel buf fuel s σ ≠ Res.timeout)
    (hloop : ∀ string si σ, 2 * si.size + 1 ≤ fuel →
      parse_array_loop buf string fuel si σ ≠ Res.timeout)
    (string si : string_view) (σ : Sink) (hf : 2 * si.size + 1 ≤ fuel + 1) :
    parse_array_loop buf string (fuel + 1) si σ ≠ Res.timeout := by
  rw [parse_array_loop]
  split
  · rename_i hsz
    simp only [string_view.size] at hsz hf
    simp only [Res.bind_eq, Res.pure_eq]
    refine nt_bind (nt_ctor _ _) (fun si1 h1 => ?_)
    rw [string_view.ctor_eq_ok] at h1
    obtain ⟨h1le, rfl⟩ := h1
    refine nt_bind (nt_identify_value_loop _ _ _ _) (fun v hv => ?_)
    obtain ⟨v1, v2, v3, _⟩ := identify_value_bounds buf _ v h1le hv
    simp only at v1 v3
    have hvsz : 2 * v.start.size + 2 ≤ fuel := by
      simp only [string_view.size]; omega
    refine nt_bind (nt_parse_value _ _ buf string v _ (hpo _ _ hvsz) (hpa _ _ hvsz))
      (fun vb hvb => ?_)
    have hlow := parse_value_lower _ _ (parse_object_fuel_lower buf fuel)
      (parse_array_fuel_lower buf fuel) buf string v _ vb v2 hvb
    refine nt_bind (nt_ctor _ _) (fun si2 h2 => ?_)
    rw [string_view.ctor_eq_ok] at h2
    obtain ⟨h2le, rfl⟩ := h2
    refine nt_bind (nt_ctor _ _) (fun si3 h3 => ?_)
    rw [string_view.ctor_eq_ok] at h3
    obtain ⟨h3le, rfl⟩ := h3
    have hq := (seek_separator_bounds buf ']' (string_view.size ⟨vb.1.m_end, si.m_end⟩)
      vb.1.m_end).1
    exact nt_array_tail buf string fuel si.m_end _ vb.2
      (hloop _ _ _ (by simp only [string_view.size] at hq ⊢; omega))
  · simp [Res.pure_eq]

/-- One step of the induction on the budget, for the loop of `parse_object`. -/
theorem nt_parse_object_loop_step (buf : List Char) (fuel : Nat)
    (hpo : ∀ s σ, 2 * s.size + 2 ≤ fuel → parse_object_fuel buf fuel s σ ≠ Res.timeout)
    (hpa : ∀ s σ, 2 * s.size + 2 ≤ fuel → parse_array_fuel buf fuel s σ ≠ Res.timeout)
    (hloop : ∀ string si σ, 2 * si.size + 1 ≤ fuel →
      parse_object_loop buf string fuel si σ ≠ Res.timeout)
    (string si : string_view) (σ : Sink) (hf : 2 * si.size + 1 ≤ fuel + 1) :
    parse_object_loop buf string (fuel + 1) si σ ≠ Res.timeout := by
  rw [parse_object_loop]
  split
  · rename_i hsz
    simp only [string_view.size] at hsz hf
    simp only [Res.bind_eq, Res.pure_eq]
    refine nt_bind (nt_ctor _ _) (fun arg ha => ?_)
    rw [string_view.ctor_eq_ok] at ha
    obtain ⟨hale, rfl⟩ := ha
    refine nt_bind (nt_find_string _ _) (fun name hname => ?_)
    obtain ⟨n1, n2, n3⟩ := find_string_bounds buf _ name hale hname
    simp only at n1 n3
    refine nt_bind (nt_ctor _ _) (fun si1 h1 => ?_)
    rw [string_view.ctor_eq_ok] at h1
    obtain ⟨h1le, rfl⟩ := h1
    refine nt_bind (nt_find_loop _ _ _ _ _) (fun sep hsep => ?_)
    obtain ⟨p1, p2, p3⟩ := find_bounds buf _ sep ':' h1le hsep
    simp only at p1 p3
    split
    · exact nt_bind (nt_ctor _ _) (fun _ _ => by simp)
    · refine nt_bind (nt_ctor _ _) (fun si2 h2 => ?_)
      rw [string_view.ctor_eq_ok] at h2
      obtain ⟨h2le, rfl⟩ := h2
      refine nt_bind (nt_identify_value_loop _ _ _ _) (fun v hv => ?_)
      obtain ⟨v1, v2, v3, _⟩ := identify_value_bounds buf _ v h2le hv
      simp only at v1 v3
      have hvsz : 2 * v.start.size + 2 ≤ fuel := by
        simp only [string_view.size]; omega
      refine nt_bind (nt_parse_value _ _ buf string v _ (hpo _ _ hvsz) (hpa _ _ hvsz))
        (fun vb hvb => ?_)
      have hlow := parse_value_lower _ _ (parse_object_fuel_lower buf fuel)
        (parse_array_fuel_lower buf fuel) buf string v _ vb v2 hvb
      refine nt_bind (nt_ctor _ _) (fun si3 h3 => ?_)
      rw [string_view.ctor_eq_ok] at h3
      obtain ⟨h3le, rfl⟩ := h3
      refine nt_bind (nt_ctor _ _) (fun si4 h4 => ?_)
      rw [string_view.ctor_eq_ok] at h4
      obtain ⟨h4le, rfl⟩ := h4
      have hq := (seek_separator_bounds buf RBRACE
        (string_view.size ⟨vb.1.m_end, si.m_end⟩) vb.1.m_end).1
      exact nt_object_tail buf string fuel si.m_end _ vb.2
        (hloop _ _ _ (by simp only [string_view.size] at hq ⊢; omega))
  · simp [Res.pure_eq]

theorem nt_parse_array_fuel_step (buf : List Char) (fuel : Nat)
    (hloop : ∀ string si σ, 2 * si.size + 1 ≤ fuel →
      parse_array_loop buf string fuel si σ ≠ Res.timeout)
    (s : string_view) (σ : Sink) (hf : 2 * s.size + 2 ≤ fuel + 1) :
    parse_array_fuel buf (fuel + 1) s σ ≠ Res.timeout := by
  rw [parse_array_fuel]
  split
  · simp only [Res.bind_eq, Res.pure_eq]
    refine nt_bind (nt_at _ _ _) (fun c _ => ?_)
    split
    · refine nt_bind (hloop _ _ _ (by omega)) (fun x _ => ?_)
      obtain ⟨si, σ1⟩ := x
      simp only
      split
      · exact nt_bind (nt_ctor _ _) (fun _ _ => by simp)
      · refine nt_bind (nt_at _ _ _) (fun c _ => ?_)
        split
        · exact nt_bind (nt_ctor _ _) (fun _ _ => by simp)
        · refine nt_bind (nt_at _ _ _) (fun c _ => ?_)
          split
          · exact nt_bind (nt_ctor _ _) (fun _ _ => by simp)
          · simp
    · simp
  · simp

theorem nt_parse_object_fuel_step (buf : List Char) (fuel : Nat)
    (hloop : ∀ string si σ, 2 * si.size + 1 ≤ fuel →
      parse_object_loop buf string fuel si σ ≠ Res.timeout)
    (s : string_view) (σ : Sink) (hf : 2 * s.size + 2 ≤ fuel + 1) :
    parse_object_fuel buf (fuel + 1) s σ ≠ Res.timeout := by
  rw [parse_object_fuel]
  split
  · simp only [Res.bind_eq, Res.pure_eq]
    refine nt_bind (nt_at _ _ _) (fun c _ => ?_)
    split
    · refine nt_bind (hloop _ _ _ (by omega)) (fun x _ => ?_)
      obtain ⟨si, σ1⟩ := x
      simp only
      split
      · exact nt_bind (nt_ctor _ _) (fun _ _ => by simp)
      · refine nt_bind (nt_at _ _ _) (fun c _ => ?_)
        split
        · exact nt_bind (nt_ctor _ _) (fun _ _ => by simp)
        · refine nt_bind (nt_at _ _ _) (fun c _ => ?_)
          split
          · exact nt_bind (nt_ctor _ _) (fun _ _ => by simp)
          · simp
    · simp
  · simp

/-- With a budget of twice the size of the span (plus one for a loop, plus two for a
scanner), a container scan is never cut short. -/
theorem container_budget (buf : List Char) :
    ∀ (fuel : Nat),
      (∀ string si σ, 2 * si.size + 1 ≤ fuel →
        parse_array_loop buf string fuel si σ ≠ Res.timeout) ∧
      (∀ string si σ, 2 * si.size + 1 ≤ fuel →
        parse_object_loop buf string fuel si σ ≠ Res.timeout) ∧
      (∀ s σ, 2 * s.size + 2 ≤ fuel → parse_array_fuel buf fuel s σ ≠ Res.timeout) ∧
      (∀ s σ, 2 * s.size + 2 ≤ fuel → parse_object_fuel buf fuel s σ ≠ Res.timeout) := by
  intro fuel
  induction fuel with
  | zero =>
    refine ⟨fun _ _ _ h => ?_, fun _ _ _ h => ?_, fun _ _ h => ?_, fun _ _ h => ?_⟩ <;> omega
  | succ fuel ih =>
    obtain ⟨ihA, ihO, ihFA, ihFO⟩ := ih
    exact ⟨nt_parse_array_loop_step buf fuel ihFO ihFA ihA,
      nt_parse_object_loop_step buf fuel ihFO ihFA ihO,
      nt_parse_array_fuel_step buf fuel ihA,
      nt_parse_object_fuel_step buf fuel ihO⟩

/-- `parse_array`, as embedded, always ends with a result or a failed assertion. -/
theorem parse_array_ne_timeout (buf : List Char) (s : string_view) (σ : Sink) :
    parse_array buf s σ ≠ Res.timeout :=
  (container_budget buf (budget s)).2.2.1 s σ (Nat.le_refl _)

/-- `parse_object`, as embedded, always ends with a result or a failed assertion. -/
theorem parse_object_ne_timeout (buf : List Char) (s : string_view) (σ : Sink) :
    parse_object buf s σ ≠ Res.timeout :=
  (container_budget buf (budget s)).2.2.2 s σ (Nat.le_refl _)

/-- `validate`, as embedded, always ends with a result or a failed assertion. -/
theorem validate_ne_timeout (buf : List Char) : validate buf ≠ Res.timeout := by
  unfold validate run init_recursive_test
  simp only [Res.bind_eq, Res.pure_eq]
  refine nt_bind (nt_bind (nt_ctor _ _) (fun sv _ => ?_)) (fun _ _ => by simp)
  refine nt_bind (nt_identify_value_loop _ _ _ _) (fun v _ => ?_)
  split
  · simp
  · refine nt_bind (parse_object_ne_timeout _ _ _) (fun x _ => ?_)
    obtain ⟨r, σ1⟩ := x
    simp only
    split <;> simp

end JSONReader

namespace JSONReader

/-- A buffer that holds no closing brace at all is never reported valid: `validate`
returns `false`, unless an assertion of the source fails and ends the run. -/
theorem validate_false_or_assert_of_no_brace (buf : List Char) (h : RBRACE ∉ buf) :
    validate buf = Res.ok false ∨ ∃ f, validate buf = Res.fault f := by
  have h1 := validate_ne_true_of_no_brace buf h
  have h2 := validate_ne_timeout buf
  cases hv : validate buf with
  | ok b =>
    cases b with
    | false => exact Or.inl rfl
    | true => exact absurd hv h1
  | fault f => exact Or.inr ⟨f, rfl⟩
  | timeout => exact absurd hv h2

end JSONReader

namespace JSONReader

/-! ## A larger budget does not change a result -/

theorem Res.le_refl {α : Type} (x : Res α) : Res.le x x := Or.inr rfl

theorem Res.le_bind {α β : Type} {x y : Res α} {f g : α → Res β} (hxy : Res.le x y)
    (hfg : ∀ a, Res.le (f a) (g a)) : Res.le (Res.bind x f) (Res.bind y g) := by
  rcases hxy with rfl | rfl
  · exact Or.inl rfl
  · cases x with
    | ok a => exact hfg a
    | fault e => exact Or.inr rfl
    | timeout => exact Or.inl rfl

theorem parse_value_le (po pa po2 pa2 : string_view → Sink → Res (string_view × Sink))
    (hpo : ∀ s σ, Res.le (po s σ) (po2 s σ)) (hpa : ∀ s σ, Res.le (pa s σ) (pa2 s σ))
    (buf : List Char) (string : string_view) (v : value) (σ : Sink) :
    Res.le (parse_value po pa buf string v σ) (parse_value po2 pa2 buf string v σ) := by
  unfold parse_value
  split
  · exact Res.le_refl _
  · exact Res.le_refl _
  · exact hpo _ _
  · exact hpa _ _
  · exact Res.le_refl _
  · exact Res.le_refl _
  · exact Res.le_refl _
  · exact Res.le_refl _

/-- One more step of budget does not change a result of the container scanners. -/
theorem container_fuel_succ (buf : List Char) :
    ∀ (fuel : Nat),
      (∀ string si σ, Res.le (parse_array_loop buf string fuel si σ)
        (parse_array_loop buf string (fuel + 1) si σ)) ∧
      (∀ string si σ, Res.le (parse_object_loop buf string fuel si σ)
        (parse_object_loop buf string (fuel + 1) si σ)) ∧
      (∀ s σ, Res.le (parse_array_fuel buf fuel s σ) (parse_array_fuel buf (fuel + 1) s σ)) ∧
      (∀ s σ, Res.le (parse_object_fuel buf fuel s σ)
        (parse_object_fuel buf (fuel + 1) s σ)) := by
  intro fuel
  induction fuel with
  | zero =>
    exact ⟨fun _ _ _ => Or.inl rfl, fun _ _ _ => Or.inl rfl, fun _ _ => Or.inl rfl,
      fun _ _ => Or.inl rfl⟩
  | succ fuel ih =>
    obtain ⟨ihA, ihO, ihFA, ihFO⟩ := ih
    refine ⟨fun string si σ => ?_, fun string si σ => ?_, fun s σ => ?_, fun s σ => ?_⟩
    · rw [parse_array_loop, parse_array_loop]
      split
      · simp only [Res.bind_eq, Res.pure_eq]
        refine Res.le_bind (Res.le_refl _) (fun si1 => ?_)
        refine Res.le_bind (Res.le_refl _) (fun v => ?_)
        refine Res.le_bind (parse_value_le _ _ _ _ ihFO ihFA buf string v _) (fun vb => ?_)
        refine Res.le_bind (Res.le_refl _) (fun si2 => ?_)
        refine Res.le_bind (Res.le_refl _) (fun si3 => ?_)
        split
        · exact Res.le_refl _
        · refine Res.le_bind (Res.le_refl _) (fun c => ?_)
          split
          · exact Res.le_refl _
          · refine Res.le_bind (Res.le_refl _) (fun c2 => ?_)
            split
            · exact Res.le_bind (Res.le_refl _) (fun si5 => ihA _ _ _)
            · exact Res.le_refl _
      · exact Res.le_refl _
    · rw [parse_object_loop, parse_object_loop]
      split
      · simp only [Res.bind_eq, Res.pure_eq]
        refine Res.le_bind (Res.le_refl _) (fun arg => ?_)
        refine Res.le_bind (Res.le_refl _) (fun name => ?_)
        refine Res.le_bind (Res.le_refl _) (fun si1 => ?_)
        refine Res.le_bind (Res.le_refl _) (fun sep => ?_)
        split
        · exact Res.le_refl _
        · refine Res.le_bind (Res.le_refl _) (fun si2 => ?_)
          refine Res.le_bind (Res.le_refl _) (fun v => ?_)
          refine Res.le_bind (parse_value_le _ _ _ _ ihFO ihFA buf string v _) (fun vb => ?_)
          refine Res.le_bind (Res.le_refl _) (fun si3 => ?_)
          refine Res.le_bind (Res.le_refl _) (fun si4 => ?_)
          split
          · exact Res.le_refl _
          · refine Res.le_bind (Res.le_refl _) (fun c => ?_)
            split
            · exact Res.le_refl _
            · refine Res.le_bind (Res.le_refl _) (fun c2 => ?_)
              split
              · exact Res.le_bind (Res.le_refl _) (fun si5 => ihO _ _ _)
              · exact Res.le_refl _
      · exact Res.le_refl _
    · rw [parse_array_fuel, parse_array_fuel]
      split
      · simp only [Res.bind_eq, Res.pure_eq]
        refine Res.le_bind (Res.le_refl _) (fun c => ?_)
        split
        · exact Res.le_bind (ihA _ _ _) (fun x => Res.le_refl _)
        · exact Res.le_refl _
      · exact Res.le_refl _
    · rw [parse_object_fuel, parse_object_fuel]
      split
      · simp only [Res.bind_eq, Res.pure_eq]
        refine Res.le_bind (Res.le_refl _) (fun c => ?_)
        split
        · exact Res.le_bind (ihO _ _ _) (fun x => Res.le_refl _)
        · exact Res.le_refl _
      · exact Res.le_refl _

/-- A result of `parse_object` within some budget is its result within every larger
budget. -/
theorem parse_object_fuel_mono (buf : List Char) (s : string_view) (σ : Sink)
    (fuel : Nat) (h : parse_object_fuel buf fuel s σ ≠ Res.timeout) :
    ∀ n, parse_object_fuel buf (fuel + n) s σ = parse_object_fuel buf fuel s σ := by
  intro n
  induction n with
  | zero => rfl
  | succ n ih =>
    rcases (container_fuel_succ buf (fuel + n)).2.2.2 s σ with h1 | h1
    · rw [ih] at h1
      exact absurd h1 h
    · rw [← ih]
      exact h1.symm

/-- A result of `parse_array` within some budget is its result within every larger
budget. -/
theorem parse_array_fuel_mono (buf : List Char) (s : string_view) (σ : Sink)
    (fuel : Nat) (h : parse_array_fuel buf fuel s σ ≠ Res.timeout) :
    ∀ n, parse_array_fuel buf (fuel + n) s σ = parse_array_fuel buf fuel s σ := by
  intro n
  induction n with
  | zero => rfl
  | succ n ih =>
    rcases (container_fuel_succ buf (fuel + n)).2.2.1 s σ with h1 | h1
    · rw [ih] at h1
      exact absurd h1 h
    · rw [← ih]
      exact h1.symm

/-- The budget of `parse_object` is immaterial: every budget from `budget s` on gives the
result of `parse_object`. -/
theorem parse_object_fuel_eq_parse_object (buf : List Char) (s : string_view) (σ : Sink)
    (n : Nat) : parse_object_fuel buf (budget s + n) s σ = parse_object buf s σ :=
  parse_object_fuel_mono buf s σ (budget s) (parse_object_ne_timeout buf s σ) n

/-- The budget of `parse_array` is immaterial: every budget from `budget s` on gives the
result of `parse_array`. -/
theorem parse_array_fuel_eq_parse_array (buf : List Char) (s : string_view) (σ : Sink)
    (n : Nat) : parse_array_fuel buf (budget s + n) s σ = parse_array buf s σ :=
  parse_array_fuel_mono buf s σ (budget s) (parse_array_ne_timeout buf s σ) n

end JSONReader

namespace JSONReader

/-! ## The results of the scanners end inside the span -/

theorem parse_string_upper (buf : List Char) (s : string_view) (σ : Sink)
    (x : string_view × Sink) (h : parse_string buf s σ = Res.ok x) :
    x.1.m_end ≤ s.m_end := by
  unfold parse_string at h
  split at h
  · simp only [Res.bind_eq, Res.bind_eq_ok, Res.pure_eq] at h
    obtain ⟨c, _, h⟩ := h
    split at h
    · simp only [Res.bind_eq_ok, string_view.ctor_eq_ok] at h
      obtain ⟨arg, ⟨ha, rfl⟩, e, he, h⟩ := h
      obtain ⟨e1, e2, e3⟩ := find_string_marker_bounds buf _ e ha he
      simp only at e1 e3
      split at h
      · simp only [string_view.ctor_self, Res.ok_bind, Res.ok.injEq] at h
        subst h
        exact Nat.le_refl _
      · rename_i hsz
        simp only [string_view.size] at hsz
        simp only [Res.bind_eq_ok, string_view.ctor_eq_ok] at h
        obtain ⟨r, ⟨h1, rfl⟩, h⟩ := h
        simp only [Res.ok.injEq] at h
        subst h
        simp only
        omega
    · exact absurd h (by simp)
  · exact absurd h (by simp)

theorem parse_number_loop_upper (buf : List Char) (s : string_view) (σ : Sink) :
    ∀ (k p : Nat) (state : Int) (x : string_view × Sink), p ≤ s.m_end →
      (state ≠ 8 → p + k ≤ s.m_end) →
      parse_number_loop buf s σ k p state = Res.ok x → x.1.m_end ≤ s.m_end := by
  intro k
  induction k with
  | zero =>
    intro p state x hp _ h
    simp only [parse_number_loop, Res.bind_eq, Res.bind_eq_ok, Res.pure_eq,
      string_view.ctor_eq_ok] at h
    obtain ⟨r, ⟨_, rfl⟩, h⟩ := h
    simp only [Res.ok.injEq] at h
    subst h
    exact hp
  | succ k ih =>
    intro p state x hp hinv h
    rw [parse_number_loop] at h
    split at h
    · rename_i h8
      have := hinv h8
      simp only [Res.bind_eq, Res.bind_eq_ok, Res.pure_eq] at h
      obtain ⟨st, _, h⟩ := h
      split at h
      · simp only [string_view.ctor_self, Res.ok_bind, Res.ok.injEq] at h
        subst h
        exact Nat.le_refl _
      · refine ih _ _ x ?_ ?_ h
        · split <;> omega
        · intro hst
          rw [if_pos hst]
          omega
    · simp only [Res.bind_eq, Res.bind_eq_ok, Res.pure_eq, string_view.ctor_eq_ok] at h
      obtain ⟨r, ⟨_, rfl⟩, h⟩ := h
      simp only [Res.ok.injEq] at h
      subst h
      exact hp

theorem parse_number_upper (buf : List Char) (s : string_view) (σ : Sink)
    (x : string_view × Sink) (hs : s.m_begin ≤ s.m_end) (h : parse_number buf s σ = Res.ok x) :
    x.1.m_end ≤ s.m_end :=
  parse_number_loop_upper buf s σ _ _ _ x hs (fun _ => by unfold string_view.size; omega) h

theorem parse_literal_upper (cs : List Char) (n : Nat) (first : Char) (buf : List Char)
    (s : string_view) (σ : Sink) (x : string_view × Sink)
    (h : parse_literal cs n first buf s σ = Res.ok x) :
    x.1.m_end ≤ s.m_end := by
  unfold parse_literal at h
  split at h
  · rename_i hsz
    simp only [string_view.size] at hsz
    simp only [Res.bind_eq, Res.bind_eq_ok, Res.pure_eq] at h
    obtain ⟨c, _, h⟩ := h
    split at h
    · simp only [Res.bind_eq_ok] at h
      obtain ⟨csv, _, h⟩ := h
      split at h
      · rename_i hn
        simp only [string_view.size] at hn
        simp only [Res.bind_eq_ok] at h
        obtain ⟨arg, _, eq, _, h⟩ := h
        split at h
        · simp only [Res.bind_eq_ok, string_view.ctor_eq_ok] at h
          obtain ⟨r, ⟨h1, rfl⟩, h⟩ := h
          simp only [Res.ok.injEq] at h
          subst h
          simp only
          omega
        · simp only [string_view.ctor_self, Res.ok_bind, Res.ok.injEq] at h
          subst h
          exact Nat.le_refl _
      · simp only [string_view.ctor_self, Res.ok_bind, Res.ok.injEq] at h
        subst h
        exact Nat.le_refl _
    · exact absurd h (by simp)
  · exact absurd h (by simp)

/-- The loop of `parse_array` moves its cursor `string_i` forward only and keeps its
end. -/
theorem parse_array_loop_bounds (buf : List Char) (string : string_view) :
    ∀ (fuel : Nat) (si : string_view) (σ : Sink) (x : string_view × Sink),
      parse_array_loop buf string fuel si σ = Res.ok x → si.m_begin ≤ si.m_end →
      si.m_begin ≤ x.1.m_begin ∧ x.1.m_begin ≤ x.1.m_end ∧ x.1.m_end = si.m_end := by
  intro fuel
  induction fuel with
  | zero => intro si σ x h; simp [parse_array_loop] at h
  | succ fuel ih =>
    intro si σ x h hsi
    rw [parse_array_loop] at h
    split at h
    · rename_i hsz
      unfold string_view.size at hsz
      simp only [Res.bind_eq, Res.pure_eq, Res.bind_eq_ok, string_view.ctor_eq_ok] at h
      obtain ⟨si1, ⟨h1, rfl⟩, v, hv, vb, hvb, si3, ⟨h3, rfl⟩, si4, ⟨h4, rfl⟩, h⟩ := h
      obtain ⟨v1, v2, v3, _⟩ := identify_value_bounds buf _ v h1 hv
      simp only at v1 v3
      have hlow := parse_value_lower _ _ (parse_object_fuel_lower buf fuel)
        (parse_array_fuel_lower buf fuel) buf string v _ vb v2 hvb
      have hseek := (seek_separator_bounds buf ']'
        (string_view.size ⟨vb.1.m_end, si.m_end⟩) vb.1.m_end).1
      simp only at h hseek
      split at h
      · simp only [Res.ok.injEq] at h
        subst h
        exact ⟨by simp only; omega, h4, rfl⟩
      · simp only [Res.bind_eq_ok] at h
        obtain ⟨c, _, h⟩ := h
        split at h
        · simp only [Res.ok.injEq] at h
          subst h
          exact ⟨by simp only; omega, h4, rfl⟩
        · simp only [Res.bind_eq_ok] at h
          obtain ⟨c2, _, h⟩ := h
          split at h
          · simp only [Res.bind_eq_ok, string_view.ctor_eq_ok] at h
            obtain ⟨si5, ⟨h5, rfl⟩, h⟩ := h
            obtain ⟨r1, r2, r3⟩ := ih _ _ x h h5
            simp only at r1 r3
            exact ⟨by omega, r2, r3⟩
          · exact absurd h (by simp)
    · simp only [Res.pure_eq, Res.ok.injEq] at h
      subst h
      exact ⟨Nat.le_refl _, hsi, rfl⟩

theorem parse_object_fuel_upper (buf : List Char) (n : Nat) (s : string_view) (σ : Sink)
    (x : string_view × Sink) (h : parse_object_fuel buf n s σ = Res.ok x) :
    x.1.m_end ≤ s.m_end := by
  cases n with
  | zero => simp [parse_object_fuel] at h
  | succ n =>
    obtain ⟨hlt, _, si, σ1, hloop, _, h | h⟩ := parse_object_fuel_eq buf n s σ x h
    · obtain ⟨_, _, b3⟩ := parse_object_loop_bounds buf s n s σ _ hloop (Nat.le_of_lt hlt)
      have hsz := h.1
      simp only [string_view.size] at hsz b3
      rw [h.2.2.2]
      simp only
      omega
    · rw [h.2]

theorem parse_array_fuel_upper (buf : List Char) (n : Nat) (s : string_view) (σ : Sink)
    (x : string_view × Sink) (h : parse_array_fuel buf n s σ = Res.ok x) :
    x.1.m_end ≤ s.m_end := by
  cases n with
  | zero => simp [parse_array_fuel] at h
  | succ n =>
    obtain ⟨hlt, _, si, σ1, hloop, _, h | h⟩ := parse_array_fuel_eq buf n s σ x h
    · obtain ⟨_, _, b3⟩ := parse_array_loop_bounds buf s n s σ _ hloop (Nat.le_of_lt hlt)
      have hsz := h.1
      simp only [string_view.size] at hsz b3
      rw [h.2.2.2]
      simp only
      omega
    · rw [h.2]

theorem parse_value_upper (po pa : string_view → Sink → Res (string_view × Sink))
    (hpo : ∀ s σ x, po s σ = Res.ok x → x.1.m_end ≤ s.m_end)
    (hpa : ∀ s σ x, pa s σ = Res.ok x → x.1.m_end ≤ s.m_end)
    (buf : List Char) (string : string_view) (v : value) (σ : Sink)
    (x : string_view × Sink) (hv : v.start.m_begin ≤ v.start.m_end)
    (hend : v.start.m_end = string.m_end)
    (h : parse_value po pa buf string v σ = Res.ok x) :
    x.1.m_end ≤ v.start.m_end := by
  unfold parse_value at h
  split at h
  · exact parse_string_upper buf _ σ x h
  · exact parse_number_upper buf _ σ x hv h
  · exact hpo _ _ x h
  · exact hpa _ _ x h
  · exact parse_literal_upper _ _ _ buf _ σ x h
  · exact parse_literal_upper _ _ _ buf _ σ x h
  · exact parse_literal_upper _ _ _ buf _ σ x h
  · simp only [Res.bind_eq, Res.bind_eq_ok, Res.pure_eq, string_view.ctor_eq_ok] at h
    obtain ⟨r, ⟨_, rfl⟩, h⟩ := h
    simp only [Res.ok.injEq] at h
    subst h
    simp only
    omega

end JSONReader

namespace JSONReader

/-! ## Which assertions can fail -/

theorem fl_ok {α : Type} (allow : Fault → Prop) (a : α) : Res.faultless allow (Res.ok a) := by
  intro f h; simp at h

theorem fl_bind {α β : Type} {allow : Fault → Prop} {x : Res α} {f : α → Res β}
    (hx : Res.faultless allow x) (hf : ∀ a, x = Res.ok a → Res.faultless allow (f a)) :
    Res.faultless allow (Res.bind x f) := by
  cases x with
  | ok a => exact hf a rfl
  | fault e => intro g hg; exact hx g (by simpa [Res.bind] using hg)
  | timeout => intro g hg; simp [Res.bind] at hg

theorem fl_ctor (allow : Fault → Prop) {b e : Nat} (h : b ≤ e) :
    Res.faultless allow (string_view.ctor b e) := by
  rw [string_view.ctor_ok h]; exact fl_ok _ _

theorem fl_at (allow : Fault → Prop) (buf : List Char) {s : string_view} {i : Nat}
    (h : i < s.size) : Res.faultless allow (s.at buf i) := by
  rw [string_view.at_ok h]; exact fl_ok _ _

theorem fl_find_string_marker_loop (allow : Fault → Prop) (buf : List Char)
    (t : string_view) :
    ∀ (k i : Nat), i + k + 1 = t.size →
      Res.faultless allow (find_string_marker_loop buf t k i) := by
  intro k
  induction k with
  | zero => intro i _; simp [find_string_marker_loop, fl_ok]
  | succ k ih =>
    intro i hk
    rw [find_string_marker_loop]
    simp only [Res.bind_eq]
    refine fl_bind (fl_at _ _ (by omega)) (fun c1 _ => ?_)
    split
    · refine fl_bind (fl_at _ _ (by omega)) (fun c0 _ => ?_)
      split
      · exact fl_ctor _ (by unfold string_view.size at hk; omega)
      · exact ih _ (by omega)
    · exact ih _ (by omega)

theorem fl_find_string_marker (allow : Fault → Prop) (buf : List Char) (t : string_view) :
    Res.faultless allow (find_string_marker buf t) := by
  unfold find_string_marker
  split
  · exact fl_ok _ _
  · rename_i hsz
    simp only [Res.bind_eq, Res.pure_eq]
    refine fl_bind (fl_at _ _ (Nat.pos_of_ne_zero hsz)) (fun c _ => ?_)
    split
    · exact fl_ok _ _
    · exact fl_find_string_marker_loop _ _ _ _ _ (by omega)

theorem fl_find_string (allow : Fault → Prop) (buf : List Char) (t : string_view) :
    Res.faultless allow (find_string buf t) := by
  unfold find_string
  simp only [Res.bind_eq, Res.pure_eq]
  refine fl_bind (fl_find_string_marker _ _ _) (fun first hfirst => ?_)
  split
  · exact fl_ok _ _
  · rename_i hsz
    simp only [string_view.size] at hsz
    refine fl_bind (fl_ctor _ (by omega)) (fun arg ha => ?_)
    rw [string_view.ctor_eq_ok] at ha
    obtain ⟨hale, rfl⟩ := ha
    refine fl_bind (fl_find_string_marker _ _ _) (fun second hsecond => ?_)
    obtain ⟨s1, _, _⟩ := find_string_marker_bounds buf _ second hale hsecond
    simp only at s1
    split
    · exact fl_ok _ _
    · exact fl_ctor _ (by omega)

theorem fl_find_loop (allow : Fault → Prop) (buf : List Char) (t : string_view) (c : Char) :
    ∀ (k i : Nat), i ≤ t.m_end → (0 < k → i + k = t.m_end) →
      Res.faultless allow (find_loop buf t c k i) := by
  intro k
  induction k with
  | zero => intro i _ _; simp [find_loop, fl_ok]
  | succ k ih =>
    intro i hi hk
    rw [find_loop]
    split
    · exact fl_ctor _ hi
    · exact ih _ (by have := hk (Nat.succ_pos k); omega)
        (fun _ => by have := hk (Nat.succ_pos k); omega)

theorem fl_find (allow : Fault → Prop) (buf : List Char) (t : string_view) (c : Char)
    (ht : t.m_begin ≤ t.m_end) : Res.faultless allow (find buf t c) :=
  fl_find_loop _ _ _ _ _ _ ht (fun _ => by unfold string_view.size; omega)

theorem fl_identify_value_loop (allow : Fault → Prop) (buf : List Char) (t : string_view) :
    ∀ (k i : Nat), i + k = t.m_end →
      Res.faultless allow (identify_value_loop buf t k i) := by
  intro k
  induction k with
  | zero =>
    intro i _
    simp [identify_value_loop, Res.bind_eq, Res.pure_eq, fl_ok]
  | succ k ih =>
    intro i hk
    by_cases hm : is_marker (deref buf i) = true
    · rw [identify_value_loop_hit buf t k i hm]
      exact fl_bind (fl_ctor _ (by omega)) (fun _ _ => fl_ok _ _)
    · have := identify_value_loop_skip buf t k 1 i (fun j hj => by
        have : j = 0 := by omega
        subst this
        simpa using hm)
      rw [Nat.add_comm 1 k] at this
      rw [this]
      exact ih _ (by omega)

theorem fl_identify_value (allow : Fault → Prop) (buf : List Char) (t : string_view)
    (ht : t.m_begin ≤ t.m_end) : Res.faultless allow (identify_value buf t) :=
  fl_identify_value_loop _ _ _ _ _ (by unfold string_view.size; omega)

theorem fl_parse_string (allow : Fault → Prop) (buf : List Char) (s : string_view) (σ : Sink)
    (hne : s.m_begin < s.m_end) (hq : deref buf s.m_begin = QUOTE) :
    Res.faultless allow (parse_string buf s σ) := by
  have hsz : s.size ≠ 0 := by unfold string_view.size; omega
  unfold parse_string
  simp only [ne_eq, hsz, not_false_eq_true, if_true, Res.bind_eq,
    string_view.at_ok (Nat.pos_of_ne_zero hsz), Res.ok_bind, Nat.add_zero, hq,
    string_view.ctor_ok (show s.m_begin + 1 ≤ s.m_end by omega), Res.pure_eq]
  refine fl_bind (fl_find_string_marker _ _ _) (fun e he => ?_)
  obtain ⟨e1, e2, e3⟩ := find_string_marker_bounds buf _ e (by simp only; omega) he
  simp only at e1 e3
  split
  · exact fl_bind (fl_ctor _ (Nat.le_refl _)) (fun _ _ => fl_ok _ _)
  · exact fl_bind (fl_ctor _ (by omega)) (fun _ _ => fl_ok _ _)

theorem fl_equal_loop (allow : Fault → Prop) (bufa : List Char) (a : string_view)
    (bufb : List Char) (b : string_view) :
    ∀ (k i : Nat), i + k ≤ a.size → i + k ≤ b.size →
      Res.faultless allow (equal_loop bufa a bufb b k i) := by
  intro k
  induction k with
  | zero => intro i _ _; simp [equal_loop, Res.pure_eq, fl_ok]
  | succ k ih =>
    intro i ha hb
    rw [equal_loop]
    simp only [Res.bind_eq, Res.pure_eq]
    refine fl_bind (fl_at _ _ (by omega)) (fun x _ => ?_)
    refine fl_bind (fl_at _ _ (by omega)) (fun y _ => ?_)
    split
    · exact fl_ok _ _
    · exact ih _ (by omega) (by omega)

theorem fl_parse_literal (allow : Fault → Prop) (cs : List Char) (n : Nat) (first : Char)
    (buf : List Char) (s : string_view) (σ : Sink)
    (hne : s.m_begin < s.m_end) (hq : deref buf s.m_begin = first) :
    Res.faultless allow (parse_literal cs n first buf s σ) := by
  have hsz : s.size ≠ 0 := by unfold string_view.size; omega
  unfold parse_literal
  simp only [ne_eq, hsz, not_false_eq_true, if_true, Res.bind_eq,
    string_view.at_ok (Nat.pos_of_ne_zero hsz), Res.ok_bind, Nat.add_zero, hq,
    string_view.ctor_ok (show 0 ≤ 0 + n by omega), Res.pure_eq]
  split
  · refine fl_bind (fl_ctor _ (by omega)) (fun arg ha => ?_)
    rw [string_view.ctor_eq_ok] at ha
    obtain ⟨_, rfl⟩ := ha
    refine fl_bind ?_ (fun eq _ => ?_)
    · unfold equal
      split
      · exact fl_ok _ _
      · exact fl_equal_loop _ _ _ _ _ _ _ (by simp [string_view.size])
          (by simp [string_view.size])
    · split
      · exact fl_bind (fl_ctor _ (by omega)) (fun _ _ => fl_ok _ _)
      · exact fl_bind (fl_ctor _ (Nat.le_refl _)) (fun _ _ => fl_ok _ _)
  · exact fl_bind (fl_ctor _ (Nat.le_refl _)) (fun _ _ => fl_ok _ _)

end JSONReader

namespace JSONReader

theorem fl_parse_number_switch (state : Int) (c : Char) :
    Res.faultless (fun f => f = Fault.unreachable) (parse_number_switch state c) := by
  intro f h
  unfold parse_number_switch at h
  simp only [Res.pure_eq] at h
  split_ifs at h
  simp at h
  exact h.symm

theorem parse_number_switch_valid (state : Int) (c : Char)
    (hs : state = -1 ∨ (1 ≤ state ∧ state ≤ 7)) (hc : c ≠ '-') :
    ∃ st, parse_number_switch state c = Res.ok st ∧ (st = DEAD ∨ (1 ≤ st ∧ st ≤ 8)) := by
  have hcases : state = -1 ∨ state = 1 ∨ state = 2 ∨ state = 3 ∨ state = 4 ∨ state = 5 ∨
      state = 6 ∨ state = 7 := by omega
  rcases hcases with rfl | rfl | rfl | rfl | rfl | rfl | rfl | rfl <;>
    simp only [parse_number_switch, Res.pure_eq, hc, if_false, if_true, or_false,
      show ¬ ((1 : Int) = -1) by decide, show ¬ ((2 : Int) = -1) by decide,
      show ¬ ((3 : Int) = -1) by decide, show ¬ ((4 : Int) = -1) by decide,
      show ¬ ((5 : Int) = -1) by decide, show ¬ ((6 : Int) = -1) by decide,
      show ¬ ((7 : Int) = -1) by decide, show ¬ ((2 : Int) = 1) by decide,
      show ¬ ((3 : Int) = 1) by decide, show ¬ ((4 : Int) = 1) by decide,
      show ¬ ((5 : Int) = 1) by decide, show ¬ ((6 : Int) = 1) by decide,
      show ¬ ((7 : Int) = 1) by decide, show ¬ ((3 : Int) = 2) by decide,
      show ¬ ((4 : Int) = 2) by decide, show ¬ ((5 : Int) = 2) by decide,
      show ¬ ((6 : Int) = 2) by decide, show ¬ ((7 : Int) = 2) by decide,
      show ¬ ((4 : Int) = 3) by decide, show ¬ ((5 : Int) = 3) by decide,
      show ¬ ((6 : Int) = 3) by decide, show ¬ ((7 : Int) = 3) by decide,
      show ¬ ((5 : Int) = 4) by decide, show ¬ ((6 : Int) = 4) by decide,
      show ¬ ((7 : Int) = 4) by decide, show ¬ ((6 : Int) = 5) by decide,
      show ¬ ((7 : Int) = 5) by decide, show ¬ ((7 : Int) = 6) by decide] <;>
    split_ifs <;>
    first
      | exact ⟨_, rfl, Or.inl rfl⟩
      | exact ⟨_, rfl, Or.inr (by decide)⟩

/-- In the scanner of numbers only the `assert(0)` can fail, and it does not when the
buffer holds no `-`. -/
theorem fl_parse_number_loop (allow : Fault → Prop) (buf : List Char) (s : string_view)
    (σ : Sink) (H : allow Fault.unreachable ∨ ∀ i, deref buf i ≠ '-') :
    ∀ (k p : Nat) (state : Int), s.m_begin ≤ p →
      (allow Fault.unreachable ∨ state = -1 ∨ (1 ≤ state ∧ state ≤ 8)) →
      Res.faultless allow (parse_number_loop buf s σ k p state) := by
  intro k
  induction k with
  | zero =>
    intro p state hp _
    rw [parse_number_loop]
    simp only [Res.bind_eq, Res.pure_eq]
    exact fl_bind (fl_ctor _ hp) (fun _ _ => fl_ok _ _)
  | succ k ih =>
    intro p state hp hst
    rw [parse_number_loop]
    simp only [Res.bind_eq, Res.pure_eq]
    split
    · rename_i h8
      have hsw : Res.faultless allow (parse_number_switch state (deref buf p)) ∧
          ∀ st, parse_number_switch state (deref buf p) = Res.ok st → st ≠ DEAD →
            (allow Fault.unreachable ∨ st = -1 ∨ (1 ≤ st ∧ st ≤ 8)) := by
        by_cases ha : allow Fault.unreachable
        · refine ⟨fun f hf => ?_, fun _ _ _ => Or.inl ha⟩
          rw [fl_parse_number_switch state (deref buf p) f hf]
          exact ha
        · have hno : ∀ i, deref buf i ≠ '-' := H.resolve_left ha
          have hv : state = -1 ∨ (1 ≤ state ∧ state ≤ 7) := by
            rcases hst.resolve_left ha with h | h
            · exact Or.inl h
            · right; omega
          obtain ⟨st, hsw, hst2⟩ := parse_number_switch_valid state (deref buf p) hv (hno p)
          refine ⟨by rw [hsw]; exact fl_ok _ _, fun st2 h2 hd => ?_⟩
          rw [hsw] at h2
          injection h2 with h2
          subst h2
          exact Or.inr (Or.inr (hst2.resolve_left hd))
      refine fl_bind hsw.1 (fun st hst3 => ?_)
      split
      · exact fl_bind (fl_ctor _ (Nat.le_refl _)) (fun _ _ => fl_ok _ _)
      · rename_i hd
        exact ih _ st (by split <;> omega) (hsw.2 st hst3 hd)
    · exact fl_bind (fl_ctor _ hp) (fun _ _ => fl_ok _ _)

theorem marker_type_cases (c : Char) :
    (marker_type c = .T_STRING → c = QUOTE) ∧ (marker_type c = .T_OBJECT → c = LBRACE) ∧
    (marker_type c = .T_ARRAY → c = '[') ∧ (marker_type c = .T_TRUE → c = 't') ∧
    (marker_type c = .T_FALSE → c = 'f') ∧ (marker_type c = .T_NULL → c = 'n') ∧
    marker_type c ≠ .T_UNKNOWN := by
  unfold marker_type
  split_ifs <;> simp_all

/-- The `switch` on the kind of a classified value: the preconditions of the scanners it
calls hold. -/
theorem fl_parse_value (allow : Fault → Prop) (buf : List Char)
    (H : allow Fault.unreachable ∨ ∀ i, deref buf i ≠ '-')
    (po pa : string_view → Sink → Res (string_view × Sink))
    (hpo : ∀ s σ, s.m_begin < s.m_end → deref buf s.m_begin = LBRACE →
      Res.faultless allow (po s σ))
    (hpa : ∀ s σ, s.m_begin < s.m_end → deref buf s.m_begin = '[' →
      Res.faultless allow (pa s σ))
    (string t : string_view) (v : value) (σ : Sink) (ht : t.m_begin ≤ t.m_end)
    (hend : t.m_end = string.m_end) (hv : identify_value buf t = Res.ok v) :
    Res.faultless allow (parse_value po pa buf string v σ) := by
  obtain ⟨v1, v2, v3, v4, v5⟩ := identify_value_bounds buf t v ht hv
  unfold parse_value
  split
  · rename_i hty
    obtain ⟨hlt, hm, hmt⟩ := v5 (by rw [hty]; simp)
    exact fl_parse_string _ _ _ _ (by omega) ((marker_type_cases _).1 (hmt ▸ hty))
  · exact fl_parse_number_loop allow buf _ σ H _ _ _ (Nat.le_refl _) (Or.inr (Or.inl rfl))
  · rename_i hty
    obtain ⟨hlt, hm, hmt⟩ := v5 (by rw [hty]; simp)
    exact hpo _ _ (by omega) ((marker_type_cases _).2.1 (hmt ▸ hty))
  · rename_i hty
    obtain ⟨hlt, hm, hmt⟩ := v5 (by rw [hty]; simp)
    exact hpa _ _ (by omega) ((marker_type_cases _).2.2.1 (hmt ▸ hty))
  · rename_i hty
    obtain ⟨hlt, hm, hmt⟩ := v5 (by rw [hty]; simp)
    exact fl_parse_literal _ _ _ _ _ _ _ (by omega) ((marker_type_cases _).2.2.2.1 (hmt ▸ hty))
  · rename_i hty
    obtain ⟨hlt, hm, hmt⟩ := v5 (by rw [hty]; simp)
    exact fl_parse_literal _ _ _ _ _ _ _ (by omega)
      ((marker_type_cases _).2.2.2.2.1 (hmt ▸ hty))
  · rename_i hty
    obtain ⟨hlt, hm, hmt⟩ := v5 (by rw [hty]; simp)
    exact fl_parse_literal _ _ _ _ _ _ _ (by omega)
      ((marker_type_cases _).2.2.2.2.2.1 (hmt ▸ hty))
  · simp only [Res.bind_eq, Res.pure_eq]
    exact fl_bind (fl_ctor _ (by omega)) (fun _ _ => fl_ok _ _)

end JSONReader

namespace JSONReader

/-- In the container scanners no assertion on views, indices or preconditions fails, and
the `assert(0)` after the search for a separator is not reached; the only assertion
that can fail is the `assert(0)` of `parse_number`, on a buffer holding `-`. -/
theorem fl_container (allow : Fault → Prop) (buf : List Char)
    (H : allow Fault.unreachable ∨ ∀ i, deref buf i ≠ '-') :
    ∀ fuel : Nat,
      (∀ (string si : string_view) (σ : Sink), si.m_begin ≤ si.m_end →
        si.m_end = string.m_end →
        Res.faultless allow (parse_array_loop buf string fuel si σ)) ∧
      (∀ (s : string_view) (σ : Sink), s.m_begin < s.m_end → deref buf s.m_begin = '[' →
        Res.faultless allow (parse_array_fuel buf fuel s σ)) ∧
      (∀ (string si : string_view) (σ : Sink), si.m_begin ≤ si.m_end →
        si.m_end = string.m_end →
        Res.faultless allow (parse_object_loop buf string fuel si σ)) ∧
      (∀ (s : string_view) (σ : Sink), s.m_begin < s.m_end → deref buf s.m_begin = LBRACE →
        Res.faultless allow (parse_object_fuel buf fuel s σ)) := by
  intro fuel
  induction fuel with
  | zero =>
    refine ⟨?_, ?_, ?_, ?_⟩
    · intro string si σ _ _ f h
      rw [parse_array_loop] at h
      cases h
    · intro s σ _ _ f h
      rw [parse_array_fuel] at h
      cases h
    · intro string si σ _ _ f h
      rw [parse_object_loop] at h
      cases h
    · intro s σ _ _ f h
      rw [parse_object_fuel] at h
      cases h
  | succ fuel ih =>
    obtain ⟨ihal, ihaf, ihol, ihof⟩ := ih
    have hal : ∀ (string si : string_view) (σ : Sink), si.m_begin ≤ si.m_end →
        si.m_end = string.m_end →
        Res.faultless allow (parse_array_loop buf string (fuel + 1) si σ) := by
      intro string si σ hsi hend
      rw [parse_array_loop]
      simp only [Res.bind_eq, Res.pure_eq]
      split
      · rename_i hsz
        simp only [string_view.size] at hsz
        refine fl_bind (fl_ctor _ (by omega)) (fun s1 h1 => ?_)
        obtain ⟨_, rfl⟩ := string_view.ctor_eq_ok.mp h1
        have ht : (⟨si.m_begin + 1, si.m_end⟩ : string_view).m_begin
            ≤ (⟨si.m_begin + 1, si.m_end⟩ : string_view).m_end := by
          show si.m_begin + 1 ≤ si.m_end
          omega
        refine fl_bind (fl_identify_value _ _ _ ht) (fun v hv => ?_)
        obtain ⟨v1, v2, v3, v4, v5⟩ := identify_value_bounds buf _ v ht hv
        simp only at v1 v3
        refine fl_bind (fl_parse_value allow buf H _ _ ihof ihaf string _ v _ ht hend hv)
          (fun vb hvb => ?_)
        have hup := parse_value_upper _ _ (parse_object_fuel_upper buf fuel)
          (parse_array_fuel_upper buf fuel) buf string v _ vb v2 (v3.trans hend) hvb
        refine fl_bind (fl_ctor _ (by first | omega | (dsimp only [string_view.size] at *; omega))) (fun s2 h2 => ?_)
        obtain ⟨h2le, rfl⟩ := string_view.ctor_eq_ok.mp h2
        have hsk := seek_separator_bounds buf ']' (si.m_end - vb.1.m_end) vb.1.m_end
        simp only [string_view.size]
        refine fl_bind (fl_ctor _ (by omega)) (fun s3 h3 => ?_)
        obtain ⟨h3le, rfl⟩ := string_view.ctor_eq_ok.mp h3
        split
        · exact fl_ok _ _
        · rename_i hne
          have hlt : seek_separator buf ']' (si.m_end - vb.1.m_end) vb.1.m_end
              < vb.1.m_end + (si.m_end - vb.1.m_end) := by first | omega | (dsimp only [string_view.size] at *; omega)
          have hat : (⟨seek_separator buf ']' (si.m_end - vb.1.m_end) vb.1.m_end,
              si.m_end⟩ : string_view).at buf 0
              = Res.ok (deref buf (seek_separator buf ']' (si.m_end - vb.1.m_end)
                  vb.1.m_end)) := by
            rw [string_view.at_ok (by dsimp only [string_view.size] at *; omega)]
            rfl
          rw [hat]
          simp only [Res.ok_bind]
          split
          · exact fl_ok _ _
          · rename_i hnc
            split
            · refine fl_bind (fl_ctor _ (by omega)) (fun s4 h4 => ?_)
              obtain ⟨_, rfl⟩ := string_view.ctor_eq_ok.mp h4
              exact ihal string _ _ (by show _ + 1 ≤ si.m_end; omega) hend
            · rename_i hncm
              rcases hsk.2.2 hlt with h | h
              · exact absurd h hnc
              · exact absurd h hncm
      · exact fl_ok _ _
    have hol : ∀ (string si : string_view) (σ : Sink), si.m_begin ≤ si.m_end →
        si.m_end = string.m_end →
        Res.faultless allow (parse_object_loop buf string (fuel + 1) si σ) := by
      intro string si σ hsi hend
      rw [parse_object_loop]
      simp only [Res.bind_eq, Res.pure_eq]
      split
      · rename_i hsz
        simp only [string_view.size] at hsz
        refine fl_bind (fl_ctor _ (by omega)) (fun s1 h1 => ?_)
        obtain ⟨_, rfl⟩ := string_view.ctor_eq_ok.mp h1
        have ha : (⟨si.m_begin + 1, si.m_end⟩ : string_view).m_begin
            ≤ (⟨si.m_begin + 1, si.m_end⟩ : string_view).m_end := by
          show si.m_begin + 1 ≤ si.m_end
          omega
        refine fl_bind (fl_find_string _ _ _) (fun en hen => ?_)
        obtain ⟨e1, e2, e3⟩ := find_string_bounds buf _ en ha hen
        simp only at e1 e3
        refine fl_bind (fl_ctor _ e3) (fun s2 h2 => ?_)
        obtain ⟨_, rfl⟩ := string_view.ctor_eq_ok.mp h2
        have hb : (⟨en.m_end, si.m_end⟩ : string_view).m_begin
            ≤ (⟨en.m_end, si.m_end⟩ : string_view).m_end := e3
        refine fl_bind (fl_find _ _ _ _ hb) (fun sep hsep => ?_)
        obtain ⟨p1, p2, p3⟩ := find_bounds buf _ sep ':' hb hsep
        simp only at p1 p3
        split
        · refine fl_bind (fl_ctor _ (Nat.le_refl _)) (fun _ _ => fl_ok _ _)
        · rename_i hsep0
          simp only [string_view.size] at hsep0
          refine fl_bind (fl_ctor _ (by first | omega | (dsimp only [string_view.size] at *; omega))) (fun s3 h3 => ?_)
          obtain ⟨_, rfl⟩ := string_view.ctor_eq_ok.mp h3
          have ht : (⟨sep.m_begin + 1, si.m_end⟩ : string_view).m_begin
              ≤ (⟨sep.m_begin + 1, si.m_end⟩ : string_view).m_end := by
            show sep.m_begin + 1 ≤ si.m_end
            omega
          refine fl_bind (fl_identify_value _ _ _ ht) (fun v hv => ?_)
          obtain ⟨v1, v2, v3, v4, v5⟩ := identify_value_bounds buf _ v ht hv
          simp only at v1 v3
          refine fl_bind (fl_parse_value allow buf H _ _ ihof ihaf string _ v _ ht hend hv)
            (fun vb hvb => ?_)
          have hup := parse_value_upper _ _ (parse_object_fuel_upper buf fuel)
            (parse_array_fuel_upper buf fuel) buf string v _ vb v2 (v3.trans hend) hvb
          refine fl_bind (fl_ctor _ (by first | omega | (dsimp only [string_view.size] at *; omega))) (fun s4 h4 => ?_)
          obtain ⟨h4le, rfl⟩ := string_view.ctor_eq_ok.mp h4
          have hsk := seek_separator_bounds buf RBRACE (si.m_end - vb.1.m_end) vb.1.m_end
          simp only [string_view.size]
          refine fl_bind (fl_ctor _ (by omega)) (fun s5 h5 => ?_)
          obtain ⟨h5le, rfl⟩ := string_view.ctor_eq_ok.mp h5
          split
          · exact fl_ok _ _
          · rename_i hne
            have hlt : seek_separator buf RBRACE (si.m_end - vb.1.m_end) vb.1.m_end
                < vb.1.m_end + (si.m_end - vb.1.m_end) := by first | omega | (dsimp only [string_view.size] at *; omega)
            have hat : (⟨seek_separator buf RBRACE (si.m_end - vb.1.m_end) vb.1.m_end,
                si.m_end⟩ : string_view).at buf 0
                = Res.ok (deref buf (seek_separator buf RBRACE (si.m_end - vb.1.m_end)
                    vb.1.m_end)) := by
              rw [string_view.at_ok (by dsimp only [string_view.size] at *; omega)]
              rfl
            rw [hat]
            simp only [Res.ok_bind]
            split
            · exact fl_ok _ _
            · rename_i hnc
              split
              · refine fl_bind (fl_ctor _ (by omega)) (fun s6 h6 => ?_)
                obtain ⟨_, rfl⟩ := string_view.ctor_eq_ok.mp h6
                exact ihol string _ _ (by show _ + 1 ≤ si.m_end; omega) hend
              · rename_i hncm
                rcases hsk.2.2 hlt with h | h
                · exact absurd h hnc
                · exact absurd h hncm
      · exact fl_ok _ _
    refine ⟨hal, ?_, hol, ?_⟩
    · intro s σ hlt hc
      rw [parse_array_fuel]
      simp only [Res.bind_eq, Res.pure_eq]
      have hsz : s.size > 0 := by simp only [string_view.size]; omega
      rw [if_pos hsz, string_view.at_ok hsz]
      simp only [Res.ok_bind, Nat.add_zero]
      rw [if_pos hc]
      refine fl_bind (ihal s s σ (Nat.le_of_lt hlt) rfl) (fun x hx => ?_)
      obtain ⟨b1, b2, b3⟩ := parse_array_loop_bounds buf s fuel s σ x hx (Nat.le_of_lt hlt)
      obtain ⟨si, σ1⟩ := x
      simp only at b1 b2 b3 ⊢
      split
      · exact fl_bind (fl_ctor _ (Nat.le_of_lt hlt)) (fun _ _ => fl_ok _ _)
      · rename_i hne
        rw [string_view.at_ok (Nat.pos_of_ne_zero hne)]
        simp only [Res.ok_bind, Nat.add_zero]
        split
        · exact fl_bind (fl_ctor _ (Nat.le_of_lt hlt)) (fun _ _ => fl_ok _ _)
        · rename_i hcl
          rw [if_pos (not_not.mp hcl)]
          exact fl_bind (fl_ctor _ (by omega)) (fun _ _ => fl_ok _ _)
    · intro s σ hlt hc
      rw [parse_object_fuel]
      simp only [Res.bind_eq, Res.pure_eq]
      have hsz : s.size > 0 := by simp only [string_view.size]; omega
      rw [if_pos hsz, string_view.at_ok hsz]
      simp only [Res.ok_bind, Nat.add_zero]
      rw [if_pos hc]
      refine fl_bind (ihol s s σ (Nat.le_of_lt hlt) rfl) (fun x hx => ?_)
      obtain ⟨b1, b2, b3⟩ := parse_object_loop_bounds buf s fuel s σ x hx (Nat.le_of_lt hlt)
      obtain ⟨si, σ1⟩ := x
      simp only at b1 b2 b3 ⊢
      split
      · exact fl_bind (fl_ctor _ (Nat.le_of_lt hlt)) (fun _ _ => fl_ok _ _)
      · rename_i hne
        rw [string_view.at_ok (Nat.pos_of_ne_zero hne)]
        simp only [Res.ok_bind, Nat.add_zero]
        split
        · exact fl_bind (fl_ctor _ (Nat.le_of_lt hlt)) (fun _ _ => fl_ok _ _)
        · rename_i hcl
          rw [if_pos (not_not.mp hcl)]
          exact fl_bind (fl_ctor _ (by omega)) (fun _ _ => fl_ok _ _)

end JSONReader

namespace JSONReader

/-- A character other than the one read outside the buffer, and not in the buffer, is
read at no offset. -/
theorem deref_ne_of_not_mem (buf : List Char) (c : Char) (hc : c ≠ Char.ofNat 0)
    (h : c ∉ buf) : ∀ i, deref buf i ≠ c := by
  intro i hi
  by_cases hlt : i < buf.length
  · exact h (hi ▸ deref_mem buf hlt)
  · unfold deref at hi
    rw [List.getD_eq_default _ _ (Nat.le_of_not_lt hlt)] at hi
    exact hc hi.symm

/-- The container scanners called on a view that begins with their opening character:
whatever the budget, the only assertion that can fail is the `assert(0)` of
`parse_number`, and none fails on a buffer without `-`. -/
theorem fl_parse_object (allow : Fault → Prop) (buf : List Char)
    (H : allow Fault.unreachable ∨ ∀ i, deref buf i ≠ '-') (s : string_view) (σ : Sink)
    (hlt : s.m_begin < s.m_end) (hc : deref buf s.m_begin = LBRACE) :
    Res.faultless allow (parse_object buf s σ) :=
  (fl_container allow buf H (budget s)).2.2.2 s σ hlt hc

theorem fl_parse_array (allow : Fault → Prop) (buf : List Char)
    (H : allow Fault.unreachable ∨ ∀ i, deref buf i ≠ '-') (s : string_view) (σ : Sink)
    (hlt : s.m_begin < s.m_end) (hc : deref buf s.m_begin = '[') :
    Res.faultless allow (parse_array buf s σ) :=
  (fl_container allow buf H (budget s)).2.1 s σ hlt hc

theorem fl_validate (allow : Fault → Prop) (buf : List Char)
    (H : allow Fault.unreachable ∨ ∀ i, deref buf i ≠ '-') :
    Res.faultless allow (validate buf) := by
  unfold validate run init_recursive_test
  simp only [Res.bind_eq, Res.pure_eq]
  refine fl_bind (fl_bind (fl_ctor _ (by omega)) (fun sv hsv => ?_)) (fun _ _ => fl_ok _ _)
  obtain ⟨_, rfl⟩ := string_view.ctor_eq_ok.mp hsv
  have ht : (⟨0, 0 + buf.length⟩ : string_view).m_begin
      ≤ (⟨0, 0 + buf.length⟩ : string_view).m_end := Nat.zero_le _
  refine fl_bind (fl_identify_value _ _ _ ht) (fun v hv => ?_)
  obtain ⟨v1, v2, v3, v4, v5⟩ := identify_value_bounds buf _ v ht hv
  split
  · exact fl_ok _ _
  · rename_i hty
    have hty2 : v.type = .T_OBJECT := not_not.mp hty
    obtain ⟨hlt, hm, hmt⟩ := v5 (by rw [hty2]; simp)
    refine fl_bind (fl_parse_object allow buf H _ _ (by omega)
      ((marker_type_cases _).2.1 (hmt ▸ hty2))) (fun x _ => ?_)
    obtain ⟨r, σ1⟩ := x
    simp only
    split <;> exact fl_ok _ _

/-- The only assertion of the source that can end a run of `validate` is the `assert(0)`
in the `switch` of `parse_number`. -/
theorem validate_fault_unreachable (buf : List Char) (f : Fault)
    (h : validate buf = Res.fault f) : f = Fault.unreachable :=
  fl_validate (fun f => f = Fault.unreachable) buf (Or.inl rfl) f h

/-- On a buffer without `-` no assertion fails: `validate` returns a value. -/
theorem validate_returns_of_no_minus (buf : List Char) (hm : '-' ∉ buf) :
    ∃ b, validate buf = Res.ok b := by
  have hfl := fl_validate (fun _ => False) buf
    (Or.inr (deref_ne_of_not_mem buf '-' (by decide) hm))
  cases hv : validate buf with
  | ok b => exact ⟨b, rfl⟩
  | fault f => exact (hfl f hv).elim
  | timeout => exact absurd hv (validate_ne_timeout buf)

/-- C4, amended. On a buffer that holds no closing brace and no `-`, such as a valid
object without nested objects and without negative numbers that lost its closing brace,
`validate` returns `false`. -/
theorem validate_false_without_closing_brace (buf : List Char) (h : RBRACE ∉ buf)
    (hm : '-' ∉ buf) : validate buf = Res.ok false := by
  obtain ⟨b, hb⟩ := validate_returns_of_no_minus buf hm
  cases b with
  | false => exact hb
  | true => exact absurd hb (validate_ne_true_of_no_brace buf h)

/-- C4, amended, at the valid object with the member `"a":1` without its closing brace:
it holds no closing brace and no `-`, and `validate` returns `false`. -/
theorem validate_false_without_closing_brace_witness :
    RBRACE ∉ missing_brace_input ∧ '-' ∉ missing_brace_input ∧
      validate missing_brace_input = Res.ok false :=
  ⟨by decide, by decide,
    validate_false_without_closing_brace missing_brace_input (by decide) (by decide)⟩

end JSONReader

namespace JSONReader

/-! ## The classifier on any span -/

/-- The classifier on a span whose first marker character is at offset `p`. -/
theorem identify_value_at_first_marker (buf : List Char) (s : string_view) (p : Nat)
    (h1 : s.m_begin ≤ p) (h2 : p < s.m_end) (hm : is_marker (deref buf p) = true)
    (hpre : ∀ q, s.m_begin ≤ q → q < p → is_marker (deref buf q) = false) :
    identify_value buf s = Res.ok ⟨marker_type (deref buf p), ⟨p, s.m_end⟩⟩ := by
  unfold identify_value
  have hsz : s.size = (p - s.m_begin) + (s.m_end - p - 1 + 1) := by
    unfold string_view.size; omega
  rw [hsz, identify_value_loop_skip buf s _ (p - s.m_begin) s.m_begin
    (fun j hj => hpre _ (by omega) (by omega)),
    show s.m_begin + (p - s.m_begin) = p by omega,
    identify_value_loop_hit _ _ _ _ hm, string_view.ctor_ok (Nat.le_of_lt h2)]
  rfl

/-- The classifier on a span without a marker character. -/
theorem identify_value_without_marker (buf : List Char) (s : string_view)
    (hpre : ∀ q, s.m_begin ≤ q → q < s.m_end → is_marker (deref buf q) = false) :
    identify_value buf s = Res.ok ⟨.T_UNKNOWN, ⟨s.m_end, s.m_end⟩⟩ := by
  unfold identify_value
  have := identify_value_loop_skip buf s 0 s.size s.m_begin
    (fun j hj => hpre _ (by omega) (by unfold string_view.size at hj; omega))
  rw [Nat.add_zero] at this
  rw [this, identify_value_loop]
  simp [Res.bind_eq, Res.pure_eq]

/-- The kind of each marker character: a quote is a string, an opening brace an object,
`[` an array, `t`, `f` and `n` the three literals, a digit or `-` a number. -/
theorem marker_type_table (c : Char) :
    marker_type QUOTE = .T_STRING ∧ marker_type LBRACE = .T_OBJECT ∧
    marker_type '[' = .T_ARRAY ∧ marker_type 't' = .T_TRUE ∧ marker_type 'f' = .T_FALSE ∧
    marker_type 'n' = .T_NULL ∧ ((is_digit c ∨ c = '-') → marker_type c = .T_NUMBER) := by
  refine ⟨by decide, by decide, by decide, by decide, by decide, by decide, ?_⟩
  intro h
  unfold marker_type
  rcases h with ⟨h1, h2⟩ | rfl
  · have hq : c ≠ QUOTE := by rintro rfl; revert h1; decide
    have hb : c ≠ LBRACE := by rintro rfl; revert h2; decide
    have ha : c ≠ '[' := by rintro rfl; revert h2; decide
    have ht : c ≠ 't' := by rintro rfl; revert h2; decide
    have hf : c ≠ 'f' := by rintro rfl; revert h2; decide
    have hn : c ≠ 'n' := by rintro rfl; revert h2; decide
    simp [hq, hb, ha, ht, hf, hn]
  · decide

/-- C11. On every span `s`, `identify_value` returns the kind of the first marker
character of `s` (quote: String, opening brace: Object, `[`: Array, `t`: True, `f`: False,
`n`: Null, a digit or `-`: Number) with the span from that character to the end of `s`,
every character before it being a non-marker; on a span without a marker character it
returns Unknown with the empty span at the end of `s`. -/
theorem identify_value_classifies (buf : List Char) (s : string_view) :
    (∀ p, s.m_begin ≤ p → p < s.m_end → is_marker (deref buf p) = true →
      (∀ q, s.m_begin ≤ q → q < p → is_marker (deref buf q) = false) →
      identify_value buf s = Res.ok ⟨marker_type (deref buf p), ⟨p, s.m_end⟩⟩) ∧
    ((∀ q, s.m_begin ≤ q → q < s.m_end → is_marker (deref buf q) = false) →
      identify_value buf s = Res.ok ⟨.T_UNKNOWN, ⟨s.m_end, s.m_end⟩⟩) :=
  ⟨fun p h1 h2 hm hpre => identify_value_at_first_marker buf s p h1 h2 hm hpre,
    identify_value_without_marker buf s⟩

/-- C11, on the span of the first four characters of blank, `x`, `7`, `[`, `n` (the first
marker is the digit at offset 2: Number, from offset 2 to the end of the span) and on the
span of its first two characters (no marker: Unknown). -/
theorem identify_value_classifies_witness :
    is_marker (deref classifier_input 2) = true ∧
      is_marker (deref classifier_input 0) = false ∧
      is_marker (deref classifier_input 1) = false ∧
      identify_value classifier_input ⟨0, 4⟩ = Res.ok ⟨.T_NUMBER, ⟨2, 4⟩⟩ ∧
      identify_value classifier_input ⟨0, 2⟩ = Res.ok ⟨.T_UNKNOWN, ⟨2, 2⟩⟩ :=
  ⟨by decide, by decide, by decide,
    (identify_value_classifies classifier_input ⟨0, 4⟩).1 2 (by decide) (by decide)
      (by decide) (by intro q _ h; interval_cases q <;> decide),
    (identify_value_classifies classifier_input ⟨0, 2⟩).2
      (by intro q _ h; simp only at h; interval_cases q <;> decide)⟩

end JSONReader

namespace JSONReader

/-! ## The scanner of numbers on its own result -/

/-- A run of the loop of `parse_number` that returns `r` either ends in `0xDEAD` (`r` is
the empty span at the end) or returns the characters consumed, and then the same loop on
the span `r` takes the same steps and is left at the end of `r`. -/
theorem parse_number_loop_rerun (buf : List Char) (s : string_view) (σ σ2 : Sink) :
    ∀ (k p : Nat) (state : Int) (r : string_view) (σ1 : Sink), s.m_begin ≤ p →
      parse_number_loop buf s σ k p state = Res.ok (r, σ1) →
      r = ⟨s.m_end, s.m_end⟩ ∨
      ∃ e, r = ⟨s.m_begin, e⟩ ∧ p ≤ e ∧ (state = 8 → e = p) ∧
        parse_number_loop buf ⟨s.m_begin, e⟩ σ2 (e - p) p state
          = Res.ok (⟨s.m_begin, e⟩, print_content buf ⟨s.m_begin, e⟩ σ2) := by
  intro k
  induction k with
  | zero =>
    intro p state r σ1 hp h
    rw [parse_number_loop_end buf s σ p state hp] at h
    injection h with h
    injection h with h1 h2
    refine Or.inr ⟨p, h1.symm, Nat.le_refl _, fun _ => rfl, ?_⟩
    rw [Nat.sub_self]
    exact parse_number_loop_end buf ⟨s.m_begin, p⟩ σ2 p state hp
  | succ k ih =>
    intro p state r σ1 hp h
    by_cases h8 : state = 8
    · subst h8
      rw [parse_number_loop_leave buf s σ _ p hp] at h
      injection h with h
      injection h with h1 h2
      refine Or.inr ⟨p, h1.symm, Nat.le_refl _, fun _ => rfl, ?_⟩
      exact parse_number_loop_leave buf ⟨s.m_begin, p⟩ σ2 _ p hp
    · rw [parse_number_loop] at h
      simp only [ne_eq, h8, not_false_eq_true, if_true, Res.bind_eq] at h
      cases hsw : parse_number_switch state (deref buf p) with
      | ok st =>
        rw [hsw] at h
        simp only [Res.ok_bind] at h
        split at h
        · rename_i hd
          simp only [string_view.ctor_self, Res.ok_bind, Res.pure_eq] at h
          injection h with h
          injection h with h1 h2
          exact Or.inl h1.symm
        · rename_i hd
          by_cases hst : st = 8
          · subst hst
            simp only [not_true_eq_false, if_false] at h
            rcases ih p 8 r σ1 hp h with h0 | ⟨e, he, hpe, h8e, _⟩
            · exact Or.inl h0
            · have hep : e = p := h8e rfl
              subst hep
              refine Or.inr ⟨e, he, Nat.le_refl _, fun h => absurd h h8, ?_⟩
              rw [Nat.sub_self]
              exact parse_number_loop_end buf ⟨s.m_begin, e⟩ σ2 e state hp
          · simp only [hst, not_false_eq_true, if_true] at h
            rcases ih (p + 1) st r σ1 (by omega) h with h0 | ⟨e, he, hpe, _, hrun⟩
            · exact Or.inl h0
            · refine Or.inr ⟨e, he, by omega, fun h => absurd h h8, ?_⟩
              rw [show e - p = (e - (p + 1)) + 1 by omega, parse_number_loop]
              simp only [ne_eq, h8, not_false_eq_true, if_true, Res.bind_eq, hsw, Res.ok_bind,
                hd, if_false, hst]
              exact hrun
      | fault f => rw [hsw] at h; simp at h
      | timeout => rw [hsw] at h; simp at h

/-- C13. The scanner of numbers is idempotent: when `parse_number` returns the span `r`
on a span `s` (after a successful scan, and after a scan that reached `0xDEAD` as well),
`parse_number` on `r` returns `r` itself, same start and same end. -/
theorem parse_number_idempotent (buf : List Char) (s r : string_view) (σ σ1 σ2 : Sink)
    (h : parse_number buf s σ = Res.ok (r, σ1)) :
    parse_number buf r σ2 = Res.ok (r, print_content buf r σ2) := by
  unfold parse_number at h
  rcases parse_number_loop_rerun buf s σ σ2 _ _ _ r σ1 (Nat.le_refl _) h with
    h0 | ⟨e, he, hpe, _, hrun⟩
  · subst h0
    unfold parse_number
    simp only [string_view.size, Nat.sub_self]
    exact parse_number_loop_end buf _ σ2 _ _ (Nat.le_refl _)
  · subst he
    unfold parse_number
    exact hrun

/-- C13, on the buffer `12.5e+3, 7` from its start: the scan returns the span of the seven
characters `12.5e+3`, and the scan of that span returns it again. -/
theorem parse_number_idempotent_witness :
    parse_number number_input ⟨0, 10⟩ Sink.init
        = Res.ok (⟨0, 7⟩, print_content number_input ⟨0, 7⟩ Sink.init) ∧
      parse_number number_input ⟨0, 7⟩ Sink.init
        = Res.ok (⟨0, 7⟩, print_content number_input ⟨0, 7⟩ Sink.init) :=
  ⟨rfl, parse_number_idempotent number_input ⟨0, 10⟩ ⟨0, 7⟩ Sink.init _ Sink.init rfl⟩

end JSONReader

namespace JSONReader

/-! ## The scanner of numbers and the state table of the spec -/

/-- The `switch` of `parse_number` takes the step the table lists, in every state but
`neg` (that has no `case`), and from `start` on every character but `-`. -/
theorem parse_number_switch_listed (st st2 : table_state) (c : Char) (hneg : st ≠ .neg)
    (hstart : st = .start → c ≠ '-') (h : table_transition st c = some st2) :
    parse_number_switch (table_code st) c = Res.ok (table_code st2) ∧
      st2 ≠ .neg ∧ st2 ≠ .start := by
  cases st with
  | neg => exact absurd rfl hneg
  | start =>
    have hc := hstart rfl
    simp only [table_transition, hc, if_false] at h
    split_ifs at h with h1 h2 <;> injection h with h <;> subst h <;>
      simp [parse_number_switch, table_code, Res.pure_eq, *]
  | int =>
    simp only [table_transition] at h
    split_ifs at h with h1 h2 h3 <;> injection h with h <;> subst h <;>
      simp [parse_number_switch, table_code, Res.pure_eq, *]
  | zero =>
    simp only [table_transition] at h
    split_ifs at h with h1 h2 <;> injection h with h <;> subst h <;>
      simp [parse_number_switch, table_code, Res.pure_eq, *]
  | frac_dot =>
    simp only [table_transition] at h
    split_ifs at h with h1
    injection h with h
    subst h
    simp [parse_number_switch, table_code, Res.pure_eq, *]
  | frac =>
    simp only [table_transition] at h
    split_ifs at h with h1 h2 <;> injection h with h <;> subst h <;>
      simp [parse_number_switch, table_code, Res.pure_eq, *]
  | exp_e =>
    simp only [table_transition] at h
    split_ifs at h with h1
    injection h with h
    subst h
    simp [parse_number_switch, table_code, Res.pure_eq, *]
  | exp_sign =>
    simp only [table_transition] at h
    split_ifs at h with h1
    injection h with h
    subst h
    simp [parse_number_switch, table_code, Res.pure_eq, *]
  | exp_digit =>
    simp only [table_transition] at h
    split_ifs at h with h1
    injection h with h
    subst h
    simp [parse_number_switch, table_code, Res.pure_eq, *]

/-- On a character for which the table lists no target, the `switch` of `parse_number`
gives state 8 from a state that accepts end-of-input and `0xDEAD` from the others. -/
theorem parse_number_switch_unlisted (st : table_state) (c : Char) (hneg : st ≠ .neg)
    (hstart : st = .start → c ≠ '-') (h : table_transition st c = none) :
    parse_number_switch (table_code st) c = Res.ok (if st.accepts then 8 else DEAD) := by
  cases st with
  | neg => exact absurd rfl hneg
  | start =>
    have hc := hstart rfl
    simp only [table_transition, hc, if_false] at h
    split_ifs at h with h1 h2
    simp [parse_number_switch, table_code, Res.pure_eq, hc, h1, h2, table_state.accepts]
  | int =>
    simp only [table_transition] at h
    split_ifs at h with h1 h2 h3
    simp [parse_number_switch, table_code, Res.pure_eq, h1, h2, h3, table_state.accepts]
  | zero =>
    simp only [table_transition] at h
    split_ifs at h with h1 h2
    simp [parse_number_switch, table_code, Res.pure_eq, h1, h2, table_state.accepts]
  | frac_dot =>
    simp only [table_transition] at h
    split_ifs at h with h1
    simp [parse_number_switch, table_code, Res.pure_eq, h1, table_state.accepts]
  | frac =>
    simp only [table_transition] at h
    split_ifs at h with h1 h2
    simp [parse_number_switch, table_code, Res.pure_eq, h1, h2, table_state.accepts]
  | exp_e =>
    simp only [table_transition] at h
    split_ifs at h with h1
    simp [parse_number_switch, table_code, Res.pure_eq, h1, table_state.accepts]
  | exp_sign =>
    simp only [table_transition] at h
    split_ifs at h with h1
    simp [parse_number_switch, table_code, Res.pure_eq, h1, table_state.accepts]
  | exp_digit =>
    simp only [table_transition] at h
    split_ifs at h with h1
    simp [parse_number_switch, table_code, Res.pure_eq, h1, table_state.accepts]

theorem table_code_ne (st : table_state) : table_code st ≠ 8 ∧ table_code st ≠ DEAD := by
  cases st <;> exact ⟨by decide, by decide⟩

/-- The loop of `parse_number` from the state of a table state, on the characters `cs` up
to the end of the span, ends as the table run. -/
theorem parse_number_loop_table (buf : List Char) (s : string_view) (σ : Sink) :
    ∀ (cs : List Char) (p : Nat) (st : table_state), st ≠ .neg →
      (st = .start → cs.head? ≠ some '-') → holds_at buf p cs → s.m_begin ≤ p →
      (table_run st cs = .dead →
        parse_number_loop buf s σ cs.length p (table_code st)
          = Res.ok (⟨s.m_end, s.m_end⟩, print_content buf ⟨s.m_end, s.m_end⟩ σ)) ∧
      (∀ n, table_run st cs = .consumed n →
        parse_number_loop buf s σ cs.length p (table_code st)
          = Res.ok (⟨s.m_begin, p + n⟩, print_content buf ⟨s.m_begin, p + n⟩ σ)) := by
  intro cs
  induction cs with
  | nil =>
    intro p st _ _ _ hp
    refine ⟨fun h => ?_, fun n h => ?_⟩
    · simp [table_run] at h
    · simp only [table_run, table_outcome.consumed.injEq] at h
      subst h
      exact parse_number_loop_end buf s σ p _ hp
  | cons c cs ih =>
    intro p st hneg hstart hh hp
    obtain ⟨hc, hrest⟩ := hh
    have hne := table_code_ne st
    have hstart2 : st = .start → c ≠ '-' := fun h hc2 => hstart h (by rw [hc2]; rfl)
    have hunf : parse_number_loop buf s σ (c :: cs).length p (table_code st)
        = Res.bind (parse_number_switch (table_code st) c) (fun state =>
            if state = DEAD then
              Res.ok (⟨s.m_end, s.m_end⟩, print_content buf ⟨s.m_end, s.m_end⟩ σ)
            else parse_number_loop buf s σ cs.length (if state ≠ 8 then p + 1 else p)
              state) := by
      rw [List.length_cons, parse_number_loop]
      simp only [ne_eq, hne.1, not_false_eq_true, if_true, Res.bind_eq, hc, Res.pure_eq,
        string_view.ctor_self, Res.ok_bind]
    rw [hunf]
    cases htr : table_transition st c with
    | some st2 =>
      obtain ⟨hsw, hn2, hs2⟩ := parse_number_switch_listed st st2 c hneg hstart2 htr
      have hne2 := table_code_ne st2
      obtain ⟨ih1, ih2⟩ := ih (p + 1) st2 hn2 (fun h => absurd h hs2) hrest (by omega)
      rw [hsw]
      simp only [Res.ok_bind, hne2.2, if_false, ne_eq, hne2.1, not_false_eq_true, if_true,
        table_run, htr]
      refine ⟨fun h => ?_, fun n h => ?_⟩
      · cases hr : table_run st2 cs with
        | dead => exact ih1 hr
        | consumed m => rw [hr] at h; simp at h
      · cases hr : table_run st2 cs with
        | dead => rw [hr] at h; simp at h
        | consumed m =>
          rw [hr] at h
          simp only [table_outcome.consumed.injEq] at h
          subst h
          rw [ih2 m hr, show p + 1 + m = p + (m + 1) by omega]
    | none =>
      rw [parse_number_switch_unlisted st c hneg hstart2 htr]
      simp only [Res.ok_bind, table_run, htr]
      by_cases hacc : st.accepts = true
      · simp only [hacc, if_true, show ¬ ((8 : Int) = DEAD) by decide, if_false, ne_eq,
          not_true_eq_false]
        refine ⟨fun h => by simp at h, fun n h => ?_⟩
        simp only [table_outcome.consumed.injEq] at h
        subst h
        exact parse_number_loop_leave buf s σ _ p hp
      · have hacc2 : st.accepts = false := by simpa using hacc
        simp only [hacc2, Bool.false_eq_true, if_false, if_true]
        exact ⟨fun _ => trivial, fun n h => by simp at h⟩

/-- From `start` the table consumes at least one character of a span that is not empty,
unless it ends in `dead`. -/
theorem table_run_start_pos (c : Char) (cs : List Char) (n : Nat)
    (h : table_run .start (c :: cs) = .consumed n) : 1 ≤ n := by
  rw [table_run] at h
  cases htr : table_transition .start c with
  | some st2 =>
    rw [htr] at h
    simp only at h
    cases hr : table_run st2 cs with
    | dead => rw [hr] at h; simp at h
    | consumed m =>
      rw [hr] at h
      simp only [table_outcome.consumed.injEq] at h
      omega
  | none =>
    rw [htr] at h
    simp [table_state.accepts] at h

/-- C15 as stated fails on the empty span: no character is read, the table run is not
`dead`, and the prefix consumed, which `parse_number` returns, is the empty span at the
end of the span. -/
theorem parse_number_empty_span_without_dead :
    parse_number number_input ⟨0, 0⟩ Sink.init
        = Res.ok (⟨(⟨0, 0⟩ : string_view).m_end, (⟨0, 0⟩ : string_view).m_end⟩,
            print_content number_input ⟨0, 0⟩ Sink.init) ∧
      string_view.text number_input ⟨0, 0⟩ = [] ∧
      table_run .start (string_view.text number_input ⟨0, 0⟩) ≠ .dead :=
  ⟨rfl, rfl, by decide⟩

/-- C15, amended. On every span that does not begin with `-`, `parse_number` agrees with
the state table of the spec run character by character from `start`: it returns the
empty span at the end of the span if and only if the span is empty or the run ends in
`dead` (a character is read in a state that does not accept end-of-input and has no
transition for it); otherwise it returns the prefix of the characters consumed (the run
stops, without consuming it, at the first character without a transition out of an
accepting state, or at the end of the input). -/
theorem parse_number_follows_table (buf : List Char) (s : string_view) (σ : Sink)
    (hs : s.m_begin ≤ s.m_end) (hminus : s.m_begin < s.m_end → deref buf s.m_begin ≠ '-') :
    parse_number buf s σ
        = Res.ok (table_result s (table_run .start (s.text buf)),
            print_content buf (table_result s (table_run .start (s.text buf))) σ) ∧
      (table_result s (table_run .start (s.text buf)) = ⟨s.m_end, s.m_end⟩
        ↔ s.m_begin = s.m_end ∨ table_run .start (s.text buf) = .dead) := by
  have hh := holds_at_of_text buf s _ rfl
  have hlen := size_of_text buf s _ rfl
  have hhead : table_state.start = .start → (s.text buf).head? ≠ some '-' := by
    intro _ h
    cases hcs : s.text buf with
    | nil => rw [hcs] at h; simp at h
    | cons c cs =>
      rw [hcs] at h hh hlen
      simp only [List.head?_cons, Option.some.injEq] at h
      simp only [List.length_cons, string_view.size] at hlen
      exact hminus (by omega) (hh.1.trans h)
  obtain ⟨h1, h2⟩ := parse_number_loop_table buf s σ (s.text buf) s.m_begin .start
    (by decide) hhead hh (Nat.le_refl _)
  constructor
  · unfold parse_number
    rw [hlen]
    cases hr : table_run .start (s.text buf) with
    | dead => exact h1 hr
    | consumed n => exact h2 n hr
  · cases hcs : s.text buf with
    | nil =>
      rw [hcs] at hlen
      simp only [List.length_nil, string_view.size] at hlen
      have he : s.m_begin = s.m_end := by omega
      simp [table_run, table_result, he]
    | cons c cs =>
      rw [hcs] at hlen
      simp only [List.length_cons, string_view.size] at hlen
      cases hr : table_run .start (c :: cs) with
      | dead => simp [table_result]
      | consumed n =>
        have hn := table_run_start_pos c cs n hr
        simp only [table_result, string_view.mk.injEq, reduceCtorEq, or_false]
        omega

/-- C15, amended, on `12.5e+3, 7`: the table consumes seven characters and stops on the
`,`, and `parse_number` returns their span. -/
theorem parse_number_follows_table_witness :
    deref number_input 0 ≠ '-' ∧
      parse_number number_input ⟨0, 10⟩ Sink.init
        = Res.ok (⟨0, 7⟩, print_content number_input ⟨0, 7⟩ Sink.init) ∧
      table_run .start (string_view.text number_input ⟨0, 10⟩) = .consumed 7 :=
  ⟨by decide,
    (parse_number_follows_table number_input ⟨0, 10⟩ Sink.init (by decide) (by decide)).1,
    by decide⟩

end JSONReader

namespace JSONReader

/-! ## Numbers cut short by the end of the span -/

/-- When the characters of the whole span leave the scanner in a state other than 8 and
`0xDEAD`, `parse_number` returns the whole span. -/
theorem parse_number_whole_span (buf : List Char) (s : string_view) (σ : Sink)
    (hs : s.m_begin ≤ s.m_end) (st : Int) (h : number_states (-1) (s.text buf) = some st) :
    parse_number buf s σ = Res.ok (s, print_content buf s σ) := by
  have hh := holds_at_of_text buf s _ rfl
  have hlen := size_of_text buf s _ rfl
  obtain ⟨h1, _⟩ := parse_number_loop_consume buf s σ 0 (s.text buf) s.m_begin (-1) st
    (by decide) h hh
  unfold parse_number
  rw [hlen]
  rw [Nat.add_zero] at h1
  rw [h1, parse_number_loop_end buf s σ _ st (by omega), ← hlen]
  have he : s.m_begin + s.size = s.m_end := by unfold string_view.size; omega
  rw [he]

/-- An integer part and an optional fraction leave the scanner in state 1, 2 or 4. -/
theorem number_states_mantissa (int frac : List Char) (hint : int_part int)
    (hfrac : frac_part frac) :
    ∃ q, number_states (-1) (int ++ frac) = some q ∧ (q = 1 ∨ q = 2 ∨ q = 4) := by
  rcases number_states_int int hint with h1 | h1
  · rcases number_states_frac frac hfrac 1 (Or.inl rfl) with h2 | h2
    · exact ⟨1, by rw [number_states_append, h1]; exact h2, by omega⟩
    · exact ⟨4, by rw [number_states_append, h1]; exact h2, by omega⟩
  · rcases number_states_frac frac hfrac 2 (Or.inr rfl) with h2 | h2
    · exact ⟨2, by rw [number_states_append, h1]; exact h2, by omega⟩
    · exact ⟨4, by rw [number_states_append, h1]; exact h2, by omega⟩

/-- The numbers cut short that the spec lists leave the scanner in one of the states 0
(after `-`), 3 (after `.`), 5 (after `e`) and 6 (after the sign of the exponent), none of
which accepts the end of the input. -/
theorem number_states_truncated (w : List Char) (h : truncated_number w) :
    ∃ st, number_states (-1) w = some st ∧ (st = 0 ∨ st = 3 ∨ st = 5 ∨ st = 6) := by
  rcases h with rfl | ⟨int, hint, rfl⟩ | ⟨int, frac, e, hint, hfrac, he, rfl⟩ |
    ⟨int, frac, e, sign, hint, hfrac, he, hsign, rfl⟩
  · exact ⟨0, by decide, by omega⟩
  · refine ⟨3, ?_, by omega⟩
    rw [number_states_append]
    rcases number_states_int int hint with h1 | h1 <;> rw [h1] <;> decide
  · obtain ⟨q, hq, hq2⟩ := number_states_mantissa int frac hint hfrac
    refine ⟨5, ?_, by omega⟩
    rw [number_states_append, hq]
    rcases hq2 with rfl | rfl | rfl <;> rcases he with rfl | rfl <;> decide
  · obtain ⟨q, hq, hq2⟩ := number_states_mantissa int frac hint hfrac
    refine ⟨6, ?_, by omega⟩
    rw [number_states_append, hq]
    rcases hq2 with rfl | rfl | rfl <;> rcases he with rfl | rfl <;>
      rcases hsign with rfl | rfl <;> decide

/-- C16. A number cut short by the end of the span is returned as if accepted: on every
span whose characters leave the state machine of `parse_number` in a state that is
neither dead nor accepting when the input runs out (state 0 after `-`, 3 after `.`, 5
after `e` or `E`, 6 after the sign of the exponent), and so on every span that holds a
lone `-`, an integer part followed by `.`, a mantissa followed by `e` or `E`, or a
mantissa followed by `e` or `E` and a sign, `parse_number` returns the entire span, which
is not empty. -/
theorem parse_number_returns_truncated (buf : List Char) (s : string_view) (σ : Sink)
    (hs : s.m_begin ≤ s.m_end) :
    (∀ st, number_states (-1) (s.text buf) = some st →
      (st = 0 ∨ st = 3 ∨ st = 5 ∨ st = 6) →
      s.m_begin < s.m_end ∧ parse_number buf s σ = Res.ok (s, print_content buf s σ)) ∧
    (truncated_number (s.text buf) →
      s.m_begin < s.m_end ∧ parse_number buf s σ = Res.ok (s, print_content buf s σ)) := by
  have key : ∀ st, number_states (-1) (s.text buf) = some st →
      (st = 0 ∨ st = 3 ∨ st = 5 ∨ st = 6) →
      s.m_begin < s.m_end ∧ parse_number buf s σ = Res.ok (s, print_content buf s σ) := by
    intro st h hst
    refine ⟨?_, parse_number_whole_span buf s σ hs st h⟩
    have hlen := size_of_text buf s _ rfl
    cases hcs : s.text buf with
    | nil =>
      rw [hcs] at h
      simp only [number_states, Option.some.injEq] at h
      omega
    | cons c cs =>
      rw [hcs] at hlen
      simp only [List.length_cons, string_view.size] at hlen
      omega
  refine ⟨key, fun h => ?_⟩
  obtain ⟨st, h1, h2⟩ := number_states_truncated _ h
  exact key st h1 h2

/-- C16, on the span of `12.5e`: a mantissa followed by `e`, returned whole. -/
theorem parse_number_returns_truncated_witness :
    truncated_number (string_view.text truncated_input ⟨0, 5⟩) ∧
      (0 : Nat) < 5 ∧
      parse_number truncated_input ⟨0, 5⟩ Sink.init
        = Res.ok (⟨0, 5⟩, print_content truncated_input ⟨0, 5⟩ Sink.init) :=
  have h : truncated_number (string_view.text truncated_input ⟨0, 5⟩) :=
    Or.inr (Or.inr (Or.inl ⟨['1', '2'], ['.', '5'], 'e',
      Or.inr ⟨'1', ['2'], rfl, by decide, by decide⟩,
      Or.inr ⟨'5', [], rfl, by decide, by simp⟩, Or.inl rfl, rfl⟩))
  ⟨h, (parse_number_returns_truncated truncated_input ⟨0, 5⟩ Sink.init (by decide)).2 h⟩

end JSONReader

namespace JSONReader

/-! ## Two defects -/

/-- C19, the code at a failing input.  After a leading `-` the variable `state` is 0, a
value no `case` of the `switch` handles: on the next character the `default` branch is
taken and its `assert(0)` fails.  So it is on the span `-1`, and on the file that holds
the object with the member `"a":-1`. -/
theorem parse_number_reaches_default :
    parse_number_switch (-1) '-' = Res.ok 0 ∧
      (∀ c, parse_number_switch 0 c = Res.fault Fault.unreachable) ∧
      parse_number minus_digit_input ⟨0, 2⟩ Sink.init = Res.fault Fault.unreachable ∧
      validate negative_number_input = Res.fault Fault.unreachable :=
  ⟨rfl, fun _ => rfl, rfl, rfl⟩

/-- C17, the code at a failing input.  After a `,` the loop of `parse_array` first moves
`string_i` past the comma and then, at the head of the next iteration, one character
further: on `[1,2] ` the element `2` is skipped, the kinds notified are NUMBER and
UNKNOWN, and the whole span of six characters is returned, not the span of five
characters that ends with the `]` at offset 4. -/
theorem parse_array_skips_after_comma :
    deref comma_array_input 4 = ']' ∧
      ∃ σ, parse_array comma_array_input ⟨0, 6⟩ Sink.init = Res.ok (⟨0, 6⟩, σ) ∧
        kind_notifications σ.out = [(.T_NUMBER, none), (.T_UNKNOWN, none)] :=
  ⟨rfl, _, rfl, rfl⟩

end JSONReader

namespace JSONReader

/-! ## Buffers between braces -/

/-- The last character of a buffer, as `init_recursive_test` reads it. -/
theorem deref_last (buf : List Char) (c : Char) (h : buf.getLast? = some c) :
    deref buf (buf.length - 1) = c := by
  cases hb : buf with
  | nil => rw [hb] at h; simp at h
  | cons x xs =>
    rw [hb] at h
    rw [List.getLast?_eq_getElem?] at h
    unfold deref
    rw [List.getD_eq_getElem?_getD, h]
    rfl

/-- On a buffer without `-` the loop of `parse_object`, run on a span that begins with an
opening brace, is left with some `string_i`: no assertion fails. -/
theorem object_scan_returns (buf : List Char) (hm : '-' ∉ buf) (start : string_view)
    (hlt : start.m_begin < start.m_end) :
    ∃ x, object_scan buf start = Res.ok x := by
  unfold object_scan budget
  rw [show 2 * start.size + 2 - 1 = 2 * start.size + 1 by omega]
  have hfl := (fl_container (fun _ => False) buf
    (Or.inr (deref_ne_of_not_mem buf '-' (by decide) hm)) (2 * start.size + 1)).2.2.1
    start start Sink.init (Nat.le_of_lt hlt) rfl
  have hnt := (container_budget buf (2 * start.size + 1)).2.1 start start Sink.init
    (Nat.le_refl _)
  cases hx : parse_object_loop buf start (2 * start.size + 1) start Sink.init with
  | ok x => exact ⟨x, rfl⟩
  | fault f => exact (hfl f hx).elim
  | timeout => exact absurd hx hnt

/-- C20. A buffer without `-` whose first marker character is the opening brace and whose
last character is the closing brace is reported valid, whatever stands in between: a
scan of the object that fails returns the original span, which passes the check of the
last character. -/
theorem validate_true_between_braces (buf pre rest : List Char)
    (hbuf : buf = pre ++ LBRACE :: rest) (hpre : ∀ x ∈ pre, is_marker x = false)
    (hm : '-' ∉ buf) (hlast : buf.getLast? = some RBRACE) :
    validate buf = Res.ok true := by
  have hid : identify_value buf ⟨0, buf.length⟩
      = Res.ok ⟨.T_OBJECT, ⟨pre.length, buf.length⟩⟩ := by
    subst hbuf
    exact identify_value_first_marker pre rest LBRACE hpre (by decide)
  have hlt : pre.length < buf.length := by
    subst hbuf
    simp
  obtain ⟨⟨si, σ1⟩, hscan⟩ := object_scan_returns buf hm ⟨pre.length, buf.length⟩ hlt
  unfold validate
  rw [run_of_object_scan buf _ si σ1 hid hscan]
  simp [Res.bind_eq, Res.pure_eq, deref_last buf RBRACE hlast]

/-- C20, on an opening brace, `x`, a closing brace, after a blank: no `:` is found, the
scan of the object fails, and `validate` returns `true`. -/
theorem validate_true_between_braces_witness :
    is_marker ' ' = false ∧ '-' ∉ [' ', LBRACE, 'x', RBRACE] ∧
      [' ', LBRACE, 'x', RBRACE].getLast? = some RBRACE ∧
      validate [' ', LBRACE, 'x', RBRACE] = Res.ok true :=
  ⟨by decide, by decide, rfl,
    validate_true_between_braces [' ', LBRACE, 'x', RBRACE] [' '] ['x', RBRACE] rfl
      (by decide) (by decide) rfl⟩

end JSONReader

namespace JSONReader

/-! ## The container loops, iteration by iteration -/

theorem Res.bind_assoc {α β γ : Type} (x : Res α) (f : α → Res β) (g : β → Res γ) :
    Res.bind (Res.bind x f) g = Res.bind x (fun a => Res.bind (f a) g) := by
  cases x <;> rfl

theorem Res.ite_bind {α β : Type} (c : Prop) [Decidable c] (x y : Res α) (f : α → Res β) :
    Res.bind (if c then x else y) f = if c then Res.bind x f else Res.bind y f := by
  split <;> rfl

/-- The loop of `parse_array` is its body, iterated. -/
theorem parse_array_loop_eq_body (buf : List Char) (string si : string_view) (fuel : Nat)
    (σ : Sink) :
    parse_array_loop buf string (fuel + 1) si σ
      = if si.size > 0 then
          Res.bind (parse_array_body (parse_object_fuel buf fuel) (parse_array_fuel buf fuel)
            buf string si σ) (Flow.resume (parse_array_loop buf string fuel))
        else Res.ok (si, σ) := by
  rw [parse_array_loop]
  unfold parse_array_body
  simp only [Res.bind_eq, Res.pure_eq, Res.bind_assoc, Res.ite_bind, Res.ok_bind,
    Res.fault_bind, Flow.resume]

/-- The loop of `parse_object` is its body, iterated. -/
theorem parse_object_loop_eq_body (buf : List Char) (string si : string_view) (fuel : Nat)
    (σ : Sink) :
    parse_object_loop buf string (fuel + 1) si σ
      = if si.size > 0 then
          Res.bind (parse_object_body (parse_object_fuel buf fuel) (parse_array_fuel buf fuel)
            buf string si σ) (Flow.resume (parse_object_loop buf string fuel))
        else Res.ok (si, σ) := by
  rw [parse_object_loop]
  unfold parse_object_body
  simp only [Res.bind_eq, Res.pure_eq, Res.bind_assoc, Res.ite_bind, Res.ok_bind,
    Res.fault_bind, Flow.resume]

/-- An iteration of the loop of `parse_array` that ends leaves a `string_i` that starts
further on and has the same end. -/
theorem parse_array_body_advances (po pa : string_view → Sink → Res (string_view × Sink))
    (hpo : ∀ s σ x, po s σ = Res.ok x → s.m_begin ≤ x.1.m_end)
    (hpa : ∀ s σ x, pa s σ = Res.ok x → s.m_begin ≤ x.1.m_end)
    (buf : List Char) (string si : string_view) (σ : Sink) (fl : Flow)
    (h : parse_array_body po pa buf string si σ = Res.ok fl) :
    strict_suffix si fl.string_i := by
  unfold parse_array_body at h
  simp only [Res.bind_eq, Res.pure_eq, Res.bind_eq_ok, string_view.ctor_eq_ok] at h
  obtain ⟨si1, ⟨h1, rfl⟩, v, hv, vb, hvb, si3, ⟨h3, rfl⟩, si4, ⟨h4, rfl⟩, h⟩ := h
  obtain ⟨v1, v2, v3, _⟩ := identify_value_bounds buf _ v h1 hv
  simp only at v1 v3
  have hlow := parse_value_lower _ _ hpo hpa buf string v _ vb v2 hvb
  have hseek := (seek_separator_bounds buf ']'
    (string_view.size ⟨vb.1.m_end, si.m_end⟩) vb.1.m_end).1
  simp only at h hseek
  unfold strict_suffix
  split at h
  · simp only [Res.ok.injEq] at h
    subst h
    exact ⟨by simp only [Flow.string_i]; omega, h4, rfl⟩
  · simp only [Res.bind_eq_ok] at h
    obtain ⟨c, _, h⟩ := h
    split at h
    · simp only [Res.ok.injEq] at h
      subst h
      exact ⟨by simp only [Flow.string_i]; omega, h4, rfl⟩
    · simp only [Res.bind_eq_ok] at h
      obtain ⟨c2, _, h⟩ := h
      split at h
      · simp only [Res.bind_eq_ok, string_view.ctor_eq_ok, Res.ok.injEq] at h
        obtain ⟨si5, ⟨h5, rfl⟩, h⟩ := h
        subst h
        exact ⟨by simp only [Flow.string_i]; omega, h5, rfl⟩
      · exact absurd h (by simp)

/-- An iteration of the loop of `parse_object` that ends leaves a `string_i` that starts
further on and has the same end. -/
theorem parse_object_body_advances (po pa : string_view → Sink → Res (string_view × Sink))
    (hpo : ∀ s σ x, po s σ = Res.ok x → s.m_begin ≤ x.1.m_end)
    (hpa : ∀ s σ x, pa s σ = Res.ok x → s.m_begin ≤ x.1.m_end)
    (buf : List Char) (string si : string_view) (σ : Sink) (fl : Flow)
    (h : parse_object_body po pa buf string si σ = Res.ok fl) :
    strict_suffix si fl.string_i := by
  unfold parse_object_body at h
  simp only [Res.bind_eq, Res.pure_eq, Res.bind_eq_ok, string_view.ctor_eq_ok] at h
  obtain ⟨arg, ⟨ha, rfl⟩, name, hname, si1, ⟨h1, rfl⟩, sep, hsep, h⟩ := h
  obtain ⟨n1, n2, n3⟩ := find_string_bounds buf _ name ha hname
  obtain ⟨p1, p2, p3⟩ := find_bounds buf _ sep ':' h1 hsep
  simp only at n1 n3 p1 p3
  unfold strict_suffix
  split at h
  · simp only [string_view.ctor_self, Res.ok_bind, Res.ok.injEq] at h
    subst h
    exact ⟨by simp only [Flow.string_i]; omega, Nat.le_refl _, rfl⟩
  · simp only [Res.bind_eq_ok, string_view.ctor_eq_ok] at h
    obtain ⟨si2, ⟨h2, rfl⟩, v, hv, vb, hvb, si3, ⟨h3, rfl⟩, si4, ⟨h4, rfl⟩, h⟩ := h
    obtain ⟨v1, v2, v3, _⟩ := identify_value_bounds buf _ v h2 hv
    simp only at v1 v3
    have hlow := parse_value_lower _ _ hpo hpa buf string v _ vb v2 hvb
    have hseek := (seek_separator_bounds buf RBRACE
      (string_view.size ⟨vb.1.m_end, si.m_end⟩) vb.1.m_end).1
    simp only at h hseek
    split at h
    · simp only [Res.ok.injEq] at h
      subst h
      exact ⟨by simp only [Flow.string_i]; omega, h4, rfl⟩
    · simp only [Res.bind_eq_ok] at h
      obtain ⟨c, _, h⟩ := h
      split at h
      · simp only [Res.ok.injEq] at h
        subst h
        exact ⟨by simp only [Flow.string_i]; omega, h4, rfl⟩
      · simp only [Res.bind_eq_ok] at h
        obtain ⟨c2, _, h⟩ := h
        split at h
        · simp only [Res.bind_eq_ok, string_view.ctor_eq_ok, Res.ok.injEq] at h
          obtain ⟨si5, ⟨h5, rfl⟩, h⟩ := h
          subst h
          exact ⟨by simp only [Flow.string_i]; omega, h5, rfl⟩
        · exact absurd h (by simp)

/-- The `switch` on a classified value calls the container scanners on the span of the
value only. -/
theorem parse_value_calls (po po2 pa pa2 : string_view → Sink → Res (string_view × Sink))
    (buf : List Char) (string : string_view) (v : value) (σ : Sink)
    (h : v.type ≠ .T_UNKNOWN → po v.start σ = po2 v.start σ ∧ pa v.start σ = pa2 v.start σ) :
    parse_value po pa buf string v σ = parse_value po2 pa2 buf string v σ := by
  unfold parse_value
  split <;> first | rfl | exact (h (by simp [*])).1 | exact (h (by simp [*])).2

/-- An iteration of the loop of `parse_array` calls the container scanners on strict
suffixes of `string_i` only: two pairs of scanners that agree there give the same
iteration. -/
theorem parse_array_body_calls (po po2 pa pa2 : string_view → Sink → Res (string_view × Sink))
    (buf : List Char) (string si : string_view) (σ : Sink)
    (h : ∀ t σ2, strict_suffix si t → po t σ2 = po2 t σ2 ∧ pa t σ2 = pa2 t σ2) :
    parse_array_body po pa buf string si σ = parse_array_body po2 pa2 buf string si σ := by
  unfold parse_array_body
  simp only [Res.bind_eq]
  cases h1 : string_view.ctor (si.m_begin + 1) si.m_end with
  | ok s1 =>
    obtain ⟨hle, rfl⟩ := string_view.ctor_eq_ok.mp h1
    simp only [Res.ok_bind]
    cases hv : identify_value buf ⟨si.m_begin + 1, si.m_end⟩ with
    | ok v =>
      simp only [Res.ok_bind]
      obtain ⟨v1, v2, v3, _⟩ := identify_value_bounds buf _ v hle hv
      simp only at v1 v3
      rw [parse_value_calls po po2 pa pa2 buf string v _
        (fun _ => h _ _ ⟨by omega, v2, v3⟩)]
    | fault f => rfl
    | timeout => rfl
  | fault f => rfl
  | timeout => rfl

/-- An iteration of the loop of `parse_object` calls the container scanners on strict
suffixes of `string_i` only. -/
theorem parse_object_body_calls (po po2 pa pa2 : string_view → Sink → Res (string_view × Sink))
    (buf : List Char) (string si : string_view) (σ : Sink)
    (h : ∀ t σ2, strict_suffix si t → po t σ2 = po2 t σ2 ∧ pa t σ2 = pa2 t σ2) :
    parse_object_body po pa buf string si σ = parse_object_body po2 pa2 buf string si σ := by
  unfold parse_object_body
  simp only [Res.bind_eq]
  cases h1 : string_view.ctor (si.m_begin + 1) si.m_end with
  | ok s1 =>
    obtain ⟨hle, rfl⟩ := string_view.ctor_eq_ok.mp h1
    simp only [Res.ok_bind]
    cases hname : find_string buf ⟨si.m_begin + 1, si.m_end⟩ with
    | ok name =>
      obtain ⟨n1, n2, n3⟩ := find_string_bounds buf _ name hle hname
      simp only at n1 n3
      simp only [Res.ok_bind, string_view.ctor_ok n3]
      cases hsep : find buf ⟨name.m_end, si.m_end⟩ ':' with
      | ok sep =>
        obtain ⟨p1, p2, p3⟩ := find_bounds buf _ sep ':' n3 hsep
        simp only at p1 p3
        simp only [Res.ok_bind]
        split
        · rfl
        · rename_i hsz
          unfold string_view.size at hsz
          have hle2 : sep.m_begin + 1 ≤ si.m_end := by omega
          simp only [string_view.ctor_ok hle2, Res.ok_bind]
          cases hv : identify_value buf ⟨sep.m_begin + 1, si.m_end⟩ with
          | ok v =>
            simp only [Res.ok_bind]
            obtain ⟨v1, v2, v3, _⟩ := identify_value_bounds buf _ v hle2 hv
            simp only at v1 v3
            rw [parse_value_calls po po2 pa pa2 buf string v _
              (fun _ => h _ _ ⟨by omega, v2, v3⟩)]
          | fault f => rfl
          | timeout => rfl
      | fault f => rfl
      | timeout => rfl
    | fault f => rfl
    | timeout => rfl
  | fault f => rfl
  | timeout => rfl

/-- C14. `parse_array` and `parse_object` terminate on every input.  As embedded, with a
step budget: the budget of a scan is never used up and a larger one gives the same
result; each loop is its body iterated; an iteration that ends leaves a `string_i` whose
start is strictly further on and whose end is the same, by a `break` or to go on with the
loop; and an iteration calls the two scanners on strict suffixes of `string_i` only (it
is the same for any two pairs of scanners that agree there), `string_i` being the span
of the call at the first iteration. -/
theorem containers_terminate (buf : List Char) :
    (∀ s σ, parse_array buf s σ ≠ Res.timeout ∧
      ∀ n, parse_array_fuel buf (budget s + n) s σ = parse_array buf s σ) ∧
    (∀ s σ, parse_object buf s σ ≠ Res.timeout ∧
      ∀ n, parse_object_fuel buf (budget s + n) s σ = parse_object buf s σ) ∧
    (∀ fuel string si σ,
      parse_array_loop buf string (fuel + 1) si σ
        = if si.size > 0 then
            Res.bind (parse_array_body (parse_object_fuel buf fuel)
              (parse_array_fuel buf fuel) buf string si σ)
              (Flow.resume (parse_array_loop buf string fuel))
          else Res.ok (si, σ)) ∧
    (∀ fuel string si σ,
      parse_object_loop buf string (fuel + 1) si σ
        = if si.size > 0 then
            Res.bind (parse_object_body (parse_object_fuel buf fuel)
              (parse_array_fuel buf fuel) buf string si σ)
              (Flow.resume (parse_object_loop buf string fuel))
          else Res.ok (si, σ)) ∧
    (∀ fuel string si σ fl,
      parse_array_body (parse_object_fuel buf fuel) (parse_array_fuel buf fuel)
        buf string si σ = Res.ok fl → strict_suffix si fl.string_i) ∧
    (∀ fuel string si σ fl,
      parse_object_body (parse_object_fuel buf fuel) (parse_array_fuel buf fuel)
        buf string si σ = Res.ok fl → strict_suffix si fl.string_i) ∧
    (∀ po po2 pa pa2 string si σ,
      (∀ t σ2, strict_suffix si t → po t σ2 = po2 t σ2 ∧ pa t σ2 = pa2 t σ2) →
      parse_array_body po pa buf string si σ = parse_array_body po2 pa2 buf string si σ) ∧
    (∀ po po2 pa pa2 string si σ,
      (∀ t σ2, strict_suffix si t → po t σ2 = po2 t σ2 ∧ pa t σ2 = pa2 t σ2) →
      parse_object_body po pa buf string si σ
        = parse_object_body po2 pa2 buf string si σ) :=
  ⟨fun s σ => ⟨parse_array_ne_timeout buf s σ, parse_array_fuel_eq_parse_array buf s σ⟩,
    fun s σ => ⟨parse_object_ne_timeout buf s σ, parse_object_fuel_eq_parse_object buf s σ⟩,
    fun fuel string si σ => parse_array_loop_eq_body buf string si fuel σ,
    fun fuel string si σ => parse_object_loop_eq_body buf string si fuel σ,
    fun fuel string si σ fl h => parse_array_body_advances _ _ (parse_object_fuel_lower buf fuel)
      (parse_array_fuel_lower buf fuel) buf string si σ fl h,
    fun fuel string si σ fl h => parse_object_body_advances _ _
      (parse_object_fuel_lower buf fuel) (parse_array_fuel_lower buf fuel) buf string si σ fl h,
    fun po po2 pa pa2 string si σ h => parse_array_body_calls po po2 pa pa2 buf string si σ h,
    fun po po2 pa pa2 string si σ h => parse_object_body_calls po po2 pa pa2 buf string si σ h⟩

/-- C14, on `[1, 2] `: the first iteration of the loop of `parse_array`, entered with
`string_i` at offset 0, ends by `continue` with `string_i` at offset 3, after the comma:
a strict suffix. -/
theorem containers_terminate_witness :
    ∃ fl, parse_array_body (parse_object_fuel spaced_array_input 3)
        (parse_array_fuel spaced_array_input 3) spaced_array_input ⟨0, 7⟩ ⟨0, 7⟩ Sink.init
          = Res.ok fl ∧
      fl.string_i = ⟨3, 7⟩ ∧ strict_suffix ⟨0, 7⟩ fl.string_i :=
  ⟨_, rfl, rfl,
    (containers_terminate spaced_array_input).2.2.2.2.1 3 ⟨0, 7⟩ ⟨0, 7⟩ Sink.init _ rfl⟩

end JSONReader

namespace JSONReader

/-! ## The result of a container scan -/

theorem strict_suffix_trans {a b c : string_view} (h1 : strict_suffix a b)
    (h2 : strict_suffix b c) : strict_suffix a c := by
  unfold strict_suffix at *
  omega

/-- The `string_i` a container loop is left with is the one it was entered with, when that
is empty, or a strict suffix of it. -/
theorem container_loop_result (buf : List Char) (string : string_view) :
    ∀ (fuel : Nat),
      (∀ si σ x, parse_array_loop buf string fuel si σ = Res.ok x → si.m_begin ≤ si.m_end →
        (si.size = 0 ∧ x.1 = si) ∨ strict_suffix si x.1) ∧
      (∀ si σ x, parse_object_loop buf string fuel si σ = Res.ok x → si.m_begin ≤ si.m_end →
        (si.size = 0 ∧ x.1 = si) ∨ strict_suffix si x.1) := by
  intro fuel
  induction fuel with
  | zero =>
    exact ⟨fun si σ x h => by simp [parse_array_loop] at h,
      fun si σ x h => by simp [parse_object_loop] at h⟩
  | succ fuel ih =>
    obtain ⟨ihA, ihO⟩ := ih
    constructor
    · intro si σ x h hsi
      rw [parse_array_loop_eq_body] at h
      split at h
      · right
        obtain ⟨fl, hb, hr⟩ := Res.bind_eq_ok.mp h
        have hadv := parse_array_body_advances _ _ (parse_object_fuel_lower buf fuel)
          (parse_array_fuel_lower buf fuel) buf string si σ fl hb
        cases fl with
        | brk s2 σ2 =>
          simp only [Flow.resume, Res.ok.injEq] at hr
          subst hr
          exact hadv
        | cont s2 σ2 =>
          simp only [Flow.resume] at hr
          simp only [Flow.string_i] at hadv
          rcases ihA s2 σ2 x hr hadv.2.1 with ⟨_, h2⟩ | h2
          · rw [h2]; exact hadv
          · exact strict_suffix_trans hadv h2
      · rename_i hsz
        injection h with h
        subst h
        exact Or.inl ⟨by omega, rfl⟩
    · intro si σ x h hsi
      rw [parse_object_loop_eq_body] at h
      split at h
      · right
        obtain ⟨fl, hb, hr⟩ := Res.bind_eq_ok.mp h
        have hadv := parse_object_body_advances _ _ (parse_object_fuel_lower buf fuel)
          (parse_array_fuel_lower buf fuel) buf string si σ fl hb
        cases fl with
        | brk s2 σ2 =>
          simp only [Flow.resume, Res.ok.injEq] at hr
          subst hr
          exact hadv
        | cont s2 σ2 =>
          simp only [Flow.resume] at hr
          simp only [Flow.string_i] at hadv
          rcases ihO s2 σ2 x hr hadv.2.1 with ⟨_, h2⟩ | h2
          · rw [h2]; exact hadv
          · exact strict_suffix_trans hadv h2
      · rename_i hsz
        injection h with h
        subst h
        exact Or.inl ⟨by omega, rfl⟩

/-- The two shapes of the result of `parse_array`. -/
theorem parse_array_result (buf : List Char) (s : string_view) (σ : Sink)
    (x : string_view × Sink) (h : parse_array buf s σ = Res.ok x) :
    s.m_begin < s.m_end ∧ deref buf s.m_begin = '[' ∧
      (x.1 = s ∨ ∃ j, 1 ≤ j ∧ j < s.size ∧ deref buf (s.m_begin + j) = ']' ∧
        x.1 = ⟨s.m_begin, s.m_begin + j + 1⟩) := by
  unfold parse_array budget at h
  obtain ⟨hlt, hc, si, σ1, hloop, _, hshape⟩ := parse_array_fuel_eq buf _ s σ x h
  refine ⟨hlt, hc, ?_⟩
  rcases hshape with ⟨hsz, hcl, _, hx⟩ | ⟨_, hx⟩
  · right
    rcases (container_loop_result buf s _).1 s σ _ hloop (Nat.le_of_lt hlt) with
      ⟨h0, _⟩ | hsuf
    · unfold string_view.size at h0; omega
    · unfold strict_suffix at hsuf
      simp only at hsuf
      unfold string_view.size at hsz
      refine ⟨si.m_begin - s.m_begin, by omega, by unfold string_view.size; omega, ?_, ?_⟩
      · rw [show s.m_begin + (si.m_begin - s.m_begin) = si.m_begin by omega]
        exact hcl
      · rw [hx, show s.m_begin + (si.m_begin - s.m_begin) + 1 = si.m_begin + 1 by omega]
  · exact Or.inl hx

/-- The two shapes of the result of `parse_object`. -/
theorem parse_object_result (buf : List Char) (s : string_view) (σ : Sink)
    (x : string_view × Sink) (h : parse_object buf s σ = Res.ok x) :
    s.m_begin < s.m_end ∧ deref buf s.m_begin = LBRACE ∧
      (x.1 = s ∨ ∃ j, 1 ≤ j ∧ j < s.size ∧ deref buf (s.m_begin + j) = RBRACE ∧
        x.1 = ⟨s.m_begin, s.m_begin + j + 1⟩) := by
  unfold parse_object budget at h
  obtain ⟨hlt, hc, si, σ1, hloop, _, hshape⟩ := parse_object_fuel_eq buf _ s σ x h
  refine ⟨hlt, hc, ?_⟩
  rcases hshape with ⟨hsz, hcl, _, hx⟩ | ⟨_, hx⟩
  · right
    rcases (container_loop_result buf s _).2 s σ _ hloop (Nat.le_of_lt hlt) with
      ⟨h0, _⟩ | hsuf
    · unfold string_view.size at h0; omega
    · unfold strict_suffix at hsuf
      simp only at hsuf
      unfold string_view.size at hsz
      refine ⟨si.m_begin - s.m_begin, by omega, by unfold string_view.size; omega, ?_, ?_⟩
      · rw [show s.m_begin + (si.m_begin - s.m_begin) = si.m_begin by omega]
        exact hcl
      · rw [hx, show s.m_begin + (si.m_begin - s.m_begin) + 1 = si.m_begin + 1 by omega]
  · exact Or.inl hx

/-- A run of a container scanner on a span that begins with its opening character
returns, unless the `assert(0)` of `parse_number` fails. -/
theorem container_returns (buf : List Char) (s : string_view) (σ : Sink)
    (hlt : s.m_begin < s.m_end) :
    (deref buf s.m_begin = '[' →
      (∃ x, parse_array buf s σ = Res.ok x) ∨
        parse_array buf s σ = Res.fault Fault.unreachable) ∧
    (deref buf s.m_begin = LBRACE →
      (∃ x, parse_object buf s σ = Res.ok x) ∨
        parse_object buf s σ = Res.fault Fault.unreachable) := by
  constructor
  · intro hc
    cases hx : parse_array buf s σ with
    | ok x => exact Or.inl ⟨x, rfl⟩
    | fault f =>
      right
      rw [fl_parse_array (fun f => f = Fault.unreachable) buf (Or.inl rfl) s σ hlt hc f hx]
    | timeout => exact absurd hx (parse_array_ne_timeout buf s σ)
  · intro hc
    cases hx : parse_object buf s σ with
    | ok x => exact Or.inl ⟨x, rfl⟩
    | fault f =>
      right
      rw [fl_parse_object (fun f => f = Fault.unreachable) buf (Or.inl rfl) s σ hlt hc f hx]
    | timeout => exact absurd hx (parse_object_ne_timeout buf s σ)

/-- C12. The result convention of the container scanners.  On a span `s` that is not
empty and begins with `[`, `parse_array` returns unless the `assert(0)` of `parse_number`
ends the run, and whenever it returns, the span returned starts where `s` starts and is
either `s` itself (failure) or ends right after a `]` that stands at an index of `s` from
1 on (success); so it is for `parse_object` with the opening and the closing brace. -/
theorem container_result_convention (buf : List Char) (s : string_view) (σ : Sink)
    (hlt : s.m_begin < s.m_end) :
    (deref buf s.m_begin = '[' →
      ((∃ x, parse_array buf s σ = Res.ok x) ∨
        parse_array buf s σ = Res.fault Fault.unreachable) ∧
      ∀ x, parse_array buf s σ = Res.ok x →
        x.1.m_begin = s.m_begin ∧
        (x.1 = s ∨ ∃ j, 1 ≤ j ∧ j < s.size ∧ deref buf (s.m_begin + j) = ']' ∧
          x.1 = ⟨s.m_begin, s.m_begin + j + 1⟩)) ∧
    (deref buf s.m_begin = LBRACE →
      ((∃ x, parse_object buf s σ = Res.ok x) ∨
        parse_object buf s σ = Res.fault Fault.unreachable) ∧
      ∀ x, parse_object buf s σ = Res.ok x →
        x.1.m_begin = s.m_begin ∧
        (x.1 = s ∨ ∃ j, 1 ≤ j ∧ j < s.size ∧ deref buf (s.m_begin + j) = RBRACE ∧
          x.1 = ⟨s.m_begin, s.m_begin + j + 1⟩)) := by
  constructor
  · intro hc
    refine ⟨(container_returns buf s σ hlt).1 hc, fun x hx => ?_⟩
    obtain ⟨_, _, hshape⟩ := parse_array_result buf s σ x hx
    refine ⟨?_, hshape⟩
    rcases hshape with h | ⟨j, _, _, _, h⟩ <;> rw [h]
  · intro hc
    refine ⟨(container_returns buf s σ hlt).2 hc, fun x hx => ?_⟩
    obtain ⟨_, _, hshape⟩ := parse_object_result buf s σ x hx
    refine ⟨?_, hshape⟩
    rcases hshape with h | ⟨j, _, _, _, h⟩ <;> rw [h]

/-- C12, on `[1, 2] `: `parse_array` returns the span of the first six characters, which
ends right after the `]` at index 5. -/
theorem container_result_convention_witness :
    deref spaced_array_input 0 = '[' ∧
      ∃ σ1, parse_array spaced_array_input ⟨0, 7⟩ Sink.init = Res.ok (⟨0, 6⟩, σ1) ∧
        ((⟨0, 6⟩ : string_view) = ⟨0, 7⟩ ∨
          ∃ j, 1 ≤ j ∧ j < 7 ∧ deref spaced_array_input (0 + j) = ']' ∧
            (⟨0, 6⟩ : string_view) = ⟨0, 0 + j + 1⟩) :=
  ⟨rfl, _, rfl,
    ((((container_result_convention spaced_array_input ⟨0, 7⟩ Sink.init (by decide)).1
      rfl).2 _ rfl).2)⟩

end JSONReader

namespace JSONReader

/-! ## The assertions on spans, indices and preconditions -/

/-- In a run of `parse_object` or `parse_array` on a span that is not empty and begins
with the opening brace or with `[`, the assertion of the constructor of `string_view`,
the assertion of `operator[]` and the assertions that open the `parse_*` functions never
fail, and the span returned is well formed and lies within the span given. -/
theorem container_assertions_hold (buf : List Char) (s : string_view) (σ : Sink)
    (hlt : s.m_begin < s.m_end) :
    (deref buf s.m_begin = LBRACE →
      parse_object buf s σ ≠ Res.fault Fault.ctor ∧
      parse_object buf s σ ≠ Res.fault Fault.index ∧
      parse_object buf s σ ≠ Res.fault Fault.precond ∧
      ∀ x, parse_object buf s σ = Res.ok x →
        s.m_begin ≤ x.1.m_begin ∧ x.1.m_begin ≤ x.1.m_end ∧ x.1.m_end ≤ s.m_end) ∧
    (deref buf s.m_begin = '[' →
      parse_array buf s σ ≠ Res.fault Fault.ctor ∧
      parse_array buf s σ ≠ Res.fault Fault.index ∧
      parse_array buf s σ ≠ Res.fault Fault.precond ∧
      ∀ x, parse_array buf s σ = Res.ok x →
        s.m_begin ≤ x.1.m_begin ∧ x.1.m_begin ≤ x.1.m_end ∧ x.1.m_end ≤ s.m_end) := by
  constructor
  · intro hc
    have hfl := fl_parse_object (fun f => f = Fault.unreachable) buf (Or.inl rfl) s σ hlt hc
    refine ⟨fun h => absurd (hfl _ h) (by decide), fun h => absurd (hfl _ h) (by decide),
      fun h => absurd (hfl _ h) (by decide), fun x hx => ?_⟩
    obtain ⟨_, _, hshape⟩ := parse_object_result buf s σ x hx
    rcases hshape with h | ⟨j, h1, h2, _, h⟩
    · rw [h]; omega
    · rw [h]
      unfold string_view.size at h2
      simp only
      omega
  · intro hc
    have hfl := fl_parse_array (fun f => f = Fault.unreachable) buf (Or.inl rfl) s σ hlt hc
    refine ⟨fun h => absurd (hfl _ h) (by decide), fun h => absurd (hfl _ h) (by decide),
      fun h => absurd (hfl _ h) (by decide), fun x hx => ?_⟩
    obtain ⟨_, _, hshape⟩ := parse_array_result buf s σ x hx
    rcases hshape with h | ⟨j, h1, h2, _, h⟩
    · rw [h]; omega
    · rw [h]
      unfold string_view.size at h2
      simp only
      omega

end JSONReader

namespace JSONReader

/-! ## The result of a run with its accesses -/

theorem Traced.seq_eq {α β : Type} (x : Traced α) (f : α → Traced β) :
    (x >>= f) = Traced.bind x f := rfl

theorem Traced.res_pure {α : Type} (a : α) : (pure a : Traced α).res = Res.ok a := rfl

theorem Traced.res_bind {α β : Type} (x : Traced α) (f : α → Traced β) :
    (Traced.bind x f).res = Res.bind x.res (fun a => (f a).res) := by
  obtain ⟨l, r⟩ := x
  cases r <;> rfl

theorem Traced.res_ite {α : Type} (c : Prop) [Decidable c] (x y : Traced α) :
    (if c then x else y).res = if c then x.res else y.res := by
  split <;> rfl

theorem Traced.res_ctor (t : Target) (b e : Nat) :
    (Traced.ctor t b e).res = string_view.ctor b e := rfl

theorem Traced.res_at (t : Target) (buf : List Char) (s : string_view) (i : Nat) :
    (Traced.at t buf s i).res = s.at buf i := rfl

theorem Traced.res_deref (buf : List Char) (s : string_view) (p : Nat) :
    (Traced.deref buf s p).res = Res.ok (JSONReader.deref buf p) := rfl

theorem Traced.res_write (s : string_view) : (Traced.write s).res = Res.ok () := rfl

theorem Traced.res_declare : Traced.declare.res = Res.ok () := rfl

theorem Traced.res_fail {α : Type} (f : Fault) :
    (Traced.fail f : Traced α).res = Res.fault f := rfl

theorem res_find_string_marker_loop (buf : List Char) (s : string_view) :
    ∀ (k i : Nat), (Traced.find_string_marker_loop buf s k i).res
      = find_string_marker_loop buf s k i := by
  intro k
  induction k with
  | zero => intro i; rfl
  | succ k ih =>
    intro i
    rw [Traced.find_string_marker_loop, find_string_marker_loop]
    simp only [Traced.seq_eq, Traced.res_bind, Traced.res_ite, Traced.res_at,
      Traced.res_ctor, ih, Res.bind_eq]

theorem res_find_string_marker (buf : List Char) (s : string_view) :
    (Traced.find_string_marker buf s).res = find_string_marker buf s := by
  unfold Traced.find_string_marker find_string_marker
  simp only [Traced.seq_eq, Traced.res_bind, Traced.res_ite, Traced.res_at, Traced.res_pure,
    res_find_string_marker_loop, Res.bind_eq, Res.pure_eq]

theorem res_find_loop (buf : List Char) (s : string_view) (c : Char) :
    ∀ (k i : Nat), (Traced.find_loop buf s c k i).res = find_loop buf s c k i := by
  intro k
  induction k with
  | zero => intro i; rfl
  | succ k ih =>
    intro i
    rw [Traced.find_loop, find_loop]
    simp only [Traced.seq_eq, Traced.res_bind, Traced.res_ite, Traced.res_deref,
      Traced.res_ctor, ih, Res.ok_bind]

theorem res_find (buf : List Char) (s : string_view) (c : Char) :
    (Traced.find buf s c).res = find buf s c :=
  res_find_loop buf s c _ _

theorem res_find_string (buf : List Char) (s : string_view) :
    (Traced.find_string buf s).res = find_string buf s := by
  unfold Traced.find_string find_string
  simp only [Traced.seq_eq, Traced.res_bind, Traced.res_ite, Traced.res_ctor,
    Traced.res_pure, res_find_string_marker, Res.bind_eq, Res.pure_eq]

theorem res_identify_value_loop (buf : List Char) (s : string_view) :
    ∀ (k i : Nat), (Traced.identify_value_loop buf s k i).res
      = identify_value_loop buf s k i := by
  intro k
  induction k with
  | zero =>
    intro i
    rw [Traced.identify_value_loop, identify_value_loop]
    simp only [Traced.seq_eq, Traced.res_bind, Traced.res_ctor, Traced.res_pure,
      Res.bind_eq, Res.pure_eq]
  | succ k ih =>
    intro i
    rw [Traced.identify_value_loop, identify_value_loop]
    simp only [Traced.seq_eq, Traced.res_bind, Traced.res_ite, Traced.res_deref,
      Traced.res_ctor, Traced.res_pure, ih, Res.ok_bind, Res.bind_eq, Res.pure_eq]

theorem res_identify_value (buf : List Char) (s : string_view) :
    (Traced.identify_value buf s).res = identify_value buf s :=
  res_identify_value_loop buf s _ _

theorem res_parse_string (buf : List Char) (s : string_view) (σ : Sink) :
    (Traced.parse_string buf s σ).res = parse_string buf s σ := by
  unfold Traced.parse_string parse_string
  simp only [Traced.seq_eq, Traced.res_bind, Traced.res_ite, Traced.res_at, Traced.res_ctor,
    Traced.res_pure, Traced.res_write, Traced.res_declare, Traced.res_fail, res_find_string_marker,
    Res.bind_eq, Res.pure_eq, Res.ok_bind]

theorem res_equal_loop (ta : Target) (bufa : List Char) (a : string_view)
    (bufb : List Char) (b : string_view) :
    ∀ (k i : Nat), (Traced.equal_loop ta bufa a bufb b k i).res
      = equal_loop bufa a bufb b k i := by
  intro k
  induction k with
  | zero => intro i; rfl
  | succ k ih =>
    intro i
    rw [Traced.equal_loop, equal_loop]
    simp only [Traced.seq_eq, Traced.res_bind, Traced.res_ite, Traced.res_at,
      Traced.res_pure, ih, Res.bind_eq, Res.pure_eq]

theorem res_equal (ta : Target) (bufa : List Char) (a : string_view)
    (bufb : List Char) (b : string_view) :
    (Traced.equal ta bufa a bufb b).res = equal bufa a bufb b := by
  unfold Traced.equal equal
  simp only [Traced.res_ite, Traced.res_pure, res_equal_loop, Res.pure_eq]

theorem res_parse_literal (cs : List Char) (n : Nat) (first : Char) (buf : List Char)
    (s : string_view) (σ : Sink) :
    (Traced.parse_literal cs n first buf s σ).res = parse_literal cs n first buf s σ := by
  unfold Traced.parse_literal parse_literal
  simp only [Traced.seq_eq, Traced.res_bind, Traced.res_ite, Traced.res_at, Traced.res_ctor,
    Traced.res_pure, Traced.res_write, Traced.res_declare, Traced.res_fail, res_equal,
    Res.bind_eq, Res.pure_eq, Res.ok_bind]

theorem res_print_and_return (buf : List Char) (b e : Nat) (σ : Sink) :
    (Traced.print_and_return buf b e σ).res
      = Res.bind (string_view.ctor b e) (fun result =>
          Res.ok (result, print_content buf result σ)) := by
  unfold Traced.print_and_return
  simp only [Traced.seq_eq, Traced.res_bind, Traced.res_ctor, Traced.res_pure,
    Traced.res_write, Res.ok_bind]
  by_cases h : b ≤ e
  · simp only [string_view.ctor_ok h, Res.ok_bind]
  · simp [string_view.ctor, h]

theorem res_parse_number_loop (buf : List Char) (s : string_view) (σ : Sink) :
    ∀ (k p : Nat) (state : Int), (Traced.parse_number_loop buf s σ k p state).res
      = parse_number_loop buf s σ k p state := by
  intro k
  induction k with
  | zero =>
    intro p state
    rw [Traced.parse_number_loop, parse_number_loop, res_print_and_return]
    simp only [Res.bind_eq, Res.pure_eq]
  | succ k ih =>
    intro p state
    rw [Traced.parse_number_loop, parse_number_loop]
    simp only [Traced.seq_eq, Traced.res_bind, Traced.res_ite, Traced.res_deref,
      res_print_and_return, ih, Res.bind_eq, Res.pure_eq, Res.ok_bind]

theorem res_parse_number (buf : List Char) (s : string_view) (σ : Sink) :
    (Traced.parse_number buf s σ).res = parse_number buf s σ :=
  res_parse_number_loop buf s σ _ _ _

theorem res_seek_separator (buf : List Char) (close : Char) (si : string_view) :
    ∀ (k i : Nat), (Traced.seek_separator buf close si k i).res
      = Res.ok (seek_separator buf close k i) := by
  intro k
  induction k with
  | zero => intro i; rfl
  | succ k ih =>
    intro i
    rw [Traced.seek_separator, seek_separator]
    simp only [Traced.seq_eq, Traced.res_bind, Traced.res_ite, Traced.res_deref,
      Traced.res_pure, ih, Res.ok_bind]
    split <;> rfl

end JSONReader

namespace JSONReader

theorem res_parse_value (po pa : string_view → Sink → Traced (string_view × Sink))
    (po2 pa2 : string_view → Sink → Res (string_view × Sink))
    (hpo : ∀ s σ, (po s σ).res = po2 s σ) (hpa : ∀ s σ, (pa s σ).res = pa2 s σ)
    (buf : List Char) (string : string_view) (v : value) (σ : Sink) :
    (Traced.parse_value po pa buf string v σ).res = parse_value po2 pa2 buf string v σ := by
  obtain ⟨ty, st⟩ := v
  cases ty <;> simp only [Traced.parse_value, parse_value]
  · exact res_parse_string _ _ _
  · exact res_parse_number _ _ _
  · exact hpo _ _
  · exact hpa _ _
  · exact res_parse_literal _ _ _ _ _ _
  · exact res_parse_literal _ _ _ _ _ _
  · exact res_parse_literal _ _ _ _ _ _
  · simp only [Traced.seq_eq, Traced.res_bind, Traced.res_ctor, Traced.res_pure,
      Res.bind_eq, Res.pure_eq]

/-- The result of a run of the container scanners with its accesses is the result of the
scanners. -/
theorem res_container (buf : List Char) :
    ∀ fuel : Nat,
      (∀ string si σ, (Traced.parse_array_loop buf string fuel si σ).res
        = parse_array_loop buf string fuel si σ) ∧
      (∀ s σ, (Traced.parse_array_fuel buf fuel s σ).res = parse_array_fuel buf fuel s σ) ∧
      (∀ string si σ, (Traced.parse_object_loop buf string fuel si σ).res
        = parse_object_loop buf string fuel si σ) ∧
      (∀ s σ, (Traced.parse_object_fuel buf fuel s σ).res
        = parse_object_fuel buf fuel s σ) := by
  intro fuel
  induction fuel with
  | zero =>
    refine ⟨fun _ _ _ => ?_, fun _ _ => ?_, fun _ _ _ => ?_, fun _ _ => ?_⟩
    · rw [Traced.parse_array_loop, parse_array_loop]; rfl
    · rw [Traced.parse_array_fuel, parse_array_fuel]; rfl
    · rw [Traced.parse_object_loop, parse_object_loop]; rfl
    · rw [Traced.parse_object_fuel, parse_object_fuel]; rfl
  | succ fuel ih =>
    obtain ⟨ihal, ihaf, ihol, ihof⟩ := ih
    have hv := res_parse_value (Traced.parse_object_fuel buf fuel)
      (Traced.parse_array_fuel buf fuel) (parse_object_fuel buf fuel)
      (parse_array_fuel buf fuel) ihof ihaf buf
    have hal : ∀ string si σ, (Traced.parse_array_loop buf string (fuel + 1) si σ).res
        = parse_array_loop buf string (fuel + 1) si σ := by
      intro string si σ
      rw [Traced.parse_array_loop, parse_array_loop]
      simp only [Traced.seq_eq, Traced.res_bind, Traced.res_ite, Traced.res_at,
        Traced.res_ctor, Traced.res_pure, Traced.res_fail, Traced.res_declare, res_identify_value, hv,
        res_seek_separator, ihal, Res.bind_eq, Res.pure_eq, Res.ok_bind]
    have hol : ∀ string si σ, (Traced.parse_object_loop buf string (fuel + 1) si σ).res
        = parse_object_loop buf string (fuel + 1) si σ := by
      intro string si σ
      rw [Traced.parse_object_loop, parse_object_loop]
      simp only [Traced.seq_eq, Traced.res_bind, Traced.res_ite, Traced.res_at,
        Traced.res_ctor, Traced.res_pure, Traced.res_fail, Traced.res_write,
        Traced.res_declare, res_identify_value, res_find_string, res_find, hv,
        res_seek_separator, ihol, Res.bind_eq, Res.pure_eq, Res.ok_bind]
    refine ⟨hal, ?_, hol, ?_⟩
    · intro s σ
      rw [Traced.parse_array_fuel, parse_array_fuel]
      simp only [Traced.seq_eq, Traced.res_bind, Traced.res_ite, Traced.res_at,
        Traced.res_ctor, Traced.res_pure, Traced.res_fail, ihal, Res.bind_eq, Res.pure_eq,
        Res.ok_bind]
    · intro s σ
      rw [Traced.parse_object_fuel, parse_object_fuel]
      simp only [Traced.seq_eq, Traced.res_bind, Traced.res_ite, Traced.res_at,
        Traced.res_ctor, Traced.res_pure, Traced.res_fail, ihol, Res.bind_eq, Res.pure_eq,
        Res.ok_bind]

theorem res_parse_array (buf : List Char) (s : string_view) (σ : Sink) :
    (Traced.parse_array buf s σ).res = parse_array buf s σ :=
  (res_container buf (budget s)).2.1 s σ

theorem res_parse_object (buf : List Char) (s : string_view) (σ : Sink) :
    (Traced.parse_object buf s σ).res = parse_object buf s σ :=
  (res_container buf (budget s)).2.2.2 s σ

end JSONReader

namespace JSONReader

/-! ## The accesses of a run stay in range -/

theorem all_pure {α : Type} (P : Access → Prop) (a : α) : Traced.all P (pure a) := by
  intro x hx
  cases hx

theorem all_bind {α β : Type} {P : Access → Prop} {x : Traced α} {f : α → Traced β}
    (hx : Traced.all P x) (hf : ∀ a, x.res = Res.ok a → Traced.all P (f a)) :
    Traced.all P (Traced.bind x f) := by
  obtain ⟨l, r⟩ := x
  cases r with
  | ok a =>
    intro ev hev
    simp only [Traced.bind, List.mem_append] at hev
    rcases hev with h | h
    · exact hx ev h
    · exact hf a rfl ev h
  | fault e => exact hx
  | timeout => exact hx

theorem all_one {α : Type} {P : Access → Prop} (a : Access) (r : Res α) (h : P a) :
    Traced.all P ⟨[a], r⟩ := by
  intro x hx
  simp only [List.mem_singleton] at hx
  subst hx
  exact h

theorem all_none {α : Type} (P : Access → Prop) (r : Res α) : Traced.all P ⟨[], r⟩ := by
  intro x hx
  cases hx

theorem all_ctor (F : string_view) {b e : Nat} (h1 : F.m_begin ≤ b) (h2 : b ≤ e)
    (h3 : e ≤ F.m_end) : Traced.all (Access.in_range F) (Traced.ctor .buffer b e) :=
  all_one _ _ ⟨h1, h2, h3⟩

theorem all_at (F : string_view) (buf : List Char) {s : string_view} {i : Nat}
    (h1 : i < s.size) (h2 : F.m_begin ≤ s.m_begin) (h3 : s.m_end ≤ F.m_end) :
    Traced.all (Access.in_range F) (Traced.at .buffer buf s i) :=
  all_one _ _ ⟨h1, h2, h3⟩

theorem all_deref (F : string_view) (buf : List Char) {s : string_view} {p : Nat}
    (h1 : s.m_begin ≤ p) (h2 : p < s.m_end) (h3 : F.m_begin ≤ s.m_begin)
    (h4 : s.m_end ≤ F.m_end) :
    Traced.all (Access.in_range F) (Traced.deref buf s p) :=
  all_one _ _ ⟨h1, h2, h3, h4⟩

theorem all_write (F : string_view) {s : string_view} (h1 : F.m_begin ≤ s.m_begin)
    (h2 : s.m_begin ≤ s.m_end) (h3 : s.m_end ≤ F.m_end) :
    Traced.all (Access.in_range F) (Traced.write s) :=
  all_one _ _ ⟨h1, h2, h3⟩

theorem all_declare (F : string_view) : Traced.all (Access.in_range F) Traced.declare :=
  all_one _ _ trivial

theorem all_fail {α : Type} (P : Access → Prop) (f : Fault) :
    Traced.all P (Traced.fail f : Traced α) :=
  all_none P _

theorem ctor_res_ok {t : Target} {b e : Nat} {s : string_view}
    (h : (Traced.ctor t b e).res = Res.ok s) : b ≤ e ∧ s = ⟨b, e⟩ :=
  string_view.ctor_eq_ok.mp h

theorem all_find_string_marker_loop (F : string_view) (buf : List Char) (t : string_view)
    (h1 : F.m_begin ≤ t.m_begin) (h2 : t.m_end ≤ F.m_end) :
    ∀ (k i : Nat), i + k + 1 = t.size →
      Traced.all (Access.in_range F) (Traced.find_string_marker_loop buf t k i) := by
  intro k
  induction k with
  | zero =>
    intro i hk
    rw [Traced.find_string_marker_loop]
    unfold string_view.size at hk
    exact all_ctor F (by omega) (Nat.le_refl _) h2
  | succ k ih =>
    intro i hk
    rw [Traced.find_string_marker_loop]
    simp only [Traced.seq_eq]
    refine all_bind (all_at F buf (by omega) h1 h2) (fun c1 _ => ?_)
    split
    · refine all_bind (all_at F buf (by omega) h1 h2) (fun c0 _ => ?_)
      split
      · unfold string_view.size at hk
        exact all_ctor F (by omega) (by omega) h2
      · exact ih _ (by omega)
    · exact ih _ (by omega)

theorem all_find_string_marker (F : string_view) (buf : List Char) (t : string_view)
    (h1 : F.m_begin ≤ t.m_begin) (h2 : t.m_end ≤ F.m_end) :
    Traced.all (Access.in_range F) (Traced.find_string_marker buf t) := by
  unfold Traced.find_string_marker
  split
  · exact all_pure _ _
  · rename_i hsz
    simp only [Traced.seq_eq]
    refine all_bind (all_at F buf (Nat.pos_of_ne_zero hsz) h1 h2) (fun c _ => ?_)
    split
    · exact all_pure _ _
    · exact all_find_string_marker_loop F buf t h1 h2 _ _ (by omega)

theorem all_find_string (F : string_view) (buf : List Char) (t : string_view)
    (h0 : t.m_begin ≤ t.m_end) (h1 : F.m_begin ≤ t.m_begin) (h2 : t.m_end ≤ F.m_end) :
    Traced.all (Access.in_range F) (Traced.find_string buf t) := by
  unfold Traced.find_string
  simp only [Traced.seq_eq]
  refine all_bind (all_find_string_marker F buf t h1 h2) (fun first hfirst => ?_)
  rw [res_find_string_marker] at hfirst
  obtain ⟨f1, f2, f3⟩ := find_string_marker_bounds buf t first h0 hfirst
  split
  · exact all_pure _ _
  · rename_i hsz
    simp only [string_view.size] at hsz
    refine all_bind (all_ctor F (by omega) (by omega) (by omega)) (fun arg ha => ?_)
    obtain ⟨hale, rfl⟩ := ctor_res_ok ha
    refine all_bind (all_find_string_marker F buf _ (by simp only; omega)
      (by simp only; omega)) (fun second hsecond => ?_)
    rw [res_find_string_marker] at hsecond
    obtain ⟨s1, s2, s3⟩ := find_string_marker_bounds buf _ second hale hsecond
    simp only at s1 s3
    split
    · exact all_pure _ _
    · rename_i hsz2
      simp only [string_view.size] at hsz2
      exact all_ctor F (by omega) (by omega) (by omega)

theorem all_find_loop (F : string_view) (buf : List Char) (t : string_view) (c : Char)
    (h1 : F.m_begin ≤ t.m_begin) (h2 : t.m_end ≤ F.m_end) :
    ∀ (k i : Nat), t.m_begin ≤ i → i + k = t.m_end →
      Traced.all (Access.in_range F) (Traced.find_loop buf t c k i) := by
  intro k
  induction k with
  | zero =>
    intro i hi hk
    rw [Traced.find_loop]
    exact all_ctor F (by omega) (Nat.le_refl _) h2
  | succ k ih =>
    intro i hi hk
    rw [Traced.find_loop]
    simp only [Traced.seq_eq]
    refine all_bind (all_deref F buf hi (by omega) h1 h2) (fun x _ => ?_)
    split
    · exact all_ctor F (by omega) (by omega) h2
    · exact ih _ (by omega) (by omega)

theorem all_find (F : string_view) (buf : List Char) (t : string_view) (c : Char)
    (h0 : t.m_begin ≤ t.m_end) (h1 : F.m_begin ≤ t.m_begin) (h2 : t.m_end ≤ F.m_end) :
    Traced.all (Access.in_range F) (Traced.find buf t c) :=
  all_find_loop F buf t c h1 h2 _ _ (Nat.le_refl _) (by unfold string_view.size; omega)

theorem all_identify_value_loop (F : string_view) (buf : List Char) (t : string_view)
    (h1 : F.m_begin ≤ t.m_begin) (h2 : t.m_end ≤ F.m_end) :
    ∀ (k i : Nat), t.m_begin ≤ i → i + k = t.m_end →
      Traced.all (Access.in_range F) (Traced.identify_value_loop buf t k i) := by
  intro k
  induction k with
  | zero =>
    intro i hi hk
    rw [Traced.identify_value_loop]
    simp only [Traced.seq_eq]
    exact all_bind (all_ctor F (by omega) (Nat.le_refl _) h2) (fun _ _ => all_pure _ _)
  | succ k ih =>
    intro i hi hk
    have hc : Traced.all (Access.in_range F) (Traced.ctor .buffer i t.m_end) :=
      all_ctor F (by omega) (by omega) h2
    rw [Traced.identify_value_loop]
    simp only [Traced.seq_eq]
    refine all_bind (all_deref F buf hi (by omega) h1 h2) (fun c _ => ?_)
    repeat' split
    all_goals first
      | exact all_bind hc (fun _ _ => all_pure _ _)
      | exact ih _ (by omega) (by omega)

theorem all_identify_value (F : string_view) (buf : List Char) (t : string_view)
    (h0 : t.m_begin ≤ t.m_end) (h1 : F.m_begin ≤ t.m_begin) (h2 : t.m_end ≤ F.m_end) :
    Traced.all (Access.in_range F) (Traced.identify_value buf t) :=
  all_identify_value_loop F buf t h1 h2 _ _ (Nat.le_refl _)
    (by unfold string_view.size; omega)

end JSONReader

namespace JSONReader

theorem all_parse_string (F : string_view) (buf : List Char) (s : string_view) (σ : Sink)
    (h0 : s.m_begin ≤ s.m_end) (h1 : F.m_begin ≤ s.m_begin) (h2 : s.m_end ≤ F.m_end) :
    Traced.all (Access.in_range F) (Traced.parse_string buf s σ) := by
  unfold Traced.parse_string
  split
  · rename_i hsz
    have hlt : s.m_begin < s.m_end := by
      unfold string_view.size at hsz; omega
    simp only [Traced.seq_eq]
    refine all_bind (all_at F buf (Nat.pos_of_ne_zero hsz) h1 h2) (fun c _ => ?_)
    split
    · refine all_bind (all_ctor F (by omega) (by omega) h2) (fun arg ha => ?_)
      obtain ⟨hale, rfl⟩ := ctor_res_ok ha
      refine all_bind (all_find_string_marker F buf _ (by simp only; omega)
        (by simp only; omega)) (fun e he => ?_)
      rw [res_find_string_marker] at he
      obtain ⟨e1, e2, e3⟩ := find_string_marker_bounds buf _ e hale he
      simp only at e1 e3
      refine all_bind (all_declare F) (fun _ _ => ?_)
      split
      · refine all_bind (all_ctor F (by omega) (Nat.le_refl _) h2) (fun r hr => ?_)
        obtain ⟨_, rfl⟩ := ctor_res_ok hr
        exact all_bind (all_write F (by simp only; omega) (Nat.le_refl _) h2)
          (fun _ _ => all_pure _ _)
      · rename_i hsz2
        unfold string_view.size at hsz2
        refine all_bind (all_ctor F h1 (by omega) (by omega)) (fun r hr => ?_)
        obtain ⟨_, rfl⟩ := ctor_res_ok hr
        exact all_bind (all_write F h1 (by simp only; omega) (by simp only; omega))
          (fun _ _ => all_pure _ _)
    · exact all_fail _ _
  · exact all_fail _ _

theorem all_equal_loop (F : string_view) (n : Nat) (bufa : List Char) (a : string_view)
    (bufb : List Char) (b : string_view) (ha : a.m_end ≤ n) (h1 : F.m_begin ≤ b.m_begin)
    (h2 : b.m_end ≤ F.m_end) :
    ∀ (k i : Nat), i + k ≤ a.size → i + k ≤ b.size →
      Traced.all (Access.in_range F) (Traced.equal_loop (.literal n) bufa a bufb b k i) := by
  intro k
  induction k with
  | zero =>
    intro i _ _
    rw [Traced.equal_loop]
    exact all_pure _ _
  | succ k ih =>
    intro i hka hkb
    rw [Traced.equal_loop]
    simp only [Traced.seq_eq]
    refine all_bind (all_one _ _ ⟨by omega, ha⟩) (fun x _ => ?_)
    refine all_bind (all_at F bufb (by omega) h1 h2) (fun y _ => ?_)
    split
    · exact all_pure _ _
    · exact ih _ (by omega) (by omega)

theorem all_equal (F : string_view) (n : Nat) (bufa : List Char) (a : string_view)
    (bufb : List Char) (b : string_view) (ha : a.m_end ≤ n) (h1 : F.m_begin ≤ b.m_begin)
    (h2 : b.m_end ≤ F.m_end) :
    Traced.all (Access.in_range F) (Traced.equal (.literal n) bufa a bufb b) := by
  unfold Traced.equal
  split
  · exact all_pure _ _
  · rename_i hsz
    exact all_equal_loop F n bufa a bufb b ha h1 h2 _ _ (by omega) (by omega)

theorem all_parse_literal (F : string_view) (cs : List Char) (n : Nat) (first : Char)
    (hn : n ≤ cs.length) (buf : List Char) (s : string_view) (σ : Sink)
    (h0 : s.m_begin ≤ s.m_end) (h1 : F.m_begin ≤ s.m_begin) (h2 : s.m_end ≤ F.m_end) :
    Traced.all (Access.in_range F) (Traced.parse_literal cs n first buf s σ) := by
  have hend : ∀ k : string_view → Traced (string_view × Sink),
      (∀ r, r = ⟨s.m_end, s.m_end⟩ → Traced.all (Access.in_range F) (k r)) →
      Traced.all (Access.in_range F)
        (Traced.bind (Traced.ctor .buffer s.m_end s.m_end) k) := by
    intro k hk
    refine all_bind (all_ctor F (by omega) (Nat.le_refl _) h2) (fun r hr => ?_)
    exact hk r (ctor_res_ok hr).2
  have hfin : ∀ r : string_view, F.m_begin ≤ r.m_begin → r.m_begin ≤ r.m_end →
      r.m_end ≤ F.m_end →
      Traced.all (Access.in_range F)
        (Traced.bind (Traced.write r) (fun _ => pure (r, print_content buf r σ))) := by
    intro r r1 r2 r3
    exact all_bind (all_write F r1 r2 r3) (fun _ _ => all_pure _ _)
  unfold Traced.parse_literal
  split
  · rename_i hsz
    simp only [Traced.seq_eq]
    refine all_bind (all_at F buf (Nat.pos_of_ne_zero hsz) h1 h2) (fun c _ => ?_)
    split
    · refine all_bind (all_one _ _ ⟨by omega, by omega⟩) (fun sv hsv => ?_)
      obtain ⟨_, rfl⟩ := ctor_res_ok hsv
      refine all_bind (all_declare F) (fun _ _ => ?_)
      split
      · rename_i hge
        unfold string_view.size at hge
        refine all_bind (all_ctor F h1 (by omega) (by omega)) (fun arg ha => ?_)
        obtain ⟨_, rfl⟩ := ctor_res_ok ha
        refine all_bind (all_equal F _ cs _ buf _ (by simp only; omega) h1
          (by simp only; omega)) (fun eq _ => ?_)
        split
        · refine all_bind (all_ctor F h1 (by omega) (by omega)) (fun r hr => ?_)
          obtain ⟨_, rfl⟩ := ctor_res_ok hr
          exact hfin _ h1 (by simp only; omega) (by simp only; omega)
        · exact hend _ (fun r hr => by
            subst hr
            exact hfin _ (by simp only; omega) (Nat.le_refl _) h2)
      · exact hend _ (fun r hr => by
          subst hr
          exact hfin _ (by simp only; omega) (Nat.le_refl _) h2)
    · exact all_fail _ _
  · exact all_fail _ _

theorem all_print_and_return (F : string_view) (buf : List Char) (b e : Nat) (σ : Sink)
    (h1 : F.m_begin ≤ b) (h2 : b ≤ e) (h3 : e ≤ F.m_end) :
    Traced.all (Access.in_range F) (Traced.print_and_return buf b e σ) := by
  unfold Traced.print_and_return
  simp only [Traced.seq_eq]
  refine all_bind (all_ctor F h1 h2 h3) (fun r hr => ?_)
  obtain ⟨_, rfl⟩ := ctor_res_ok hr
  refine all_bind (all_write F h1 h2 h3) (fun _ _ => ?_)
  exact all_bind (all_ctor F h1 h2 h3) (fun _ _ => all_pure _ _)

theorem all_parse_number_loop (F : string_view) (buf : List Char) (s : string_view)
    (σ : Sink) (h1 : F.m_begin ≤ s.m_begin) (h2 : s.m_end ≤ F.m_end) :
    ∀ (k p : Nat) (state : Int), s.m_begin ≤ p → p ≤ s.m_end →
      (state ≠ 8 → p + k ≤ s.m_end) →
      Traced.all (Access.in_range F) (Traced.parse_number_loop buf s σ k p state) := by
  intro k
  induction k with
  | zero =>
    intro p state hp hpe _
    rw [Traced.parse_number_loop]
    exact all_print_and_return F buf _ _ σ h1 hp (by omega)
  | succ k ih =>
    intro p state hp hpe hk
    rw [Traced.parse_number_loop]
    split
    · rename_i h8
      have hk2 := hk h8
      simp only [Traced.seq_eq]
      refine all_bind (all_deref F buf hp (by omega) h1 h2) (fun c _ => ?_)
      refine all_bind (all_none _ _) (fun st _ => ?_)
      split
      · exact all_print_and_return F buf _ _ σ (by omega) (Nat.le_refl _) h2
      · split
        · exact ih _ _ (by omega) (by omega) (fun _ => by omega)
        · rename_i hst
          exact ih _ _ hp hpe (fun h => absurd h hst)
    · exact all_print_and_return F buf _ _ σ h1 hp (by omega)

theorem all_parse_number (F : string_view) (buf : List Char) (s : string_view) (σ : Sink)
    (h0 : s.m_begin ≤ s.m_end) (h1 : F.m_begin ≤ s.m_begin) (h2 : s.m_end ≤ F.m_end) :
    Traced.all (Access.in_range F) (Traced.parse_number buf s σ) :=
  all_parse_number_loop F buf s σ h1 h2 _ _ _ (Nat.le_refl _) h0
    (fun _ => by unfold string_view.size; omega)

theorem all_seek_separator (F : string_view) (buf : List Char) (close : Char)
    (si : string_view) (h1 : F.m_begin ≤ si.m_begin) (h2 : si.m_end ≤ F.m_end) :
    ∀ (k i : Nat), si.m_begin ≤ i → i + k = si.m_end →
      Traced.all (Access.in_range F) (Traced.seek_separator buf close si k i) := by
  intro k
  induction k with
  | zero =>
    intro i _ _
    rw [Traced.seek_separator]
    exact all_pure _ _
  | succ k ih =>
    intro i hi hk
    rw [Traced.seek_separator]
    simp only [Traced.seq_eq]
    refine all_bind (all_deref F buf hi (by omega) h1 h2) (fun c _ => ?_)
    split
    · exact all_pure _ _
    · exact ih _ (by omega) (by omega)

end JSONReader

namespace JSONReader

theorem all_parse_value (F : string_view) (buf : List Char)
    (po pa : string_view → Sink → Traced (string_view × Sink))
    (hpo : ∀ s σ, s.m_begin ≤ s.m_end → F.m_begin ≤ s.m_begin → s.m_end ≤ F.m_end →
      Traced.all (Access.in_range F) (po s σ))
    (hpa : ∀ s σ, s.m_begin ≤ s.m_end → F.m_begin ≤ s.m_begin → s.m_end ≤ F.m_end →
      Traced.all (Access.in_range F) (pa s σ))
    (string : string_view) (v : value) (σ : Sink) (h0 : v.start.m_begin ≤ v.start.m_end)
    (h1 : F.m_begin ≤ v.start.m_begin) (h2 : v.start.m_end ≤ F.m_end)
    (h3 : v.start.m_begin ≤ string.m_end) (h4 : string.m_end ≤ F.m_end) :
    Traced.all (Access.in_range F) (Traced.parse_value po pa buf string v σ) := by
  unfold Traced.parse_value
  split
  · exact all_parse_string F buf _ σ h0 h1 h2
  · exact all_parse_number F buf _ σ h0 h1 h2
  · exact hpo _ _ h0 h1 h2
  · exact hpa _ _ h0 h1 h2
  · exact all_parse_literal F _ _ _ (by decide) buf _ σ h0 h1 h2
  · exact all_parse_literal F _ _ _ (by decide) buf _ σ h0 h1 h2
  · exact all_parse_literal F _ _ _ (by decide) buf _ σ h0 h1 h2
  · simp only [Traced.seq_eq]
    exact all_bind (all_ctor F h1 h3 h4) (fun _ _ => all_pure _ _)

/-- What follows the value in an iteration of a container loop: the search for a
separator and the tests on what it finds. -/
theorem all_loop_tail (F : string_view) (buf : List Char) (close : Char) (m e : Nat)
    (σ : Sink) (next : string_view → Sink → Traced (string_view × Sink))
    (h1 : F.m_begin ≤ m) (h2 : m ≤ e) (h3 : e ≤ F.m_end)
    (hnext : ∀ q σ2, m < q → q ≤ e →
      Traced.all (Access.in_range F) (next ⟨q, e⟩ σ2)) :
    Traced.all (Access.in_range F)
      (Traced.bind (Traced.ctor .buffer m e) (fun string_i =>
        Traced.bind (Traced.seek_separator buf close string_i string_i.size
          string_i.m_begin) (fun i =>
          Traced.bind (Traced.ctor .buffer i string_i.m_end) (fun string_i =>
            if string_i.size = 0 then pure (string_i, σ)
            else Traced.bind (Traced.at .buffer buf string_i 0) (fun c =>
              if c = close then pure (string_i, σ)
              else Traced.bind (Traced.at .buffer buf string_i 0) (fun c =>
                if c = ',' then
                  Traced.bind (Traced.ctor .buffer (string_i.m_begin + 1) string_i.m_end)
                    (fun string_i => next string_i σ)
                else Traced.fail .unreachable)))))) := by
  refine all_bind (all_ctor F h1 h2 h3) (fun s1 hs1 => ?_)
  obtain ⟨_, rfl⟩ := ctor_res_ok hs1
  refine all_bind (all_seek_separator F buf close _ h1 h3 _ _ (Nat.le_refl _)
    (by simp only [string_view.size]; omega)) (fun i hi => ?_)
  rw [res_seek_separator] at hi
  injection hi with hi
  have hsk := seek_separator_bounds buf close (string_view.size ⟨m, e⟩) m
  rw [hi] at hsk
  simp only [string_view.size] at hsk
  refine all_bind (all_ctor F (by omega) (by simp only; omega) h3) (fun s2 hs2 => ?_)
  obtain ⟨_, rfl⟩ := ctor_res_ok hs2
  split
  · exact all_pure _ _
  · rename_i hsz
    simp only [string_view.size] at hsz
    have hat : Traced.all (Access.in_range F) (Traced.at .buffer buf ⟨i, e⟩ 0) :=
      all_at F buf (by simp only [string_view.size]; omega) (by simp only; omega) h3
    refine all_bind hat (fun c _ => ?_)
    split
    · exact all_pure _ _
    · refine all_bind hat (fun c2 _ => ?_)
      split
      · refine all_bind (all_ctor F (by dsimp only; omega) (by dsimp only; omega) h3)
          (fun s3 hs3 => ?_)
        obtain ⟨_, rfl⟩ := ctor_res_ok hs3
        exact hnext _ _ (by dsimp only; omega) (by dsimp only; omega)
      · exact all_fail _ _

end JSONReader

namespace JSONReader

/-- Every access of a run of the container scanners on a span within `F` stays in
range. -/
theorem all_container (F : string_view) (buf : List Char) :
    ∀ fuel : Nat,
      (∀ (string si : string_view) (σ : Sink), F.m_begin ≤ si.m_begin →
        si.m_begin ≤ si.m_end → si.m_end = string.m_end → string.m_end ≤ F.m_end →
        Traced.all (Access.in_range F) (Traced.parse_array_loop buf string fuel si σ)) ∧
      (∀ (s : string_view) (σ : Sink), s.m_begin ≤ s.m_end → F.m_begin ≤ s.m_begin →
        s.m_end ≤ F.m_end →
        Traced.all (Access.in_range F) (Traced.parse_array_fuel buf fuel s σ)) ∧
      (∀ (string si : string_view) (σ : Sink), F.m_begin ≤ si.m_begin →
        si.m_begin ≤ si.m_end → si.m_end = string.m_end → string.m_end ≤ F.m_end →
        Traced.all (Access.in_range F) (Traced.parse_object_loop buf string fuel si σ)) ∧
      (∀ (s : string_view) (σ : Sink), s.m_begin ≤ s.m_end → F.m_begin ≤ s.m_begin →
        s.m_end ≤ F.m_end →
        Traced.all (Access.in_range F) (Traced.parse_object_fuel buf fuel s σ)) := by
  intro fuel
  induction fuel with
  | zero =>
    refine ⟨fun _ _ _ _ _ _ _ => ?_, fun _ _ _ _ _ => ?_, fun _ _ _ _ _ _ _ => ?_,
      fun _ _ _ _ _ => ?_⟩
    · rw [Traced.parse_array_loop]; exact all_none _ _
    · rw [Traced.parse_array_fuel]; exact all_none _ _
    · rw [Traced.parse_object_loop]; exact all_none _ _
    · rw [Traced.parse_object_fuel]; exact all_none _ _
  | succ fuel ih =>
    obtain ⟨ihal, ihaf, ihol, ihof⟩ := ih
    have hres := res_parse_value (Traced.parse_object_fuel buf fuel)
      (Traced.parse_array_fuel buf fuel) (parse_object_fuel buf fuel)
      (parse_array_fuel buf fuel) (res_container buf fuel).2.2.2 (res_container buf fuel).2.1
      buf
    have hal : ∀ (string si : string_view) (σ : Sink), F.m_begin ≤ si.m_begin →
        si.m_begin ≤ si.m_end → si.m_end = string.m_end → string.m_end ≤ F.m_end →
        Traced.all (Access.in_range F)
          (Traced.parse_array_loop buf string (fuel + 1) si σ) := by
      intro string si σ h1 h0 hend h2
      rw [Traced.parse_array_loop]
      split
      · rename_i hsz
        simp only [string_view.size] at hsz
        simp only [Traced.seq_eq]
        refine all_bind (all_ctor F (by omega) (by omega) (by omega)) (fun s1 hs1 => ?_)
        obtain ⟨hle, rfl⟩ := ctor_res_ok hs1
        refine all_bind (all_identify_value F buf _ hle (by dsimp only; omega)
          (by dsimp only; omega)) (fun v hv => ?_)
        rw [res_identify_value] at hv
        obtain ⟨v1, v2, v3, _⟩ := identify_value_bounds buf _ v hle hv
        simp only at v1 v3
        refine all_bind (all_declare F) (fun _ _ => ?_)
        refine all_bind (all_parse_value F buf _ _ ihof ihaf string v _ v2 (by omega)
          (by omega) (by omega) h2) (fun vb hvb => ?_)
        rw [hres] at hvb
        have hup := parse_value_upper _ _ (parse_object_fuel_upper buf fuel)
          (parse_array_fuel_upper buf fuel) buf string v _ vb v2 (v3.trans hend) hvb
        have hlow := parse_value_lower _ _ (parse_object_fuel_lower buf fuel)
          (parse_array_fuel_lower buf fuel) buf string v _ vb v2 hvb
        exact all_loop_tail F buf ']' vb.1.m_end si.m_end vb.2
          (Traced.parse_array_loop buf string fuel) (by omega) (by omega) (by omega)
          (fun q σ2 hq1 hq2 => ihal string ⟨q, si.m_end⟩ σ2 (by dsimp only; omega) hq2 hend h2)
      · exact all_pure _ _
    have hol : ∀ (string si : string_view) (σ : Sink), F.m_begin ≤ si.m_begin →
        si.m_begin ≤ si.m_end → si.m_end = string.m_end → string.m_end ≤ F.m_end →
        Traced.all (Access.in_range F)
          (Traced.parse_object_loop buf string (fuel + 1) si σ) := by
      intro string si σ h1 h0 hend h2
      rw [Traced.parse_object_loop]
      split
      · rename_i hsz
        simp only [string_view.size] at hsz
        simp only [Traced.seq_eq]
        refine all_bind (all_ctor F (by omega) (by omega) (by omega)) (fun s1 hs1 => ?_)
        obtain ⟨hle, rfl⟩ := ctor_res_ok hs1
        refine all_bind (all_find_string F buf _ hle (by dsimp only; omega)
          (by dsimp only; omega)) (fun name hname => ?_)
        rw [res_find_string] at hname
        obtain ⟨n1, n2, n3⟩ := find_string_bounds buf _ name hle hname
        simp only at n1 n3
        refine all_bind (all_ctor F (by omega) n3 (by omega)) (fun s2 hs2 => ?_)
        obtain ⟨_, rfl⟩ := ctor_res_ok hs2
        refine all_bind (all_find F buf _ ':' n3 (by dsimp only; omega)
          (by dsimp only; omega)) (fun sep hsep => ?_)
        rw [res_find] at hsep
        obtain ⟨p1, p2, p3⟩ := find_bounds buf _ sep ':' n3 hsep
        simp only at p1 p3
        split
        · exact all_bind (all_ctor F (by dsimp only; omega) (Nat.le_refl _)
            (by dsimp only; omega)) (fun _ _ => all_pure _ _)
        · rename_i hsep0
          simp only [string_view.size] at hsep0
          refine all_bind (all_ctor F (by omega) (by dsimp only; omega)
            (by dsimp only; omega)) (fun s3 hs3 => ?_)
          obtain ⟨hle3, rfl⟩ := ctor_res_ok hs3
          refine all_bind (all_identify_value F buf _ hle3 (by dsimp only; omega)
            (by dsimp only; omega)) (fun v hv => ?_)
          rw [res_identify_value] at hv
          obtain ⟨v1, v2, v3, _⟩ := identify_value_bounds buf _ v hle3 hv
          simp only at v1 v3
          refine all_bind (all_declare F) (fun _ _ => ?_)
          refine all_bind (all_write F (by omega) n2 (by omega)) (fun _ _ => ?_)
          refine all_bind (all_parse_value F buf _ _ ihof ihaf string v _ v2 (by omega)
            (by omega) (by omega) h2) (fun vb hvb => ?_)
          rw [hres] at hvb
          have hup := parse_value_upper _ _ (parse_object_fuel_upper buf fuel)
            (parse_array_fuel_upper buf fuel) buf string v _ vb v2 (v3.trans hend) hvb
          have hlow := parse_value_lower _ _ (parse_object_fuel_lower buf fuel)
            (parse_array_fuel_lower buf fuel) buf string v _ vb v2 hvb
          exact all_loop_tail F buf RBRACE vb.1.m_end si.m_end vb.2
            (Traced.parse_object_loop buf string fuel) (by omega) (by omega) (by omega)
            (fun q σ2 hq1 hq2 => ihol string ⟨q, si.m_end⟩ σ2 (by dsimp only; omega) hq2
              hend h2)
      · exact all_pure _ _
    refine ⟨hal, ?_, hol, ?_⟩
    · intro s σ h0 h1 h2
      rw [Traced.parse_array_fuel]
      split
      · rename_i hsz
        simp only [Traced.seq_eq]
        refine all_bind (all_at F buf hsz h1 h2) (fun c _ => ?_)
        split
        · refine all_bind (ihal s s σ h1 h0 rfl h2) (fun x hx => ?_)
          rw [(res_container buf fuel).1] at hx
          obtain ⟨b1, b2, b3⟩ := parse_array_loop_bounds buf s _ s σ x hx h0
          obtain ⟨si, σ1⟩ := x
          simp only at b1 b2 b3 ⊢
          have hs : Traced.all (Access.in_range F) (Traced.ctor .buffer s.m_begin s.m_end) :=
            all_ctor F h1 h0 h2
          split
          · exact all_bind hs (fun _ _ => all_pure _ _)
          · rename_i hne
            have hat : Traced.all (Access.in_range F) (Traced.at .buffer buf si 0) :=
              all_at F buf (Nat.pos_of_ne_zero hne) (by omega) (by omega)
            unfold string_view.size at hne
            refine all_bind hat (fun c2 _ => ?_)
            split
            · exact all_bind hs (fun _ _ => all_pure _ _)
            · refine all_bind hat (fun c3 _ => ?_)
              split
              · exact all_bind (all_ctor F h1 (by omega) (by omega))
                  (fun _ _ => all_pure _ _)
              · exact all_fail _ _
        · exact all_fail _ _
      · exact all_fail _ _
    · intro s σ h0 h1 h2
      rw [Traced.parse_object_fuel]
      split
      · rename_i hsz
        simp only [Traced.seq_eq]
        refine all_bind (all_at F buf hsz h1 h2) (fun c _ => ?_)
        split
        · refine all_bind (ihol s s σ h1 h0 rfl h2) (fun x hx => ?_)
          rw [(res_container buf fuel).2.2.1] at hx
          obtain ⟨b1, b2, b3⟩ := parse_object_loop_bounds buf s _ s σ x hx h0
          obtain ⟨si, σ1⟩ := x
          simp only at b1 b2 b3 ⊢
          have hs : Traced.all (Access.in_range F) (Traced.ctor .buffer s.m_begin s.m_end) :=
            all_ctor F h1 h0 h2
          split
          · exact all_bind hs (fun _ _ => all_pure _ _)
          · rename_i hne
            have hat : Traced.all (Access.in_range F) (Traced.at .buffer buf si 0) :=
              all_at F buf (Nat.pos_of_ne_zero hne) (by omega) (by omega)
            unfold string_view.size at hne
            refine all_bind hat (fun c2 _ => ?_)
            split
            · exact all_bind hs (fun _ _ => all_pure _ _)
            · refine all_bind hat (fun c3 _ => ?_)
              split
              · exact all_bind (all_ctor F h1 (by omega) (by omega))
                  (fun _ _ => all_pure _ _)
              · exact all_fail _ _
        · exact all_fail _ _
      · exact all_fail _ _

end JSONReader

namespace JSONReader

/-! ## Spans and reads of a container scan -/

/-- C18 as stated fails on `[null]`: in the run of `parse_array`, `parse_null` builds the
view `correct_sv` of its own array `correct_string` (offsets 0 to 4 of five characters),
and `string_view value_bounds;` and `string_view result;` build views of two null
pointers: spans that do not lie within the input span. -/
theorem literal_view_outside_input_span :
    Access.built (.literal 5) 0 4
        ∈ (Traced.parse_array null_array_input ⟨0, 6⟩ Sink.init).log ∧
      Access.declared ∈ (Traced.parse_array null_array_input ⟨0, 6⟩ Sink.init).log ∧
      ¬ Traced.all (Access.in_input_span ⟨0, 6⟩)
        (Traced.parse_array null_array_input ⟨0, 6⟩ Sink.init) := by
  have hmem : Access.built (.literal 5) 0 4
      ∈ (Traced.parse_array null_array_input ⟨0, 6⟩ Sink.init).log := by decide
  exact ⟨hmem, by decide, fun h => h _ hmem⟩

/-- C18, amended. In a run of `parse_object` or `parse_array` on a span `s` of the buffer
that is not empty and begins with the opening brace or with `[` (the run with its
accesses has the result of the scanner), in the two scanners and in every function they
call: every span built on the buffer has `begin <= end` and lies within `s`; the span
`correct_sv` that a literal scanner builds on its own array has `begin <= end` and lies
within that array (the views of two null pointers that `string_view x;` builds are left
aside); every index read with `operator[]` is below the size of its span; every
character read through a pointer is at a position of the span the pointer runs over,
which lies within `s`; every span written to `std::cout` lies within `s`; the assertions
of the constructor of `string_view`, of `operator[]` and at the head of the `parse_*`
functions never fail; and the span returned lies within `s`. -/
theorem container_accesses_in_range (buf : List Char) (s : string_view) (σ : Sink)
    (hlt : s.m_begin < s.m_end) :
    (deref buf s.m_begin = LBRACE →
      (Traced.parse_object buf s σ).res = parse_object buf s σ ∧
      Traced.all (Access.in_range s) (Traced.parse_object buf s σ) ∧
      parse_object buf s σ ≠ Res.fault Fault.ctor ∧
      parse_object buf s σ ≠ Res.fault Fault.index ∧
      parse_object buf s σ ≠ Res.fault Fault.precond ∧
      ∀ x, parse_object buf s σ = Res.ok x →
        s.m_begin ≤ x.1.m_begin ∧ x.1.m_begin ≤ x.1.m_end ∧ x.1.m_end ≤ s.m_end) ∧
    (deref buf s.m_begin = '[' →
      (Traced.parse_array buf s σ).res = parse_array buf s σ ∧
      Traced.all (Access.in_range s) (Traced.parse_array buf s σ) ∧
      parse_array buf s σ ≠ Res.fault Fault.ctor ∧
      parse_array buf s σ ≠ Res.fault Fault.index ∧
      parse_array buf s σ ≠ Res.fault Fault.precond ∧
      ∀ x, parse_array buf s σ = Res.ok x →
        s.m_begin ≤ x.1.m_begin ∧ x.1.m_begin ≤ x.1.m_end ∧ x.1.m_end ≤ s.m_end) := by
  have h := container_assertions_hold buf s σ hlt
  constructor
  · intro hc
    exact ⟨res_parse_object buf s σ,
      (all_container s buf (budget s)).2.2.2 s σ (Nat.le_of_lt hlt) (Nat.le_refl _)
        (Nat.le_refl _),
      h.1 hc⟩
  · intro hc
    exact ⟨res_parse_array buf s σ,
      (all_container s buf (budget s)).2.1 s σ (Nat.le_of_lt hlt) (Nat.le_refl _)
        (Nat.le_refl _),
      h.2 hc⟩

/-- C18, amended, on `[null]`: every access of the run stays in range, the view of the
array of `parse_null` among them, and the run returns the whole span. -/
theorem container_accesses_in_range_witness :
    deref null_array_input 0 = '[' ∧
      Traced.all (Access.in_range ⟨0, 6⟩)
        (Traced.parse_array null_array_input ⟨0, 6⟩ Sink.init) ∧
      Access.in_range ⟨0, 6⟩ (Access.built (.literal 5) 0 4) ∧
      ∃ σ1, parse_array null_array_input ⟨0, 6⟩ Sink.init = Res.ok (⟨0, 6⟩, σ1) :=
  ⟨rfl,
    ((container_accesses_in_range null_array_input ⟨0, 6⟩ Sink.init (by decide)).2 rfl).2.1,
    ⟨by decide, by decide⟩, _, rfl⟩

end JSONReader
